import Mathlib

/-! # Drain log-template miner

A shallow embedding of `pkg/loggerinfo/drain/drain.go`.

The Go package is a single-threaded mutable data structure. It is embedded as pure
functions with explicit state passing:

* a Go `map[string]*Node` is an association list (`mapGet`, `mapSet`);
* a `*LogCluster` is identified by the key under which the cache holds it, which is
  always the cluster's own `id` (the cache is only ever filled by `Set(c.id, c)`), and
  an in-place update through the pointer is a write-back at that key;
* a panic (index out of range, nil dereference, explicit `panic`) is `Except.error`;
* `int` counters are unbounded naturals, `model.Time` (an int64 of milliseconds) is `Int`;
* a `float64` similarity is the exact fraction of its two integer operands (`F64`);
* a `model.SampleValue` (a float64 used as a counter) is a natural number, exact below 2^53.
-/

namespace drain

/-! ## float64 similarities -/

/-- A float64 as the engine produces it: the exact quotient `num / den` of two integers.
`den = 0` stands for NaN, the result of `float64(0) / float64(0)`; every comparison with
NaN is false, as in Go. Rounding of the quotient is not modelled. -/
structure F64 where
  num : Int
  den : Nat
deriving DecidableEq, Repr

/-- Go `x > y` on float64. -/
def F64.gt (x y : F64) : Bool :=
  x.den != 0 && y.den != 0 && decide (y.num * x.den < x.num * y.den)

/-- Go `x == y` on float64. -/
def F64.eq (x y : F64) : Bool :=
  x.den != 0 && y.den != 0 && decide (x.num * y.den = y.num * x.den)

/-- Go `x >= y` on float64. -/
def F64.ge (x y : F64) : Bool :=
  x.den != 0 && y.den != 0 && decide (y.num * x.den ≤ x.num * y.den)

/-- Go `float64(a) / float64(b)` for non-negative ints with `a ≤ b` (the only use). -/
def F64.div (a b : Nat) : F64 := ⟨(a : Int), b⟩

/-- The rational value of a float64, `none` for NaN. -/
def F64.toRat (x : F64) : Option ℚ :=
  if x.den = 0 then none else some ((x.num : ℚ) / (x.den : ℚ))

/-! ## Configuration and records -/

structure Config where
  maxNodeDepth : Int
  LogClusterDepth : Int
  SimTh : F64
  MaxChildren : Int
  ExtraDelimiters : List String
  MaxClusters : Nat
  ParamString : String

/-- Go `model.SamplePair`: `Timestamp` is a `model.Time` (an int64 of milliseconds since
the epoch), `Value` a float64 used as an occurrence counter. -/
structure SamplePair where
  Timestamp : Int
  Value : Nat
deriving DecidableEq, Repr

structure Volume where
  Values : List SamplePair
deriving DecidableEq, Repr

structure LogCluster where
  id : Nat
  Size : Nat
  Tokens : List String
  Stringer : Option (List String → String)
  Samples : List String
  Volume : Volume

/-- `model.Time(int64(time.Second*10) / 1e6)`: ten seconds in milliseconds. -/
def timeResolution : Int := 10000

def maxSamples : Nat := 10

/-- Go `String()` method of a cluster. -/
def LogCluster.asString (c : LogCluster) : String :=
  match c.Stringer with
  | some f => f c.Tokens
  | none => " ".intercalate c.Tokens

/-- Go `model.TimeFromUnixNano`: `Time(t / 1e6)`, integer division truncating toward zero. -/
def TimeFromUnixNano (t : Int) : Int := Int.tdiv t 1000000

/-- Go `ts - ts%timeResolution`; `%` truncates toward zero. -/
def truncateTimestamp (ts : Int) : Int := ts - Int.tmod ts timeResolution

/-! ## Volume -/

def initVolume (ts : Int) : Volume :=
  { Values := [{ Timestamp := ts, Value := 1 }] }

/-- The loop of Go `sort.Search`: binary search on `[i, j)`; `fuel` bounds the iterations. -/
def sortSearchLoop (f : Nat → Bool) : Nat → Nat → Nat → Nat
  | 0, i, _ => i
  | fuel + 1, i, j =>
    if i < j then
      let h := (i + j) / 2
      if !f h then sortSearchLoop f fuel (h + 1) j else sortSearchLoop f fuel i h
    else i

/-- Go `sort.Search(n, f)`; `n` iterations always suffice since `j - i` shrinks each time. -/
def sortSearch (n : Nat) (f : Nat → Bool) : Nat := sortSearchLoop f n 0 n

/-- The timestamp `x.Values[i].Timestamp` (only evaluated at indices in range). -/
def Volume.tsAt (x : Volume) (i : Nat) : Int :=
  match x.Values.get? i with
  | some p => p.Timestamp
  | none => 0

def Volume.ForRange (x : Volume) (start end_ : Int) : Except String Volume :=
  match x.Values.head?, x.Values.getLast? with
  | some f, some l =>
    let first := f.Timestamp
    let last := l.Timestamp
    if start ≥ end_ ∨ first ≥ end_ ∨ last < start then .ok { Values := [] }
    else
      let lo := if start > first then
          sortSearch x.Values.length (fun i => decide (x.tsAt i ≥ start)) else 0
      let hi := if end_ < last then
          sortSearch x.Values.length (fun i => decide (x.tsAt i ≥ end_)) else x.Values.length
      if hi < lo then .error "slice bounds out of range"
      else .ok { Values := (x.Values.drop lo).take (hi - lo) }
  | _, _ => .ok { Values := [] }

def Volume.Matches (x : Volume) : Int :=
  x.Values.foldl (fun m p => m + (p.Value : Int)) 0

/-- The statement `x.Values[i].Value++`. -/
def incrAt : List SamplePair → Nat → List SamplePair
  | [], _ => []
  | p :: ps, 0 => { p with Value := p.Value + 1 } :: ps
  | p :: ps, i + 1 => p :: incrAt ps i

/-- Go `Volume.Add`. In the `first > t` branch `slices.Grow` reserves capacity but keeps
the length `n`, so `copy(x.Values[1:], x.Values)` moves only the first `n - 1` buckets one
slot to the right and the assignment to `x.Values[0]` overwrites the first slot: the
series keeps its length and its previous last bucket is lost. -/
def Volume.Add (x : Volume) (ts : Int) : Except String Volume :=
  let t := truncateTimestamp ts
  match x.Values.head?, x.Values.getLast? with
  | some f, some l =>
    let first := f.Timestamp
    let last := l.Timestamp
    if last = t then .ok { Values := incrAt x.Values (x.Values.length - 1) }
    else if first > t then
      .ok { Values := { Timestamp := t, Value := 1 } :: x.Values.dropLast }
    else if last < t then .ok { Values := x.Values ++ [{ Timestamp := t, Value := 1 }] }
    else
      let index := sortSearch x.Values.length (fun i => decide (x.tsAt i ≥ t))
      if index < x.Values.length ∧ x.tsAt index = t then
        .ok { Values := incrAt x.Values index }
      else
        .ok { Values := x.Values.take index ++
                { Timestamp := t, Value := 1 } :: x.Values.drop index }
  | _, _ => .error "index out of range"

/-- The bucket timestamps of a series, in order. -/
def Volume.timestamps (x : Volume) : List Int := x.Values.map (fun p => p.Timestamp)

/-- The series has strictly increasing timestamps. -/
def Volume.Ordered (x : Volume) : Prop := x.timestamps.Pairwise (fun a b => a < b)

/-- The count recorded for bucket `t` (0 if the series has no such bucket). -/
def Volume.countAt (x : Volume) (t : Int) : Nat :=
  ((x.Values.filter (fun p => decide (p.Timestamp = t))).map (fun p => p.Value)).sum

def LogCluster.append (c : LogCluster) (content : String) (ts : Int) :
    Except String LogCluster :=
  match c.Volume.Add ts with
  | .error e => .error e
  | .ok v =>
    .ok { c with
      Volume := v
      Samples := if c.Samples.length < maxSamples then c.Samples ++ [content]
                 else c.Samples }

/-! ## The cluster cache (hashicorp `simplelru.LRU`) -/

/-- Modelled from the spec: `simplelru.LRU` is an external library. `entries` is its
eviction list, most recently used first, carrying the key of each entry (the `items`
index holds the same keys, each once). -/
structure LRU where
  size : Nat
  entries : List (Nat × LogCluster)

/-- The value of the entry with key `key` in an eviction list. -/
def lruFind : List (Nat × LogCluster) → Nat → Option LogCluster
  | [], _ => none
  | (k, v) :: rest, key => if k = key then some v else lruFind rest key

/-- The entry `items[key]`, without touching recency. -/
def LRU.Peek (c : LRU) (key : Nat) : Option LogCluster := lruFind c.entries key

/-- An eviction list with the entry of `key` unlinked. -/
def lruErase : List (Nat × LogCluster) → Nat → List (Nat × LogCluster)
  | [], _ => []
  | (k, v) :: rest, key => if k = key then lruErase rest key else (k, v) :: lruErase rest key

/-- An eviction list in which the record of cluster `u` is replaced in place. -/
def lruReplace : List (Nat × LogCluster) → LogCluster → List (Nat × LogCluster)
  | [], _ => []
  | (k, v) :: rest, u =>
    if k = u.id then (k, u) :: lruReplace rest u else (k, v) :: lruReplace rest u

/-- The eviction list with `key` unlinked. -/
def LRU.without (c : LRU) (key : Nat) : List (Nat × LogCluster) := lruErase c.entries key

/-- Modelled from the spec: `get(id)` returns the record if live, else absent; a
successful get moves the entry to the front of the eviction list. -/
def LRU.Get (c : LRU) (key : Nat) : LRU × Option LogCluster :=
  match c.Peek key with
  | some v => ({ c with entries := (key, v) :: c.without key }, some v)
  | none => (c, none)

/-- Modelled from the spec: `set(id, record)` inserts or replaces, moves the entry to the
front, and evicts the least recently used entry when the capacity is exceeded. -/
def LRU.Add (c : LRU) (key : Nat) (value : LogCluster) : LRU :=
  match c.Peek key with
  | some _ => { c with entries := (key, value) :: c.without key }
  | none =>
    let l := (key, value) :: c.entries
    if l.length > c.size then { c with entries := l.dropLast } else { c with entries := l }

/-- Keys from oldest to newest. -/
def LRU.Keys (c : LRU) : List Nat := (c.entries.map (fun e => e.1)).reverse

structure LogClusterCache where
  cache : LRU

/-- Go `math.MaxInt` on a 64-bit platform. -/
def maxInt : Nat := 9223372036854775807

def createLogClusterCache (maxSize : Nat) : LogClusterCache :=
  { cache := { size := if maxSize = 0 then maxInt else maxSize, entries := [] } }

def LogClusterCache.Values (c : LogClusterCache) : List LogCluster :=
  c.cache.Keys.filterMap (fun key => c.cache.Peek key)

def LogClusterCache.Set (c : LogClusterCache) (key : Nat) (cluster : LogCluster) :
    LogClusterCache :=
  { cache := c.cache.Add key cluster }

def LogClusterCache.Get (c : LogClusterCache) (key : Nat) :
    LogClusterCache × Option LogCluster :=
  ({ cache := (c.cache.Get key).1 }, (c.cache.Get key).2)

/-- The effect of assigning through a `*LogCluster` that the cache holds: the record
stored under the cluster's id is replaced in place, recency untouched. -/
def LogClusterCache.store (c : LogClusterCache) (cluster : LogCluster) : LogClusterCache :=
  { cache := { c.cache with entries := lruReplace c.cache.entries cluster } }

/-! ## The prefix tree -/

inductive Node where
  | mk (keyToChildNode : List (String × Node)) (clusterIDs : List Nat) : Node

def Node.keyToChildNode : Node → List (String × Node)
  | .mk m _ => m

def Node.clusterIDs : Node → List Nat
  | .mk _ ids => ids

def createNode : Node := .mk [] []

/-- Go map read `m[k]`. -/
def mapGet (m : List (String × Node)) (k : String) : Option Node :=
  match m with
  | [] => none
  | (k1, v) :: rest => if k1 = k then some v else mapGet rest k

/-- Go map write `m[k] = v`. -/
def mapSet (m : List (String × Node)) (k : String) (v : Node) : List (String × Node) :=
  match m with
  | [] => [(k, v)]
  | (k1, v1) :: rest => if k1 = k then (k, v) :: rest else (k1, v1) :: mapSet rest k v

/-- Go `strconv.Itoa` on a non-negative int. -/
def Itoa (n : Nat) : String := Nat.repr n

structure Drain where
  config : Config
  rootNode : Node
  idToCluster : LogClusterCache
  clustersCounter : Nat

def DefaultConfig : Config :=
  { maxNodeDepth := 0
    LogClusterDepth := 4
    SimTh := ⟨2, 5⟩
    MaxChildren := 100
    ExtraDelimiters := []
    MaxClusters := 0
    ParamString := "<*>" }

def New (config : Config) : Except String Drain :=
  if config.LogClusterDepth < 3 then .error "depth argument must be at least 3"
  else
    .ok { config := { config with maxNodeDepth := config.LogClusterDepth - 2 }
          rootNode := createNode
          idToCluster := createLogClusterCache config.MaxClusters
          clustersCounter := 0 }

def Drain.Clusters (d : Drain) : List LogCluster := d.idToCluster.Values

/-! ## Tokenising -/

/-- Go `unicode.IsSpace` (the White_Space property). -/
def isSpace (c : Char) : Bool :=
  let n := c.toNat
  (9 ≤ n && n ≤ 13) || n == 32 || n == 133 || n == 160 || n == 5760 ||
  (8192 ≤ n && n ≤ 8202) || n == 8232 || n == 8233 || n == 8239 || n == 8287 || n == 12288

/-- Go `strings.TrimSpace`. -/
def trimSpace (s : List Char) : List Char :=
  ((s.dropWhile isSpace).reverse.dropWhile isSpace).reverse

/-- The scan of Go `strings.Replace(s, old, new, -1)` for non-empty `old`: `skip` is the
number of characters of the current occurrence of `old` still to be dropped. -/
def replaceLoop (old new : List Char) : Nat → List Char → List Char
  | _, [] => []
  | skip + 1, _ :: s => replaceLoop old new skip s
  | 0, c :: s =>
    if old.isPrefixOf (c :: s) then new ++ replaceLoop old new (old.length - 1) s
    else c :: replaceLoop old new 0 s

/-- Go `strings.Replace(s, old, new, -1)`; an empty `old` matches before every character
and at the end. -/
def replaceAll (s old new : List Char) : List Char :=
  match old with
  | [] => new ++ s.flatMap (fun c => c :: new)
  | _ :: _ => replaceLoop old new 0 s

/-- Go `strings.Split(s, " ")`. -/
def splitSpace : List Char → List (List Char)
  | [] => [[]]
  | c :: s =>
    if c = ' ' then [] :: splitSpace s
    else
      match splitSpace s with
      | [] => [[c]]
      | w :: ws => (c :: w) :: ws

def Drain.getContentAsTokens (d : Drain) (content : String) : List String :=
  let trimmed := trimSpace content.toList
  let replaced := d.config.ExtraDelimiters.foldl
    (fun acc extraDelimiter => replaceAll acc extraDelimiter.toList [' ']) trimmed
  (splitSpace replaced).map String.mk

/-- Go `hasNumbers`; `isNumber` stands for the table-driven `unicode.IsNumber`. -/
def hasNumbers (isNumber : Char → Bool) (s : String) : Bool :=
  s.toList.any isNumber

/-! ## Similarity and templates -/

/-- The test `len(token1) > 0 && token1[0] == 0`. -/
def isMarked (token1 : String) : Bool :=
  match token1.toList with
  | [] => false
  | c :: _ => c.toNat == 0

/-- The loop of `getSeqDistance` over positions; `none` is the early `return 0, -1`. -/
def seqDistanceLoop (paramString : String) :
    List String → List String → Nat → Nat → Option (Nat × Nat)
  | token1 :: cs, token2 :: ts, simTokens, paramCount =>
    if isMarked token1 && token1 != token2 then none
    else if token1 = paramString then seqDistanceLoop paramString cs ts simTokens (paramCount + 1)
    else if token1 = token2 then seqDistanceLoop paramString cs ts (simTokens + 1) paramCount
    else seqDistanceLoop paramString cs ts simTokens paramCount
  | _, _, simTokens, paramCount => some (simTokens, paramCount)

def Drain.getSeqDistance (d : Drain) (clusterTokens tokens : List String)
    (includeParams : Bool) : Except String (F64 × Int) :=
  if clusterTokens.length ≠ tokens.length then .error "seq1 seq2 be of same length"
  else
    match seqDistanceLoop d.config.ParamString clusterTokens tokens 0 0 with
    | none => .ok (⟨0, 1⟩, -1)
    | some (simTokens, paramCount) =>
      let simTokens := if includeParams then simTokens + paramCount else simTokens
      .ok (F64.div simTokens clusterTokens.length, (paramCount : Int))

def Drain.createTemplate (d : Drain) (tokens matchClusterTokens : List String) :
    Except String (List String) :=
  if tokens.length ≠ matchClusterTokens.length then .error "seq1 seq2 be of same length"
  else
    .ok (List.zipWith (fun t m => if t ≠ m then d.config.ParamString else m)
      tokens matchClusterTokens)

/-- The running maximum of `fastMatch`: `maxSim`, `maxParamCount`, `maxCluster`. -/
structure Best where
  maxSim : F64
  maxParamCount : Int
  maxCluster : Option LogCluster

/-- The loop of `fastMatch` over the candidate ids. -/
def Drain.fastMatchLoop (d : Drain) (tokens : List String) (includeParams : Bool) :
    List Nat → LogClusterCache → Best → Except String (LogClusterCache × Best)
  | [], cache, best => .ok (cache, best)
  | clusterID :: rest, cache, best =>
    match cache.Get clusterID with
    | (cache1, none) => d.fastMatchLoop tokens includeParams rest cache1 best
    | (cache1, some cluster) =>
      match d.getSeqDistance cluster.Tokens tokens includeParams with
      | .error e => .error e
      | .ok (curSim, paramCount) =>
        if paramCount < 0 then d.fastMatchLoop tokens includeParams rest cache1 best
        else if curSim.gt best.maxSim ||
            (curSim.eq best.maxSim && decide (paramCount > best.maxParamCount)) then
          d.fastMatchLoop tokens includeParams rest cache1
            { maxSim := curSim, maxParamCount := paramCount, maxCluster := some cluster }
        else d.fastMatchLoop tokens includeParams rest cache1 best

def Drain.fastMatch (d : Drain) (clusterIDs : List Nat) (tokens : List String)
    (simTh : F64) (includeParams : Bool) :
    Except String (LogClusterCache × Option LogCluster) :=
  match d.fastMatchLoop tokens includeParams clusterIDs d.idToCluster
      { maxSim := ⟨-1, 1⟩, maxParamCount := -1, maxCluster := none } with
  | .error e => .error e
  | .ok (cache, best) =>
    if best.maxSim.ge simTh then .ok (cache, best.maxCluster) else .ok (cache, none)

/-! ## Tree search -/

/-- The descent loop of `treeSearch`; `none` is the `return nil` for a missing child. -/
def Drain.searchLoop (d : Drain) (tokenCount : Nat) :
    List String → Nat → Node → Option Node
  | [], _, curNode => some curNode
  | token :: rest, curNodeDepth, curNode =>
    if (curNodeDepth : Int) ≥ d.config.maxNodeDepth then some curNode
    else if curNodeDepth = tokenCount then some curNode
    else
      match mapGet curNode.keyToChildNode token with
      | some child => d.searchLoop tokenCount rest (curNodeDepth + 1) child
      | none =>
        match mapGet curNode.keyToChildNode d.config.ParamString with
        | some child => d.searchLoop tokenCount rest (curNodeDepth + 1) child
        | none => none

def Drain.treeSearch (d : Drain) (rootNode : Node) (tokens : List String) (simTh : F64)
    (includeParams : Bool) : Except String (LogClusterCache × Option LogCluster) :=
  let tokenCount := tokens.length
  match mapGet rootNode.keyToChildNode (Itoa tokenCount) with
  | none => .ok (d.idToCluster, none)
  | some curNode =>
    if tokenCount = 0 then
      match curNode.clusterIDs with
      | [] => .error "index out of range"
      | clusterID :: _ => .ok (d.idToCluster.Get clusterID)
    else
      match d.searchLoop tokenCount tokens 1 curNode with
      | none => .ok (d.idToCluster, none)
      | some leaf => d.fastMatch leaf.clusterIDs tokens simTh includeParams

/-! ## Tree insertion -/

/-- The stale-id clean-up at the terminal node: every id is looked up with `Get`. -/
def pruneStale : LogClusterCache → List Nat → LogClusterCache × List Nat
  | cache, [] => (cache, [])
  | cache, clusterID :: rest =>
    match cache.Get clusterID with
    | (cache1, some _) =>
      ((pruneStale cache1 rest).1, clusterID :: (pruneStale cache1 rest).2)
    | (cache1, none) => pruneStale cache1 rest

/-- Re-attach the updated child `key` of `curNode` once the walk below it has finished
(in Go the child is mutated through its pointer). -/
def attach (curNode : Node) (key : String)
    (below : Except String (Node × LogClusterCache)) : Except String (Node × LogClusterCache) :=
  match below with
  | .error e => .error e
  | .ok (child, cache) =>
    .ok (.mk (mapSet curNode.keyToChildNode key child) curNode.clusterIDs, cache)

/-- The loop of `addSeqToPrefixTree` from `curNode` at `currentDepth`. -/
def Drain.addSeqLoop (d : Drain) (isNumber : Char → Bool) (tokenCount clusterID : Nat) :
    List String → Nat → Node → LogClusterCache → Except String (Node × LogClusterCache)
  | [], _, curNode, cache => .ok (curNode, cache)
  | token :: rest, currentDepth, curNode, cache =>
    if (currentDepth : Int) ≥ d.config.maxNodeDepth ∨ currentDepth ≥ tokenCount then
      .ok (.mk curNode.keyToChildNode ((pruneStale cache curNode.clusterIDs).2 ++ [clusterID]),
           (pruneStale cache curNode.clusterIDs).1)
    else
      let len := (curNode.keyToChildNode.length : Int)
      let wild := d.config.ParamString
      match mapGet curNode.keyToChildNode token with
      | some child =>
        attach curNode token
          (d.addSeqLoop isNumber tokenCount clusterID rest (currentDepth + 1) child cache)
      | none =>
        if !hasNumbers isNumber token then
          match mapGet curNode.keyToChildNode wild with
          | some wildChild =>
            if len < d.config.MaxChildren then
              attach curNode token
                (d.addSeqLoop isNumber tokenCount clusterID rest (currentDepth + 1)
                  createNode cache)
            else
              attach curNode wild
                (d.addSeqLoop isNumber tokenCount clusterID rest (currentDepth + 1)
                  wildChild cache)
          | none =>
            if len + 1 < d.config.MaxChildren then
              attach curNode token
                (d.addSeqLoop isNumber tokenCount clusterID rest (currentDepth + 1)
                  createNode cache)
            else if len + 1 = d.config.MaxChildren then
              attach curNode wild
                (d.addSeqLoop isNumber tokenCount clusterID rest (currentDepth + 1)
                  createNode cache)
            else
              -- curNode becomes nil; the next iteration dereferences it
              match rest with
              | [] => .ok (curNode, cache)
              | _ :: _ => .error "nil pointer dereference"
        else
          match mapGet curNode.keyToChildNode wild with
          | none =>
            attach curNode wild
              (d.addSeqLoop isNumber tokenCount clusterID rest (currentDepth + 1)
                createNode cache)
          | some wildChild =>
            attach curNode wild
              (d.addSeqLoop isNumber tokenCount clusterID rest (currentDepth + 1)
                wildChild cache)

def Drain.addSeqToPrefixTree (d : Drain) (isNumber : Char → Bool) (rootNode : Node)
    (cluster : LogCluster) : Except String (Node × LogClusterCache) :=
  let tokenCount := cluster.Tokens.length
  let tokenCountStr := Itoa tokenCount
  let firstLayerNode :=
    match mapGet rootNode.keyToChildNode tokenCountStr with
    | some n => n
    | none => createNode
  if tokenCount = 0 then
    .ok (.mk (mapSet rootNode.keyToChildNode tokenCountStr
          (.mk firstLayerNode.keyToChildNode (firstLayerNode.clusterIDs ++ [cluster.id])))
          rootNode.clusterIDs,
         d.idToCluster)
  else
    attach rootNode tokenCountStr
      (d.addSeqLoop isNumber tokenCount cluster.id cluster.Tokens 1 firstLayerNode
        d.idToCluster)

/-! ## Training and matching -/

def Drain.train (d : Drain) (isNumber : Char → Bool) (content : String)
    (tokens : List String) (stringer : Option (List String → String)) (ts : Int) :
    Except String (Drain × LogCluster) :=
  match d.treeSearch d.rootNode tokens d.config.SimTh false with
  | .error e => .error e
  | .ok (cache, none) =>
    let clusterID := d.clustersCounter + 1
    let matchCluster : LogCluster :=
      { Tokens := tokens
        id := clusterID
        Size := 1
        Stringer := stringer
        Samples := [content]
        Volume := initVolume (TimeFromUnixNano ts) }
    let d1 : Drain :=
      { d with clustersCounter := clusterID, idToCluster := cache.Set clusterID matchCluster }
    match d1.addSeqToPrefixTree isNumber d1.rootNode matchCluster with
    | .error e => .error e
    | .ok (root, cache2) => .ok ({ d1 with rootNode := root, idToCluster := cache2 }, matchCluster)
  | .ok (cache, some matchCluster) =>
    match d.createTemplate tokens matchCluster.Tokens with
    | .error e => .error e
    | .ok newTemplateTokens =>
      match ({ matchCluster with Tokens := newTemplateTokens, Size := matchCluster.Size + 1 }
              : LogCluster).append content (TimeFromUnixNano ts) with
      | .error e => .error e
      | .ok updated =>
        .ok ({ d with idToCluster := ((cache.store updated).Get updated.id).1 }, updated)

def Drain.TrainTokens (d : Drain) (isNumber : Char → Bool) (content : String)
    (tokens : List String) (stringer : Option (List String → String)) (ts : Int) :
    Except String (Drain × LogCluster) :=
  d.train isNumber content tokens stringer ts

def Drain.Train (d : Drain) (isNumber : Char → Bool) (content : String) (ts : Int) :
    Except String (Drain × LogCluster) :=
  d.train isNumber content (d.getContentAsTokens content) none ts

def Drain.Match (d : Drain) (content : String) : Except String (Drain × Option LogCluster) :=
  match d.treeSearch d.rootNode (d.getContentAsTokens content) ⟨1, 1⟩ true with
  | .error e => .error e
  | .ok (cache, matchCluster) => .ok ({ d with idToCluster := cache }, matchCluster)

/-! ## Reachable states and specification vocabulary -/

/-- The record the store holds under `id`, if that cluster is live. -/
def Drain.live (d : Drain) (id : Nat) : Option LogCluster := d.idToCluster.cache.Peek id

/-- One call of the public interface: `Train` and `TrainTokens` are `train` with the
default or the caller's tokens, `Match` is the read-only lookup. -/
inductive Step (isNumber : Char → Bool) : Drain → Drain → Prop
  | train (d d1 : Drain) (content : String) (tokens : List String)
      (stringer : Option (List String → String)) (ts : Int) (c : LogCluster) :
      d.train isNumber content tokens stringer ts = .ok (d1, c) → Step isNumber d d1
  | lookup (d d1 : Drain) (content : String) (r : Option LogCluster) :
      d.Match content = .ok (d1, r) → Step isNumber d d1

/-- The engine states that `New` followed by any sequence of calls can produce. -/
inductive Reachable (isNumber : Char → Bool) : Drain → Prop
  | new (config : Config) (d : Drain) : New config = .ok d → Reachable isNumber d
  | step (d d1 : Drain) : Reachable isNumber d → Step isNumber d d1 → Reachable isNumber d1

/-- Any number of calls leading from one state to another. -/
inductive Steps (isNumber : Char → Bool) : Drain → Drain → Prop
  | refl (d : Drain) : Steps isNumber d d
  | tail (d d1 d2 : Drain) : Steps isNumber d d1 → Step isNumber d1 d2 → Steps isNumber d d2

/-- A template equals a token sequence up to wildcards: same length, and every template
position is the wildcard marker or the token itself. -/
def wildcardEq (wild : String) (template tokens : List String) : Prop :=
  template.length = tokens.length ∧ ∀ p ∈ template.zip tokens, p.1 = wild ∨ p.1 = p.2

/-- Some position holds a pinned template token that differs from the input token. -/
def pinnedMismatch (template tokens : List String) : Prop :=
  ∃ p ∈ template.zip tokens, isMarked p.1 = true ∧ p.1 ≠ p.2

/-- The number of positions whose template token is the wildcard marker. -/
def paramPositions (wild : String) (template : List String) : Nat :=
  (template.filter (fun t => decide (t = wild))).length

/-- The number of non-wildcard positions whose template token equals the input token. -/
def literalMatches (wild : String) (template tokens : List String) : Nat :=
  ((template.zip tokens).filter (fun p => decide (p.1 ≠ wild ∧ p.1 = p.2))).length

/-- The number of positions at which two sequences hold the same token. -/
def equalPositions (a b : List String) : Nat :=
  ((a.zip b).filter (fun p => decide (p.1 = p.2))).length

/-- The cache after `Get` has been called on each id in turn (only recency changes). -/
def touchAll (cache : LogClusterCache) : List Nat → LogClusterCache
  | [] => cache
  | id :: ids => touchAll (cache.Get id).1 ids

/-- The selection of `fastMatch` run on the candidate records themselves. -/
def Drain.selectLoop (d : Drain) (tokens : List String) (includeParams : Bool) :
    List LogCluster → Best → Except String Best
  | [], best => .ok best
  | cluster :: rest, best =>
    match d.getSeqDistance cluster.Tokens tokens includeParams with
    | .error e => .error e
    | .ok (curSim, paramCount) =>
      if paramCount < 0 then d.selectLoop tokens includeParams rest best
      else if curSim.gt best.maxSim ||
          (curSim.eq best.maxSim && decide (paramCount > best.maxParamCount)) then
        d.selectLoop tokens includeParams rest
          { maxSim := curSim, maxParamCount := paramCount, maxCluster := some cluster }
      else d.selectLoop tokens includeParams rest best

/-- The score `fastMatch` gives a live cluster, `none` when the cluster is disqualified
(negative parameter count) or the distance computation aborts. -/
def Drain.score (d : Drain) (tokens : List String) (includeParams : Bool) (c : LogCluster) :
    Option (LogCluster × F64 × Int) :=
  match d.getSeqDistance c.Tokens tokens includeParams with
  | .ok (sim, paramCount) => if paramCount < 0 then none else some (c, sim, paramCount)
  | .error _ => none

/-- The scored candidates of a shortlist: the live clusters among `clusterIDs`, in list
order, that are not disqualified, each with its similarity and parameter count. -/
def Drain.candidates (d : Drain) (clusterIDs : List Nat) (tokens : List String)
    (includeParams : Bool) : List (LogCluster × F64 × Int) :=
  (clusterIDs.filterMap (fun id => d.live id)).filterMap (d.score tokens includeParams)

/-- The running maximum of `fastMatch` over a list of scored candidates. -/
def pickLoop : List (LogCluster × F64 × Int) → Best → Best
  | [], best => best
  | (c, sim, paramCount) :: rest, best =>
    if sim.gt best.maxSim ||
        (sim.eq best.maxSim && decide (paramCount > best.maxParamCount)) then
      pickLoop rest { maxSim := sim, maxParamCount := paramCount, maxCluster := some c }
    else pickLoop rest best

/-- The pair `x` beats the pair `y`: strictly higher similarity, or the same similarity
and a higher parameter count. -/
def beats (x y : F64 × Int) : Prop :=
  x.1.gt y.1 = true ∨ (x.1.eq y.1 = true ∧ x.2 > y.2)

/-- The node reached from `n` by following the child keys of `path`. -/
def Node.descend : Node → List String → Option Node
  | n, [] => some n
  | n, k :: ks =>
    match mapGet n.keyToChildNode k with
    | some c => c.descend ks
    | none => none

/-- Well-formedness of the store: records sit under their own id, ids were handed out by
the counter, and every volume series is non-empty and strictly ordered. -/
structure StoreOk (d : Drain) : Prop where
  keyId : ∀ e ∈ d.idToCluster.cache.entries, e.2.id = e.1
  fresh : ∀ e ∈ d.idToCluster.cache.entries, e.1 ≤ d.clustersCounter
  volume : ∀ e ∈ d.idToCluster.cache.entries, e.2.Volume.Values ≠ [] ∧ e.2.Volume.Ordered

/-- Well-formedness of the tree: candidate ids were handed out by the counter, and a live
candidate below the branch of token count `k` has a template of that many tokens. -/
structure TreeOk (d : Drain) : Prop where
  fresh : ∀ path node, d.rootNode.descend path = some node →
    ∀ id ∈ node.clusterIDs, id ≤ d.clustersCounter
  count : ∀ k path node, d.rootNode.descend (k :: path) = some node →
    ∀ id ∈ node.clusterIDs, ∀ c, d.live id = some c → Itoa c.Tokens.length = k

/-- The cache `c1` differs from `c` in recency only: the same record under every key. -/
structure Touched (c c1 : LogClusterCache) : Prop where
  peek : ∀ k, c1.cache.Peek k = c.cache.Peek k
  mem : ∀ e ∈ c1.cache.entries, e ∈ c.cache.entries
  size : c1.cache.size = c.cache.size

/-- Template `t1` generalises `t0`: same length, and every wildcard of `t0` is kept. -/
def generalises (wild : String) (t0 t1 : List String) : Prop :=
  t1.length = t0.length ∧ ∀ i : Nat, t0[i]? = some wild → t1[i]? = some wild

/-- The cluster `train` creates on a miss. -/
def freshCluster (id : Nat) (content : String) (tokens : List String)
    (stringer : Option (List String → String)) (ts : Int) : LogCluster :=
  { Tokens := tokens
    id := id
    Size := 1
    Stringer := stringer
    Samples := [content]
    Volume := initVolume (TimeFromUnixNano ts) }

/-- The cluster `train` leaves on a hit of `c`: the template generalised by `tokens`, one
more occurrence, the new series `v`, and the content sampled while there is room. -/
def mergedCluster (wild : String) (c : LogCluster) (content : String) (tokens : List String)
    (v : Volume) : LogCluster :=
  { c with
    Tokens := List.zipWith (fun t m => if t ≠ m then wild else m) tokens c.Tokens
    Size := c.Size + 1
    Volume := v
    Samples := if c.Samples.length < maxSamples then c.Samples ++ [content] else c.Samples }

/-- A store of capacity `size` holding the single record `c`. -/
def storeOf (size : Nat) (c : LogCluster) : LogClusterCache :=
  { cache := { size := size, entries := [(c.id, c)] } }

/-- A store of capacity `size` holding nothing. -/
def emptyStore (size : Nat) : LogClusterCache :=
  { cache := { size := size, entries := [] } }

/-- A tree with the single branch `chain` for sequences of `n` tokens. -/
def branchOf (n : Nat) (chain : Node) : Node := .mk [(Itoa n, chain)] []

/-! ## Worked examples -/

/-- The ASCII digits; `unicode.IsNumber` agrees with it on ASCII text. -/
def asciiDigit (c : Char) : Bool := c.isDigit

/-- The configuration of the example: depth 4, threshold 0.5, at most 100 children. -/
def exampleConfig : Config := { DefaultConfig with SimTh := ⟨1, 2⟩ }

/-- The engine `New exampleConfig` returns. -/
def exampleStart : Drain :=
  { config := { exampleConfig with maxNodeDepth := 2 }
    rootNode := createNode
    idToCluster := createLogClusterCache 0
    clustersCounter := 0 }

/-- The cluster the first training call of the example creates. -/
def exampleCluster : LogCluster :=
  { id := 1
    Size := 1
    Tokens := ["user", "1", "logged", "in"]
    Stringer := none
    Samples := ["user 1 logged in"]
    Volume := initVolume 5000 }

/-- The state and cluster a training call returned (`d` and `c` if it panicked). -/
def outcome (r : Except String (Drain × LogCluster)) (d : Drain) (c : LogCluster) :
    Drain × LogCluster :=
  match r with
  | .ok x => x
  | .error _ => (d, c)

/-- The example engine after `Train("user 1 logged in")` at 5 s. -/
def exampleTrained : Drain :=
  (outcome (exampleStart.Train asciiDigit "user 1 logged in" 5000000000)
    exampleStart exampleCluster).1

/-- The example engine after a further `Train("user 2 logged in")` at 5 s. -/
def exampleTrainedTwice : Drain :=
  (outcome (exampleTrained.Train asciiDigit "user 2 logged in" 5000000000)
    exampleTrained exampleCluster).1

/-- The cluster of the example after both training calls. -/
def exampleMerged : LogCluster :=
  (outcome (exampleTrained.Train asciiDigit "user 2 logged in" 5000000000)
    exampleTrained exampleCluster).2

/-- A series with buckets at 20 s and 40 s. -/
def exampleVolume : Volume :=
  { Values := [{ Timestamp := 20000, Value := 1 }, { Timestamp := 40000, Value := 2 }] }

/-- A series with buckets at 0 s, 10 s and 20 s. -/
def exampleSeries : Volume :=
  { Values := [{ Timestamp := 0, Value := 1 }, { Timestamp := 10000, Value := 1 },
               { Timestamp := 20000, Value := 1 }] }

/-- The default configuration with room for two live clusters. -/
def recencyConfig : Config := { DefaultConfig with MaxClusters := 2 }

/-- The engine `New recencyConfig` returns. -/
def recencyStart : Drain :=
  { config := { recencyConfig with maxNodeDepth := 2 }
    rootNode := createNode
    idToCluster := createLogClusterCache 2
    clustersCounter := 0 }

/-- The engine after `Train("a b")` and `Train("c d")`: clusters 1 and 2 are live. -/
def recencyBefore : Drain :=
  (outcome ((outcome (recencyStart.Train asciiDigit "a b" 0)
      recencyStart exampleCluster).1.Train asciiDigit "c d" 0)
    recencyStart exampleCluster).1

/-- The engine after a further `Match("a b")`. -/
def recencyAfterMatch : Drain :=
  match recencyBefore.Match "a b" with
  | .ok (d, _) => d
  | .error _ => recencyBefore

/-- An engine whose wildcard marker starts with a NUL byte. -/
def pinnedWildcard : Drain :=
  { exampleStart with config := { exampleStart.config with ParamString := "\x00*" } }

/-! ## Branching bound -/

/-- The branching bound at one node: at most `maxChildren` children, and strictly fewer
while the node has no wildcard child. -/
def Bounded (maxChildren : Int) (wild : String) (n : Node) : Prop :=
  (n.keyToChildNode.length : Int) ≤ maxChildren ∧
    (mapGet n.keyToChildNode wild = none → (n.keyToChildNode.length : Int) < maxChildren)

/-- Every node at or below `n` meets the branching bound. -/
def SubtreeOk (maxChildren : Int) (wild : String) (n : Node) : Prop :=
  ∀ path x, n.descend path = some x → Bounded maxChildren wild x

/-- The walk of `addSeqLoop` once more, keeping only whether it reaches the final `else`
of the child-limit bookkeeping, where `curNode` is set to a wildcard child that does not
exist. -/
def Drain.reachesFailSafe (d : Drain) (isNumber : Char → Bool) (tokenCount : Nat) :
    List String → Nat → Node → Bool
  | [], _, _ => false
  | token :: rest, currentDepth, curNode =>
    if (currentDepth : Int) ≥ d.config.maxNodeDepth ∨ currentDepth ≥ tokenCount then false
    else
      let len := (curNode.keyToChildNode.length : Int)
      let wild := d.config.ParamString
      match mapGet curNode.keyToChildNode token with
      | some child => d.reachesFailSafe isNumber tokenCount rest (currentDepth + 1) child
      | none =>
        if !hasNumbers isNumber token then
          match mapGet curNode.keyToChildNode wild with
          | some wildChild =>
            if len < d.config.MaxChildren then
              d.reachesFailSafe isNumber tokenCount rest (currentDepth + 1) createNode
            else d.reachesFailSafe isNumber tokenCount rest (currentDepth + 1) wildChild
          | none =>
            if len + 1 < d.config.MaxChildren then
              d.reachesFailSafe isNumber tokenCount rest (currentDepth + 1) createNode
            else if len + 1 = d.config.MaxChildren then
              d.reachesFailSafe isNumber tokenCount rest (currentDepth + 1) createNode
            else true
        else
          match mapGet curNode.keyToChildNode wild with
          | none => d.reachesFailSafe isNumber tokenCount rest (currentDepth + 1) createNode
          | some wildChild =>
            d.reachesFailSafe isNumber tokenCount rest (currentDepth + 1) wildChild

/-- Whether `addSeqToPrefixTree` for a cluster with template `tokens` reaches the final
`else` of the child-limit bookkeeping. -/
def Drain.insertReachesFailSafe (d : Drain) (isNumber : Char → Bool) (rootNode : Node)
    (tokens : List String) : Bool :=
  let firstLayerNode :=
    match mapGet rootNode.keyToChildNode (Itoa tokens.length) with
    | some n => n
    | none => createNode
  if tokens.length = 0 then false
  else d.reachesFailSafe isNumber tokens.length tokens 1 firstLayerNode

/-- The candidate list of the node at the end of `path` below `n`; empty if there is no
such node. -/
def Node.idsAt (n : Node) (path : List String) : List Nat :=
  match n.descend path with
  | some x => x.clusterIDs
  | none => []

/-- Well-formedness of the tree's shape: every node at or below a token-count branch meets
the branching bound, and the branch of the empty sequence has a candidate. -/
structure ShapeOk (d : Drain) : Prop where
  bounded : ∀ k path node, d.rootNode.descend (k :: path) = some node →
    Bounded d.config.MaxChildren d.config.ParamString node
  zero : ∀ n, mapGet d.rootNode.keyToChildNode (Itoa 0) = some n → n.clusterIDs ≠ []

/-- The default configuration with at most one child per node. -/
def narrowConfig : Config := { DefaultConfig with MaxChildren := 1 }

/-- The engine `New narrowConfig` returns. -/
def narrowStart : Drain :=
  { config := { narrowConfig with maxNodeDepth := 2 }
    rootNode := createNode
    idToCluster := createLogClusterCache 0
    clustersCounter := 0 }

/-- The engine after `Train("a")`. -/
def narrowFirst : Drain :=
  (outcome (narrowStart.Train asciiDigit "a" 0) narrowStart exampleCluster).1

/-- The engine after `Train("a")` and `Train("a b")`. -/
def narrowTrained : Drain :=
  (outcome (narrowFirst.Train asciiDigit "a b" 0) narrowStart exampleCluster).1

/-- The state `d` is the result of a sequence of `train` calls (`Train` or `TrainTokens`)
on a fresh engine, `k` of which found no match. -/
inductive Trained (isNumber : Char → Bool) : Drain → Nat → Prop
  | new (config : Config) (d : Drain) : New config = .ok d → Trained isNumber d 0
  | miss (d d1 : Drain) (k : Nat) (content : String) (tokens : List String)
      (stringer : Option (List String → String)) (ts : Int) (c : LogCluster)
      (cache : LogClusterCache) :
      Trained isNumber d k →
      d.treeSearch d.rootNode tokens d.config.SimTh false = .ok (cache, none) →
      d.train isNumber content tokens stringer ts = .ok (d1, c) →
      Trained isNumber d1 (k + 1)
  | hit (d d1 : Drain) (k : Nat) (content : String) (tokens : List String)
      (stringer : Option (List String → String)) (ts : Int) (c : LogCluster)
      (cache : LogClusterCache) (mc : LogCluster) :
      Trained isNumber d k →
      d.treeSearch d.rootNode tokens d.config.SimTh false = .ok (cache, some mc) →
      d.train isNumber content tokens stringer ts = .ok (d1, c) →
      Trained isNumber d1 k

/-- The engine after a further `Train("e f")`: cluster 1 has been evicted, its id is
still in the tree. -/
def recencyFull : Drain :=
  (outcome (recencyBefore.Train asciiDigit "e f" 0) recencyStart exampleCluster).1

/-- The engine after a further `Train("a x")`. -/
def recencyPruned : Drain :=
  (outcome (recencyFull.Train asciiDigit "a x" 0) recencyStart exampleCluster).1

/-- One training input: the raw content, its tokens, the renderer and the timestamp. -/
structure Input where
  content : String
  tokens : List String
  stringer : Option (List String → String)
  ts : Int

/-- A sequence of `TrainTokens` calls, one per input, in order: the final state and the
clusters the calls returned. -/
def Drain.trainAll (d : Drain) (isNumber : Char → Bool) :
    List Input → Except String (Drain × List LogCluster)
  | [] => .ok (d, [])
  | x :: xs =>
    match d.train isNumber x.content x.tokens x.stringer x.ts with
    | .error e => .error e
    | .ok (d1, c) =>
      match d1.trainAll isNumber xs with
      | .error e => .error e
      | .ok (d2, cs) => .ok (d2, c :: cs)

/-- The default configuration with room for one live cluster. -/
def singleConfig : Config := { DefaultConfig with MaxClusters := 1 }

/-- The default configuration with threshold 0.9 and room for six live clusters. -/
def selectConfig : Config := { DefaultConfig with SimTh := ⟨9, 10⟩, MaxClusters := 6 }

/-- The engine `New selectConfig` returns. -/
def selectStart : Drain :=
  { config := { selectConfig with maxNodeDepth := 2 }
    rootNode := createNode
    idToCluster := createLogClusterCache 6
    clustersCounter := 0 }

/-- Seven `TrainTokens` calls: six sequences of three tokens that start with "a", the
second with a pinned token, then a sequence of one token. -/
def selectInputs : List Input :=
  [⟨"a b c", ["a", "b", "c"], none, 0⟩,
   ⟨"a p x", ["a", "\x00p", "x"], none, 0⟩,
   ⟨"a <*> x", ["a", "<*>", "x"], none, 0⟩,
   ⟨"a <*> <*>", ["a", "<*>", "<*>"], none, 0⟩,
   ⟨"a b <*>", ["a", "b", "<*>"], none, 0⟩,
   ⟨"a q r", ["a", "q", "r"], none, 0⟩,
   ⟨"z", ["z"], none, 0⟩]

/-- The engine after the seven calls: clusters 1 to 6 share the leaf under "a", and
cluster 6 has been evicted by the seventh call. -/
def selectState : Drain :=
  match selectStart.trainAll asciiDigit selectInputs with
  | .ok (d, _) => d
  | .error _ => selectStart

/-- The clusters the seven calls returned. -/
def selectClusters : List LogCluster :=
  match selectStart.trainAll asciiDigit selectInputs with
  | .ok (_, cs) => cs
  | .error _ => []

/-- The candidate ids that `treeSearch` looks up in the store for `tokens`: none when the
token count has no branch or the descent finds no child, the first id of the branch for
the empty sequence, and otherwise the ids of the leaf the descent reaches. -/
def Drain.searchIds (d : Drain) (tokens : List String) : List Nat :=
  match mapGet d.rootNode.keyToChildNode (Itoa tokens.length) with
  | none => []
  | some curNode =>
    if tokens.length = 0 then curNode.clusterIDs.take 1
    else
      match d.searchLoop tokens.length tokens 1 curNode with
      | none => []
      | some leaf => leaf.clusterIDs

/-- The search for `tokens` looks up no live cluster: every candidate id it meets has
been evicted. -/
def Drain.cold (d : Drain) (tokens : List String) : Bool :=
  (d.searchIds tokens).all (fun id => (d.live id).isNone)

/-- Every call of a run of `train` calls returns and its search looks up no live
cluster. -/
def Drain.coldRun (d : Drain) (isNumber : Char → Bool) : List Input → Bool
  | [] => true
  | x :: xs =>
    d.cold x.tokens &&
      match d.train isNumber x.content x.tokens x.stringer x.ts with
      | .ok (d1, _) => d1.coldRun isNumber xs
      | .error _ => false

/-- The run of `train` calls on the engine `New config` returns is cold. -/
def coldFrom (config : Config) (isNumber : Char → Bool) (inputs : List Input) : Bool :=
  match New config with
  | .ok d => d.coldRun isNumber inputs
  | .error _ => false

/-- Three sequences of three tokens, the third sharing its first token with the first;
each pair agrees in at most one position. -/
def sharedLeafInputs : List Input :=
  [⟨"a b c", ["a", "b", "c"], none, 0⟩,
   ⟨"x y z", ["x", "y", "z"], none, 0⟩,
   ⟨"a q r", ["a", "q", "r"], none, 0⟩]

/-- The engine with room for two clusters after the three calls. -/
def sharedLeafState : Drain :=
  match recencyStart.trainAll asciiDigit sharedLeafInputs with
  | .ok (d, _) => d
  | .error _ => recencyStart

/-- The clusters the three calls returned. -/
def sharedLeafClusters : List LogCluster :=
  match recencyStart.trainAll asciiDigit sharedLeafInputs with
  | .ok (_, cs) => cs
  | .error _ => []

/-- Two sequences of two tokens with different first tokens. -/
def sameCountInputs : List Input :=
  [⟨"c d", ["c", "d"], none, 0⟩, ⟨"e f", ["e", "f"], none, 0⟩]

/-! # Theorems -/

/-! ## Volume -/

theorem sortSearchLoop_spec (f : Nat → Bool) (n : Nat)
    (hmono : ∀ a b, a ≤ b → b < n → f a = true → f b = true) :
    ∀ fuel i j, j - i ≤ fuel → i ≤ j → j ≤ n →
      (∀ k, k < i → f k = false) → (∀ k, j ≤ k → k < n → f k = true) →
      (sortSearchLoop f fuel i j ≤ n ∧
        (∀ k, k < sortSearchLoop f fuel i j → f k = false) ∧
        (∀ k, sortSearchLoop f fuel i j ≤ k → k < n → f k = true)) := by
  intro fuel
  induction fuel with
  | zero =>
    intro i j hf hij hjn hlo hhi
    have : i = j := by omega
    subst this
    simp only [sortSearchLoop]
    exact ⟨hjn, hlo, hhi⟩
  | succ fuel ih =>
    intro i j hf hij hjn hlo hhi
    simp only [sortSearchLoop]
    by_cases hlt : i < j
    · simp only [hlt, if_true]
      have hh1 : i ≤ (i + j) / 2 := by omega
      have hh2 : (i + j) / 2 < j := by omega
      cases hfh : f ((i + j) / 2) with
      | false =>
        simp only [Bool.not_false, if_true]
        apply ih _ _ (by omega) (by omega) hjn _ hhi
        intro k hk
        cases hfk : f k with
        | false => rfl
        | true =>
          have := hmono k ((i + j) / 2) (by omega) (by omega) hfk
          rw [hfh] at this
          exact absurd this (by simp)
      | true =>
        simp only [Bool.not_true, Bool.false_eq_true, if_false]
        apply ih _ _ (by omega) (by omega) (by omega) hlo
        intro k hk hkn
        exact hmono _ _ hk hkn hfh
    · have : i = j := by omega
      subst this
      simp only [hlt, if_false]
      exact ⟨hjn, hlo, hhi⟩

theorem sortSearch_spec (f : Nat → Bool) (n : Nat)
    (hmono : ∀ a b, a ≤ b → b < n → f a = true → f b = true) :
    sortSearch n f ≤ n ∧ (∀ k, k < sortSearch n f → f k = false) ∧
      (∀ k, sortSearch n f ≤ k → k < n → f k = true) := by
  unfold sortSearch
  exact sortSearchLoop_spec f n hmono n 0 n (by omega) (by omega) (le_refl n)
    (fun k hk => absurd hk (by omega)) (fun k h1 h2 => absurd h2 (by omega))

theorem tsAt_eq (x : Volume) (i : Nat) (h : i < x.timestamps.length) :
    x.tsAt i = x.timestamps.get ⟨i, h⟩ := by
  unfold Volume.tsAt Volume.timestamps at *
  simp only [List.length_map] at h
  simp [List.getElem?_eq_getElem h]

theorem tsAt_mono (x : Volume) (ho : x.Ordered) (a b : Nat) (hab : a ≤ b)
    (hb : b < x.timestamps.length) : x.tsAt a ≤ x.tsAt b := by
  rw [tsAt_eq x a (by omega), tsAt_eq x b hb]
  rcases Nat.lt_or_eq_of_le hab with h | h
  · exact le_of_lt (List.pairwise_iff_get.mp ho ⟨a, by omega⟩ ⟨b, hb⟩ h)
  · subst h; exact le_refl _

theorem tsAt_strict (x : Volume) (ho : x.Ordered) (a b : Nat) (hab : a < b)
    (hb : b < x.timestamps.length) : x.tsAt a < x.tsAt b := by
  rw [tsAt_eq x a (by omega), tsAt_eq x b hb]
  exact List.pairwise_iff_get.mp ho ⟨a, by omega⟩ ⟨b, hb⟩ hab

theorem mem_take_index (l : List Int) : ∀ (r : Nat) (a : Int), a ∈ l.take r →
    ∃ k, k < r ∧ l[k]? = some a := by
  induction l with
  | nil => intro r a h; simp at h
  | cons b l ih =>
    intro r a h
    cases r with
    | zero => simp at h
    | succ r =>
      simp only [List.take_succ_cons, List.mem_cons] at h
      rcases h with h | h
      · exact ⟨0, by omega, by simp [h]⟩
      · obtain ⟨k, hk, hk2⟩ := ih r a h
        exact ⟨k + 1, by omega, by simpa using hk2⟩

theorem mem_drop_index (l : List Int) : ∀ (r : Nat) (a : Int), a ∈ l.drop r →
    ∃ k, r ≤ k ∧ l[k]? = some a := by
  induction l with
  | nil => intro r a h; simp at h
  | cons b l ih =>
    intro r a h
    cases r with
    | zero =>
      rw [List.drop_zero] at h
      obtain ⟨k, hk⟩ := List.mem_iff_getElem?.mp h
      exact ⟨k, by omega, hk⟩
    | succ r =>
      simp only [List.drop_succ_cons] at h
      obtain ⟨k, hk, hk2⟩ := ih r a h
      exact ⟨k + 1, by omega, by simpa using hk2⟩

theorem tsAt_of_index (x : Volume) (k : Nat) (a : Int) (h : x.timestamps[k]? = some a) :
    x.tsAt k = a ∧ k < x.Values.length := by
  unfold Volume.tsAt
  unfold Volume.timestamps at h
  rw [List.getElem?_map] at h
  cases hk : x.Values[k]? with
  | none => rw [hk] at h; simp at h
  | some p =>
    rw [hk] at h
    simp only [Option.map_some', Option.some.injEq] at h
    have := (List.getElem?_eq_some_iff.mp hk).1
    simp [List.get?_eq_getElem?, hk, h, this]

theorem incrAt_timestamps : ∀ (vs : List SamplePair) (i : Nat),
    (incrAt vs i).map (fun p => p.Timestamp) = vs.map (fun p => p.Timestamp) := by
  intro vs
  induction vs with
  | nil => intro i; rfl
  | cons p ps ih =>
    intro i
    cases i with
    | zero => simp [incrAt]
    | succ i => simp [incrAt, ih i]

theorem incrAt_ne_nil (vs : List SamplePair) (i : Nat) (h : vs ≠ []) : incrAt vs i ≠ [] := by
  cases vs with
  | nil => exact absurd rfl h
  | cons p ps => cases i <;> simp [incrAt]

theorem countAt_cons (p : SamplePair) (ps : List SamplePair) (t : Int) :
    Volume.countAt ⟨p :: ps⟩ t = (if p.Timestamp = t then p.Value else 0) + Volume.countAt ⟨ps⟩ t := by
  unfold Volume.countAt
  by_cases h : p.Timestamp = t <;> simp [List.filter_cons, h]

theorem countAt_append (l1 l2 : List SamplePair) (t : Int) :
    Volume.countAt ⟨l1 ++ l2⟩ t = Volume.countAt ⟨l1⟩ t + Volume.countAt ⟨l2⟩ t := by
  unfold Volume.countAt
  simp [List.filter_append]

theorem countAt_incrAt (t : Int) : ∀ (vs : List SamplePair) (i : Nat) (a : Int),
    (vs.map (fun p => p.Timestamp))[i]? = some a →
    Volume.countAt ⟨incrAt vs i⟩ t = Volume.countAt ⟨vs⟩ t + (if a = t then 1 else 0) := by
  intro vs
  induction vs with
  | nil => intro i a h; simp at h
  | cons p ps ih =>
    intro i a h
    cases i with
    | zero =>
      simp only [List.map_cons, List.getElem?_cons_zero, Option.some.injEq] at h
      simp only [incrAt, countAt_cons, h]
      by_cases hat : a = t
      · simp [hat]; omega
      · simp [hat]
    | succ i =>
      simp only [List.map_cons, List.getElem?_cons_succ] at h
      simp only [incrAt, countAt_cons, ih i a h]
      omega

theorem foldl_matches (vs : List SamplePair) : ∀ (m : Int),
    vs.foldl (fun m p => m + (p.Value : Int)) m = m + ((vs.map (fun p => p.Value)).sum : Nat) := by
  induction vs with
  | nil => intro m; simp
  | cons p ps ih => intro m; simp only [List.foldl_cons, ih, List.map_cons, List.sum_cons]; push_cast; ring

theorem Matches_eq (x : Volume) : x.Matches = ((x.Values.map (fun p => p.Value)).sum : Nat) := by
  unfold Volume.Matches
  rw [foldl_matches]; simp

theorem sum_incrAt : ∀ (vs : List SamplePair) (i : Nat), i < vs.length →
    ((incrAt vs i).map (fun p => p.Value)).sum = (vs.map (fun p => p.Value)).sum + 1 := by
  intro vs
  induction vs with
  | nil => intro i h; simp at h
  | cons p ps ih =>
    intro i h
    cases i with
    | zero => simp [incrAt]; omega
    | succ i =>
      simp only [List.length_cons] at h
      simp [incrAt, ih i (by omega)]; omega


/-- The five ways `Add` can go on a non-empty series. -/
theorem Add_cases (x : Volume) (ts : Int) (hne : x.Values ≠ []) :
    ∃ y, x.Add ts = .ok y ∧
      ((x.tsAt (x.Values.length - 1) = truncateTimestamp ts ∧
          y.Values = incrAt x.Values (x.Values.length - 1)) ∨
       (x.tsAt (x.Values.length - 1) ≠ truncateTimestamp ts ∧ truncateTimestamp ts < x.tsAt 0 ∧
          y.Values = { Timestamp := truncateTimestamp ts, Value := 1 } :: x.Values.dropLast) ∨
       (x.tsAt (x.Values.length - 1) < truncateTimestamp ts ∧ ¬ truncateTimestamp ts < x.tsAt 0 ∧
          y.Values = x.Values ++ [{ Timestamp := truncateTimestamp ts, Value := 1 }]) ∨
       (truncateTimestamp ts < x.tsAt (x.Values.length - 1) ∧ ¬ truncateTimestamp ts < x.tsAt 0 ∧
          sortSearch x.Values.length (fun i => decide (x.tsAt i ≥ truncateTimestamp ts))
            < x.Values.length ∧
          x.tsAt (sortSearch x.Values.length
            (fun i => decide (x.tsAt i ≥ truncateTimestamp ts))) = truncateTimestamp ts ∧
          y.Values = incrAt x.Values
            (sortSearch x.Values.length (fun i => decide (x.tsAt i ≥ truncateTimestamp ts)))) ∨
       (truncateTimestamp ts < x.tsAt (x.Values.length - 1) ∧ ¬ truncateTimestamp ts < x.tsAt 0 ∧
          ¬ (sortSearch x.Values.length (fun i => decide (x.tsAt i ≥ truncateTimestamp ts))
            < x.Values.length ∧
          x.tsAt (sortSearch x.Values.length
            (fun i => decide (x.tsAt i ≥ truncateTimestamp ts))) = truncateTimestamp ts) ∧
          y.Values =
            x.Values.take (sortSearch x.Values.length
              (fun i => decide (x.tsAt i ≥ truncateTimestamp ts))) ++
            { Timestamp := truncateTimestamp ts, Value := 1 } ::
            x.Values.drop (sortSearch x.Values.length
              (fun i => decide (x.tsAt i ≥ truncateTimestamp ts))))) := by
  obtain ⟨vs⟩ := x
  cases vs with
  | nil => exact absurd rfl hne
  | cons p ps =>
    have hlast : ∃ l, (p :: ps).getLast? = some l ∧
        Volume.tsAt ⟨p :: ps⟩ ((p :: ps).length - 1) = l.Timestamp := by
      refine ⟨(p :: ps).getLast (by simp), List.getLast?_eq_getLast _ _, ?_⟩
      unfold Volume.tsAt
      simp only [List.get?_eq_getElem?]
      rw [← List.getLast?_eq_getElem?, List.getLast?_eq_getLast _ (by simp)]
    obtain ⟨l, hl, hlt⟩ := hlast
    have hfirst : Volume.tsAt ⟨p :: ps⟩ 0 = p.Timestamp := by
      simp [Volume.tsAt]
    simp only [Volume.Add, List.head?_cons, hl]
    rw [hlt, hfirst]
    by_cases h1 : l.Timestamp = truncateTimestamp ts
    · exact ⟨_, by rw [if_pos h1], Or.inl ⟨h1, rfl⟩⟩
    · rw [if_neg h1]
      by_cases h2 : p.Timestamp > truncateTimestamp ts
      · exact ⟨_, by rw [if_pos h2], Or.inr (Or.inl ⟨h1, h2, rfl⟩)⟩
      · rw [if_neg h2]
        by_cases h3 : l.Timestamp < truncateTimestamp ts
        · exact ⟨_, by rw [if_pos h3], Or.inr (Or.inr (Or.inl ⟨h3, h2, rfl⟩))⟩
        · rw [if_neg h3]
          have h4 : truncateTimestamp ts < l.Timestamp := by omega
          by_cases h5 : sortSearch (p :: ps).length
              (fun i => decide (Volume.tsAt ⟨p :: ps⟩ i ≥ truncateTimestamp ts)) < (p :: ps).length ∧
              Volume.tsAt ⟨p :: ps⟩ (sortSearch (p :: ps).length
                (fun i => decide (Volume.tsAt ⟨p :: ps⟩ i ≥ truncateTimestamp ts)))
                = truncateTimestamp ts
          · exact ⟨_, by rw [if_pos h5],
              Or.inr (Or.inr (Or.inr (Or.inl ⟨h4, h2, h5.1, h5.2, rfl⟩)))⟩
          · exact ⟨_, by rw [if_neg h5],
              Or.inr (Or.inr (Or.inr (Or.inr ⟨h4, h2, h5, rfl⟩)))⟩

theorem ordered_bounds (x : Volume) (ho : x.Ordered) (a : Int) (ha : a ∈ x.timestamps) :
    x.tsAt 0 ≤ a ∧ a ≤ x.tsAt (x.Values.length - 1) := by
  obtain ⟨k, hk⟩ := List.mem_iff_getElem?.mp ha
  obtain ⟨h1, h2⟩ := tsAt_of_index x k a hk
  have hlen : x.timestamps.length = x.Values.length := by simp [Volume.timestamps]
  rw [← h1]
  exact ⟨tsAt_mono x ho 0 k (by omega) (by omega),
    tsAt_mono x ho k (x.Values.length - 1) (by omega) (by omega)⟩

theorem tsAt_mem (x : Volume) (k : Nat) (h : k < x.Values.length) : x.tsAt k ∈ x.timestamps := by
  have hlen : x.timestamps.length = x.Values.length := by simp [Volume.timestamps]
  rw [tsAt_eq x k (by omega)]
  exact List.get_mem _ _ _

/-- What `Add` preserves and establishes on an ordered non-empty series. -/
theorem Add_ordered (x : Volume) (ts : Int) (hne : x.Values ≠ []) (ho : x.Ordered) :
    ∃ y, x.Add ts = .ok y ∧ y.Values ≠ [] ∧ y.Ordered ∧ truncateTimestamp ts ∈ y.timestamps := by
  obtain ⟨y, hy, hc⟩ := Add_cases x ts hne
  refine ⟨y, hy, ?_⟩
  have hlen : x.timestamps.length = x.Values.length := by simp [Volume.timestamps]
  have hpos : 0 < x.Values.length := List.length_pos.mpr hne
  generalize truncateTimestamp ts = t at hc ⊢
  rcases hc with ⟨h1, hv⟩ | ⟨h1, h2, hv⟩ | ⟨h1, h2, hv⟩ | ⟨h1, h2, h3, h4, hv⟩ | ⟨h1, h2, h3, hv⟩
  · have hts : y.timestamps = x.timestamps := by
      simp only [Volume.timestamps, hv, incrAt_timestamps]
    refine ⟨by rw [hv]; exact incrAt_ne_nil _ _ hne, by unfold Volume.Ordered; rw [hts]; exact ho, ?_⟩
    rw [hts, ← h1]
    exact tsAt_mem x _ (by omega)
  · have hts : y.timestamps = t :: x.timestamps.dropLast := by
      simp only [Volume.timestamps, hv, List.map_cons, List.map_dropLast]
    refine ⟨by rw [hv]; simp, ?_, by rw [hts]; simp⟩
    unfold Volume.Ordered
    rw [hts]
    refine List.pairwise_cons.mpr ⟨fun a ha => ?_,
      List.Pairwise.sublist (List.dropLast_sublist _) ho⟩
    have := (ordered_bounds x ho a ((List.dropLast_sublist _).subset ha)).1
    omega
  · have hts : y.timestamps = x.timestamps ++ [t] := by
      simp only [Volume.timestamps, hv, List.map_append, List.map_cons, List.map_nil]
    refine ⟨by rw [hv]; simp, ?_, by rw [hts]; simp⟩
    unfold Volume.Ordered
    rw [hts]
    refine List.pairwise_append.mpr ⟨ho, List.pairwise_singleton _ _, fun a ha b hb => ?_⟩
    have := (ordered_bounds x ho a ha).2
    simp only [List.mem_singleton] at hb
    omega
  · have hts : y.timestamps = x.timestamps := by
      simp only [Volume.timestamps, hv, incrAt_timestamps]
    refine ⟨by rw [hv]; exact incrAt_ne_nil _ _ hne, by unfold Volume.Ordered; rw [hts]; exact ho, ?_⟩
    rw [hts, ← h4]
    exact tsAt_mem x _ h3
  · have hmono : ∀ a b, a ≤ b → b < x.Values.length →
        (fun i => decide (x.tsAt i ≥ t)) a = true → (fun i => decide (x.tsAt i ≥ t)) b = true := by
      intro a b hab hb ha
      simp only [decide_eq_true_eq] at ha ⊢
      have := tsAt_mono x ho a b hab (by omega)
      omega
    obtain ⟨hr1, hr2, hr3⟩ := sortSearch_spec _ _ hmono
    generalize sortSearch x.Values.length (fun i => decide (x.tsAt i ≥ t)) = r at *
    have hts : y.timestamps = x.timestamps.take r ++ t :: x.timestamps.drop r := by
      simp only [Volume.timestamps, hv, List.map_append, List.map_cons, List.map_take,
        List.map_drop]
    refine ⟨by rw [hv]; simp, ?_, by rw [hts]; simp⟩
    unfold Volume.Ordered
    rw [hts]
    have hsplit : (x.timestamps.take r ++ x.timestamps.drop r).Pairwise (fun a b => a < b) := by
      rw [List.take_append_drop]; exact ho
    obtain ⟨hp1, hp2, hp3⟩ := List.pairwise_append.mp hsplit
    have hbefore : ∀ a ∈ x.timestamps.take r, a < t := by
      intro a ha
      obtain ⟨k, hk, hk2⟩ := mem_take_index _ _ _ ha
      obtain ⟨e1, e2⟩ := tsAt_of_index x k a hk2
      have := hr2 k hk
      simp only [decide_eq_false_iff_not] at this
      omega
    have hafter : ∀ b ∈ x.timestamps.drop r, t < b := by
      intro b hb
      obtain ⟨k, hk, hk2⟩ := mem_drop_index _ _ _ hb
      obtain ⟨e1, e2⟩ := tsAt_of_index x k b hk2
      have hge := hr3 k hk e2
      simp only [decide_eq_true_eq] at hge
      have hrlt : r < x.Values.length := by omega
      have hrge := hr3 r (le_refl r) hrlt
      simp only [decide_eq_true_eq] at hrge
      have hrne : x.tsAt r ≠ t := fun h => h3 ⟨hrlt, h⟩
      have := tsAt_mono x ho r k hk (by omega)
      omega
    refine List.pairwise_append.mpr ⟨hp1, List.pairwise_cons.mpr ⟨hafter, hp2⟩, ?_⟩
    intro a ha b hb
    rcases List.mem_cons.mp hb with hb | hb
    · rw [hb]; exact hbefore a ha
    · have := hbefore a ha
      have := hafter b hb
      omega

/-- What `Add` does to the counts of a non-empty series outside the `first > t` branch,
that is when the last bucket is `t` or `t` is not before the first bucket. -/
theorem Add_counts (x : Volume) (ts : Int) (hne : x.Values ≠ [])
    (hnp : x.tsAt (x.Values.length - 1) = truncateTimestamp ts ∨
      ¬ truncateTimestamp ts < x.tsAt 0) :
    ∃ y, x.Add ts = .ok y ∧
      y.countAt (truncateTimestamp ts) = x.countAt (truncateTimestamp ts) + 1 ∧
      (∀ t, t ≠ truncateTimestamp ts → y.countAt t = x.countAt t) ∧
      y.Matches = x.Matches + 1 := by
  obtain ⟨y, hy, hc⟩ := Add_cases x ts hne
  refine ⟨y, hy, ?_⟩
  have hlen : x.timestamps.length = x.Values.length := by simp [Volume.timestamps]
  have hpos : 0 < x.Values.length := List.length_pos.mpr hne
  have hx : x = ⟨x.Values⟩ := rfl
  have hyv : y = ⟨y.Values⟩ := rfl
  generalize truncateTimestamp ts = t at hc hnp ⊢
  have hincr : ∀ i, i < x.Values.length → x.tsAt i = t → y.Values = incrAt x.Values i →
      y.countAt t = x.countAt t + 1 ∧ (∀ t', t' ≠ t → y.countAt t' = x.countAt t') ∧
      y.Matches = x.Matches + 1 := by
    intro i hi hti hv
    have hidx : (x.Values.map (fun p => p.Timestamp))[i]? = some t := by
      have := tsAt_eq x i (by omega)
      rw [hti] at this
      rw [this]
      exact List.getElem?_eq_getElem _
    refine ⟨?_, ?_, ?_⟩
    · rw [hyv, hv, countAt_incrAt t _ i t hidx]; simp
    · intro t' ht'
      rw [hyv, hv, countAt_incrAt t' _ i t hidx]; simp [Ne.symm ht']
    · rw [Matches_eq, Matches_eq, hv, sum_incrAt _ _ hi]; push_cast; ring
  have hnew : ∀ l1 l2, x.Values = l1 ++ l2 →
      y.Values = l1 ++ { Timestamp := t, Value := 1 } :: l2 →
      y.countAt t = x.countAt t + 1 ∧ (∀ t', t' ≠ t → y.countAt t' = x.countAt t') ∧
      y.Matches = x.Matches + 1 := by
    intro l1 l2 hxv hv
    refine ⟨?_, ?_, ?_⟩
    · rw [hyv, hx, hv, hxv, countAt_append, countAt_append, countAt_cons]; simp; omega
    · intro t' ht'
      rw [hyv, hx, hv, hxv, countAt_append, countAt_append, countAt_cons]
      simp [Ne.symm ht']
    · rw [Matches_eq, Matches_eq, hv, hxv]; simp; ring
  rcases hc with ⟨h1, hv⟩ | ⟨h1, h2, hv⟩ | ⟨h1, h2, hv⟩ | ⟨h1, h2, h3, h4, hv⟩ | ⟨h1, h2, h3, hv⟩
  · exact hincr _ (by omega) h1 hv
  · rcases hnp with h | h
    · exact absurd h h1
    · exact absurd h2 h
  · exact hnew x.Values [] (by simp) (by simpa using hv)
  · exact hincr _ h3 h4 hv
  · exact hnew _ _ (List.take_append_drop _ _).symm hv

/-! ## The cache -/

theorem lruFind_erase (l : List (Nat × LogCluster)) (key k : Nat) :
    lruFind (lruErase l key) k = if k = key then none else lruFind l k := by
  induction l with
  | nil => simp [lruFind, lruErase]
  | cons e l ih =>
    obtain ⟨a, v⟩ := e
    by_cases h1 : a = key
    · simp only [lruErase, h1, if_true, lruFind, ih]
      by_cases h2 : k = key
      · simp [h2]
      · have h3 : ¬ key = k := fun h => h2 h.symm
        simp [h2, h3]
    · simp only [lruErase, h1, if_false, lruFind, ih]
      by_cases h3 : a = k
      · have h2 : ¬ k = key := fun h => h1 (h3.trans h)
        simp [h2, h3]
      · simp [h3]

theorem lruErase_mem (l : List (Nat × LogCluster)) (key : Nat) (e : Nat × LogCluster)
    (h : e ∈ lruErase l key) : e ∈ l ∧ e.1 ≠ key := by
  induction l with
  | nil => simp [lruErase] at h
  | cons x l ih =>
    obtain ⟨a, v⟩ := x
    simp only [lruErase] at h
    by_cases h1 : a = key
    · simp only [h1, if_true] at h
      exact ⟨List.mem_cons_of_mem _ (ih h).1, (ih h).2⟩
    · simp only [h1, if_false] at h
      rcases List.mem_cons.mp h with h | h
      · rw [h]; exact ⟨List.mem_cons_self _ _, h1⟩
      · exact ⟨List.mem_cons_of_mem _ (ih h).1, (ih h).2⟩

theorem lruFind_mem (l : List (Nat × LogCluster)) (k : Nat) (v : LogCluster)
    (h : lruFind l k = some v) : (k, v) ∈ l := by
  induction l with
  | nil => simp [lruFind] at h
  | cons e l ih =>
    obtain ⟨a, w⟩ := e
    simp only [lruFind] at h
    by_cases h1 : a = k
    · simp only [h1, if_true, Option.some.injEq] at h
      simp [h1, h]
    · simp only [h1, if_false] at h
      exact List.mem_cons_of_mem _ (ih h)

theorem mem_lruFind (l : List (Nat × LogCluster)) (e : Nat × LogCluster) (h : e ∈ l) :
    ∃ v, lruFind l e.1 = some v := by
  induction l with
  | nil => simp at h
  | cons x l ih =>
    obtain ⟨a, w⟩ := x
    simp only [lruFind]
    by_cases h1 : a = e.1
    · exact ⟨w, by simp [h1]⟩
    · simp only [h1, if_false]
      rcases List.mem_cons.mp h with h | h
      · exact absurd (by rw [h]) h1
      · exact ih h

theorem Peek_mem (c : LRU) (k : Nat) (v : LogCluster) (h : c.Peek k = some v) :
    (k, v) ∈ c.entries := lruFind_mem _ _ _ h

theorem Peek_Get (c : LRU) (key k : Nat) : (c.Get key).1.Peek k = c.Peek k := by
  unfold LRU.Get
  cases hp : c.Peek key with
  | none => rfl
  | some v =>
    simp only [LRU.Peek, LRU.without, lruFind]
    by_cases hk : key = k
    · subst hk
      simp only [if_true]
      exact hp.symm
    · have hk2 : ¬ k = key := fun h => hk h.symm
      simp [hk, lruFind_erase, hk2]

theorem Get_snd (c : LRU) (key : Nat) : (c.Get key).2 = c.Peek key := by
  unfold LRU.Get
  cases hp : c.Peek key <;> rfl

theorem Get_size (c : LRU) (key : Nat) : (c.Get key).1.size = c.size := by
  unfold LRU.Get
  cases hp : c.Peek key <;> rfl

theorem Get_entries_mem (c : LRU) (key : Nat) (e : Nat × LogCluster)
    (h : e ∈ (c.Get key).1.entries) : e ∈ c.entries := by
  unfold LRU.Get at h
  cases hp : c.Peek key with
  | none => rw [hp] at h; exact h
  | some v =>
    rw [hp] at h
    simp only [LRU.without, List.mem_cons] at h
    rcases h with h | h
    · rw [h]; exact Peek_mem c key v hp
    · exact (lruErase_mem _ _ _ h).1

theorem lruFind_dropLast (l : List (Nat × LogCluster)) (k : Nat) (r : LogCluster)
    (h : lruFind l.dropLast k = some r) : lruFind l k = some r := by
  induction l with
  | nil => simp [lruFind] at h
  | cons a l ih =>
    obtain ⟨a, w⟩ := a
    cases l with
    | nil => simp [lruFind] at h
    | cons b l =>
      simp only [List.dropLast_cons₂, lruFind] at h ⊢
      by_cases hab : a = k
      · simp only [hab, if_true] at h ⊢; exact h
      · simp only [hab, if_false] at h ⊢; exact ih h

theorem Peek_Add (c : LRU) (key k : Nat) (v r : LogCluster)
    (h : (c.Add key v).Peek k = some r) : (k = key ∧ r = v) ∨ (k ≠ key ∧ c.Peek k = some r) := by
  have key_step : lruFind ((key, v) :: c.entries) k = some r →
      (k = key ∧ r = v) ∨ (k ≠ key ∧ c.Peek k = some r) := by
    intro hf
    simp only [lruFind] at hf
    by_cases hk : key = k
    · simp only [hk, if_true, Option.some.injEq] at hf
      exact Or.inl ⟨hk.symm, hf.symm⟩
    · simp only [hk, if_false] at hf
      exact Or.inr ⟨fun h => hk h.symm, hf⟩
  unfold LRU.Add at h
  cases hp : c.Peek key with
  | some old =>
    rw [hp] at h
    simp only [LRU.Peek, LRU.without, lruFind] at h
    by_cases hk : key = k
    · simp only [hk, if_true, Option.some.injEq] at h
      exact Or.inl ⟨hk.symm, h.symm⟩
    · have hk2 : ¬ k = key := fun h => hk h.symm
      simp only [hk, lruFind_erase, hk2, if_false] at h
      exact Or.inr ⟨hk2, h⟩
  | none =>
    rw [hp] at h
    by_cases hlen : ((key, v) :: c.entries).length > c.size
    · rw [if_pos hlen] at h
      exact key_step (lruFind_dropLast _ _ _ h)
    · rw [if_neg hlen] at h
      exact key_step h

theorem Add_entries_mem (c : LRU) (key : Nat) (v : LogCluster) (e : Nat × LogCluster)
    (h : e ∈ (c.Add key v).entries) : e = (key, v) ∨ e ∈ c.entries := by
  unfold LRU.Add at h
  cases hp : c.Peek key with
  | some old =>
    rw [hp] at h
    simp only [LRU.without, List.mem_cons] at h
    rcases h with h | h
    · exact Or.inl h
    · exact Or.inr (lruErase_mem _ _ _ h).1
  | none =>
    rw [hp] at h
    by_cases hlen : ((key, v) :: c.entries).length > c.size
    · rw [if_pos hlen] at h
      exact List.mem_cons.mp (List.dropLast_subset _ h)
    · rw [if_neg hlen] at h
      exact List.mem_cons.mp h

theorem lruFind_replace (u : LogCluster) (k : Nat) (l : List (Nat × LogCluster)) :
    lruFind (lruReplace l u) k =
      if k = u.id then (lruFind l k).map (fun _ => u) else lruFind l k := by
  induction l with
  | nil => simp [lruFind, lruReplace]
  | cons e l ih =>
    obtain ⟨a, w⟩ := e
    by_cases h1 : a = u.id
    · simp only [lruReplace, h1, if_true, lruFind, ih]
      by_cases h2 : u.id = k
      · simp [h2]
      · have h3 : ¬ k = u.id := fun h => h2 h.symm
        simp [h2, h3]
    · simp only [lruReplace, h1, if_false, lruFind, ih]
      by_cases h2 : a = k
      · have h3 : ¬ k = u.id := fun h => h1 (h2.trans h)
        simp [h2, h3]
      · simp [h2]

theorem Peek_store (c : LogClusterCache) (u : LogCluster) (k : Nat) :
    (c.store u).cache.Peek k =
      if k = u.id then (c.cache.Peek k).map (fun _ => u) else c.cache.Peek k :=
  lruFind_replace u k c.cache.entries

theorem lruReplace_mem (u : LogCluster) (l : List (Nat × LogCluster)) (e : Nat × LogCluster)
    (h : e ∈ lruReplace l u) : e ∈ l ∨ (e = (u.id, u) ∧ ∃ old, (u.id, old) ∈ l) := by
  induction l with
  | nil => simp [lruReplace] at h
  | cons x l ih =>
    obtain ⟨a, w⟩ := x
    simp only [lruReplace] at h
    by_cases h1 : a = u.id
    · simp only [h1, if_true] at h
      rcases List.mem_cons.mp h with h | h
      · exact Or.inr ⟨h, w, by rw [h1]; exact List.mem_cons_self _ _⟩
      · rcases ih h with h2 | ⟨h2, old, h3⟩
        · exact Or.inl (List.mem_cons_of_mem _ h2)
        · exact Or.inr ⟨h2, old, List.mem_cons_of_mem _ h3⟩
    · simp only [h1, if_false] at h
      rcases List.mem_cons.mp h with h | h
      · exact Or.inl (by rw [h]; exact List.mem_cons_self _ _)
      · rcases ih h with h2 | ⟨h2, old, h3⟩
        · exact Or.inl (List.mem_cons_of_mem _ h2)
        · exact Or.inr ⟨h2, old, List.mem_cons_of_mem _ h3⟩

theorem store_entries_mem (c : LogClusterCache) (u : LogCluster) (e : Nat × LogCluster)
    (h : e ∈ (c.store u).cache.entries) :
    e ∈ c.cache.entries ∨ (e = (u.id, u) ∧ ∃ old, (u.id, old) ∈ c.cache.entries) :=
  lruReplace_mem u c.cache.entries e h

/-! ## Similarity -/

theorem pinnedMismatch_cons (t1 t2 : String) (cs ts : List String) :
    pinnedMismatch (t1 :: cs) (t2 :: ts) ↔
      (isMarked t1 = true ∧ t1 ≠ t2) ∨ pinnedMismatch cs ts := by
  unfold pinnedMismatch
  simp only [List.zip_cons_cons, List.mem_cons]
  constructor
  · rintro ⟨p, hp | hp, h⟩
    · subst hp; exact Or.inl h
    · exact Or.inr ⟨p, hp, h⟩
  · rintro (h | ⟨p, hp, h⟩)
    · exact ⟨(t1, t2), Or.inl rfl, h⟩
    · exact ⟨p, Or.inr hp, h⟩

theorem literalMatches_cons (wild t1 t2 : String) (cs ts : List String) :
    literalMatches wild (t1 :: cs) (t2 :: ts) =
      (if t1 ≠ wild ∧ t1 = t2 then 1 else 0) + literalMatches wild cs ts := by
  unfold literalMatches
  simp only [List.zip_cons_cons, List.filter_cons]
  by_cases h : t1 ≠ wild ∧ t1 = t2
  · rw [if_pos (decide_eq_true h), if_pos h, List.length_cons]; omega
  · rw [if_neg (by simpa using h), if_neg h]; omega

theorem paramPositions_cons (wild t1 : String) (cs : List String) :
    paramPositions wild (t1 :: cs) = (if t1 = wild then 1 else 0) + paramPositions wild cs := by
  unfold paramPositions
  simp only [List.filter_cons]
  by_cases h : t1 = wild
  · rw [if_pos (decide_eq_true h), if_pos h, List.length_cons]; omega
  · rw [if_neg (by simpa using h), if_neg h]; omega

theorem seqDistanceLoop_spec (wild : String) : ∀ (template tokens : List String) (s p : Nat),
    template.length = tokens.length →
    (pinnedMismatch template tokens → seqDistanceLoop wild template tokens s p = none) ∧
    (¬ pinnedMismatch template tokens → seqDistanceLoop wild template tokens s p =
      some (s + literalMatches wild template tokens, p + paramPositions wild template)) := by
  intro template
  induction template with
  | nil =>
    intro tokens s p hlen
    cases tokens with
    | nil =>
      refine ⟨fun h => ?_, fun _ => ?_⟩
      · obtain ⟨q, hq, _⟩ := h; simp at hq
      · simp [seqDistanceLoop, literalMatches, paramPositions]
    | cons t ts => simp at hlen
  | cons t1 cs ih =>
    intro tokens s p hlen
    cases tokens with
    | nil => simp at hlen
    | cons t2 ts =>
      simp only [List.length_cons, Nat.add_right_cancel_iff] at hlen
      rw [pinnedMismatch_cons, literalMatches_cons, paramPositions_cons]
      simp only [seqDistanceLoop]
      by_cases hm : isMarked t1 = true ∧ t1 ≠ t2
      · have hc : (isMarked t1 && t1 != t2) = true := by simp [hm.1, hm.2]
        rw [if_pos hc]
        exact ⟨fun _ => rfl, fun h => absurd (Or.inl hm) h⟩
      · have hc : ¬ ((isMarked t1 && t1 != t2) = true) := by
          intro h
          simp only [Bool.and_eq_true, bne_iff_ne] at h
          exact hm h
        rw [if_neg hc]
        by_cases hw : t1 = wild
        · rw [if_pos hw]
          obtain ⟨i1, i2⟩ := ih ts s (p + 1) hlen
          refine ⟨fun h => i1 (h.resolve_left hm), fun h => ?_⟩
          rw [i2 (fun h2 => h (Or.inr h2)), if_neg (fun h3 => h3.1 hw), if_pos hw]
          congr 2 <;> omega
        · rw [if_neg hw]
          by_cases he : t1 = t2
          · rw [if_pos he]
            obtain ⟨i1, i2⟩ := ih ts (s + 1) p hlen
            refine ⟨fun h => i1 (h.resolve_left hm), fun h => ?_⟩
            rw [i2 (fun h2 => h (Or.inr h2)), if_pos ⟨hw, he⟩, if_neg hw]
            congr 2 <;> omega
          · rw [if_neg he]
            obtain ⟨i1, i2⟩ := ih ts s p hlen
            refine ⟨fun h => i1 (h.resolve_left hm), fun h => ?_⟩
            rw [i2 (fun h2 => h (Or.inr h2)), if_neg (fun h3 => he h3.2), if_neg hw]
            congr 2 <;> omega

theorem counts_le (wild : String) : ∀ (template tokens : List String),
    template.length = tokens.length →
    literalMatches wild template tokens + paramPositions wild template ≤ template.length ∧
    (literalMatches wild template tokens + paramPositions wild template = template.length ↔
      ∀ p ∈ template.zip tokens, p.1 = wild ∨ p.1 = p.2) := by
  intro template
  induction template with
  | nil =>
    intro tokens _
    simp [literalMatches, paramPositions]
  | cons t1 cs ih =>
    intro tokens hlen
    cases tokens with
    | nil => simp at hlen
    | cons t2 ts =>
      simp only [List.length_cons, Nat.add_right_cancel_iff] at hlen
      obtain ⟨i1, i2⟩ := ih ts hlen
      rw [literalMatches_cons, paramPositions_cons]
      simp only [List.zip_cons_cons, List.mem_cons, forall_eq_or_imp, List.length_cons]
      by_cases hw : t1 = wild
      · rw [if_neg (fun h3 => h3.1 hw), if_pos hw]
        have e1 : (t1 = wild ∨ t1 = t2) := Or.inl hw
        simp only [e1, true_and]
        rw [← i2]
        constructor
        · omega
        · constructor <;> intro h <;> omega
      · by_cases he : t1 = t2
        · rw [if_pos ⟨hw, he⟩, if_neg hw]
          have e1 : (t1 = wild ∨ t1 = t2) := Or.inr he
          simp only [e1, true_and]
          rw [← i2]
          constructor
          · omega
          · constructor <;> intro h <;> omega
        · rw [if_neg (fun h3 => he h3.2), if_neg hw]
          have e1 : ¬ (t1 = wild ∨ t1 = t2) := fun h => h.elim hw he
          simp only [e1, false_and, iff_false]
          constructor
          · omega
          · omega

theorem getSeqDistance_pinned (d : Drain) (template tokens : List String) (inc : Bool)
    (hlen : template.length = tokens.length) (hp : pinnedMismatch template tokens) :
    d.getSeqDistance template tokens inc = .ok (⟨0, 1⟩, -1) := by
  unfold Drain.getSeqDistance
  rw [if_neg (by simpa using hlen), (seqDistanceLoop_spec _ _ _ 0 0 hlen).1 hp]

theorem getSeqDistance_free (d : Drain) (template tokens : List String) (inc : Bool)
    (hlen : template.length = tokens.length) (hp : ¬ pinnedMismatch template tokens) :
    d.getSeqDistance template tokens inc =
      .ok (F64.div (literalMatches d.config.ParamString template tokens +
            (if inc then paramPositions d.config.ParamString template else 0)) template.length,
          (paramPositions d.config.ParamString template : Int)) := by
  unfold Drain.getSeqDistance
  rw [if_neg (by simpa using hlen), (seqDistanceLoop_spec _ _ _ 0 0 hlen).2 hp]
  cases inc <;> simp

theorem getSeqDistance_error (d : Drain) (template tokens : List String) (inc : Bool)
    (hlen : template.length ≠ tokens.length) :
    d.getSeqDistance template tokens inc = .error "seq1 seq2 be of same length" := by
  unfold Drain.getSeqDistance
  rw [if_pos hlen]

theorem toRat_div (a n : Nat) (hn : n ≠ 0) : (F64.div a n).toRat = some ((a : ℚ) / (n : ℚ)) := by
  unfold F64.toRat F64.div
  simp [hn]

/-! ## Candidate selection -/

theorem cGet_peek (c : LogClusterCache) (key k : Nat) :
    (c.Get key).1.cache.Peek k = c.cache.Peek k := Peek_Get c.cache key k

theorem cGet_snd (c : LogClusterCache) (key : Nat) : (c.Get key).2 = c.cache.Peek key :=
  Get_snd c.cache key

theorem cGet_mem (c : LogClusterCache) (key : Nat) (e : Nat × LogCluster)
    (h : e ∈ (c.Get key).1.cache.entries) : e ∈ c.cache.entries :=
  Get_entries_mem c.cache key e h

theorem cGet_size (c : LogClusterCache) (key : Nat) :
    (c.Get key).1.cache.size = c.cache.size := Get_size c.cache key

theorem cGet_eq (c : LogClusterCache) (key : Nat) :
    c.Get key = ((c.Get key).1, c.cache.Peek key) := by
  rw [← cGet_snd]

theorem touchAll_peek (ids : List Nat) : ∀ (c : LogClusterCache) (k : Nat),
    (touchAll c ids).cache.Peek k = c.cache.Peek k := by
  induction ids with
  | nil => intro c k; rfl
  | cons id ids ih => intro c k; simp only [touchAll]; rw [ih, cGet_peek]

theorem touchAll_mem (ids : List Nat) : ∀ (c : LogClusterCache) (e : Nat × LogCluster),
    e ∈ (touchAll c ids).cache.entries → e ∈ c.cache.entries := by
  induction ids with
  | nil => intro c e h; exact h
  | cons id ids ih => intro c e h; simp only [touchAll] at h; exact cGet_mem _ _ _ (ih _ _ h)

theorem touchAll_size (ids : List Nat) : ∀ (c : LogClusterCache),
    (touchAll c ids).cache.size = c.cache.size := by
  induction ids with
  | nil => intro c; rfl
  | cons id ids ih => intro c; simp only [touchAll]; rw [ih, cGet_size]

theorem filterMap_peek_congr (ids : List Nat) (c1 c2 : LogClusterCache)
    (h : ∀ k, c1.cache.Peek k = c2.cache.Peek k) :
    ids.filterMap (fun id => c1.cache.Peek id) = ids.filterMap (fun id => c2.cache.Peek id) := by
  congr 1
  funext id
  exact h id

/-- The loop of `fastMatch` is the selection over the live candidate records, and leaves
the cache as after one `Get` per id. -/
theorem fastMatchLoop_eq (d : Drain) (tokens : List String) (inc : Bool) (ids : List Nat) :
    ∀ (cache : LogClusterCache) (best : Best),
    d.fastMatchLoop tokens inc ids cache best =
      match d.selectLoop tokens inc (ids.filterMap (fun id => cache.cache.Peek id)) best with
      | .error e => .error e
      | .ok b => .ok (touchAll cache ids, b) := by
  induction ids with
  | nil => intro cache best; rfl
  | cons id ids ih =>
    intro cache best
    have hcongr := filterMap_peek_congr ids (cache.Get id).1 cache (cGet_peek cache id)
    simp only [Drain.fastMatchLoop]
    rw [cGet_eq cache id]
    cases hp : cache.cache.Peek id with
    | none =>
      simp only [List.filterMap_cons, hp, touchAll]
      rw [ih, hcongr]
    | some cluster =>
      simp only [List.filterMap_cons, hp, touchAll, Drain.selectLoop]
      cases hd : d.getSeqDistance cluster.Tokens tokens inc with
      | error e => rfl
      | ok r =>
        obtain ⟨curSim, paramCount⟩ := r
        simp only
        by_cases h1 : paramCount < 0
        · simp only [h1, if_true]; rw [ih, hcongr]
        · simp only [h1, if_false]
          split
          · rw [ih, hcongr]
          · rw [ih, hcongr]

theorem pruneStale_eq (ids : List Nat) : ∀ (cache : LogClusterCache),
    pruneStale cache ids =
      (touchAll cache ids, ids.filter (fun id => (cache.cache.Peek id).isSome)) := by
  induction ids with
  | nil => intro cache; rfl
  | cons id ids ih =>
    intro cache
    have hcongr : ids.filter (fun k => ((cache.Get id).1.cache.Peek k).isSome) =
        ids.filter (fun k => (cache.cache.Peek k).isSome) := by
      congr 1; funext k; rw [cGet_peek]
    simp only [pruneStale]
    rw [cGet_eq cache id]
    cases hp : cache.cache.Peek id with
    | none => simp only [touchAll, List.filter_cons, hp, Option.isSome_none]; rw [ih, hcongr]; simp
    | some cluster =>
      simp only [touchAll, List.filter_cons, hp, Option.isSome_some, if_true]
      rw [ih, hcongr]

theorem fastMatch_eq (d : Drain) (ids : List Nat) (tokens : List String) (simTh : F64)
    (inc : Bool) :
    d.fastMatch ids tokens simTh inc =
      match d.selectLoop tokens inc (ids.filterMap (fun id => d.live id))
          { maxSim := ⟨-1, 1⟩, maxParamCount := -1, maxCluster := none } with
      | .error e => .error e
      | .ok b => .ok (touchAll d.idToCluster ids,
          if b.maxSim.ge simTh then b.maxCluster else none) := by
  unfold Drain.fastMatch
  rw [fastMatchLoop_eq]
  unfold Drain.live
  cases d.selectLoop tokens inc (ids.filterMap (fun id => d.idToCluster.cache.Peek id))
      { maxSim := ⟨-1, 1⟩, maxParamCount := -1, maxCluster := none } with
  | error e => rfl
  | ok b =>
    simp only
    split <;> rfl

/-! ## Order on scores -/

theorem F64_gt_iff (x y : F64) (hx : x.den ≠ 0) (hy : y.den ≠ 0) :
    x.gt y = true ↔ (y.num : ℚ) / (y.den : ℚ) < (x.num : ℚ) / (x.den : ℚ) := by
  have hx2 : (0 : ℚ) < (x.den : ℚ) := by exact_mod_cast Nat.pos_of_ne_zero hx
  have hy2 : (0 : ℚ) < (y.den : ℚ) := by exact_mod_cast Nat.pos_of_ne_zero hy
  unfold F64.gt
  rw [div_lt_div_iff₀ hy2 hx2]
  constructor
  · intro h
    simp only [Bool.and_eq_true, decide_eq_true_eq] at h
    exact_mod_cast h.2
  · intro h
    simp only [Bool.and_eq_true, decide_eq_true_eq, bne_iff_ne]
    exact ⟨⟨hx, hy⟩, by exact_mod_cast h⟩

theorem F64_eq_iff (x y : F64) (hx : x.den ≠ 0) (hy : y.den ≠ 0) :
    x.eq y = true ↔ (x.num : ℚ) / (x.den : ℚ) = (y.num : ℚ) / (y.den : ℚ) := by
  have hx2 : (x.den : ℚ) ≠ 0 := by exact_mod_cast hx
  have hy2 : (y.den : ℚ) ≠ 0 := by exact_mod_cast hy
  unfold F64.eq
  rw [div_eq_div_iff hx2 hy2]
  constructor
  · intro h
    simp only [Bool.and_eq_true, decide_eq_true_eq] at h
    exact_mod_cast h.2
  · intro h
    simp only [Bool.and_eq_true, decide_eq_true_eq, bne_iff_ne]
    exact ⟨⟨hx, hy⟩, by exact_mod_cast h⟩

theorem F64_ge_iff (x y : F64) (hx : x.den ≠ 0) (hy : y.den ≠ 0) :
    x.ge y = true ↔ (y.num : ℚ) / (y.den : ℚ) ≤ (x.num : ℚ) / (x.den : ℚ) := by
  have hx2 : (0 : ℚ) < (x.den : ℚ) := by exact_mod_cast Nat.pos_of_ne_zero hx
  have hy2 : (0 : ℚ) < (y.den : ℚ) := by exact_mod_cast Nat.pos_of_ne_zero hy
  unfold F64.ge
  rw [div_le_div_iff₀ hy2 hx2]
  constructor
  · intro h
    simp only [Bool.and_eq_true, decide_eq_true_eq] at h
    exact_mod_cast h.2
  · intro h
    simp only [Bool.and_eq_true, decide_eq_true_eq, bne_iff_ne]
    exact ⟨⟨hx, hy⟩, by exact_mod_cast h⟩

theorem F64_ge_nan (x y : F64) (h : x.den = 0) : x.ge y = false := by
  unfold F64.ge; simp [h]

theorem F64_ge_den (x y : F64) (h : x.ge y = true) : x.den ≠ 0 ∧ y.den ≠ 0 := by
  unfold F64.ge at h
  simp only [Bool.and_eq_true, bne_iff_ne, ne_eq, decide_eq_true_eq] at h
  exact ⟨h.1.1, h.1.2⟩

theorem beats_iff (x y : F64 × Int) (hx : x.1.den ≠ 0) (hy : y.1.den ≠ 0) :
    beats x y ↔ ((y.1.num : ℚ) / (y.1.den : ℚ) < (x.1.num : ℚ) / (x.1.den : ℚ) ∨
      ((x.1.num : ℚ) / (x.1.den : ℚ) = (y.1.num : ℚ) / (y.1.den : ℚ) ∧ y.2 < x.2)) := by
  unfold beats
  rw [F64_gt_iff _ _ hx hy, F64_eq_iff _ _ hx hy]

theorem beats_nan (x y : F64 × Int) (h : x.1.den = 0) : ¬ beats x y := by
  unfold beats F64.gt F64.eq
  simp [h]

theorem beats_trans (x y z : F64 × Int) (hx : x.1.den ≠ 0) (hy : y.1.den ≠ 0)
    (hz : z.1.den ≠ 0) (h1 : beats x y) (h2 : beats y z) : beats x z := by
  rw [beats_iff _ _ hx hy] at h1
  rw [beats_iff _ _ hy hz] at h2
  rw [beats_iff _ _ hx hz]
  rcases h1 with h1 | ⟨h1, h1b⟩ <;> rcases h2 with h2 | ⟨h2, h2b⟩
  · exact Or.inl (lt_trans h2 h1)
  · exact Or.inl (by rw [← h2]; exact h1)
  · exact Or.inl (by rw [h1]; exact h2)
  · exact Or.inr ⟨h1.trans h2, lt_trans h2b h1b⟩

theorem beats_irrefl (x : F64 × Int) : ¬ beats x x := by
  by_cases hx : x.1.den = 0
  · exact beats_nan x x hx
  · rw [beats_iff _ _ hx hx]
    rintro (h | ⟨_, h⟩)
    · exact lt_irrefl _ h
    · exact lt_irrefl _ h

theorem beats_of_not (x y z : F64 × Int) (hx : x.1.den ≠ 0) (hy : y.1.den ≠ 0)
    (hz : z.1.den ≠ 0) (h1 : ¬ beats x y) (h2 : beats z y) : beats z x := by
  rw [beats_iff _ _ hx hy] at h1
  rw [beats_iff _ _ hz hy] at h2
  rw [beats_iff _ _ hz hx]
  simp only [not_or, not_lt, not_and] at h1
  obtain ⟨h1a, h1b⟩ := h1
  rcases h2 with h2 | ⟨h2, h2b⟩
  · exact Or.inl (lt_of_le_of_lt h1a h2)
  · rcases lt_or_eq_of_le h1a with h | h
    · exact Or.inl (by rw [h2]; exact h)
    · exact Or.inr ⟨h2.trans h.symm, lt_of_le_of_lt (h1b h) h2b⟩

theorem pick_cond (s : F64) (p : Int) (best : Best) :
    (s.gt best.maxSim || (s.eq best.maxSim && decide (p > best.maxParamCount))) = true ↔
      beats (s, p) (best.maxSim, best.maxParamCount) := by
  unfold beats
  simp only [Bool.or_eq_true, Bool.and_eq_true, decide_eq_true_eq]

/-- The loop keeps the first candidate that no other candidate beats. -/
theorem pickLoop_spec : ∀ (L : List (LogCluster × F64 × Int)) (best : Best),
    (∀ x ∈ L, x.2.1.den ≠ 0) → best.maxSim.den ≠ 0 →
    ((pickLoop L best = best ∧
        ∀ x ∈ L, ¬ beats (x.2.1, x.2.2) (best.maxSim, best.maxParamCount)) ∨
     (∃ (i : Nat) (c : LogCluster), L[i]? = some (c, (pickLoop L best).maxSim, (pickLoop L best).maxParamCount) ∧
        (pickLoop L best).maxCluster = some c ∧
        beats ((pickLoop L best).maxSim, (pickLoop L best).maxParamCount)
          (best.maxSim, best.maxParamCount) ∧
        (∀ (j : Nat) (x : LogCluster × F64 × Int), j < i → L[j]? = some x →
          beats ((pickLoop L best).maxSim, (pickLoop L best).maxParamCount) (x.2.1, x.2.2)) ∧
        (∀ x ∈ L, ¬ beats (x.2.1, x.2.2)
          ((pickLoop L best).maxSim, (pickLoop L best).maxParamCount)))) := by
  intro L
  induction L with
  | nil => intro best _ _; exact Or.inl ⟨rfl, fun x hx => absurd hx (List.not_mem_nil x)⟩
  | cons x rest ih =>
    intro best hL hb
    obtain ⟨c, s, p⟩ := x
    have hs : s.den ≠ 0 := hL (c, s, p) (List.mem_cons_self _ _)
    have hrest : ∀ y ∈ rest, y.2.1.den ≠ 0 := fun y hy => hL y (List.mem_cons_of_mem _ hy)
    simp only [pickLoop]
    by_cases hc : beats (s, p) (best.maxSim, best.maxParamCount)
    · rw [if_pos ((pick_cond s p best).mpr hc)]
      rcases ih { maxSim := s, maxParamCount := p, maxCluster := some c } hrest hs with
        ⟨h1, h2⟩ | ⟨i, c2, h1, h2, h3, h4, h5⟩
      · refine Or.inr ⟨0, c, ?_, ?_, ?_, ?_, ?_⟩
        · rw [h1]; exact List.getElem?_cons_zero
        · rw [h1]
        · rw [h1]; exact hc
        · intro j y hj; exact absurd hj (Nat.not_lt_zero j)
        · rw [h1]
          intro y hy
          rcases List.mem_cons.mp hy with hy | hy
          · rw [hy]; exact beats_irrefl _
          · exact h2 y hy
      · have hbd : (pickLoop rest { maxSim := s, maxParamCount := p, maxCluster := some c }).maxSim.den ≠ 0 := by
          have := List.getElem?_mem h1
          exact hrest _ this
        refine Or.inr ⟨i + 1, c2, ?_, h2, ?_, ?_, ?_⟩
        · rw [List.getElem?_cons_succ]; exact h1
        · exact beats_trans _ (s, p) _ hbd hs hb h3 hc
        · intro j y hj hy
          cases j with
          | zero =>
            simp only [List.getElem?_cons_zero, Option.some.injEq] at hy
            rw [← hy]; exact h3
          | succ j =>
            rw [List.getElem?_cons_succ] at hy
            exact h4 j y (by omega) hy
        · intro y hy
          rcases List.mem_cons.mp hy with hy | hy
          · rw [hy]
            intro hcon
            exact beats_irrefl _ (beats_trans _ _ _ hs hbd hs hcon h3)
          · exact h5 y hy
    · rw [if_neg (fun h => hc ((pick_cond s p best).mp h))]
      rcases ih best hrest hb with ⟨h1, h2⟩ | ⟨i, c2, h1, h2, h3, h4, h5⟩
      · refine Or.inl ⟨h1, ?_⟩
        intro y hy
        rcases List.mem_cons.mp hy with hy | hy
        · rw [hy]; exact hc
        · exact h2 y hy
      · have hbd : (pickLoop rest best).maxSim.den ≠ 0 := by
          have := List.getElem?_mem h1
          exact hrest _ this
        refine Or.inr ⟨i + 1, c2, ?_, h2, h3, ?_, ?_⟩
        · rw [List.getElem?_cons_succ]; exact h1
        · intro j y hj hy
          cases j with
          | zero =>
            simp only [List.getElem?_cons_zero, Option.some.injEq] at hy
            rw [← hy]
            exact beats_of_not (s, p) _ _ hs hb hbd hc h3
          | succ j =>
            rw [List.getElem?_cons_succ] at hy
            exact h4 j y (by omega) hy
        · intro y hy
          rcases List.mem_cons.mp hy with hy | hy
          · rw [hy]
            intro hcon
            exact hc (beats_trans _ _ _ hs hbd hb hcon h3)
          · exact h5 y hy

theorem pickLoop_nan : ∀ (L : List (LogCluster × F64 × Int)) (best : Best),
    (∀ x ∈ L, x.2.1.den = 0) → pickLoop L best = best := by
  intro L
  induction L with
  | nil => intro best _; rfl
  | cons x rest ih =>
    intro best hL
    obtain ⟨c, s, p⟩ := x
    have hs : s.den = 0 := hL (c, s, p) (List.mem_cons_self _ _)
    simp only [pickLoop]
    rw [if_neg (fun h => beats_nan (s, p) _ hs ((pick_cond s p best).mp h))]
    exact ih best (fun y hy => hL y (List.mem_cons_of_mem _ hy))

theorem selectLoop_eq (d : Drain) (tokens : List String) (inc : Bool) :
    ∀ (cands : List LogCluster) (best : Best),
    (∀ c ∈ cands, c.Tokens.length = tokens.length) →
    d.selectLoop tokens inc cands best =
      .ok (pickLoop (cands.filterMap (d.score tokens inc)) best) := by
  intro cands
  induction cands with
  | nil => intro best _; rfl
  | cons c rest ih =>
    intro best hlen
    have hc := hlen c (List.mem_cons_self _ _)
    have hrest : ∀ x ∈ rest, x.Tokens.length = tokens.length :=
      fun x hx => hlen x (List.mem_cons_of_mem _ hx)
    simp only [Drain.selectLoop, List.filterMap_cons, Drain.score]
    by_cases hp : pinnedMismatch c.Tokens tokens
    · rw [getSeqDistance_pinned d _ _ inc hc hp]
      simp only [Int.reduceNeg, Int.reduceLT, if_true]
      exact ih best hrest
    · rw [getSeqDistance_free d _ _ inc hc hp]
      have hnn : ¬ ((paramPositions d.config.ParamString c.Tokens : Int) < 0) := by omega
      simp only [hnn, if_false, pickLoop]
      generalize F64.div (literalMatches d.config.ParamString c.Tokens tokens +
        (if inc = true then paramPositions d.config.ParamString c.Tokens else 0))
        c.Tokens.length = s
      generalize (paramPositions d.config.ParamString c.Tokens : Int) = p
      by_cases hcond : (s.gt best.maxSim ||
          (s.eq best.maxSim && decide (p > best.maxParamCount))) = true
      · rw [if_pos hcond, if_pos hcond]; exact ih _ hrest
      · rw [if_neg hcond, if_neg hcond]; exact ih _ hrest

theorem score_some (d : Drain) (tokens : List String) (inc : Bool) (c : LogCluster)
    (x : LogCluster × F64 × Int) (h : d.score tokens inc c = some x) :
    x.1 = c ∧ c.Tokens.length = tokens.length ∧ x.2.1.den = tokens.length ∧ 0 ≤ x.2.1.num ∧
      d.getSeqDistance c.Tokens tokens inc = .ok (x.2.1, x.2.2) := by
  unfold Drain.score at h
  by_cases hlen : c.Tokens.length = tokens.length
  · by_cases hp : pinnedMismatch c.Tokens tokens
    · rw [getSeqDistance_pinned d _ _ inc hlen hp] at h
      simp at h
    · rw [getSeqDistance_free d _ _ inc hlen hp] at h ⊢
      have hnn : ¬ ((paramPositions d.config.ParamString c.Tokens : Int) < 0) := by omega
      simp only [hnn, if_false, Option.some.injEq] at h
      rw [← h]
      refine ⟨rfl, hlen, ?_, ?_, rfl⟩
      · simp [F64.div, hlen]
      · simp only [F64.div]; omega
  · rw [getSeqDistance_error d _ _ inc hlen] at h
    simp at h

theorem candidates_mem (d : Drain) (ids : List Nat) (tokens : List String) (inc : Bool)
    (x : LogCluster × F64 × Int) (h : x ∈ d.candidates ids tokens inc) :
    (∃ id ∈ ids, d.live id = some x.1) ∧ x.2.1.den = tokens.length ∧ 0 ≤ x.2.1.num ∧ 0 ≤ x.2.2 ∧
      d.getSeqDistance x.1.Tokens tokens inc = .ok (x.2.1, x.2.2) := by
  unfold Drain.candidates at h
  obtain ⟨c, hc, hs⟩ := List.mem_filterMap.mp h
  obtain ⟨id, hid, hl⟩ := List.mem_filterMap.mp hc
  obtain ⟨h1, h2, h3, h4, h5⟩ := score_some d tokens inc c x hs
  refine ⟨⟨id, hid, by rw [h1]; exact hl⟩, h3, h4, ?_, by rw [h1]; exact h5⟩
  unfold Drain.score at hs
  rw [h5] at hs
  simp only at hs
  by_cases hneg : x.2.2 < 0
  · simp [hneg] at hs
  · omega

theorem ge_of_not_beats (x b : F64 × Int) (simTh : F64) (hx : x.1.den ≠ 0) (hb : b.1.den ≠ 0)
    (h1 : ¬ beats x b) (h2 : x.1.ge simTh = true) : b.1.ge simTh = true := by
  have hth := (F64_ge_den _ _ h2).2
  rw [F64_ge_iff _ _ hx hth] at h2
  rw [F64_ge_iff _ _ hb hth]
  rw [beats_iff _ _ hx hb] at h1
  simp only [not_or, not_lt] at h1
  exact le_trans h2 h1.1

/-- Among the live, not disqualified candidates of a shortlist, `fastMatch` returns the
first one in list order that no other candidate beats, provided its similarity is at
least `simTh`, and none when no candidate reaches `simTh`. -/
theorem fastMatch_best (d : Drain) (clusterIDs : List Nat) (tokens : List String)
    (simTh : F64) (includeParams : Bool)
    (hlen : ∀ id ∈ clusterIDs, ∀ c, d.live id = some c → c.Tokens.length = tokens.length) :
    ∃ cache r, d.fastMatch clusterIDs tokens simTh includeParams = .ok (cache, r) ∧
      (∀ c, r = some c →
        (∃ id ∈ clusterIDs, d.live id = some c) ∧
        ∃ (i : Nat) (s : F64) (p : Int),
          (d.candidates clusterIDs tokens includeParams)[i]? = some (c, s, p) ∧
          s.ge simTh = true ∧
          (∀ x ∈ d.candidates clusterIDs tokens includeParams, ¬ beats (x.2.1, x.2.2) (s, p)) ∧
          (∀ (j : Nat) (x : LogCluster × F64 × Int), j < i →
            (d.candidates clusterIDs tokens includeParams)[j]? = some x →
            beats (s, p) (x.2.1, x.2.2))) ∧
      (r = none →
        ∀ x ∈ d.candidates clusterIDs tokens includeParams, x.2.1.ge simTh = false) := by
  have hlen2 : ∀ c ∈ clusterIDs.filterMap (fun id => d.live id),
      c.Tokens.length = tokens.length := by
    intro c hc
    obtain ⟨id, hid, hl⟩ := List.mem_filterMap.mp hc
    exact hlen id hid c hl
  rw [fastMatch_eq, selectLoop_eq d tokens includeParams _ _ hlen2]
  simp only
  have hL : (clusterIDs.filterMap (fun id => d.live id)).filterMap
      (d.score tokens includeParams) = d.candidates clusterIDs tokens includeParams := rfl
  rw [hL]
  generalize hLdef : d.candidates clusterIDs tokens includeParams = L
  have hmem : ∀ x ∈ L, (∃ id ∈ clusterIDs, d.live id = some x.1) ∧
      x.2.1.den = tokens.length ∧ 0 ≤ x.2.1.num := by
    intro x hx
    rw [← hLdef] at hx
    obtain ⟨h1, h2, h3, _⟩ := candidates_mem d clusterIDs tokens includeParams x hx
    exact ⟨h1, h2, h3⟩
  refine ⟨_, _, rfl, ?_⟩
  by_cases hn : tokens.length = 0
  · have hnan : ∀ x ∈ L, x.2.1.den = 0 := fun x hx => by rw [(hmem x hx).2.1, hn]
    rw [pickLoop_nan L _ hnan]
    simp only [ite_self]
    refine ⟨fun c hc => by simp at hc, fun _ x hx => F64_ge_nan _ _ (hnan x hx)⟩
  · have hval : ∀ x ∈ L, x.2.1.den ≠ 0 := fun x hx => by rw [(hmem x hx).2.1]; exact hn
    rcases pickLoop_spec L { maxSim := ⟨-1, 1⟩, maxParamCount := -1, maxCluster := none }
      hval (by decide) with ⟨h1, h2⟩ | ⟨i, c, h1, h2, h3, h4, h5⟩
    · rw [h1]
      simp only [ite_self]
      refine ⟨fun c hc => by simp at hc, fun _ x hx => ?_⟩
      exfalso
      apply h2 x hx
      left
      have hd := hval x hx
      have hnum := (hmem x hx).2.2
      unfold F64.gt
      simp only [bne_iff_ne, ne_eq, hd, not_false_eq_true, decide_True, Bool.true_and,
        Bool.and_eq_true, decide_eq_true_eq, one_ne_zero]
      have : (0 : Int) < (x.2.1.den : Int) := by
        exact_mod_cast Nat.pos_of_ne_zero hd
      constructor
      · trivial
      · push_cast
        nlinarith
    · by_cases hge : (pickLoop L
          { maxSim := ⟨-1, 1⟩, maxParamCount := -1, maxCluster := none }).maxSim.ge simTh = true
      · rw [if_pos hge, h2]
        refine ⟨fun c2 hc2 => ?_, fun hnone => by simp at hnone⟩
        simp only [Option.some.injEq] at hc2
        subst hc2
        have hin := List.getElem?_mem h1
        exact ⟨(hmem _ hin).1, i, _, _, h1, hge, h5, h4⟩
      · rw [if_neg hge]
        refine ⟨fun c2 hc2 => by simp at hc2, fun _ x hx => ?_⟩
        have hin := List.getElem?_mem h1
        have hbd := hval _ hin
        cases hxge : x.2.1.ge simTh with
        | false => rfl
        | true =>
          exact absurd (ge_of_not_beats (x.2.1, x.2.2) _ simTh (hval x hx) hbd (h5 x hx) hxge) hge

/-! ## The engine: effects on the store -/

theorem Touched.rfl (c : LogClusterCache) : Touched c c :=
  ⟨fun _ => Eq.refl _, fun _ h => h, Eq.refl _⟩

theorem Touched.trans (a b c : LogClusterCache) (h1 : Touched a b) (h2 : Touched b c) :
    Touched a c :=
  ⟨fun k => (h2.peek k).trans (h1.peek k), fun e h => h1.mem e (h2.mem e h),
    h2.size.trans h1.size⟩

theorem touchAll_touched (c : LogClusterCache) (ids : List Nat) : Touched c (touchAll c ids) :=
  ⟨touchAll_peek ids c, touchAll_mem ids c, touchAll_size ids c⟩

theorem cGet_touched (c : LogClusterCache) (id : Nat) : Touched c (c.Get id).1 :=
  ⟨cGet_peek c id, cGet_mem c id, cGet_size c id⟩

theorem selectLoop_len (d : Drain) (tokens : List String) (inc : Bool) :
    ∀ (cands : List LogCluster) (best b : Best),
    d.selectLoop tokens inc cands best = .ok b →
    ∀ c ∈ cands, c.Tokens.length = tokens.length := by
  intro cands
  induction cands with
  | nil => intro _ _ _ c hc; simp at hc
  | cons x rest ih =>
    intro best b h c hc
    by_cases hx : x.Tokens.length = tokens.length
    · rcases List.mem_cons.mp hc with hc | hc
      · rw [hc]; exact hx
      · simp only [Drain.selectLoop] at h
        cases hd : d.getSeqDistance x.Tokens tokens inc with
        | error e => rw [hd] at h; simp at h
        | ok r =>
          obtain ⟨s, p⟩ := r
          rw [hd] at h
          simp only at h
          by_cases h1 : p < 0
          · rw [if_pos h1] at h; exact ih _ _ h c hc
          · rw [if_neg h1] at h
            by_cases h2 : (s.gt best.maxSim ||
                (s.eq best.maxSim && decide (p > best.maxParamCount))) = true
            · rw [if_pos h2] at h; exact ih _ _ h c hc
            · rw [if_neg h2] at h; exact ih _ _ h c hc
    · simp only [Drain.selectLoop] at h
      rw [getSeqDistance_error d _ _ inc hx] at h
      simp at h

/-- A call of `fastMatch` that returns has met no length mismatch. -/
theorem fastMatch_len (d : Drain) (ids : List Nat) (tokens : List String) (simTh : F64)
    (inc : Bool) (cache : LogClusterCache) (r : Option LogCluster)
    (h : d.fastMatch ids tokens simTh inc = .ok (cache, r)) :
    ∀ id ∈ ids, ∀ c, d.live id = some c → c.Tokens.length = tokens.length := by
  rw [fastMatch_eq] at h
  intro id hid c hc
  cases hs : d.selectLoop tokens inc (ids.filterMap (fun id => d.live id))
      { maxSim := ⟨-1, 1⟩, maxParamCount := -1, maxCluster := none } with
  | error e => rw [hs] at h; simp at h
  | ok b =>
    exact selectLoop_len d tokens inc _ _ b hs c (List.mem_filterMap.mpr ⟨id, hid, hc⟩)

theorem fastMatch_touched (d : Drain) (ids : List Nat) (tokens : List String) (simTh : F64)
    (inc : Bool) (cache : LogClusterCache) (r : Option LogCluster)
    (h : d.fastMatch ids tokens simTh inc = .ok (cache, r)) :
    cache = touchAll d.idToCluster ids := by
  rw [fastMatch_eq] at h
  cases hs : d.selectLoop tokens inc (ids.filterMap (fun id => d.live id))
      { maxSim := ⟨-1, 1⟩, maxParamCount := -1, maxCluster := none } with
  | error e => rw [hs] at h; simp at h
  | ok b =>
    rw [hs] at h
    simp only [Except.ok.injEq, Prod.mk.injEq] at h
    exact h.1.symm

/-- What a returning `treeSearch` has done: nothing, one `Get` on the single candidate of
the empty sequence, or `fastMatch` on the candidates of a leaf. -/
theorem treeSearch_cases (d : Drain) (tokens : List String) (simTh : F64) (inc : Bool)
    (cache : LogClusterCache) (r : Option LogCluster)
    (h : d.treeSearch d.rootNode tokens simTh inc = .ok (cache, r)) :
    (cache = d.idToCluster ∧ r = none) ∨
    (tokens = [] ∧ ∃ id, cache = (d.idToCluster.Get id).1 ∧ r = d.live id) ∨
    (tokens ≠ [] ∧ ∃ ids, d.fastMatch ids tokens simTh inc = .ok (cache, r)) := by
  unfold Drain.treeSearch at h
  simp only at h
  cases hroot : mapGet d.rootNode.keyToChildNode (Itoa tokens.length) with
  | none =>
    rw [hroot] at h
    simp only [Except.ok.injEq, Prod.mk.injEq] at h
    exact Or.inl ⟨h.1.symm, h.2.symm⟩
  | some curNode =>
    rw [hroot] at h
    simp only at h
    by_cases hz : tokens.length = 0
    · rw [if_pos hz] at h
      cases hids : curNode.clusterIDs with
      | nil => rw [hids] at h; simp at h
      | cons id rest =>
        rw [hids] at h
        simp only [Except.ok.injEq] at h
        refine Or.inr (Or.inl ⟨List.length_eq_zero.mp hz, id, ?_, ?_⟩)
        · rw [h]
        · have h2 := cGet_snd d.idToCluster id
          rw [h] at h2
          exact h2
    · rw [if_neg hz] at h
      cases hleaf : d.searchLoop tokens.length tokens 1 curNode with
      | none =>
        rw [hleaf] at h
        simp only [Except.ok.injEq, Prod.mk.injEq] at h
        exact Or.inl ⟨h.1.symm, h.2.symm⟩
      | some leaf =>
        rw [hleaf] at h
        exact Or.inr (Or.inr ⟨fun h0 => hz (by rw [h0]; rfl), leaf.clusterIDs, h⟩)

theorem treeSearch_touched (d : Drain) (tokens : List String) (simTh : F64) (inc : Bool)
    (cache : LogClusterCache) (r : Option LogCluster)
    (h : d.treeSearch d.rootNode tokens simTh inc = .ok (cache, r)) :
    Touched d.idToCluster cache ∧ ∀ c, r = some c → ∃ id, d.live id = some c := by
  rcases treeSearch_cases d tokens simTh inc cache r h with
    ⟨h1, h2⟩ | ⟨_, id, h1, h2⟩ | ⟨_, ids, h1⟩
  · rw [h1, h2]; exact ⟨Touched.rfl _, fun c hc => by simp at hc⟩
  · rw [h1, h2]; exact ⟨cGet_touched _ _, fun c hc => ⟨id, hc⟩⟩
  · have hlen := fastMatch_len d ids tokens simTh inc cache r h1
    obtain ⟨cache2, r2, h2, h3, _⟩ := fastMatch_best d ids tokens simTh inc hlen
    rw [h1] at h2
    simp only [Except.ok.injEq, Prod.mk.injEq] at h2
    rw [fastMatch_touched d ids tokens simTh inc cache r h1]
    refine ⟨touchAll_touched _ _, fun c hc => ?_⟩
    obtain ⟨⟨id, _, hl⟩, _⟩ := h3 c (by rw [← h2.2]; exact hc)
    exact ⟨id, hl⟩

theorem attach_ok (cur : Node) (key : String) (below : Except String (Node × LogClusterCache))
    (node : Node) (cache : LogClusterCache) (h : attach cur key below = .ok (node, cache)) :
    ∃ child, below = .ok (child, cache) ∧
      node = .mk (mapSet cur.keyToChildNode key child) cur.clusterIDs := by
  unfold attach at h
  cases below with
  | error e => simp at h
  | ok r =>
    obtain ⟨child, c2⟩ := r
    simp only [Except.ok.injEq, Prod.mk.injEq] at h
    exact ⟨child, by rw [h.2], h.1.symm⟩

theorem addSeqLoop_touched (d : Drain) (isNumber : Char → Bool) (tokenCount clusterID : Nat) :
    ∀ (tokens : List String) (depth : Nat) (cur : Node) (cache : LogClusterCache)
      (node : Node) (cache2 : LogClusterCache),
    d.addSeqLoop isNumber tokenCount clusterID tokens depth cur cache = .ok (node, cache2) →
    Touched cache cache2 := by
  intro tokens
  induction tokens with
  | nil =>
    intro depth cur cache node cache2 h
    simp only [Drain.addSeqLoop, Except.ok.injEq, Prod.mk.injEq] at h
    rw [← h.2]; exact Touched.rfl _
  | cons token rest ih =>
    intro depth cur cache node cache2 h
    simp only [Drain.addSeqLoop] at h
    split at h
    · simp only [Except.ok.injEq, Prod.mk.injEq] at h
      rw [← h.2, pruneStale_eq]
      exact touchAll_touched _ _
    · split at h
      · obtain ⟨child, hb, _⟩ := attach_ok _ _ _ _ _ h
        exact ih _ _ _ _ _ hb
      · split at h
        · split at h
          · split at h
            · obtain ⟨child, hb, _⟩ := attach_ok _ _ _ _ _ h
              exact ih _ _ _ _ _ hb
            · obtain ⟨child, hb, _⟩ := attach_ok _ _ _ _ _ h
              exact ih _ _ _ _ _ hb
          · split at h
            · obtain ⟨child, hb, _⟩ := attach_ok _ _ _ _ _ h
              exact ih _ _ _ _ _ hb
            · split at h
              · obtain ⟨child, hb, _⟩ := attach_ok _ _ _ _ _ h
                exact ih _ _ _ _ _ hb
              · split at h
                · simp only [Except.ok.injEq, Prod.mk.injEq] at h
                  rw [← h.2]; exact Touched.rfl _
                · simp at h
        · split at h
          · obtain ⟨child, hb, _⟩ := attach_ok _ _ _ _ _ h
            exact ih _ _ _ _ _ hb
          · obtain ⟨child, hb, _⟩ := attach_ok _ _ _ _ _ h
            exact ih _ _ _ _ _ hb

theorem addSeqToPrefixTree_touched (d : Drain) (isNumber : Char → Bool) (root : Node)
    (cluster : LogCluster) (node : Node) (cache2 : LogClusterCache)
    (h : d.addSeqToPrefixTree isNumber root cluster = .ok (node, cache2)) :
    Touched d.idToCluster cache2 := by
  unfold Drain.addSeqToPrefixTree at h
  simp only at h
  split at h
  · simp only [Except.ok.injEq, Prod.mk.injEq] at h
    rw [← h.2]; exact Touched.rfl _
  · obtain ⟨child, hb, _⟩ := attach_ok _ _ _ _ _ h
    exact addSeqLoop_touched d isNumber _ _ _ _ _ _ _ _ hb

/-- The two ways a returning `train` can go: a miss creates cluster `clustersCounter + 1`
and inserts it, a hit generalises the matched cluster in place. -/
theorem train_cases (d : Drain) (isNumber : Char → Bool) (content : String)
    (tokens : List String) (stringer : Option (List String → String)) (ts : Int)
    (d1 : Drain) (c : LogCluster)
    (h : d.train isNumber content tokens stringer ts = .ok (d1, c)) :
    (∃ cache root cache2,
      d.treeSearch d.rootNode tokens d.config.SimTh false = .ok (cache, none) ∧
      c = { Tokens := tokens, id := d.clustersCounter + 1, Size := 1, Stringer := stringer,
            Samples := [content], Volume := initVolume (TimeFromUnixNano ts) } ∧
      Drain.addSeqToPrefixTree
        { d with clustersCounter := d.clustersCounter + 1,
                 idToCluster := cache.Set (d.clustersCounter + 1) c }
        isNumber d.rootNode c = .ok (root, cache2) ∧
      d1 = { config := d.config, rootNode := root, idToCluster := cache2,
             clustersCounter := d.clustersCounter + 1 }) ∨
    (∃ cache mc tmpl v,
      d.treeSearch d.rootNode tokens d.config.SimTh false = .ok (cache, some mc) ∧
      d.createTemplate tokens mc.Tokens = .ok tmpl ∧
      mc.Volume.Add (TimeFromUnixNano ts) = .ok v ∧
      c = { mc with Tokens := tmpl, Size := mc.Size + 1, Volume := v,
                    Samples := if mc.Samples.length < maxSamples then mc.Samples ++ [content]
                               else mc.Samples } ∧
      d1 = { d with idToCluster := ((cache.store c).Get c.id).1 }) := by
  unfold Drain.train at h
  cases hts : d.treeSearch d.rootNode tokens d.config.SimTh false with
  | error e => rw [hts] at h; simp at h
  | ok r =>
    obtain ⟨cache, m⟩ := r
    rw [hts] at h
    cases m with
    | none =>
      simp only at h
      left
      split at h
      · simp at h
      · rename_i root cache2 hadd
        simp only [Except.ok.injEq, Prod.mk.injEq] at h
        exact ⟨cache, root, cache2, rfl, h.2.symm, by rw [← h.2]; exact hadd, h.1.symm⟩
    | some mc =>
      simp only at h
      right
      cases hct : d.createTemplate tokens mc.Tokens with
      | error e => rw [hct] at h; simp at h
      | ok tmpl =>
        rw [hct] at h
        simp only [LogCluster.append] at h
        cases hadd : mc.Volume.Add (TimeFromUnixNano ts) with
        | error e => rw [hadd] at h; simp at h
        | ok v =>
          rw [hadd] at h
          simp only [Except.ok.injEq, Prod.mk.injEq] at h
          exact ⟨cache, mc, tmpl, v, rfl, hct, hadd, h.2.symm, by rw [← h.2]; exact h.1.symm⟩

/-! ## Templates -/

theorem zipWith_template (wild : String) : ∀ (tokens template : List String),
    tokens.length = template.length →
    (List.zipWith (fun t m => if t ≠ m then wild else m) tokens template).length
        = template.length ∧
    ∀ (i : Nat) (a b : String), tokens[i]? = some a → template[i]? = some b →
      (List.zipWith (fun t m => if t ≠ m then wild else m) tokens template)[i]?
        = some (if a ≠ b then wild else b) := by
  intro tokens
  induction tokens with
  | nil =>
    intro template hl
    have : template = [] := List.length_eq_zero.mp hl.symm
    subst this
    exact ⟨by simp, fun i a b h => by simp at h⟩
  | cons t ts ih =>
    intro template hlen
    cases template with
    | nil => simp at hlen
    | cons m ms =>
      simp only [List.length_cons, Nat.add_right_cancel_iff] at hlen
      obtain ⟨i1, i2⟩ := ih ms hlen
      refine ⟨by simp only [List.zipWith_cons_cons, List.length_cons, i1], ?_⟩
      intro i a b ha hb
      cases i with
      | zero =>
        simp only [List.getElem?_cons_zero, Option.some.injEq] at ha hb
        simp only [List.zipWith_cons_cons, List.getElem?_cons_zero, ha, hb]
      | succ i =>
        simp only [List.getElem?_cons_succ] at ha hb
        simp only [List.zipWith_cons_cons, List.getElem?_cons_succ]
        exact i2 i a b ha hb

theorem createTemplate_ok (d : Drain) (tokens template : List String)
    (hlen : tokens.length = template.length) :
    d.createTemplate tokens template =
      .ok (List.zipWith (fun t m => if t ≠ m then d.config.ParamString else m)
        tokens template) := by
  unfold Drain.createTemplate
  rw [if_neg (by simpa using hlen)]

theorem createTemplate_len (d : Drain) (tokens template r : List String)
    (h : d.createTemplate tokens template = .ok r) : tokens.length = template.length := by
  unfold Drain.createTemplate at h
  by_cases hl : tokens.length = template.length
  · exact hl
  · rw [if_pos hl] at h; simp at h

theorem createTemplate_generalises (d : Drain) (tokens template r : List String)
    (h : d.createTemplate tokens template = .ok r) :
    generalises d.config.ParamString template r := by
  have hlen := createTemplate_len d tokens template r h
  rw [createTemplate_ok d tokens template hlen] at h
  simp only [Except.ok.injEq] at h
  obtain ⟨h1, h2⟩ := zipWith_template d.config.ParamString tokens template hlen
  rw [← h]
  refine ⟨h1, fun i hi => ?_⟩
  have hi2 : i < template.length := (List.getElem?_eq_some_iff.mp hi).1
  have hi3 : i < tokens.length := by omega
  rw [h2 i tokens[i] d.config.ParamString (List.getElem?_eq_getElem hi3) hi]
  simp

theorem generalises_refl (wild : String) (t : List String) : generalises wild t t :=
  ⟨rfl, fun _ h => h⟩

theorem generalises_trans (wild : String) (a b c : List String) (h1 : generalises wild a b)
    (h2 : generalises wild b c) : generalises wild a c :=
  ⟨h2.1.trans h1.1, fun i h => h2.2 i (h1.2 i h)⟩

/-! ## The store in reachable states -/

theorem initVolume_ok (ts : Int) : (initVolume ts).Values ≠ [] ∧ (initVolume ts).Ordered := by
  unfold initVolume Volume.Ordered Volume.timestamps
  simp

theorem StoreOk_touched (d d1 : Drain) (h : StoreOk d)
    (ht : Touched d.idToCluster d1.idToCluster) (hc : d.clustersCounter ≤ d1.clustersCounter) :
    StoreOk d1 :=
  ⟨fun e he => h.keyId e (ht.mem e he),
   fun e he => le_trans (h.fresh e (ht.mem e he)) hc,
   fun e he => h.volume e (ht.mem e he)⟩

theorem live_keyId (d : Drain) (h : StoreOk d) (id : Nat) (c : LogCluster)
    (hl : d.live id = some c) : c.id = id :=
  h.keyId (id, c) (Peek_mem _ _ _ hl)

theorem StoreOk_New (config : Config) (d : Drain) (h : New config = .ok d) : StoreOk d := by
  unfold New at h
  split at h
  · simp at h
  · simp only [Except.ok.injEq] at h
    rw [← h]
    refine ⟨?_, ?_, ?_⟩ <;> intro e he <;> simp [createLogClusterCache] at he

theorem StoreOk_train (d : Drain) (isNumber : Char → Bool) (content : String)
    (tokens : List String) (stringer : Option (List String → String)) (ts : Int)
    (d1 : Drain) (c : LogCluster) (hs : StoreOk d)
    (h : d.train isNumber content tokens stringer ts = .ok (d1, c)) : StoreOk d1 := by
  rcases train_cases d isNumber content tokens stringer ts d1 c h with
    ⟨cache, root, cache2, h1, h2, h3, h4⟩ | ⟨cache, mc, tmpl, v, h1, h2, h3, h4, h5⟩
  · have ht1 := (treeSearch_touched d tokens _ _ cache none h1).1
    have ht2 := addSeqToPrefixTree_touched _ isNumber _ _ _ _ h3
    have hmem : ∀ e ∈ d1.idToCluster.cache.entries,
        e = (d.clustersCounter + 1, c) ∨ e ∈ d.idToCluster.cache.entries := by
      intro e he
      rw [h4] at he
      rcases Add_entries_mem _ _ _ _ (ht2.mem e he) with h | h
      · exact Or.inl h
      · exact Or.inr (ht1.mem e h)
    have hcnt : d1.clustersCounter = d.clustersCounter + 1 := by rw [h4]
    refine ⟨fun e he => ?_, fun e he => ?_, fun e he => ?_⟩
    · rcases hmem e he with h | h
      · rw [h, h2]
      · exact hs.keyId e h
    · rcases hmem e he with h | h
      · rw [h, hcnt]
      · rw [hcnt]; exact Nat.le_succ_of_le (hs.fresh e h)
    · rcases hmem e he with h | h
      · rw [h, h2]; exact initVolume_ok _
      · exact hs.volume e h
  · obtain ⟨ht1, hlive⟩ := treeSearch_touched d tokens _ _ cache (some mc) h1
    obtain ⟨id, hid⟩ := hlive mc rfl
    have hmc : (id, mc) ∈ d.idToCluster.cache.entries := Peek_mem _ _ _ hid
    have hcid : c.id = mc.id := by rw [h4]
    have hmem : ∀ e ∈ d1.idToCluster.cache.entries,
        e ∈ d.idToCluster.cache.entries ∨
        (e = (c.id, c) ∧ ∃ old, (c.id, old) ∈ d.idToCluster.cache.entries) := by
      intro e he
      rw [h5] at he
      rcases store_entries_mem _ _ _ (cGet_mem _ _ _ he) with h | ⟨h, old, ho⟩
      · exact Or.inl (ht1.mem e h)
      · exact Or.inr ⟨h, old, ht1.mem _ ho⟩
    have hcnt : d1.clustersCounter = d.clustersCounter := by rw [h5]
    refine ⟨fun e he => ?_, fun e he => ?_, fun e he => ?_⟩
    · rcases hmem e he with h | ⟨h, _⟩
      · exact hs.keyId e h
      · rw [h]
    · rcases hmem e he with h | ⟨h, old, ho⟩
      · rw [hcnt]; exact hs.fresh e h
      · rw [h, hcnt]; exact hs.fresh (c.id, old) ho
    · rcases hmem e he with h | ⟨h, _⟩
      · exact hs.volume e h
      · obtain ⟨y, hy, hne, hord, _⟩ :=
          Add_ordered mc.Volume (TimeFromUnixNano ts) (hs.volume _ hmc).1 (hs.volume _ hmc).2
        rw [h3] at hy
        simp only [Except.ok.injEq] at hy
        rw [h, h4]
        simp only
        rw [hy]
        exact ⟨hne, hord⟩

theorem Match_touched (d d1 : Drain) (content : String) (r : Option LogCluster)
    (h : d.Match content = .ok (d1, r)) :
    Touched d.idToCluster d1.idToCluster ∧ d1.clustersCounter = d.clustersCounter ∧
      d1.rootNode = d.rootNode ∧ d1.config = d.config ∧
      d.treeSearch d.rootNode (d.getContentAsTokens content) ⟨1, 1⟩ true
        = .ok (d1.idToCluster, r) := by
  unfold Drain.Match at h
  cases hts : d.treeSearch d.rootNode (d.getContentAsTokens content) ⟨1, 1⟩ true with
  | error e => rw [hts] at h; simp at h
  | ok x =>
    obtain ⟨cache, m⟩ := x
    rw [hts] at h
    simp only [Except.ok.injEq, Prod.mk.injEq] at h
    have ht := (treeSearch_touched d _ _ _ cache m hts).1
    rw [← h.1, ← h.2]
    exact ⟨ht, rfl, rfl, rfl, rfl⟩

theorem StoreOk_step (isNumber : Char → Bool) (d d1 : Drain) (hs : StoreOk d)
    (h : Step isNumber d d1) : StoreOk d1 := by
  cases h with
  | train content tokens stringer ts c h => exact StoreOk_train d isNumber _ _ _ _ d1 c hs h
  | lookup content r h =>
    obtain ⟨h1, h2, _⟩ := Match_touched d d1 content r h
    exact StoreOk_touched d d1 hs h1 (le_of_eq h2.symm)

theorem StoreOk_reachable (isNumber : Char → Bool) (d : Drain) (h : Reachable isNumber d) :
    StoreOk d := by
  induction h with
  | new config d h => exact StoreOk_New config d h
  | step d d1 _ hstep ih => exact StoreOk_step isNumber d d1 ih hstep

/-- One `train` call keeps every cluster that stays live under its id, with a template
that generalises the one it had; its own id is the only new one. -/
theorem train_templates (d : Drain) (isNumber : Char → Bool) (content : String)
    (tokens : List String) (stringer : Option (List String → String)) (ts : Int)
    (d1 : Drain) (c : LogCluster) (hs : StoreOk d)
    (h : d.train isNumber content tokens stringer ts = .ok (d1, c)) :
    d.clustersCounter ≤ d1.clustersCounter ∧ d1.config = d.config ∧
    ∀ id c2, id ≤ d.clustersCounter → d1.live id = some c2 →
      ∃ c1, d.live id = some c1 ∧ generalises d.config.ParamString c1.Tokens c2.Tokens := by
  rcases train_cases d isNumber content tokens stringer ts d1 c h with
    ⟨cache, root, cache2, h1, h2, h3, h4⟩ | ⟨cache, mc, tmpl, v, h1, h2, h3, h4, h5⟩
  · have ht1 := (treeSearch_touched d tokens _ _ cache none h1).1
    have ht2 := addSeqToPrefixTree_touched _ isNumber _ _ _ _ h3
    refine ⟨by rw [h4]; exact Nat.le_succ _, by rw [h4], fun id c2 hid hl => ?_⟩
    have hl2 : cache2.cache.Peek id = some c2 := by rw [h4] at hl; exact hl
    rw [ht2.peek id] at hl2
    rcases Peek_Add _ _ _ _ _ hl2 with ⟨h5, _⟩ | ⟨_, h5⟩
    · omega
    · rw [ht1.peek id] at h5
      exact ⟨c2, h5, generalises_refl _ _⟩
  · obtain ⟨ht1, hlive⟩ := treeSearch_touched d tokens _ _ cache (some mc) h1
    obtain ⟨id0, hid0⟩ := hlive mc rfl
    have hkey := live_keyId d hs id0 mc hid0
    have hcid : c.id = mc.id := by rw [h4]
    have htok : c.Tokens = tmpl := by rw [h4]
    refine ⟨by rw [h5], by rw [h5], fun id c2 hid hl => ?_⟩
    have hl2 : ((cache.store c).Get c.id).1.cache.Peek id = some c2 := by
      rw [h5] at hl; exact hl
    rw [cGet_peek, Peek_store, ht1.peek id] at hl2
    by_cases hic : id = c.id
    · rw [if_pos hic] at hl2
      have hmc : d.idToCluster.cache.Peek id = some mc := by
        rw [hic, hcid, hkey]; exact hid0
      rw [hmc] at hl2
      simp only [Option.map_some', Option.some.injEq] at hl2
      refine ⟨mc, hmc, ?_⟩
      rw [← hl2, htok]
      exact createTemplate_generalises d tokens mc.Tokens tmpl h2
    · rw [if_neg hic] at hl2
      exact ⟨c2, hl2, generalises_refl _ _⟩

theorem step_templates (isNumber : Char → Bool) (d d1 : Drain) (hs : StoreOk d)
    (h : Step isNumber d d1) :
    d.clustersCounter ≤ d1.clustersCounter ∧ d1.config = d.config ∧
    ∀ id c2, id ≤ d.clustersCounter → d1.live id = some c2 →
      ∃ c1, d.live id = some c1 ∧ generalises d.config.ParamString c1.Tokens c2.Tokens := by
  cases h with
  | train content tokens stringer ts c h =>
    exact train_templates d isNumber _ _ _ _ d1 c hs h
  | lookup content r h =>
    obtain ⟨h1, h2, _, h3, _⟩ := Match_touched d d1 content r h
    refine ⟨le_of_eq h2.symm, h3, fun id c2 _ hl => ⟨c2, ?_, generalises_refl _ _⟩⟩
    have := h1.peek id
    unfold Drain.live at hl ⊢
    rw [← this]; exact hl

theorem steps_templates (isNumber : Char → Bool) (d d1 : Drain) (hs : StoreOk d)
    (h : Steps isNumber d d1) :
    StoreOk d1 ∧ d.clustersCounter ≤ d1.clustersCounter ∧ d1.config = d.config ∧
    ∀ id c2, id ≤ d.clustersCounter → d1.live id = some c2 →
      ∃ c1, d.live id = some c1 ∧ generalises d.config.ParamString c1.Tokens c2.Tokens := by
  induction h with
  | refl => exact ⟨hs, le_refl _, rfl, fun id c2 _ hl => ⟨c2, hl, generalises_refl _ _⟩⟩
  | tail d1 d2 _ hstep ih =>
    obtain ⟨i1, i2, i3, i4⟩ := ih
    obtain ⟨s1, s2, s3⟩ := step_templates isNumber d1 d2 i1 hstep
    refine ⟨StoreOk_step isNumber d1 d2 i1 hstep, le_trans i2 s1, s2.trans i3, ?_⟩
    intro id c2 hid hl
    obtain ⟨cm, hcm, hg2⟩ := s3 id c2 (le_trans hid i2) hl
    obtain ⟨c1, hc1, hg1⟩ := i4 id cm hid hcm
    rw [i3] at hg2
    exact ⟨c1, hc1, generalises_trans _ _ _ _ hg1 hg2⟩

/-! ## A first insertion and the search that follows it -/

theorem splitSpace_ne_nil : ∀ (s : List Char), splitSpace s ≠ [] := by
  intro s
  induction s with
  | nil => simp [splitSpace]
  | cons c s ih =>
    simp only [splitSpace]
    split
    · simp
    · split <;> simp

theorem getContentAsTokens_ne_nil (d : Drain) (content : String) :
    d.getContentAsTokens content ≠ [] := by
  unfold Drain.getContentAsTokens
  simp only [ne_eq, List.map_eq_nil_iff]
  exact splitSpace_ne_nil _

theorem literalMatches_plain (wild : String) : ∀ (a b : List String),
    (∀ t ∈ a, t ≠ wild) → literalMatches wild a b = equalPositions a b := by
  intro a
  induction a with
  | nil => intro b _; simp [literalMatches, equalPositions]
  | cons x a ih =>
    intro b h
    cases b with
    | nil => simp [literalMatches, equalPositions]
    | cons y b =>
      have hx : x ≠ wild := h x (List.mem_cons_self _ _)
      have ha : ∀ t ∈ a, t ≠ wild := fun t ht => h t (List.mem_cons_of_mem _ ht)
      rw [literalMatches_cons, ih b ha]
      unfold equalPositions
      simp only [List.zip_cons_cons, List.filter_cons]
      by_cases hxy : x = y
      · rw [if_pos ⟨hx, hxy⟩, if_pos (decide_eq_true hxy), List.length_cons]; omega
      · rw [if_neg (fun h2 => hxy h2.2), if_neg (by simpa using hxy)]; omega

theorem paramPositions_plain (wild : String) : ∀ (a : List String),
    (∀ t ∈ a, t ≠ wild) → paramPositions wild a = 0 := by
  intro a
  induction a with
  | nil => intro _; rfl
  | cons x a ih =>
    intro h
    rw [paramPositions_cons, if_neg (h x (List.mem_cons_self _ _)),
      ih (fun t ht => h t (List.mem_cons_of_mem _ ht))]

theorem not_pinned_plain (a b : List String) (h : ∀ t ∈ a, isMarked t = false) :
    ¬ pinnedMismatch a b := by
  rintro ⟨p, hp, hm, _⟩
  have := h p.1 (List.of_mem_zip hp).1
  rw [this] at hm
  exact absurd hm (by simp)

theorem pruneStale_nil (cache : LogClusterCache) : pruneStale cache [] = (cache, []) := rfl

/-- Inserting a sequence below a fresh node builds a chain, and the search for any
sequence that agrees with it on the tokens above the terminal node walks that chain to
the node holding the new id. -/
theorem insert_then_search (d : Drain) (isNumber : Char → Bool) (n id : Nat)
    (hmc : 1 ≤ d.config.MaxChildren) :
    ∀ (ts : List String) (depth : Nat) (cache : LogClusterCache),
    depth + ts.length = n + 1 → ts ≠ [] →
    ∃ chain, d.addSeqLoop isNumber n id ts depth createNode cache = .ok (chain, cache) ∧
      ∀ (d1 : Drain) (ts1 : List String), d1.config = d.config → ts1.length = ts.length →
        (∀ i : Nat, ((depth + i : Nat) : Int) < d.config.maxNodeDepth → depth + i < n →
          ts[i]? = ts1[i]?) →
        ∃ leaf, d1.searchLoop n ts1 depth chain = some leaf ∧ leaf.clusterIDs = [id] := by
  intro ts
  induction ts with
  | nil => intro depth cache _ h; exact absurd rfl h
  | cons token rest ih =>
    intro depth cache hrel _
    simp only [List.length_cons] at hrel
    by_cases hterm : (depth : Int) ≥ d.config.maxNodeDepth ∨ depth ≥ n
    · refine ⟨.mk [] [id], ?_, ?_⟩
      · simp only [Drain.addSeqLoop]
        rw [if_pos hterm]
        rfl
      · intro d1 ts1 hcfg hlen _
        cases ts1 with
        | nil => simp at hlen
        | cons t1 r1 =>
          simp only [Drain.searchLoop, hcfg]
          by_cases h1 : (depth : Int) ≥ d.config.maxNodeDepth
          · rw [if_pos h1]; exact ⟨_, rfl, rfl⟩
          · rw [if_neg h1]
            have h2 : depth = n := by
              rcases hterm with h | h
              · exact absurd h h1
              · omega
            rw [if_pos h2]; exact ⟨_, rfl, rfl⟩
    · have hd1 : ¬ ((depth : Int) ≥ d.config.maxNodeDepth) := fun h => hterm (Or.inl h)
      have hd2 : ¬ depth ≥ n := fun h => hterm (Or.inr h)
      have hrest : rest ≠ [] := by
        intro h
        rw [h] at hrel
        simp at hrel
        omega
      obtain ⟨chain, hins, hsearch⟩ := ih (depth + 1) cache (by omega) hrest
      -- the key under which the chain is attached
      have hkey : ∃ key, (key = token ∨ key = d.config.ParamString) ∧
          d.addSeqLoop isNumber n id (token :: rest) depth createNode cache =
            .ok (.mk [(key, chain)] [], cache) := by
        simp only [Drain.addSeqLoop]
        rw [if_neg hterm]
        have hg : ∀ k, mapGet createNode.keyToChildNode k = none := fun _ => rfl
        simp only [hg]
        by_cases hnum : hasNumbers isNumber token = true
        · refine ⟨d.config.ParamString, Or.inr rfl, ?_⟩
          simp only [hnum, Bool.not_true, Bool.false_eq_true, if_false, hins]
          rfl
        · simp only [hnum, Bool.not_false, if_true]
          have hlen0 : ((createNode.keyToChildNode.length : Nat) : Int) = 0 := rfl
          rw [hlen0]
          by_cases h2 : (0 : Int) + 1 < d.config.MaxChildren
          · refine ⟨token, Or.inl rfl, ?_⟩
            rw [if_pos h2, hins]
            rfl
          · refine ⟨d.config.ParamString, Or.inr rfl, ?_⟩
            have h3 : (0 : Int) + 1 = d.config.MaxChildren := by omega
            rw [if_neg h2, if_pos h3, hins]
            rfl
      obtain ⟨key, hk, hres⟩ := hkey
      refine ⟨_, hres, ?_⟩
      intro d1 ts1 hcfg hlen hagree
      cases ts1 with
      | nil => simp at hlen
      | cons t1 r1 =>
        simp only [List.length_cons, Nat.add_right_cancel_iff] at hlen
        have h0 := hagree 0 (by simpa using (not_le.mp hd1)) (by omega)
        simp only [List.getElem?_cons_zero, Option.some.injEq] at h0
        have hnext := hsearch d1 r1 hcfg hlen (by
          intro i hi1 hi2
          have := hagree (i + 1) (by
            have e : depth + (i + 1) = depth + 1 + i := by omega
            rw [e]; exact hi1) (by omega)
          simpa using this)
        simp only [Drain.searchLoop, hcfg]
        rw [if_neg hd1, if_neg (by omega)]
        simp only [Node.keyToChildNode, mapGet]
        by_cases hkt : key = t1
        · rw [if_pos hkt]
          exact hnext
        · rw [if_neg hkt]
          have hkw : key = d.config.ParamString := by
            rcases hk with h | h
            · exact absurd (h.trans h0) hkt
            · exact h
          rw [if_pos hkw]
          exact hnext

/-- The first `train` on an engine with an empty tree and an empty store: it creates
cluster `counter + 1`, stores it, and hangs a chain for it under the branch of its token
count; a search for a sequence that agrees with `a` above the terminal node ends at the
node that holds the new id. -/
theorem first_train (isNumber : Char → Bool) (config : Config) (size counter : Nat)
    (content : String) (a : List String) (stringer : Option (List String → String)) (ts : Int)
    (hsize : 1 ≤ size) (hmc : 1 ≤ config.MaxChildren) (ha : a ≠ []) :
    ∃ chain,
      Drain.train ⟨config, createNode, emptyStore size, counter⟩ isNumber content a stringer ts
        = .ok (⟨config, branchOf a.length chain,
                storeOf size (freshCluster (counter + 1) content a stringer ts), counter + 1⟩,
               freshCluster (counter + 1) content a stringer ts) ∧
      ∀ (d1 : Drain) (b : List String), d1.config = config → b.length = a.length →
        (∀ i : Nat, ((1 + i : Nat) : Int) < config.maxNodeDepth → 1 + i < a.length →
          a[i]? = b[i]?) →
        ∃ leaf, d1.searchLoop a.length b 1 chain = some leaf ∧
          leaf.clusterIDs = [counter + 1] := by
  have hn : a.length ≠ 0 := fun h => ha (List.length_eq_zero.mp h)
  have hset : (emptyStore size).Set (counter + 1)
      (freshCluster (counter + 1) content a stringer ts) =
      storeOf size (freshCluster (counter + 1) content a stringer ts) := by
    simp only [LogClusterCache.Set, LRU.Add, LRU.Peek, lruFind, List.length_singleton,
      emptyStore, storeOf]
    rw [if_neg (by omega)]
    rfl
  obtain ⟨chain, hins, hsearch⟩ := insert_then_search
    ⟨config, createNode, storeOf size (freshCluster (counter + 1) content a stringer ts),
      counter + 1⟩ isNumber a.length (counter + 1) hmc a 1
    (storeOf size (freshCluster (counter + 1) content a stringer ts)) (by omega) ha
  refine ⟨chain, ?_, fun d1 b hcfg hlen hagree => hsearch d1 b hcfg hlen hagree⟩
  have hts : Drain.treeSearch ⟨config, createNode, emptyStore size, counter⟩ createNode a
      config.SimTh false = .ok (emptyStore size, none) := rfl
  have hadd : Drain.addSeqToPrefixTree
      ⟨config, createNode, storeOf size (freshCluster (counter + 1) content a stringer ts),
        counter + 1⟩ isNumber createNode (freshCluster (counter + 1) content a stringer ts) =
      .ok (branchOf a.length chain,
        storeOf size (freshCluster (counter + 1) content a stringer ts)) := by
    unfold Drain.addSeqToPrefixTree
    have hl : (freshCluster (counter + 1) content a stringer ts).Tokens = a := rfl
    have hi : (freshCluster (counter + 1) content a stringer ts).id = counter + 1 := rfl
    have hg : mapGet createNode.keyToChildNode (Itoa a.length) = none := rfl
    simp only [hl, hi, if_neg hn, hg, hins]
    rfl
  unfold Drain.train
  simp only [hts]
  have hfresh : (LogCluster.mk (counter + 1) 1 a stringer [content]
      (initVolume (TimeFromUnixNano ts))) =
      freshCluster (counter + 1) content a stringer ts := rfl
  simp only [hfresh, hset, hadd]

/-- The store after a hit on its single record. -/
theorem single_store (size : Nat) (c c2 : LogCluster) (hid : c2.id = c.id) :
    (((touchAll (storeOf size c) [c.id]).store c2).Get c2.id).1 = storeOf size c2 := by
  simp [touchAll, LogClusterCache.Get, LRU.Get, LRU.Peek, lruFind, LRU.without, lruErase,
    LogClusterCache.store, lruReplace, hid, storeOf]

/-- The second `train`, on a state with the single cluster `c`, with a sequence whose
search ends at the node holding `c`: the cluster is matched and generalised. -/
theorem second_train (isNumber : Char → Bool) (config : Config) (size counter : Nat)
    (chain leaf : Node) (c : LogCluster) (content : String) (a b : List String)
    (stringer : Option (List String → String)) (ts : Int) (q : ℚ)
    (ha : a ≠ []) (hlen : a.length = b.length) (hc : c.Tokens = a)
    (hvol : c.Volume.Values ≠ [] ∧ c.Volume.Ordered)
    (hsearch : Drain.searchLoop ⟨config, branchOf a.length chain, storeOf size c, counter⟩
      a.length b 1 chain = some leaf)
    (hleaf : leaf.clusterIDs = [c.id])
    (hnw : ∀ t ∈ a, t ≠ config.ParamString) (hnul : ∀ t ∈ a, isMarked t = false)
    (hq : config.SimTh.toRat = some q) (hsim : q * a.length ≤ equalPositions a b) :
    ∃ v, c.Volume.Add (TimeFromUnixNano ts) = .ok v ∧
      Drain.train ⟨config, branchOf a.length chain, storeOf size c, counter⟩ isNumber content b
          stringer ts =
        .ok (⟨config, branchOf a.length chain,
                storeOf size (mergedCluster config.ParamString c content b v), counter⟩,
             mergedCluster config.ParamString c content b v) := by
  have hn : a.length ≠ 0 := fun h => ha (List.length_eq_zero.mp h)
  have hbn : b.length ≠ 0 := by omega
  obtain ⟨v, hv, _⟩ := Add_ordered c.Volume (TimeFromUnixNano ts) hvol.1 hvol.2
  refine ⟨v, hv, ?_⟩
  generalize hd : (⟨config, branchOf a.length chain, storeOf size c, counter⟩ : Drain) = d
    at hsearch ⊢
  have hdc : d.config = config := by rw [← hd]
  have hdr : d.rootNode = branchOf a.length chain := by rw [← hd]
  have hdi : d.idToCluster = storeOf size c := by rw [← hd]
  have hdn : d.clustersCounter = counter := by rw [← hd]
  have hlive : d.live c.id = some c := by
    simp [Drain.live, hdi, LRU.Peek, lruFind, storeOf]
  have hdist : d.getSeqDistance c.Tokens b false =
      .ok (F64.div (equalPositions a b) a.length, 0) := by
    rw [getSeqDistance_free d c.Tokens b false (by rw [hc]; exact hlen)
      (by rw [hc]; exact not_pinned_plain a b hnul)]
    rw [hc, hdc, literalMatches_plain _ a b hnw, paramPositions_plain _ a hnw]
    simp
  have hden : config.SimTh.den ≠ 0 := by
    intro h0
    simp [F64.toRat, h0] at hq
  have hqv : q = (config.SimTh.num : ℚ) / (config.SimTh.den : ℚ) := by
    simp only [F64.toRat, hden, if_false, Option.some.injEq] at hq
    exact hq.symm
  have hge : (F64.div (equalPositions a b) a.length).ge config.SimTh = true := by
    rw [F64_ge_iff _ _ (by simpa [F64.div] using hn) hden]
    have hpos : (0 : ℚ) < (a.length : ℚ) := by exact_mod_cast Nat.pos_of_ne_zero hn
    simp only [F64.div]
    rw [← hqv, le_div_iff₀ hpos]
    exact_mod_cast hsim
  have hgt : (F64.div (equalPositions a b) a.length).gt ⟨-1, 1⟩ = true := by
    rw [F64_gt_iff _ _ (by simpa [F64.div] using hn) (by decide)]
    have hpos : (0 : ℚ) ≤ ((equalPositions a b : Int) : ℚ) / (a.length : ℚ) := by positivity
    simp only [F64.div]
    have hneg : (((-1 : Int) : ℚ)) / ((1 : Nat) : ℚ) < 0 := by norm_num
    exact lt_of_lt_of_le hneg hpos
  have hfm : d.fastMatch [c.id] b config.SimTh false =
      .ok (touchAll d.idToCluster [c.id], some c) := by
    rw [fastMatch_eq]
    have hcands : [c.id].filterMap (fun id => d.live id) = [c] := by
      simp [hlive]
    rw [hcands, selectLoop_eq d b false [c] _ (by
      intro x hx
      simp only [List.mem_singleton] at hx
      rw [hx, hc]; exact hlen)]
    have hscore : [c].filterMap (d.score b false) =
        [(c, F64.div (equalPositions a b) a.length, 0)] := by
      simp [Drain.score, hdist]
    rw [hscore]
    simp only [pickLoop, hgt, Bool.true_or, if_true, hge]
  have hts : d.treeSearch d.rootNode b d.config.SimTh false =
      .ok (touchAll d.idToCluster [c.id], some c) := by
    unfold Drain.treeSearch
    simp only [hdr, branchOf, Node.keyToChildNode, mapGet, ← hlen, if_true, if_neg hn,
      hsearch, hleaf, hdc]
    exact hfm
  have hct : d.createTemplate b c.Tokens =
      .ok (List.zipWith (fun t m => if t ≠ m then config.ParamString else m) b c.Tokens) := by
    rw [createTemplate_ok d b c.Tokens (by rw [hc]; exact hlen.symm), hdc]
  have hmerged : (LogCluster.mk c.id (c.Size + 1)
      (List.zipWith (fun t m => if t ≠ m then config.ParamString else m) b c.Tokens)
      c.Stringer
      (if c.Samples.length < maxSamples then c.Samples ++ [content] else c.Samples) v) =
      mergedCluster config.ParamString c content b v := rfl
  unfold Drain.train
  simp only [hts, hct, LogCluster.append, hv, hmerged]
  rw [hdi, single_store size c (mergedCluster config.ParamString c content b v) rfl, ← hd]

/-! ## `strconv.Itoa` is injective -/

theorem digitChar_value : ∀ k, k < 10 → (Nat.digitChar k).toNat - 48 = k := by
  decide

theorem toDigitsCore_append : ∀ (fuel n : Nat) (ds : List Char),
    Nat.toDigitsCore 10 fuel n ds = Nat.toDigitsCore 10 fuel n [] ++ ds := by
  intro fuel
  induction fuel with
  | zero => intro n ds; simp [Nat.toDigitsCore]
  | succ fuel ih =>
    intro n ds
    simp only [Nat.toDigitsCore]
    split
    · simp
    · rw [ih (n / 10) (Nat.digitChar (n % 10) :: ds), ih (n / 10) [Nat.digitChar (n % 10)]]
      simp

theorem decode_snoc (l : List Char) (c : Char) :
    (l ++ [c]).foldl (fun acc x => 10 * acc + (x.toNat - 48)) 0 =
      10 * l.foldl (fun acc x => 10 * acc + (x.toNat - 48)) 0 + (c.toNat - 48) := by
  simp [List.foldl_append]

theorem decode_toDigitsCore : ∀ (fuel n : Nat), n < fuel →
    (Nat.toDigitsCore 10 fuel n []).foldl (fun acc x => 10 * acc + (x.toNat - 48)) 0 = n := by
  intro fuel
  induction fuel with
  | zero => intro n h; omega
  | succ fuel ih =>
    intro n h
    simp only [Nat.toDigitsCore]
    by_cases h0 : n / 10 = 0
    · rw [if_pos h0]
      have hlt : n < 10 := by omega
      have hm : n % 10 = n := Nat.mod_eq_of_lt hlt
      simp only [hm, List.foldl_cons, List.foldl_nil, Nat.mul_zero, Nat.zero_add]
      exact digitChar_value n hlt
    · rw [if_neg h0, toDigitsCore_append, decode_snoc, ih (n / 10) (by omega),
        digitChar_value (n % 10) (Nat.mod_lt _ (by decide))]
      omega

theorem Itoa_injective (n m : Nat) (h : Itoa n = Itoa m) : n = m := by
  unfold Itoa Nat.repr Nat.toDigits at h
  have h2 : Nat.toDigitsCore 10 (n + 1) n [] = Nat.toDigitsCore 10 (m + 1) m [] := by
    have := congrArg String.data h
    simpa [List.asString] using this
  have h3 := congrArg (List.foldl (fun acc x => 10 * acc + (x.toNat - 48)) 0) h2
  rw [decode_toDigitsCore (n + 1) n (by omega), decode_toDigitsCore (m + 1) m (by omega)] at h3
  exact h3

/-! ## The tree in reachable states -/

theorem mapGet_mapSet (k : String) (v : Node) : ∀ (m : List (String × Node)) (k1 : String),
    mapGet (mapSet m k v) k1 = if k = k1 then some v else mapGet m k1 := by
  intro m
  induction m with
  | nil => intro k1; simp [mapSet, mapGet]
  | cons e m ih =>
    intro k1
    obtain ⟨k0, v0⟩ := e
    simp only [mapSet]
    by_cases h0 : k0 = k
    · rw [if_pos h0]
      simp only [mapGet]
      by_cases h1 : k = k1
      · simp [h1, h0]
      · have h2 : ¬ k0 = k1 := fun e => h1 (h0 ▸ e)
        simp [h1, h2]
    · rw [if_neg h0]
      simp only [mapGet, ih]
      by_cases h1 : k0 = k1
      · have h2 : ¬ k = k1 := fun e => h0 (h1.trans e.symm)
        simp [h1, h2]
      · simp [h1]

theorem descend_createNode (path : List String) (node : Node)
    (h : createNode.descend path = some node) : node.clusterIDs = [] := by
  cases path with
  | nil =>
    simp only [Node.descend, Option.some.injEq] at h
    rw [← h]; rfl
  | cons k ks => simp [Node.descend, createNode, Node.keyToChildNode, mapGet] at h

/-- The three ways one iteration of the insertion loop can go: stop at the terminal node,
descend into an existing or a newly created child, or (the fail-safe branch on the last
token) leave the node as it is. -/
theorem addSeqLoop_shape (d : Drain) (isNumber : Char → Bool) (n id : Nat) (token : String)
    (rest : List String) (depth : Nat) (cur : Node) (cache : LogClusterCache) (node : Node)
    (cache2 : LogClusterCache)
    (h : d.addSeqLoop isNumber n id (token :: rest) depth cur cache = .ok (node, cache2)) :
    (node = .mk cur.keyToChildNode ((pruneStale cache cur.clusterIDs).2 ++ [id]) ∧
      cache2 = (pruneStale cache cur.clusterIDs).1) ∨
    (∃ key child child2,
      (mapGet cur.keyToChildNode key = some child ∨
        (mapGet cur.keyToChildNode key = none ∧ child = createNode)) ∧
      d.addSeqLoop isNumber n id rest (depth + 1) child cache = .ok (child2, cache2) ∧
      node = .mk (mapSet cur.keyToChildNode key child2) cur.clusterIDs) ∨
    (node = cur ∧ cache2 = cache) := by
  simp only [Drain.addSeqLoop] at h
  by_cases hterm : (depth : Int) ≥ d.config.maxNodeDepth ∨ depth ≥ n
  · rw [if_pos hterm] at h
    simp only [Except.ok.injEq, Prod.mk.injEq] at h
    exact Or.inl ⟨h.1.symm, h.2.symm⟩
  · rw [if_neg hterm] at h
    cases htok : mapGet cur.keyToChildNode token with
    | some child =>
      simp only [htok] at h
      obtain ⟨child2, hb, hn⟩ := attach_ok _ _ _ _ _ h
      exact Or.inr (Or.inl ⟨token, child, child2, Or.inl htok, hb, hn⟩)
    | none =>
      simp only [htok] at h
      cases hw : mapGet cur.keyToChildNode d.config.ParamString with
      | some wildChild =>
        simp only [hw] at h
        by_cases hnum : hasNumbers isNumber token = true
        · simp only [hnum, Bool.not_true, Bool.false_eq_true, if_false] at h
          obtain ⟨child2, hb, hn⟩ := attach_ok _ _ _ _ _ h
          exact Or.inr (Or.inl ⟨_, wildChild, child2, Or.inl hw, hb, hn⟩)
        · simp only [hnum, Bool.not_false, if_true] at h
          by_cases hlen : (cur.keyToChildNode.length : Int) < d.config.MaxChildren
          · rw [if_pos hlen] at h
            obtain ⟨child2, hb, hn⟩ := attach_ok _ _ _ _ _ h
            exact Or.inr (Or.inl ⟨token, createNode, child2, Or.inr ⟨htok, rfl⟩, hb, hn⟩)
          · rw [if_neg hlen] at h
            obtain ⟨child2, hb, hn⟩ := attach_ok _ _ _ _ _ h
            exact Or.inr (Or.inl ⟨_, wildChild, child2, Or.inl hw, hb, hn⟩)
      | none =>
        simp only [hw] at h
        by_cases hnum : hasNumbers isNumber token = true
        · simp only [hnum, Bool.not_true, Bool.false_eq_true, if_false] at h
          obtain ⟨child2, hb, hn⟩ := attach_ok _ _ _ _ _ h
          exact Or.inr (Or.inl ⟨_, createNode, child2, Or.inr ⟨hw, rfl⟩, hb, hn⟩)
        · simp only [hnum, Bool.not_false, if_true] at h
          by_cases hlen : (cur.keyToChildNode.length : Int) + 1 < d.config.MaxChildren
          · rw [if_pos hlen] at h
            obtain ⟨child2, hb, hn⟩ := attach_ok _ _ _ _ _ h
            exact Or.inr (Or.inl ⟨token, createNode, child2, Or.inr ⟨htok, rfl⟩, hb, hn⟩)
          · rw [if_neg hlen] at h
            by_cases hlen2 : (cur.keyToChildNode.length : Int) + 1 = d.config.MaxChildren
            · rw [if_pos hlen2] at h
              obtain ⟨child2, hb, hn⟩ := attach_ok _ _ _ _ _ h
              exact Or.inr (Or.inl ⟨_, createNode, child2, Or.inr ⟨hw, rfl⟩, hb, hn⟩)
            · rw [if_neg hlen2] at h
              cases rest with
              | nil =>
                simp only [Except.ok.injEq, Prod.mk.injEq] at h
                exact Or.inr (Or.inr ⟨h.1.symm, h.2.symm⟩)
              | cons _ _ => simp at h

theorem Node.eta (n : Node) : Node.mk n.keyToChildNode n.clusterIDs = n := by
  cases n; rfl

/-- Every candidate id in the tree after an insertion is the inserted id or was at the
same place before. -/
theorem addSeqLoop_ids (d : Drain) (isNumber : Char → Bool) (n id : Nat) :
    ∀ (tokens : List String) (depth : Nat) (cur : Node) (cache : LogClusterCache)
      (node : Node) (cache2 : LogClusterCache),
    d.addSeqLoop isNumber n id tokens depth cur cache = .ok (node, cache2) →
    ∀ (path : List String) (x : Node) (i : Nat), node.descend path = some x →
      i ∈ x.clusterIDs →
      i = id ∨ ∃ y, cur.descend path = some y ∧ i ∈ y.clusterIDs := by
  intro tokens
  induction tokens with
  | nil =>
    intro depth cur cache node cache2 h path x i hx hi
    simp only [Drain.addSeqLoop, Except.ok.injEq, Prod.mk.injEq] at h
    rw [← h.1] at hx
    exact Or.inr ⟨x, hx, hi⟩
  | cons token rest ih =>
    intro depth cur cache node cache2 h path x i hx hi
    rcases addSeqLoop_shape d isNumber n id token rest depth cur cache node cache2 h with
      ⟨h1, _⟩ | ⟨key, child, child2, hchild, hrec, h1⟩ | ⟨h1, _⟩
    · rw [h1] at hx
      cases path with
      | nil =>
        simp only [Node.descend, Option.some.injEq] at hx
        rw [← hx] at hi
        simp only [Node.clusterIDs, List.mem_append, List.mem_singleton] at hi
        rcases hi with hi | hi
        · rw [pruneStale_eq] at hi
          exact Or.inr ⟨cur, rfl, (List.mem_filter.mp hi).1⟩
        · exact Or.inl hi
      | cons k ks =>
        exact Or.inr ⟨x, hx, hi⟩
    · rw [h1] at hx
      cases path with
      | nil =>
        simp only [Node.descend, Option.some.injEq] at hx
        rw [← hx] at hi
        exact Or.inr ⟨cur, rfl, hi⟩
      | cons k ks =>
        simp only [Node.descend, Node.keyToChildNode, mapGet_mapSet] at hx
        by_cases hk : key = k
        · rw [if_pos hk] at hx
          simp only at hx
          rcases ih _ _ _ _ _ hrec ks x i hx hi with h2 | ⟨y, hy, hiy⟩
          · exact Or.inl h2
          · rcases hchild with hc | ⟨_, hc⟩
            · refine Or.inr ⟨y, ?_, hiy⟩
              simp only [Node.descend, ← hk, hc]
              exact hy
            · rw [hc] at hy
              rw [descend_createNode ks y hy] at hiy
              exact absurd hiy (List.not_mem_nil i)
        · rw [if_neg hk] at hx
          exact Or.inr ⟨x, by simpa only [Node.descend] using hx, hi⟩
    · rw [h1] at hx
      exact Or.inr ⟨x, hx, hi⟩

theorem descend_children (m : List (String × Node)) (ids1 ids2 : List Nat) (k : String)
    (ks : List String) :
    (Node.mk m ids1).descend (k :: ks) = (Node.mk m ids2).descend (k :: ks) := rfl

theorem descend_cons (n : Node) (k : String) (ks : List String) (c : Node)
    (h : mapGet n.keyToChildNode k = some c) : n.descend (k :: ks) = c.descend ks := by
  simp only [Node.descend, h]

theorem descend_mapSet (m : List (String × Node)) (ids : List Nat) (key : String)
    (child : Node) (k : String) (ks : List String) :
    (Node.mk (mapSet m key child) ids).descend (k :: ks) =
      if key = k then child.descend ks else (Node.mk m ids).descend (k :: ks) := by
  simp only [Node.descend, Node.keyToChildNode, mapGet_mapSet]
  by_cases hk : key = k
  · rw [if_pos hk, if_pos hk]
  · rw [if_neg hk, if_neg hk]

theorem descend_rebuild (n : Node) (ids : List Nat) (k : String) (ks : List String) :
    (Node.mk n.keyToChildNode ids).descend (k :: ks) = n.descend (k :: ks) := by
  cases n; rfl

/-- Every candidate id in the tree after `addSeqToPrefixTree` is the inserted id, below
the branch of its token count, or was at the same place before. -/
theorem addSeqToPrefixTree_ids (d : Drain) (isNumber : Char → Bool) (root : Node)
    (cluster : LogCluster) (root2 : Node) (cache2 : LogClusterCache)
    (h : d.addSeqToPrefixTree isNumber root cluster = .ok (root2, cache2)) :
    ∀ (path : List String) (x : Node) (i : Nat), root2.descend path = some x →
      i ∈ x.clusterIDs →
      (i = cluster.id ∧ path.head? = some (Itoa cluster.Tokens.length)) ∨
      ∃ y, root.descend path = some y ∧ i ∈ y.clusterIDs := by
  intro path x i hx hi
  unfold Drain.addSeqToPrefixTree at h
  simp only at h
  -- the node the branch starts from
  have hfirst : ∀ (first : Node),
      first = (match mapGet root.keyToChildNode (Itoa cluster.Tokens.length) with
        | some n => n
        | none => createNode) →
      ∀ (ks : List String) (y : Node), first.descend ks = some y → i ∈ y.clusterIDs →
        ∃ z, root.descend (Itoa cluster.Tokens.length :: ks) = some z ∧ i ∈ z.clusterIDs := by
    intro first hf ks y hy hiy
    cases hg : mapGet root.keyToChildNode (Itoa cluster.Tokens.length) with
    | some n =>
      rw [hg] at hf
      simp only at hf
      exact ⟨y, by rw [descend_cons root _ ks n hg, ← hf]; exact hy, hiy⟩
    | none =>
      rw [hg] at hf
      simp only at hf
      rw [hf] at hy
      rw [descend_createNode ks y hy] at hiy
      exact absurd hiy (List.not_mem_nil i)
  by_cases hz : cluster.Tokens.length = 0
  · rw [if_pos hz] at h
    simp only [Except.ok.injEq, Prod.mk.injEq] at h
    rw [← h.1] at hx
    cases path with
    | nil =>
      simp only [Node.descend, Option.some.injEq] at hx
      rw [← hx] at hi
      exact Or.inr ⟨root, rfl, hi⟩
    | cons k ks =>
      rw [descend_mapSet] at hx
      by_cases hk : Itoa cluster.Tokens.length = k
      · rw [if_pos hk] at hx
        cases ks with
        | nil =>
          simp only [Node.descend, Option.some.injEq] at hx
          rw [← hx] at hi
          simp only [Node.clusterIDs, List.mem_append, List.mem_singleton] at hi
          rcases hi with hi | hi
          · obtain ⟨z, hz1, hz2⟩ := hfirst _ rfl [] _ rfl hi
            rw [hk] at hz1
            exact Or.inr ⟨z, hz1, hz2⟩
          · exact Or.inl ⟨hi, by simp [hk]⟩
        | cons k2 ks2 =>
          rw [descend_rebuild] at hx
          obtain ⟨z, hz1, hz2⟩ := hfirst _ rfl (k2 :: ks2) x hx hi
          rw [hk] at hz1
          exact Or.inr ⟨z, hz1, hz2⟩
      · rw [if_neg hk, descend_rebuild] at hx
        exact Or.inr ⟨x, hx, hi⟩
  · rw [if_neg hz] at h
    obtain ⟨child2, hb, hn⟩ := attach_ok _ _ _ _ _ h
    rw [hn] at hx
    cases path with
    | nil =>
      simp only [Node.descend, Option.some.injEq] at hx
      rw [← hx] at hi
      exact Or.inr ⟨root, rfl, hi⟩
    | cons k ks =>
      rw [descend_mapSet] at hx
      by_cases hk : Itoa cluster.Tokens.length = k
      · rw [if_pos hk] at hx
        rcases addSeqLoop_ids d isNumber _ _ _ _ _ _ _ _ hb ks x i hx hi with h2 | ⟨y, hy, hiy⟩
        · exact Or.inl ⟨h2, by simp [hk]⟩
        · obtain ⟨z, hz1, hz2⟩ := hfirst _ rfl ks y hy hiy
          rw [hk] at hz1
          exact Or.inr ⟨z, hz1, hz2⟩
      · rw [if_neg hk, descend_rebuild] at hx
        exact Or.inr ⟨x, hx, hi⟩

theorem searchLoop_descend (d : Drain) (n : Nat) : ∀ (tokens : List String) (depth : Nat)
    (cur leaf : Node), d.searchLoop n tokens depth cur = some leaf →
    ∃ path, cur.descend path = some leaf := by
  intro tokens
  induction tokens with
  | nil =>
    intro depth cur leaf h
    simp only [Drain.searchLoop, Option.some.injEq] at h
    exact ⟨[], by rw [← h]; rfl⟩
  | cons token rest ih =>
    intro depth cur leaf h
    simp only [Drain.searchLoop] at h
    by_cases h1 : (depth : Int) ≥ d.config.maxNodeDepth
    · rw [if_pos h1] at h
      simp only [Option.some.injEq] at h
      exact ⟨[], by rw [← h]; rfl⟩
    · rw [if_neg h1] at h
      by_cases h2 : depth = n
      · rw [if_pos h2] at h
        simp only [Option.some.injEq] at h
        exact ⟨[], by rw [← h]; rfl⟩
      · rw [if_neg h2] at h
        cases ht : mapGet cur.keyToChildNode token with
        | some child =>
          simp only [ht] at h
          obtain ⟨path, hp⟩ := ih _ _ _ h
          exact ⟨token :: path, by rw [descend_cons cur token path child ht]; exact hp⟩
        | none =>
          simp only [ht] at h
          cases hw : mapGet cur.keyToChildNode d.config.ParamString with
          | some child =>
            simp only [hw] at h
            obtain ⟨path, hp⟩ := ih _ _ _ h
            exact ⟨d.config.ParamString :: path,
              by rw [descend_cons cur _ path child hw]; exact hp⟩
          | none => simp [hw] at h

theorem TreeOk_New (config : Config) (d : Drain) (h : New config = .ok d) : TreeOk d := by
  unfold New at h
  split at h
  · simp at h
  · simp only [Except.ok.injEq] at h
    rw [← h]
    constructor
    · intro path node hn id hid
      rw [descend_createNode path node hn] at hid
      exact absurd hid (List.not_mem_nil id)
    · intro k path node hn id hid
      rw [descend_createNode (k :: path) node hn] at hid
      exact absurd hid (List.not_mem_nil id)

theorem TreeOk_train (d : Drain) (isNumber : Char → Bool) (content : String)
    (tokens : List String) (stringer : Option (List String → String)) (ts : Int)
    (d1 : Drain) (c : LogCluster) (hs : StoreOk d) (ht : TreeOk d)
    (h : d.train isNumber content tokens stringer ts = .ok (d1, c)) : TreeOk d1 := by
  rcases train_cases d isNumber content tokens stringer ts d1 c h with
    ⟨cache, root, cache2, h1, h2, h3, h4⟩ | ⟨cache, mc, tmpl, v, h1, h2, h3, h4, h5⟩
  · have ht1 := (treeSearch_touched d tokens _ _ cache none h1).1
    have ht2 := addSeqToPrefixTree_touched _ isNumber _ _ _ _ h3
    have hids := addSeqToPrefixTree_ids _ isNumber _ _ _ _ h3
    have hcid : c.id = d.clustersCounter + 1 := by rw [h2]
    have hctok : c.Tokens = tokens := by rw [h2]
    have hroot : d1.rootNode = root := by rw [h4]
    have hcnt : d1.clustersCounter = d.clustersCounter + 1 := by rw [h4]
    constructor
    · intro path node hn id hid
      rw [hroot] at hn
      rw [hcnt]
      rcases hids path node id hn hid with ⟨h5, _⟩ | ⟨y, hy, hiy⟩
      · omega
      · exact Nat.le_succ_of_le (ht.fresh path y hy id hiy)
    · intro k path node hn id hid c2 hl
      rw [hroot] at hn
      have hl2 : cache2.cache.Peek id = some c2 := by rw [h4] at hl; exact hl
      rw [ht2.peek id] at hl2
      rcases hids (k :: path) node id hn hid with ⟨h5, h6⟩ | ⟨y, hy, hiy⟩
      · simp only [List.head?_cons, Option.some.injEq] at h6
        rcases Peek_Add _ _ _ _ _ hl2 with ⟨_, h7⟩ | ⟨h7, _⟩
        · rw [h7, ← h6]
        · exact absurd (h5.trans hcid) h7
      · have hle := ht.fresh (k :: path) y hy id hiy
        rcases Peek_Add _ _ _ _ _ hl2 with ⟨h7, _⟩ | ⟨_, h7⟩
        · omega
        · rw [ht1.peek id] at h7
          exact ht.count k path y hy id hiy c2 h7
  · obtain ⟨_, _, htempl⟩ := train_templates d isNumber content tokens stringer ts d1 c hs h
    have hroot : d1.rootNode = d.rootNode := by rw [h5]
    have hcnt : d1.clustersCounter = d.clustersCounter := by rw [h5]
    constructor
    · intro path node hn id hid
      rw [hroot] at hn
      rw [hcnt]
      exact ht.fresh path node hn id hid
    · intro k path node hn id hid c2 hl
      rw [hroot] at hn
      obtain ⟨c1, hc1, hg⟩ := htempl id c2 (ht.fresh (k :: path) node hn id hid) hl
      rw [hg.1]
      exact ht.count k path node hn id hid c1 hc1

theorem TreeOk_step (isNumber : Char → Bool) (d d1 : Drain) (hs : StoreOk d) (ht : TreeOk d)
    (h : Step isNumber d d1) : TreeOk d1 := by
  cases h with
  | train content tokens stringer ts c h =>
    exact TreeOk_train d isNumber _ _ _ _ d1 c hs ht h
  | lookup content r h =>
    obtain ⟨h1, h2, h3, _⟩ := Match_touched d d1 content r h
    constructor
    · intro path node hn id hid
      rw [h3] at hn
      rw [h2]
      exact ht.fresh path node hn id hid
    · intro k path node hn id hid c2 hl
      rw [h3] at hn
      have hl2 : d.live id = some c2 := by
        have := h1.peek id
        unfold Drain.live at hl ⊢
        rw [← this]; exact hl
      exact ht.count k path node hn id hid c2 hl2

theorem TreeOk_reachable (isNumber : Char → Bool) (d : Drain) (h : Reachable isNumber d) :
    TreeOk d := by
  induction h with
  | new config d h => exact TreeOk_New config d h
  | step d d1 hr hstep ih =>
    exact TreeOk_step isNumber d d1 (StoreOk_reachable isNumber d hr) ih hstep

/-- In a state with a well-formed tree `Match` returns: every live candidate of the leaf
it reaches has as many tokens as the content. -/
theorem Match_returns (d : Drain) (content : String) (ht : TreeOk d) :
    ∃ d1 r, d.Match content = .ok (d1, r) := by
  have hne := getContentAsTokens_ne_nil d content
  unfold Drain.Match Drain.treeSearch
  generalize d.getContentAsTokens content = tokens at hne ⊢
  have hn : tokens.length ≠ 0 := fun h => hne (List.length_eq_zero.mp h)
  simp only
  cases hroot : mapGet d.rootNode.keyToChildNode (Itoa tokens.length) with
  | none => exact ⟨_, _, rfl⟩
  | some cur =>
    simp only [if_neg hn]
    cases hleaf : d.searchLoop tokens.length tokens 1 cur with
    | none => exact ⟨_, _, rfl⟩
    | some leaf =>
      simp only
      obtain ⟨path, hp⟩ := searchLoop_descend d _ _ _ _ _ hleaf
      have hdesc : d.rootNode.descend (Itoa tokens.length :: path) = some leaf := by
        rw [descend_cons d.rootNode _ path cur hroot]; exact hp
      obtain ⟨cache, r, hfm, _⟩ := fastMatch_best d leaf.clusterIDs tokens ⟨1, 1⟩ true
        (fun id hid c hc => Itoa_injective _ _ (ht.count _ path leaf hdesc id hid c hc))
      rw [hfm]
      exact ⟨_, _, rfl⟩

/-- A cluster that `Match` returns is live and equals the content up to wildcards. -/
theorem Match_result (d d1 : Drain) (content : String) (c : LogCluster)
    (h : d.Match content = .ok (d1, some c)) :
    (∃ id, d.live id = some c) ∧
      wildcardEq d.config.ParamString c.Tokens (d.getContentAsTokens content) := by
  obtain ⟨_, _, _, _, hts⟩ := Match_touched d d1 content (some c) h
  have hne := getContentAsTokens_ne_nil d content
  generalize d.getContentAsTokens content = tokens at hne hts ⊢
  rcases treeSearch_cases d tokens ⟨1, 1⟩ true _ _ hts with
    ⟨_, h2⟩ | ⟨h1, _⟩ | ⟨_, ids, hfm⟩
  · simp at h2
  · exact absurd h1 hne
  · have hlen := fastMatch_len d ids tokens ⟨1, 1⟩ true _ _ hfm
    obtain ⟨cache2, r2, h2, h3, _⟩ := fastMatch_best d ids tokens ⟨1, 1⟩ true hlen
    rw [hfm] at h2
    simp only [Except.ok.injEq, Prod.mk.injEq] at h2
    obtain ⟨⟨id, hid, hl⟩, i, s, p, hi, hge, _, _⟩ := h3 c h2.2.symm
    have hmem := List.getElem?_mem hi
    obtain ⟨_, _, _, hp0, hdist⟩ := candidates_mem d ids tokens true _ hmem
    simp only at hp0 hdist
    have hclen := hlen id hid c hl
    have hn : c.Tokens.length ≠ 0 := by
      rw [hclen]; exact fun h => hne (List.length_eq_zero.mp h)
    refine ⟨⟨id, hl⟩, hclen, ?_⟩
    by_cases hpin : pinnedMismatch c.Tokens tokens
    · rw [getSeqDistance_pinned d _ _ true hclen hpin] at hdist
      simp only [Except.ok.injEq, Prod.mk.injEq] at hdist
      omega
    · rw [getSeqDistance_free d _ _ true hclen hpin] at hdist
      simp only [if_true, Except.ok.injEq, Prod.mk.injEq] at hdist
      obtain ⟨hle, hiff⟩ := counts_le d.config.ParamString c.Tokens tokens hclen
      rw [← hiff]
      rw [← hdist.1] at hge
      simp only [F64.ge, F64.div, bne_iff_ne, ne_eq, Bool.and_eq_true, decide_eq_true_eq] at hge
      have := hge.2
      push_cast at this
      omega

/-- On the example engine after two training calls, `Match("user 3 logged in")` returns
cluster 1 with its generalised template. -/
theorem Match_example_hit :
    Except.map (fun r => r.2.map (fun c => (c.id, c.Tokens, c.Size)))
      (exampleTrainedTwice.Match "user 3 logged in")
      = .ok (some (1, ["user", "<*>", "logged", "in"], 2)) := rfl

/-! ## The branching bound and the insertion walk -/

theorem mapSet_length (k : String) (v : Node) : ∀ (m : List (String × Node)),
    (mapSet m k v).length =
      match mapGet m k with
      | some _ => m.length
      | none => m.length + 1 := by
  intro m
  induction m with
  | nil => rfl
  | cons e rest ih =>
    obtain ⟨k1, v1⟩ := e
    simp only [mapSet, mapGet]
    by_cases h : k1 = k
    · rw [if_pos h, if_pos h]; rfl
    · rw [if_neg h, if_neg h, List.length_cons, ih]
      cases mapGet rest k <;> rfl

theorem Bounded_createNode (maxChildren : Int) (wild : String) (h : 1 ≤ maxChildren) :
    Bounded maxChildren wild createNode := by
  constructor
  · show ((0 : Nat) : Int) ≤ maxChildren
    omega
  · intro _
    show ((0 : Nat) : Int) < maxChildren
    omega

theorem descend_createNode_eq (path : List String) (x : Node)
    (h : createNode.descend path = some x) : x = createNode := by
  cases path with
  | nil => simp only [Node.descend, Option.some.injEq] at h; exact h.symm
  | cons k ks => simp [Node.descend, createNode, Node.keyToChildNode, mapGet] at h

theorem SubtreeOk_createNode (maxChildren : Int) (wild : String) (h : 1 ≤ maxChildren) :
    SubtreeOk maxChildren wild createNode := by
  intro path x hx
  rw [descend_createNode_eq path x hx]
  exact Bounded_createNode maxChildren wild h

theorem SubtreeOk_child (maxChildren : Int) (wild : String) (cur child : Node) (key : String)
    (h : SubtreeOk maxChildren wild cur) (hk : mapGet cur.keyToChildNode key = some child) :
    SubtreeOk maxChildren wild child := by
  intro path x hx
  exact h (key :: path) x (by rw [descend_cons cur key path child hk]; exact hx)

theorem Bounded_children (maxChildren : Int) (wild : String) (m : List (String × Node))
    (ids1 ids2 : List Nat) (h : Bounded maxChildren wild (.mk m ids1)) :
    Bounded maxChildren wild (.mk m ids2) := h

theorem SubtreeOk_ids (maxChildren : Int) (wild : String) (cur : Node) (ids : List Nat)
    (h : SubtreeOk maxChildren wild cur) :
    SubtreeOk maxChildren wild (.mk cur.keyToChildNode ids) := by
  intro path x hx
  cases path with
  | nil =>
    simp only [Node.descend, Option.some.injEq] at hx
    rw [← hx]
    have := h [] cur rfl
    cases cur
    exact this
  | cons k ks =>
    rw [descend_rebuild] at hx
    exact h (k :: ks) x hx

theorem SubtreeOk_mapSet (maxChildren : Int) (wild : String) (cur child2 : Node) (key : String)
    (hb : Bounded maxChildren wild (.mk (mapSet cur.keyToChildNode key child2) cur.clusterIDs))
    (h : SubtreeOk maxChildren wild cur) (hc : SubtreeOk maxChildren wild child2) :
    SubtreeOk maxChildren wild (.mk (mapSet cur.keyToChildNode key child2) cur.clusterIDs) := by
  intro path x hx
  cases path with
  | nil =>
    simp only [Node.descend, Option.some.injEq] at hx
    rw [← hx]
    exact hb
  | cons k ks =>
    rw [descend_mapSet] at hx
    by_cases hk : key = k
    · rw [if_pos hk] at hx
      exact hc ks x hx
    · rw [if_neg hk, descend_rebuild] at hx
      exact h (k :: ks) x hx

theorem addSeqLoop_terminal (d : Drain) (isNumber : Char → Bool) (n id : Nat) (token : String)
    (rest : List String) (depth : Nat) (cur : Node) (cache : LogClusterCache)
    (h : (depth : Int) ≥ d.config.maxNodeDepth ∨ depth ≥ n) :
    d.addSeqLoop isNumber n id (token :: rest) depth cur cache =
      .ok (.mk cur.keyToChildNode ((pruneStale cache cur.clusterIDs).2 ++ [id]),
           (pruneStale cache cur.clusterIDs).1) := by
  simp only [Drain.addSeqLoop]
  rw [if_pos h]

/-- One step of the insertion walk at a node that meets the branching bound: the walk
descends into the child under `key`, which is the token itself or the wildcard marker (the
latter only when the token has no child of its own); the child exists already or is
created, and a created child fits under the bound. -/
theorem addSeqLoop_step (d : Drain) (isNumber : Char → Bool) (n id : Nat) (token : String)
    (rest : List String) (depth : Nat) (cur : Node)
    (h : ¬ ((depth : Int) ≥ d.config.maxNodeDepth ∨ depth ≥ n))
    (hb : Bounded d.config.MaxChildren d.config.ParamString cur) :
    ∃ key child,
      (∀ cache, d.addSeqLoop isNumber n id (token :: rest) depth cur cache =
        attach cur key (d.addSeqLoop isNumber n id rest (depth + 1) child cache)) ∧
      d.reachesFailSafe isNumber n (token :: rest) depth cur =
        d.reachesFailSafe isNumber n rest (depth + 1) child ∧
      (key = token ∨ (key = d.config.ParamString ∧ mapGet cur.keyToChildNode token = none)) ∧
      (mapGet cur.keyToChildNode key = some child ∨
        (mapGet cur.keyToChildNode key = none ∧ child = createNode ∧
          (cur.keyToChildNode.length : Int) + 1 ≤ d.config.MaxChildren ∧
          (key = d.config.ParamString ∨ mapGet cur.keyToChildNode d.config.ParamString ≠ none ∨
            (cur.keyToChildNode.length : Int) + 1 < d.config.MaxChildren))) := by
  obtain ⟨hb1, hb2⟩ := hb
  rcases Option.eq_none_or_eq_some (mapGet cur.keyToChildNode token) with ht | ⟨child, ht⟩
  swap
  · refine ⟨token, child, ?_, ?_, Or.inl rfl, Or.inl ht⟩
    · intro cache
      simp only [Drain.addSeqLoop]
      rw [if_neg h]
      simp only [ht]
    · simp only [Drain.reachesFailSafe]
      rw [if_neg h]
      simp only [ht]
  · by_cases hnum : hasNumbers isNumber token = true
    · rcases Option.eq_none_or_eq_some (mapGet cur.keyToChildNode d.config.ParamString)
        with hw | ⟨wildChild, hw⟩
      · refine ⟨d.config.ParamString, createNode, ?_, ?_, Or.inr ⟨rfl, ht⟩,
          Or.inr ⟨hw, rfl, ?_, Or.inl rfl⟩⟩
        · intro cache
          simp only [Drain.addSeqLoop]
          rw [if_neg h]
          simp only [ht, hnum, hw, Bool.not_true, Bool.false_eq_true, if_false]
        · simp only [Drain.reachesFailSafe]
          rw [if_neg h]
          simp only [ht, hnum, hw, Bool.not_true, Bool.false_eq_true, if_false]
        · have := hb2 hw
          omega
      · refine ⟨d.config.ParamString, wildChild, ?_, ?_, Or.inr ⟨rfl, ht⟩, Or.inl hw⟩
        · intro cache
          simp only [Drain.addSeqLoop]
          rw [if_neg h]
          simp only [ht, hnum, hw, Bool.not_true, Bool.false_eq_true, if_false]
        · simp only [Drain.reachesFailSafe]
          rw [if_neg h]
          simp only [ht, hnum, hw, Bool.not_true, Bool.false_eq_true, if_false]
    · have hnum2 : hasNumbers isNumber token = false := by
        cases hh : hasNumbers isNumber token
        · rfl
        · exact absurd hh hnum
      rcases Option.eq_none_or_eq_some (mapGet cur.keyToChildNode d.config.ParamString)
        with hw | ⟨wildChild, hw⟩
      swap
      · by_cases hlt : (cur.keyToChildNode.length : Int) < d.config.MaxChildren
        · refine ⟨token, createNode, ?_, ?_, Or.inl rfl,
            Or.inr ⟨ht, rfl, by omega, Or.inr (Or.inl (by rw [hw]; simp))⟩⟩
          · intro cache
            simp only [Drain.addSeqLoop]
            rw [if_neg h]
            simp only [ht, hnum2, hw, Bool.not_false, if_true]
            rw [if_pos hlt]
          · simp only [Drain.reachesFailSafe]
            rw [if_neg h]
            simp only [ht, hnum2, hw, Bool.not_false, if_true]
            rw [if_pos hlt]
        · refine ⟨d.config.ParamString, wildChild, ?_, ?_, Or.inr ⟨rfl, ht⟩, Or.inl hw⟩
          · intro cache
            simp only [Drain.addSeqLoop]
            rw [if_neg h]
            simp only [ht, hnum2, hw, Bool.not_false, if_true]
            rw [if_neg hlt]
          · simp only [Drain.reachesFailSafe]
            rw [if_neg h]
            simp only [ht, hnum2, hw, Bool.not_false, if_true]
            rw [if_neg hlt]
      · have hlen := hb2 hw
        by_cases hlt : (cur.keyToChildNode.length : Int) + 1 < d.config.MaxChildren
        · refine ⟨token, createNode, ?_, ?_, Or.inl rfl,
            Or.inr ⟨ht, rfl, by omega, Or.inr (Or.inr hlt)⟩⟩
          · intro cache
            simp only [Drain.addSeqLoop]
            rw [if_neg h]
            simp only [ht, hnum2, hw, Bool.not_false, if_true]
            rw [if_pos hlt]
          · simp only [Drain.reachesFailSafe]
            rw [if_neg h]
            simp only [ht, hnum2, hw, Bool.not_false, if_true]
            rw [if_pos hlt]
        · have heq : (cur.keyToChildNode.length : Int) + 1 = d.config.MaxChildren := by omega
          refine ⟨d.config.ParamString, createNode, ?_, ?_, Or.inr ⟨rfl, ht⟩,
            Or.inr ⟨hw, rfl, by omega, Or.inl rfl⟩⟩
          · intro cache
            simp only [Drain.addSeqLoop]
            rw [if_neg h]
            simp only [ht, hnum2, hw, Bool.not_false, if_true]
            rw [if_neg hlt, if_pos heq]
          · simp only [Drain.reachesFailSafe]
            rw [if_neg h]
            simp only [ht, hnum2, hw, Bool.not_false, if_true]
            rw [if_neg hlt, if_pos heq]

/-- The node rebuilt after a step of the walk meets the branching bound. -/
theorem Bounded_step (maxChildren : Int) (wild : String) (cur child child2 : Node)
    (key : String) (hb : Bounded maxChildren wild cur)
    (hk : mapGet cur.keyToChildNode key = some child ∨
      (mapGet cur.keyToChildNode key = none ∧ child = createNode ∧
        (cur.keyToChildNode.length : Int) + 1 ≤ maxChildren ∧
        (key = wild ∨ mapGet cur.keyToChildNode wild ≠ none ∨
          (cur.keyToChildNode.length : Int) + 1 < maxChildren))) :
    Bounded maxChildren wild (.mk (mapSet cur.keyToChildNode key child2) cur.clusterIDs) := by
  obtain ⟨hb1, hb2⟩ := hb
  show ((mapSet cur.keyToChildNode key child2).length : Int) ≤ maxChildren ∧
    (mapGet (mapSet cur.keyToChildNode key child2) wild = none →
      ((mapSet cur.keyToChildNode key child2).length : Int) < maxChildren)
  rw [mapSet_length, mapGet_mapSet]
  rcases hk with hk | ⟨hk, _, h1, h2⟩
  · rw [hk]
    refine ⟨hb1, ?_⟩
    intro hw
    by_cases hkw : key = wild
    · rw [if_pos hkw] at hw; simp at hw
    · rw [if_neg hkw] at hw; exact hb2 hw
  · rw [hk]
    simp only [Nat.cast_add, Nat.cast_one]
    refine ⟨h1, ?_⟩
    intro hw
    by_cases hkw : key = wild
    · rw [if_pos hkw] at hw; simp at hw
    · rw [if_neg hkw] at hw
      rcases h2 with h2 | h2 | h2
      · exact absurd h2 hkw
      · exact absurd hw h2
      · exact h2

/-- On a subtree that meets the branching bound the insertion walk returns, the subtree
it leaves meets the bound again, and the walk does not reach the final `else`. -/
theorem addSeqLoop_ok (d : Drain) (isNumber : Char → Bool) (n id : Nat)
    (hmc : 1 ≤ d.config.MaxChildren) :
    ∀ (tokens : List String) (depth : Nat) (cur : Node) (cache : LogClusterCache),
    SubtreeOk d.config.MaxChildren d.config.ParamString cur →
    ∃ node cache2, d.addSeqLoop isNumber n id tokens depth cur cache = .ok (node, cache2) ∧
      SubtreeOk d.config.MaxChildren d.config.ParamString node ∧
      d.reachesFailSafe isNumber n tokens depth cur = false := by
  intro tokens
  induction tokens with
  | nil =>
    intro depth cur cache hs
    exact ⟨cur, cache, rfl, hs, rfl⟩
  | cons token rest ih =>
    intro depth cur cache hs
    by_cases hterm : (depth : Int) ≥ d.config.maxNodeDepth ∨ depth ≥ n
    · refine ⟨_, _, addSeqLoop_terminal d isNumber n id token rest depth cur cache hterm,
        SubtreeOk_ids _ _ cur _ hs, ?_⟩
      simp only [Drain.reachesFailSafe]
      rw [if_pos hterm]
    · obtain ⟨key, child, hstep, hfs, _, hk⟩ :=
        addSeqLoop_step d isNumber n id token rest depth cur hterm (hs [] cur rfl)
      have hchild : SubtreeOk d.config.MaxChildren d.config.ParamString child := by
        rcases hk with hk | ⟨_, hk, _⟩
        · exact SubtreeOk_child _ _ cur child key hs hk
        · rw [hk]; exact SubtreeOk_createNode _ _ hmc
      obtain ⟨child2, cache2, hrec, hs2, hfs2⟩ := ih (depth + 1) child cache hchild
      refine ⟨.mk (mapSet cur.keyToChildNode key child2) cur.clusterIDs, cache2, ?_, ?_, ?_⟩
      · rw [hstep cache, hrec]; rfl
      · exact SubtreeOk_mapSet _ _ cur child2 key
          (Bounded_step _ _ cur child child2 key (hs [] cur rfl) hk) hs hs2
      · rw [hfs, hfs2]

/-! ## Shape of the tree in reachable states; `train` returns -/

/-- The node `addSeqToPrefixTree` starts from: the branch of the token count, or a fresh
node when there is no such branch yet. -/
theorem firstLayer_cases (root : Node) (key : String) :
    ∃ first, (mapGet root.keyToChildNode key = some first ∨
      (mapGet root.keyToChildNode key = none ∧ first = createNode)) := by
  rcases Option.eq_none_or_eq_some (mapGet root.keyToChildNode key) with hg | ⟨n, hg⟩
  · exact ⟨createNode, Or.inr ⟨hg, rfl⟩⟩
  · exact ⟨n, Or.inl hg⟩

theorem addSeqToPrefixTree_eq (d : Drain) (isNumber : Char → Bool) (root : Node)
    (cluster : LogCluster) (first : Node)
    (hf : mapGet root.keyToChildNode (Itoa cluster.Tokens.length) = some first ∨
      (mapGet root.keyToChildNode (Itoa cluster.Tokens.length) = none ∧ first = createNode)) :
    d.addSeqToPrefixTree isNumber root cluster =
      (if cluster.Tokens.length = 0 then
        .ok (.mk (mapSet root.keyToChildNode (Itoa cluster.Tokens.length)
              (.mk first.keyToChildNode (first.clusterIDs ++ [cluster.id])))
              root.clusterIDs,
             d.idToCluster)
      else
        attach root (Itoa cluster.Tokens.length)
          (d.addSeqLoop isNumber cluster.Tokens.length cluster.id cluster.Tokens 1 first
            d.idToCluster)) ∧
    d.insertReachesFailSafe isNumber root cluster.Tokens =
      (if cluster.Tokens.length = 0 then false
       else d.reachesFailSafe isNumber cluster.Tokens.length cluster.Tokens 1 first) := by
  unfold Drain.addSeqToPrefixTree Drain.insertReachesFailSafe
  rcases hf with hf | ⟨hf, hc⟩
  · simp only [hf, and_self]
  · simp only [hf, hc, and_self]

theorem firstLayer_subtree (maxChildren : Int) (wild : String) (root first : Node)
    (key : String) (hmc : 1 ≤ maxChildren)
    (hroot : ∀ k path node, root.descend (k :: path) = some node →
      Bounded maxChildren wild node)
    (hf : mapGet root.keyToChildNode key = some first ∨
      (mapGet root.keyToChildNode key = none ∧ first = createNode)) :
    SubtreeOk maxChildren wild first := by
  rcases hf with hf | ⟨_, hc⟩
  · intro path x hx
    exact hroot key path x (by rw [descend_cons root _ path first hf]; exact hx)
  · rw [hc]
    exact SubtreeOk_createNode _ _ hmc

theorem addSeqToPrefixTree_ok (d : Drain) (isNumber : Char → Bool) (root : Node)
    (cluster : LogCluster) (hmc : 1 ≤ d.config.MaxChildren)
    (hroot : ∀ k path node, root.descend (k :: path) = some node →
      Bounded d.config.MaxChildren d.config.ParamString node) :
    ∃ root2 cache2, d.addSeqToPrefixTree isNumber root cluster = .ok (root2, cache2) ∧
      (∀ k path node, root2.descend (k :: path) = some node →
        Bounded d.config.MaxChildren d.config.ParamString node) ∧
      d.insertReachesFailSafe isNumber root cluster.Tokens = false := by
  obtain ⟨first, hf⟩ := firstLayer_cases root (Itoa cluster.Tokens.length)
  have hfirst := firstLayer_subtree _ _ root first _ hmc hroot hf
  have hrebuild : ∀ child2 : Node,
      SubtreeOk d.config.MaxChildren d.config.ParamString child2 →
      ∀ k path node,
        (Node.mk (mapSet root.keyToChildNode (Itoa cluster.Tokens.length) child2)
          root.clusterIDs).descend (k :: path) = some node →
        Bounded d.config.MaxChildren d.config.ParamString node := by
    intro child2 hc k path node hx
    rw [descend_mapSet] at hx
    by_cases hk : Itoa cluster.Tokens.length = k
    · rw [if_pos hk] at hx
      exact hc path node hx
    · rw [if_neg hk, descend_rebuild] at hx
      exact hroot k path node hx
  obtain ⟨e1, e2⟩ := addSeqToPrefixTree_eq d isNumber root cluster first hf
  rw [e1, e2]
  by_cases hz : cluster.Tokens.length = 0
  · rw [if_pos hz, if_pos hz]
    exact ⟨_, _, rfl, hrebuild _ (SubtreeOk_ids _ _ _ _ hfirst), rfl⟩
  · rw [if_neg hz, if_neg hz]
    obtain ⟨child2, cache2, hrec, hs2, hfs⟩ := addSeqLoop_ok d isNumber cluster.Tokens.length
      cluster.id hmc cluster.Tokens 1 first d.idToCluster hfirst
    refine ⟨_, cache2, ?_, hrebuild child2 hs2, hfs⟩
    rw [hrec]
    rfl

theorem addSeqToPrefixTree_zero (d : Drain) (isNumber : Char → Bool) (root : Node)
    (cluster : LogCluster) (root2 : Node) (cache2 : LogClusterCache)
    (h : d.addSeqToPrefixTree isNumber root cluster = .ok (root2, cache2))
    (hz : ∀ n, mapGet root.keyToChildNode (Itoa 0) = some n → n.clusterIDs ≠ []) :
    ∀ n, mapGet root2.keyToChildNode (Itoa 0) = some n → n.clusterIDs ≠ [] := by
  intro n hn
  unfold Drain.addSeqToPrefixTree at h
  simp only at h
  by_cases h0 : cluster.Tokens.length = 0
  · rw [if_pos h0] at h
    simp only [Except.ok.injEq, Prod.mk.injEq] at h
    rw [← h.1, h0] at hn
    simp only [Node.keyToChildNode, mapGet_mapSet, if_true, Option.some.injEq] at hn
    rw [← hn]
    simp [Node.clusterIDs]
  · rw [if_neg h0] at h
    obtain ⟨child2, _, hnode⟩ := attach_ok _ _ _ _ _ h
    rw [hnode] at hn
    have hne : Itoa cluster.Tokens.length ≠ Itoa 0 := fun e => h0 (Itoa_injective _ _ e)
    have hn2 : mapGet (mapSet root.keyToChildNode (Itoa cluster.Tokens.length) child2) (Itoa 0)
        = some n := hn
    rw [mapGet_mapSet, if_neg hne] at hn2
    exact hz n hn2

theorem ShapeOk_New (config : Config) (d : Drain) (h : New config = .ok d) : ShapeOk d := by
  unfold New at h
  split at h
  · simp at h
  · simp only [Except.ok.injEq] at h
    rw [← h]
    constructor
    · intro k path node hn
      simp [Node.descend, createNode, Node.keyToChildNode, mapGet] at hn
    · intro n hn
      simp [createNode, Node.keyToChildNode, mapGet] at hn

theorem ShapeOk_train (d : Drain) (isNumber : Char → Bool) (content : String)
    (tokens : List String) (stringer : Option (List String → String)) (ts : Int)
    (d1 : Drain) (c : LogCluster) (hmc : 1 ≤ d.config.MaxChildren) (hs : ShapeOk d)
    (h : d.train isNumber content tokens stringer ts = .ok (d1, c)) : ShapeOk d1 := by
  rcases train_cases d isNumber content tokens stringer ts d1 c h with
    ⟨cache, root, cache2, h1, h2, h3, h4⟩ | ⟨cache, mc, tmpl, v, h1, h2, h3, h4, h5⟩
  · obtain ⟨root2, cache3, hok, hb, _⟩ := addSeqToPrefixTree_ok
      { d with clustersCounter := d.clustersCounter + 1,
               idToCluster := cache.Set (d.clustersCounter + 1) c }
      isNumber d.rootNode c hmc hs.bounded
    rw [h3] at hok
    simp only [Except.ok.injEq, Prod.mk.injEq] at hok
    have hz := addSeqToPrefixTree_zero _ isNumber _ _ _ _ h3 hs.zero
    rw [h4]
    constructor
    · intro k path node hn
      rw [← hok.1] at hb
      exact hb k path node hn
    · exact hz
  · rw [h5]
    exact ⟨hs.bounded, hs.zero⟩

theorem train_config (d : Drain) (isNumber : Char → Bool) (content : String)
    (tokens : List String) (stringer : Option (List String → String)) (ts : Int)
    (d1 : Drain) (c : LogCluster)
    (h : d.train isNumber content tokens stringer ts = .ok (d1, c)) : d1.config = d.config := by
  rcases train_cases d isNumber content tokens stringer ts d1 c h with
    ⟨cache, root, cache2, h1, h2, h3, h4⟩ | ⟨cache, mc, tmpl, v, h1, h2, h3, h4, h5⟩
  · rw [h4]
  · rw [h5]

theorem step_config (isNumber : Char → Bool) (d d1 : Drain) (h : Step isNumber d d1) :
    d1.config = d.config := by
  cases h with
  | train content tokens stringer ts c h => exact train_config d isNumber _ _ _ _ d1 c h
  | lookup content r h => exact (Match_touched d d1 content r h).2.2.2.1

theorem ShapeOk_step (isNumber : Char → Bool) (d d1 : Drain)
    (hmc : 1 ≤ d.config.MaxChildren) (hs : ShapeOk d) (h : Step isNumber d d1) :
    ShapeOk d1 := by
  cases h with
  | train content tokens stringer ts c h =>
    exact ShapeOk_train d isNumber _ _ _ _ d1 c hmc hs h
  | lookup content r h =>
    obtain ⟨_, _, h3, h4, _⟩ := Match_touched d d1 content r h
    constructor
    · intro k path node hn
      rw [h3] at hn
      rw [h4]
      exact hs.bounded k path node hn
    · intro n hn
      rw [h3] at hn
      exact hs.zero n hn

theorem ShapeOk_reachable (isNumber : Char → Bool) (d : Drain) (h : Reachable isNumber d) :
    1 ≤ d.config.MaxChildren → ShapeOk d := by
  induction h with
  | new config d h => intro _; exact ShapeOk_New config d h
  | step d d1 hr hstep ih =>
    intro hmc
    have hc := step_config isNumber d d1 hstep
    rw [hc] at hmc
    exact ShapeOk_step isNumber d d1 hmc (ih hmc) hstep

/-! ### `treeSearch` and `train` return -/

theorem treeSearch_leaf (d : Drain) (root : Node) (tokens : List String) (simTh : F64)
    (inc : Bool) (cur leaf : Node) (hne : tokens ≠ [])
    (hcur : mapGet root.keyToChildNode (Itoa tokens.length) = some cur)
    (hleaf : d.searchLoop tokens.length tokens 1 cur = some leaf) :
    d.treeSearch root tokens simTh inc = d.fastMatch leaf.clusterIDs tokens simTh inc := by
  have hn : tokens.length ≠ 0 := fun h => hne (List.length_eq_zero.mp h)
  unfold Drain.treeSearch
  simp only [hcur, if_neg hn, hleaf]

/-- In a state with a well-formed tree `treeSearch` returns, and a cluster it returns is
live and has as many tokens as the input. -/
theorem treeSearch_returns (d : Drain) (tokens : List String) (simTh : F64) (inc : Bool)
    (ht : TreeOk d)
    (hz : ∀ n, mapGet d.rootNode.keyToChildNode (Itoa 0) = some n → n.clusterIDs ≠ []) :
    ∃ cache r, d.treeSearch d.rootNode tokens simTh inc = .ok (cache, r) ∧
      ∀ c, r = some c → c.Tokens.length = tokens.length ∧ ∃ id, d.live id = some c := by
  rcases Option.eq_none_or_eq_some (mapGet d.rootNode.keyToChildNode (Itoa tokens.length))
    with hroot | ⟨cur, hroot⟩
  · refine ⟨d.idToCluster, none, ?_, fun c hc => by simp at hc⟩
    unfold Drain.treeSearch
    simp only [hroot]
  · by_cases hn : tokens.length = 0
    · have hids := hz cur (by rw [← hn]; exact hroot)
      cases hcid : cur.clusterIDs with
      | nil => exact absurd hcid hids
      | cons id rest =>
        refine ⟨(d.idToCluster.Get id).1, (d.idToCluster.Get id).2, ?_, ?_⟩
        · unfold Drain.treeSearch
          simp only [hroot, if_pos hn, hcid]
        · intro c hc
          rw [cGet_snd] at hc
          refine ⟨?_, id, hc⟩
          have := ht.count (Itoa tokens.length) [] cur
            (by simp only [Node.descend, hroot]) id (by rw [hcid]; exact List.mem_cons_self _ _)
            c hc
          exact Itoa_injective _ _ this
    · have hne : tokens ≠ [] := fun h => hn (by rw [h]; rfl)
      rcases Option.eq_none_or_eq_some (d.searchLoop tokens.length tokens 1 cur)
        with hleaf | ⟨leaf, hleaf⟩
      · refine ⟨d.idToCluster, none, ?_, fun c hc => by simp at hc⟩
        unfold Drain.treeSearch
        simp only [hroot, if_neg hn, hleaf]
      · obtain ⟨path, hp⟩ := searchLoop_descend d _ _ _ _ _ hleaf
        have hdesc : d.rootNode.descend (Itoa tokens.length :: path) = some leaf := by
          rw [descend_cons d.rootNode _ path cur hroot]; exact hp
        have hlen : ∀ id ∈ leaf.clusterIDs, ∀ c, d.live id = some c →
            c.Tokens.length = tokens.length :=
          fun id hid c hc => Itoa_injective _ _ (ht.count _ path leaf hdesc id hid c hc)
        obtain ⟨cache, r, hfm, hsome, _⟩ := fastMatch_best d leaf.clusterIDs tokens simTh inc hlen
        refine ⟨cache, r, ?_, ?_⟩
        · rw [treeSearch_leaf d d.rootNode tokens simTh inc cur leaf hne hroot hleaf]
          exact hfm
        · intro c hc
          obtain ⟨⟨id, hid, hl⟩, _⟩ := hsome c hc
          exact ⟨hlen id hid c hl, id, hl⟩

theorem train_miss (d : Drain) (isNumber : Char → Bool) (content : String)
    (tokens : List String) (stringer : Option (List String → String)) (ts : Int)
    (cache cache2 : LogClusterCache) (root : Node)
    (h : d.treeSearch d.rootNode tokens d.config.SimTh false = .ok (cache, none))
    (hadd : Drain.addSeqToPrefixTree
      ⟨d.config, d.rootNode,
        cache.Set (d.clustersCounter + 1)
          (freshCluster (d.clustersCounter + 1) content tokens stringer ts),
        d.clustersCounter + 1⟩
      isNumber d.rootNode (freshCluster (d.clustersCounter + 1) content tokens stringer ts)
        = .ok (root, cache2)) :
    d.train isNumber content tokens stringer ts =
      .ok (⟨d.config, root, cache2, d.clustersCounter + 1⟩,
        freshCluster (d.clustersCounter + 1) content tokens stringer ts) := by
  unfold Drain.train
  simp only [h]
  have hfresh : (LogCluster.mk (d.clustersCounter + 1) 1 tokens stringer [content]
      (initVolume (TimeFromUnixNano ts))) =
      freshCluster (d.clustersCounter + 1) content tokens stringer ts := rfl
  simp only [hfresh]
  rw [hadd]

theorem train_hit (d : Drain) (isNumber : Char → Bool) (content : String)
    (tokens : List String) (stringer : Option (List String → String)) (ts : Int)
    (cache : LogClusterCache) (mc : LogCluster) (v : Volume)
    (h : d.treeSearch d.rootNode tokens d.config.SimTh false = .ok (cache, some mc))
    (hlen : tokens.length = mc.Tokens.length)
    (hv : mc.Volume.Add (TimeFromUnixNano ts) = .ok v) :
    d.train isNumber content tokens stringer ts =
      .ok (⟨d.config, d.rootNode,
          ((cache.store (mergedCluster d.config.ParamString mc content tokens v)).Get mc.id).1,
          d.clustersCounter⟩,
        mergedCluster d.config.ParamString mc content tokens v) := by
  unfold Drain.train
  simp only [h, createTemplate_ok d tokens mc.Tokens hlen, LogCluster.append, hv]
  rfl

/-- In a reachable state of an engine with `MaxChildren ≥ 1`, `train` returns. -/
theorem train_returns (d : Drain) (isNumber : Char → Bool) (content : String)
    (tokens : List String) (stringer : Option (List String → String)) (ts : Int)
    (hs : StoreOk d) (ht : TreeOk d) (hsh : ShapeOk d) (hmc : 1 ≤ d.config.MaxChildren) :
    ∃ d1 c, d.train isNumber content tokens stringer ts = .ok (d1, c) := by
  obtain ⟨cache, r, hts, hr⟩ := treeSearch_returns d tokens d.config.SimTh false ht hsh.zero
  cases r with
  | none =>
    obtain ⟨root2, cache2, hadd, _⟩ := addSeqToPrefixTree_ok
      ⟨d.config, d.rootNode,
        cache.Set (d.clustersCounter + 1)
          (freshCluster (d.clustersCounter + 1) content tokens stringer ts),
        d.clustersCounter + 1⟩
      isNumber d.rootNode (freshCluster (d.clustersCounter + 1) content tokens stringer ts)
      hmc hsh.bounded
    exact ⟨_, _, train_miss d isNumber content tokens stringer ts cache cache2 root2 hts hadd⟩
  | some mc =>
    obtain ⟨hlen, id, hl⟩ := hr mc rfl
    have hv := hs.volume (id, mc) (Peek_mem _ _ _ hl)
    obtain ⟨v, hadd, _⟩ := Add_ordered mc.Volume (TimeFromUnixNano ts) hv.1 hv.2
    exact ⟨_, _, train_hit d isNumber content tokens stringer ts cache mc v hts hlen.symm hadd⟩

/-! ## An engine with one child per node -/

theorem narrowTrained_reachable : Reachable asciiDigit narrowTrained :=
  Reachable.step narrowFirst narrowTrained
    (Reachable.step narrowStart narrowFirst (Reachable.new narrowConfig narrowStart rfl)
      (Step.train narrowStart narrowFirst "a" ["a"] none 0
        (outcome (narrowStart.Train asciiDigit "a" 0) narrowStart exampleCluster).2 rfl))
    (Step.train narrowFirst narrowTrained "a b" ["a", "b"] none 0
      (outcome (narrowFirst.Train asciiDigit "a b" 0) narrowStart exampleCluster).2 rfl)

theorem narrowTrained_branch :
    narrowTrained.rootNode.descend ["2"] = some (.mk [("<*>", .mk [] [2])] []) := rfl

/-! ## The only panic of `train` in a reachable state -/

theorem zero_reachable (isNumber : Char → Bool) (d : Drain) (h : Reachable isNumber d) :
    ∀ n, mapGet d.rootNode.keyToChildNode (Itoa 0) = some n → n.clusterIDs ≠ [] := by
  induction h with
  | new config d h => exact (ShapeOk_New config d h).zero
  | step d d1 hr hstep ih =>
    cases hstep with
    | train content tokens stringer ts c h =>
      rcases train_cases d isNumber content tokens stringer ts d1 c h with
        ⟨cache, root, cache2, h1, h2, h3, h4⟩ | ⟨cache, mc, tmpl, v, h1, h2, h3, h4, h5⟩
      · rw [h4]
        exact addSeqToPrefixTree_zero _ isNumber _ _ _ _ h3 ih
      · rw [h5]
        exact ih
    | lookup content r h =>
      obtain ⟨_, _, h3, _⟩ := Match_touched d d1 content r h
      rw [h3]
      exact ih

theorem attach_error (cur : Node) (key : String) (below : Except String (Node × LogClusterCache))
    (e : String) (h : attach cur key below = .error e) : below = .error e := by
  unfold attach at h
  cases below with
  | error e2 => simp only [Except.error.injEq] at h; rw [h]
  | ok r => simp at h

theorem addSeqLoop_error (d : Drain) (isNumber : Char → Bool) (n id : Nat) :
    ∀ (tokens : List String) (depth : Nat) (cur : Node) (cache : LogClusterCache) (e : String),
    d.addSeqLoop isNumber n id tokens depth cur cache = .error e →
    e = "nil pointer dereference" := by
  intro tokens
  induction tokens with
  | nil => intro depth cur cache e h; simp [Drain.addSeqLoop] at h
  | cons token rest ih =>
    intro depth cur cache e h
    simp only [Drain.addSeqLoop] at h
    by_cases hterm : (depth : Int) ≥ d.config.maxNodeDepth ∨ depth ≥ n
    · rw [if_pos hterm] at h
      simp at h
    · rw [if_neg hterm] at h
      cases htok : mapGet cur.keyToChildNode token with
      | some child =>
        simp only [htok] at h
        exact ih _ _ _ _ (attach_error _ _ _ _ h)
      | none =>
        simp only [htok] at h
        cases hw : mapGet cur.keyToChildNode d.config.ParamString with
        | some wildChild =>
          simp only [hw] at h
          by_cases hnum : hasNumbers isNumber token = true
          · simp only [hnum, Bool.not_true, Bool.false_eq_true, if_false] at h
            exact ih _ _ _ _ (attach_error _ _ _ _ h)
          · simp only [hnum, Bool.not_false, if_true] at h
            by_cases hlen : (cur.keyToChildNode.length : Int) < d.config.MaxChildren
            · rw [if_pos hlen] at h
              exact ih _ _ _ _ (attach_error _ _ _ _ h)
            · rw [if_neg hlen] at h
              exact ih _ _ _ _ (attach_error _ _ _ _ h)
        | none =>
          simp only [hw] at h
          by_cases hnum : hasNumbers isNumber token = true
          · simp only [hnum, Bool.not_true, Bool.false_eq_true, if_false] at h
            exact ih _ _ _ _ (attach_error _ _ _ _ h)
          · simp only [hnum, Bool.not_false, if_true] at h
            by_cases hlen : (cur.keyToChildNode.length : Int) + 1 < d.config.MaxChildren
            · rw [if_pos hlen] at h
              exact ih _ _ _ _ (attach_error _ _ _ _ h)
            · rw [if_neg hlen] at h
              by_cases hlen2 : (cur.keyToChildNode.length : Int) + 1 = d.config.MaxChildren
              · rw [if_pos hlen2] at h
                exact ih _ _ _ _ (attach_error _ _ _ _ h)
              · rw [if_neg hlen2] at h
                cases rest with
                | nil => simp at h
                | cons _ _ =>
                  simp only [Except.error.injEq] at h
                  exact h.symm

theorem addSeqToPrefixTree_error (d : Drain) (isNumber : Char → Bool) (root : Node)
    (cluster : LogCluster) (e : String)
    (h : d.addSeqToPrefixTree isNumber root cluster = .error e) :
    e = "nil pointer dereference" := by
  obtain ⟨first, hf⟩ := firstLayer_cases root (Itoa cluster.Tokens.length)
  rw [(addSeqToPrefixTree_eq d isNumber root cluster first hf).1] at h
  by_cases hz : cluster.Tokens.length = 0
  · rw [if_pos hz] at h
    simp at h
  · rw [if_neg hz] at h
    exact addSeqLoop_error d isNumber _ _ _ _ _ _ e (attach_error _ _ _ _ h)

/-- In a reachable state the only panic `train` can raise is the nil dereference of the
insertion walk (which needs `MaxChildren < 1`). -/
theorem train_error (d : Drain) (isNumber : Char → Bool) (content : String)
    (tokens : List String) (stringer : Option (List String → String)) (ts : Int) (e : String)
    (hr : Reachable isNumber d)
    (h : d.train isNumber content tokens stringer ts = .error e) :
    e = "nil pointer dereference" := by
  have hs := StoreOk_reachable isNumber d hr
  obtain ⟨cache, r, hts, hsome⟩ := treeSearch_returns d tokens d.config.SimTh false
    (TreeOk_reachable isNumber d hr) (zero_reachable isNumber d hr)
  cases r with
  | none =>
    cases hadd : Drain.addSeqToPrefixTree
      ⟨d.config, d.rootNode,
        cache.Set (d.clustersCounter + 1)
          (freshCluster (d.clustersCounter + 1) content tokens stringer ts),
        d.clustersCounter + 1⟩
      isNumber d.rootNode (freshCluster (d.clustersCounter + 1) content tokens stringer ts) with
    | ok r2 =>
      rw [train_miss d isNumber content tokens stringer ts cache r2.2 r2.1 hts hadd] at h
      simp at h
    | error e2 =>
      have he2 := addSeqToPrefixTree_error _ isNumber _ _ e2 hadd
      unfold Drain.train at h
      simp only [hts] at h
      have hfresh : (LogCluster.mk (d.clustersCounter + 1) 1 tokens stringer [content]
          (initVolume (TimeFromUnixNano ts))) =
          freshCluster (d.clustersCounter + 1) content tokens stringer ts := rfl
      simp only [hfresh] at h
      rw [hadd] at h
      simp only [Except.error.injEq] at h
      rw [← h, he2]
  | some mc =>
    obtain ⟨hlen, id, hl⟩ := hsome mc rfl
    have hv := hs.volume (id, mc) (Peek_mem _ _ _ hl)
    obtain ⟨v, hadd, _⟩ := Add_ordered mc.Volume (TimeFromUnixNano ts) hv.1 hv.2
    rw [train_hit d isNumber content tokens stringer ts cache mc v hts hlen.symm hadd] at h
    simp at h

theorem getSeqDistance_returns (d : Drain) (template tokens : List String) (inc : Bool)
    (hlen : template.length = tokens.length) :
    ∃ r, d.getSeqDistance template tokens inc = .ok r := by
  by_cases hp : pinnedMismatch template tokens
  · exact ⟨_, getSeqDistance_pinned d template tokens inc hlen hp⟩
  · exact ⟨_, getSeqDistance_free d template tokens inc hlen hp⟩

theorem exampleTrainedTwice_reachable : Reachable asciiDigit exampleTrainedTwice :=
  Reachable.step exampleTrained exampleTrainedTwice
    (Reachable.step exampleStart exampleTrained (Reachable.new exampleConfig exampleStart rfl)
      (Step.train exampleStart exampleTrained "user 1 logged in"
        ["user", "1", "logged", "in"] none 5000000000 exampleCluster rfl))
    (Step.train exampleTrained exampleTrainedTwice "user 2 logged in"
      ["user", "2", "logged", "in"] none 5000000000 exampleMerged rfl)

theorem exampleTrainedTwice_leaf :
    exampleTrainedTwice.rootNode.descend (Itoa 4 :: ["user"]) = some (.mk [] [1]) := rfl

/-! ## Identifiers, store capacity and sample buffers -/

theorem Add_size (c : LRU) (key : Nat) (v : LogCluster) : (c.Add key v).size = c.size := by
  unfold LRU.Add
  cases c.Peek key with
  | some _ => rfl
  | none =>
    simp only
    split <;> rfl

theorem Peek_Add_self (c : LRU) (key : Nat) (v : LogCluster) (hsize : 1 ≤ c.size) :
    (c.Add key v).Peek key = some v := by
  unfold LRU.Add
  cases hp : c.Peek key with
  | some _ => simp [LRU.Peek, lruFind]
  | none =>
    simp only
    split
    · rename_i hlen
      cases he : c.entries with
      | nil =>
        rw [he] at hlen
        simp at hlen
        omega
      | cons e es =>
        simp [LRU.Peek, lruFind, List.dropLast]
    · simp [LRU.Peek, lruFind]

theorem train_size (d : Drain) (isNumber : Char → Bool) (content : String)
    (tokens : List String) (stringer : Option (List String → String)) (ts : Int)
    (d1 : Drain) (c : LogCluster)
    (h : d.train isNumber content tokens stringer ts = .ok (d1, c)) :
    d1.idToCluster.cache.size = d.idToCluster.cache.size := by
  rcases train_cases d isNumber content tokens stringer ts d1 c h with
    ⟨cache, root, cache2, h1, h2, h3, h4⟩ | ⟨cache, mc, tmpl, v, h1, h2, h3, h4, h5⟩
  · have ht1 := (treeSearch_touched d tokens _ _ cache none h1).1
    have ht2 := addSeqToPrefixTree_touched _ isNumber _ _ _ _ h3
    rw [h4]
    show cache2.cache.size = _
    rw [ht2.size]
    show (cache.cache.Add _ _).size = _
    rw [Add_size, ht1.size]
  · have ht1 := (treeSearch_touched d tokens _ _ cache (some mc) h1).1
    rw [h5]
    show ((cache.store c).Get c.id).1.cache.size = _
    rw [cGet_size]
    exact ht1.size

theorem size_reachable (isNumber : Char → Bool) (d : Drain) (h : Reachable isNumber d) :
    1 ≤ d.idToCluster.cache.size := by
  induction h with
  | new config d h =>
    unfold New at h
    split at h
    · simp at h
    · simp only [Except.ok.injEq] at h
      rw [← h]
      show 1 ≤ (if config.MaxClusters = 0 then maxInt else config.MaxClusters)
      split
      · decide
      · omega
  | step d d1 hr hstep ih =>
    cases hstep with
    | train content tokens stringer ts c h =>
      rw [train_size d isNumber _ _ _ _ d1 c h]; exact ih
    | lookup content r h =>
      rw [(Match_touched d d1 content r h).1.size]; exact ih

/-- The records of the store after a `train` call: the old records, except that the
returned cluster is stored under its id. -/
theorem train_entries (d : Drain) (isNumber : Char → Bool) (content : String)
    (tokens : List String) (stringer : Option (List String → String)) (ts : Int)
    (d1 : Drain) (c : LogCluster)
    (h : d.train isNumber content tokens stringer ts = .ok (d1, c)) :
    ∀ e ∈ d1.idToCluster.cache.entries, e ∈ d.idToCluster.cache.entries ∨ e = (c.id, c) := by
  rcases train_cases d isNumber content tokens stringer ts d1 c h with
    ⟨cache, root, cache2, h1, h2, h3, h4⟩ | ⟨cache, mc, tmpl, v, h1, h2, h3, h4, h5⟩
  · have ht1 := (treeSearch_touched d tokens _ _ cache none h1).1
    have ht2 := addSeqToPrefixTree_touched _ isNumber _ _ _ _ h3
    intro e he
    rw [h4] at he
    rcases Add_entries_mem _ _ _ _ (ht2.mem e he) with h | h
    · right; rw [h, h2]
    · exact Or.inl (ht1.mem e h)
  · have ht1 := (treeSearch_touched d tokens _ _ cache (some mc) h1).1
    intro e he
    rw [h5] at he
    rcases store_entries_mem _ _ _ (cGet_mem _ _ _ he) with h | ⟨h, _⟩
    · exact Or.inl (ht1.mem e h)
    · exact Or.inr h

/-- A `train` call that finds no match: the new cluster and the new state. -/
theorem train_miss_result (d : Drain) (isNumber : Char → Bool) (content : String)
    (tokens : List String) (stringer : Option (List String → String)) (ts : Int)
    (d1 : Drain) (c : LogCluster) (cache : LogClusterCache)
    (hsize : 1 ≤ d.idToCluster.cache.size)
    (h : d.train isNumber content tokens stringer ts = .ok (d1, c))
    (hts : d.treeSearch d.rootNode tokens d.config.SimTh false = .ok (cache, none)) :
    c = freshCluster (d.clustersCounter + 1) content tokens stringer ts ∧
    d1.clustersCounter = d.clustersCounter + 1 ∧ d1.config = d.config ∧
    d1.live (d.clustersCounter + 1) = some c ∧
    (∀ id c2, id ≠ d.clustersCounter + 1 → d1.live id = some c2 → d.live id = some c2) ∧
    Touched d.idToCluster cache ∧
    ∃ root cache2, Drain.addSeqToPrefixTree
        ⟨d.config, d.rootNode, cache.Set (d.clustersCounter + 1) c,
          d.clustersCounter + 1⟩ isNumber d.rootNode c = .ok (root, cache2) ∧
      d1 = ⟨d.config, root, cache2, d.clustersCounter + 1⟩ := by
  rcases train_cases d isNumber content tokens stringer ts d1 c h with
    ⟨cache1, root, cache2, h1, h2, h3, h4⟩ | ⟨cache1, mc, tmpl, v, h1, h2, h3, h4, h5⟩
  · rw [hts] at h1
    simp only [Except.ok.injEq, Prod.mk.injEq, and_true] at h1
    rw [← h1] at h3
    have ht1 := (treeSearch_touched d tokens _ _ cache none hts).1
    have ht2 := addSeqToPrefixTree_touched _ isNumber _ _ _ _ h3
    have hpeek : ∀ k, d1.live k = (cache.cache.Add (d.clustersCounter + 1) c).Peek k := by
      intro k
      rw [h4]
      exact ht2.peek k
    refine ⟨h2, by rw [h4], by rw [h4], ?_, ?_, ht1, root, cache2, h3, h4⟩
    · rw [hpeek]
      exact Peek_Add_self _ _ _ (by rw [ht1.size]; exact hsize)
    · intro id c2 hid hl
      rw [hpeek] at hl
      rcases Peek_Add _ _ _ _ _ hl with ⟨h5, _⟩ | ⟨_, h5⟩
      · exact absurd h5 hid
      · rw [ht1.peek id] at h5
        exact h5
  · rw [hts] at h1
    simp at h1

/-- A `train` call that finds the match `mc`: the updated cluster and the new state. -/
theorem train_hit_result (d : Drain) (isNumber : Char → Bool) (content : String)
    (tokens : List String) (stringer : Option (List String → String)) (ts : Int)
    (d1 : Drain) (c : LogCluster) (cache : LogClusterCache) (mc : LogCluster)
    (hs : StoreOk d)
    (h : d.train isNumber content tokens stringer ts = .ok (d1, c))
    (hts : d.treeSearch d.rootNode tokens d.config.SimTh false = .ok (cache, some mc)) :
    (∃ v, mc.Volume.Add (TimeFromUnixNano ts) = .ok v ∧
      c = mergedCluster d.config.ParamString mc content tokens v) ∧
    tokens.length = mc.Tokens.length ∧
    d1 = ⟨d.config, d.rootNode, ((cache.store c).Get c.id).1, d.clustersCounter⟩ ∧
    d.live mc.id = some mc ∧ d1.live mc.id = some c ∧
    (∀ id, id ≠ mc.id → d1.live id = d.live id) ∧
    Touched d.idToCluster cache := by
  rcases train_cases d isNumber content tokens stringer ts d1 c h with
    ⟨cache1, root, cache2, h1, h2, h3, h4⟩ | ⟨cache1, mc1, tmpl, v, h1, h2, h3, h4, h5⟩
  · rw [hts] at h1
    simp at h1
  · rw [hts] at h1
    simp only [Except.ok.injEq, Prod.mk.injEq, Option.some.injEq] at h1
    obtain ⟨hc1, hm1⟩ := h1
    subst hc1
    subst hm1
    obtain ⟨ht1, hlive⟩ := treeSearch_touched d tokens _ _ cache (some mc) hts
    obtain ⟨id0, hid0⟩ := hlive mc rfl
    have hkey := live_keyId d hs id0 mc hid0
    rw [← hkey] at hid0
    have hlen := createTemplate_len d tokens mc.Tokens tmpl h2
    have htmpl : tmpl = List.zipWith (fun t m => if t ≠ m then d.config.ParamString else m)
        tokens mc.Tokens := by
      rw [createTemplate_ok d tokens mc.Tokens hlen] at h2
      simp only [Except.ok.injEq] at h2
      exact h2.symm
    have hcid : c.id = mc.id := by rw [h4]
    have hpeek : ∀ k, d1.live k =
        if k = c.id then (d.live k).map (fun _ => c) else d.live k := by
      intro k
      rw [h5]
      show ((cache.store c).Get c.id).1.cache.Peek k = _
      rw [cGet_peek, Peek_store, ht1.peek k]
      rfl
    refine ⟨⟨v, h3, ?_⟩, hlen, h5, hid0, ?_, ?_, ht1⟩
    · rw [h4, htmpl]; rfl
    · rw [hpeek, if_pos hcid.symm, hid0]; rfl
    · intro id hid
      rw [hpeek, if_neg (by rw [hcid]; exact hid)]

theorem Trained_reachable (isNumber : Char → Bool) (d : Drain) (k : Nat)
    (h : Trained isNumber d k) : Reachable isNumber d := by
  induction h with
  | new config d h => exact Reachable.new config d h
  | miss d d1 k content tokens stringer ts c cache _ _ h ih =>
    exact Reachable.step d d1 ih (Step.train d d1 content tokens stringer ts c h)
  | hit d d1 k content tokens stringer ts c cache mc _ _ h ih =>
    exact Reachable.step d d1 ih (Step.train d d1 content tokens stringer ts c h)

theorem Trained_counter (isNumber : Char → Bool) (d : Drain) (k : Nat)
    (h : Trained isNumber d k) : d.clustersCounter = k := by
  induction h with
  | new config d h =>
    unfold New at h
    split at h
    · simp at h
    · simp only [Except.ok.injEq] at h
      rw [← h]
  | miss d d1 k content tokens stringer ts c cache ht hts h ih =>
    have := train_miss_result d isNumber content tokens stringer ts d1 c cache
      (size_reachable isNumber d (Trained_reachable isNumber d k ht)) h hts
    rw [this.2.1, ih]
  | hit d d1 k content tokens stringer ts c cache mc ht hts h ih =>
    have := train_hit_result d isNumber content tokens stringer ts d1 c cache mc
      (StoreOk_reachable isNumber d (Trained_reachable isNumber d k ht)) h hts
    rw [this.2.2.1]
    exact ih

/-- The first `train` on a fresh engine with the empty token sequence. -/
theorem first_train_empty (isNumber : Char → Bool) (config : Config) (size counter : Nat)
    (content : String) (stringer : Option (List String → String)) (ts : Int)
    (hsize : 1 ≤ size) :
    Drain.train ⟨config, createNode, emptyStore size, counter⟩ isNumber content [] stringer ts
      = .ok (⟨config,
              .mk [(Itoa 0, .mk [] [counter + 1])] [],
              storeOf size (freshCluster (counter + 1) content [] stringer ts), counter + 1⟩,
             freshCluster (counter + 1) content [] stringer ts) := by
  have hset : (emptyStore size).Set (counter + 1)
      (freshCluster (counter + 1) content [] stringer ts) =
      storeOf size (freshCluster (counter + 1) content [] stringer ts) := by
    simp only [LogClusterCache.Set, LRU.Add, LRU.Peek, lruFind, List.length_singleton,
      emptyStore, storeOf]
    rw [if_neg (by omega)]
    rfl
  have hts : Drain.treeSearch ⟨config, createNode, emptyStore size, counter⟩ createNode []
      config.SimTh false = .ok (emptyStore size, none) := rfl
  rw [train_miss _ isNumber content [] stringer ts (emptyStore size)
    (storeOf size (freshCluster (counter + 1) content [] stringer ts))
    (.mk [(Itoa 0, .mk [] [counter + 1])] []) hts (by
      show Drain.addSeqToPrefixTree ⟨config, createNode, (emptyStore size).Set (counter + 1)
        (freshCluster (counter + 1) content [] stringer ts), counter + 1⟩ isNumber createNode
        (freshCluster (counter + 1) content [] stringer ts) = _
      rw [hset]
      rfl)]

/-! ## Sample buffers -/

theorem samples_fresh (id : Nat) (content : String) (tokens : List String)
    (stringer : Option (List String → String)) (ts : Int) :
    (freshCluster id content tokens stringer ts).Samples.length =
      min (freshCluster id content tokens stringer ts).Size maxSamples := by
  simp [freshCluster, maxSamples]

theorem samples_merged (wild : String) (mc : LogCluster) (content : String)
    (tokens : List String) (v : Volume)
    (h : mc.Samples.length = min mc.Size maxSamples) :
    (mergedCluster wild mc content tokens v).Samples.length =
      min (mergedCluster wild mc content tokens v).Size maxSamples := by
  simp only [mergedCluster]
  unfold maxSamples at h ⊢
  split
  · rename_i hlt
    rw [List.length_append, List.length_singleton]
    omega
  · omega

/-- In every reachable state the sample buffer of a stored cluster holds
`min(Size, maxSamples)` entries. -/
theorem samples_reachable (isNumber : Char → Bool) (d : Drain) (h : Reachable isNumber d) :
    ∀ e ∈ d.idToCluster.cache.entries,
      e.2.Samples.length = min e.2.Size maxSamples ∧ 1 ≤ e.2.Size := by
  induction h with
  | new config d h =>
    unfold New at h
    split at h
    · simp at h
    · simp only [Except.ok.injEq] at h
      rw [← h]
      intro e he
      simp [createLogClusterCache] at he
  | step d d1 hr hstep ih =>
    cases hstep with
    | train content tokens stringer ts c h =>
      intro e he
      rcases train_entries d isNumber content tokens stringer ts d1 c h e he with h1 | h1
      · exact ih e h1
      · rw [h1]
        rcases train_cases d isNumber content tokens stringer ts d1 c h with
          ⟨cache, root, cache2, hts, _⟩ | ⟨cache, mc, tmpl, v, hts, _⟩
        · have hm := train_miss_result d isNumber content tokens stringer ts d1 c cache
            (size_reachable isNumber d hr) h hts
          rw [hm.1]
          exact ⟨samples_fresh _ _ _ _ _, by simp [freshCluster]⟩
        · have hm := train_hit_result d isNumber content tokens stringer ts d1 c cache mc
            (StoreOk_reachable isNumber d hr) h hts
          obtain ⟨⟨v2, _, hc⟩, _, _, hl, _⟩ := hm
          have hmc := ih (mc.id, mc) (Peek_mem _ _ _ hl)
          rw [hc]
          exact ⟨samples_merged _ mc content tokens v2 hmc.1, by simp [mergedCluster]⟩
    | lookup content r h =>
      intro e he
      exact ih e ((Match_touched d d1 content r h).1.mem e he)

theorem prefix_merged (wild : String) (mc : LogCluster) (content : String)
    (tokens : List String) (v : Volume) :
    mc.Samples <+: (mergedCluster wild mc content tokens v).Samples := by
  simp only [mergedCluster]
  split
  · exact List.prefix_append _ _
  · exact List.prefix_refl _

theorem train_samples (d : Drain) (isNumber : Char → Bool) (content : String)
    (tokens : List String) (stringer : Option (List String → String)) (ts : Int)
    (d1 : Drain) (c : LogCluster) (hs : StoreOk d) (hsize : 1 ≤ d.idToCluster.cache.size)
    (h : d.train isNumber content tokens stringer ts = .ok (d1, c)) :
    ∀ id c2, id ≤ d.clustersCounter → d1.live id = some c2 →
      ∃ c1, d.live id = some c1 ∧ c1.Samples <+: c2.Samples := by
  intro id c2 hid hl
  rcases train_cases d isNumber content tokens stringer ts d1 c h with
    ⟨cache, root, cache2, hts, _⟩ | ⟨cache, mc, tmpl, v, hts, _⟩
  · have hm := train_miss_result d isNumber content tokens stringer ts d1 c cache hsize h hts
    exact ⟨c2, hm.2.2.2.2.1 id c2 (by omega) hl, List.prefix_refl _⟩
  · obtain ⟨⟨v2, _, hc⟩, _, _, hlmc, hl1, hother, _⟩ :=
      train_hit_result d isNumber content tokens stringer ts d1 c cache mc hs h hts
    by_cases hidmc : id = mc.id
    · rw [hidmc] at hl ⊢
      rw [hl1] at hl
      simp only [Option.some.injEq] at hl
      refine ⟨mc, hlmc, ?_⟩
      rw [← hl, hc]
      exact prefix_merged _ _ _ _ _
    · rw [hother id hidmc] at hl
      exact ⟨c2, hl, List.prefix_refl _⟩

theorem steps_samples (isNumber : Char → Bool) (d d1 : Drain) (hr : Reachable isNumber d)
    (h : Steps isNumber d d1) :
    Reachable isNumber d1 ∧ d.clustersCounter ≤ d1.clustersCounter ∧
    ∀ id c2, id ≤ d.clustersCounter → d1.live id = some c2 →
      ∃ c1, d.live id = some c1 ∧ c1.Samples <+: c2.Samples := by
  induction h with
  | refl => exact ⟨hr, le_refl _, fun id c2 _ hl => ⟨c2, hl, List.prefix_refl _⟩⟩
  | tail d1 d2 hsteps hstep ih =>
    obtain ⟨hr1, hcnt, hprev⟩ := ih
    have hs1 := StoreOk_reachable isNumber d1 hr1
    have hcnt2 := (step_templates isNumber d1 d2 hs1 hstep).1
    refine ⟨Reachable.step d1 d2 hr1 hstep, le_trans hcnt hcnt2, fun id c2 hid hl => ?_⟩
    cases hstep with
    | train content tokens stringer ts c h =>
      obtain ⟨cm, hcm, hp⟩ := train_samples d1 isNumber content tokens stringer ts d2 c hs1
        (size_reachable isNumber d1 hr1) h id c2 (le_trans hid hcnt) hl
      obtain ⟨c1, hc1, hp1⟩ := hprev id cm hid hcm
      exact ⟨c1, hc1, List.IsPrefix.trans hp1 hp⟩
    | lookup content r h =>
      have hpk := (Match_touched d1 d2 content r h).1.peek id
      have hl2 : d1.live id = some c2 := by
        unfold Drain.live at hl ⊢
        rw [← hpk]; exact hl
      exact hprev id c2 hid hl2

theorem exampleTrained_reachable : Reachable asciiDigit exampleTrained :=
  Reachable.step exampleStart exampleTrained (Reachable.new exampleConfig exampleStart rfl)
    (Step.train exampleStart exampleTrained "user 1 logged in"
      ["user", "1", "logged", "in"] none 5000000000 exampleCluster rfl)

theorem exampleTrained_trained : Trained asciiDigit exampleTrained 1 :=
  Trained.miss exampleStart exampleTrained 0 "user 1 logged in"
    ["user", "1", "logged", "in"] none 5000000000 exampleCluster exampleStart.idToCluster
    (Trained.new exampleConfig exampleStart rfl) rfl rfl

/-! ## Candidate lists under insertion -/

theorem idsAt_nil (n : Node) : n.idsAt [] = n.clusterIDs := rfl

theorem idsAt_cons_some (n c : Node) (k : String) (ks : List String)
    (h : mapGet n.keyToChildNode k = some c) : n.idsAt (k :: ks) = c.idsAt ks := by
  unfold Node.idsAt
  rw [descend_cons n k ks c h]

theorem idsAt_cons_none (n : Node) (k : String) (ks : List String)
    (h : mapGet n.keyToChildNode k = none) : n.idsAt (k :: ks) = [] := by
  unfold Node.idsAt
  simp only [Node.descend, h]

theorem idsAt_createNode (p : List String) : createNode.idsAt p = [] := by
  cases p with
  | nil => rfl
  | cons k ks => exact idsAt_cons_none createNode k ks rfl

theorem idsAt_mapSet (m : List (String × Node)) (ids : List Nat) (key : String)
    (child : Node) (k : String) (ks : List String) :
    (Node.mk (mapSet m key child) ids).idsAt (k :: ks) =
      if key = k then child.idsAt ks else (Node.mk m ids).idsAt (k :: ks) := by
  unfold Node.idsAt
  rw [descend_mapSet]
  by_cases hk : key = k
  · rw [if_pos hk, if_pos hk]
  · rw [if_neg hk, if_neg hk]

theorem idsAt_rebuild (n : Node) (ids : List Nat) (k : String) (ks : List String) :
    (Node.mk n.keyToChildNode ids).idsAt (k :: ks) = n.idsAt (k :: ks) := by
  unfold Node.idsAt
  rw [descend_rebuild]

theorem idsAt_child (cur child : Node) (key : String) (ks : List String)
    (hk : mapGet cur.keyToChildNode key = some child ∨
      (mapGet cur.keyToChildNode key = none ∧ child = createNode)) :
    cur.idsAt (key :: ks) = child.idsAt ks := by
  rcases hk with hk | ⟨hk, hc⟩
  · exact idsAt_cons_some cur child key ks hk
  · rw [idsAt_cons_none cur key ks hk, hc, idsAt_createNode]

theorem descend_some_of_idsAt (n : Node) (p : List String) (h : n.idsAt p ≠ []) :
    ∃ x, n.descend p = some x ∧ x.clusterIDs = n.idsAt p := by
  unfold Node.idsAt at h ⊢
  cases hd : n.descend p with
  | none => rw [hd] at h; exact absurd rfl h
  | some x => exact ⟨x, rfl, rfl⟩

/-- A step of the insertion walk that is not at the terminal node descends into a child,
or (only at the last token) takes the final `else`. -/
theorem addSeqLoop_descend (d : Drain) (isNumber : Char → Bool) (n id : Nat) (token : String)
    (rest : List String) (depth : Nat) (cur : Node) (cache : LogClusterCache) (node : Node)
    (cache2 : LogClusterCache)
    (hterm : ¬ ((depth : Int) ≥ d.config.maxNodeDepth ∨ depth ≥ n))
    (h : d.addSeqLoop isNumber n id (token :: rest) depth cur cache = .ok (node, cache2)) :
    (∃ key child child2,
      (mapGet cur.keyToChildNode key = some child ∨
        (mapGet cur.keyToChildNode key = none ∧ child = createNode)) ∧
      d.addSeqLoop isNumber n id rest (depth + 1) child cache = .ok (child2, cache2) ∧
      node = .mk (mapSet cur.keyToChildNode key child2) cur.clusterIDs) ∨
    (rest = [] ∧ node = cur ∧ cache2 = cache) := by
  simp only [Drain.addSeqLoop] at h
  rw [if_neg hterm] at h
  cases htok : mapGet cur.keyToChildNode token with
  | some child =>
    simp only [htok] at h
    obtain ⟨child2, hb, hn⟩ := attach_ok _ _ _ _ _ h
    exact Or.inl ⟨token, child, child2, Or.inl htok, hb, hn⟩
  | none =>
    simp only [htok] at h
    cases hw : mapGet cur.keyToChildNode d.config.ParamString with
    | some wildChild =>
      simp only [hw] at h
      by_cases hnum : hasNumbers isNumber token = true
      · simp only [hnum, Bool.not_true, Bool.false_eq_true, if_false] at h
        obtain ⟨child2, hb, hn⟩ := attach_ok _ _ _ _ _ h
        exact Or.inl ⟨_, wildChild, child2, Or.inl hw, hb, hn⟩
      · simp only [hnum, Bool.not_false, if_true] at h
        by_cases hlen : (cur.keyToChildNode.length : Int) < d.config.MaxChildren
        · rw [if_pos hlen] at h
          obtain ⟨child2, hb, hn⟩ := attach_ok _ _ _ _ _ h
          exact Or.inl ⟨token, createNode, child2, Or.inr ⟨htok, rfl⟩, hb, hn⟩
        · rw [if_neg hlen] at h
          obtain ⟨child2, hb, hn⟩ := attach_ok _ _ _ _ _ h
          exact Or.inl ⟨_, wildChild, child2, Or.inl hw, hb, hn⟩
    | none =>
      simp only [hw] at h
      by_cases hnum : hasNumbers isNumber token = true
      · simp only [hnum, Bool.not_true, Bool.false_eq_true, if_false] at h
        obtain ⟨child2, hb, hn⟩ := attach_ok _ _ _ _ _ h
        exact Or.inl ⟨_, createNode, child2, Or.inr ⟨hw, rfl⟩, hb, hn⟩
      · simp only [hnum, Bool.not_false, if_true] at h
        by_cases hlen : (cur.keyToChildNode.length : Int) + 1 < d.config.MaxChildren
        · rw [if_pos hlen] at h
          obtain ⟨child2, hb, hn⟩ := attach_ok _ _ _ _ _ h
          exact Or.inl ⟨token, createNode, child2, Or.inr ⟨htok, rfl⟩, hb, hn⟩
        · rw [if_neg hlen] at h
          by_cases hlen2 : (cur.keyToChildNode.length : Int) + 1 = d.config.MaxChildren
          · rw [if_pos hlen2] at h
            obtain ⟨child2, hb, hn⟩ := attach_ok _ _ _ _ _ h
            exact Or.inl ⟨_, createNode, child2, Or.inr ⟨hw, rfl⟩, hb, hn⟩
          · rw [if_neg hlen2] at h
            cases rest with
            | nil =>
              simp only [Except.ok.injEq, Prod.mk.injEq] at h
              exact Or.inr ⟨rfl, h.1.symm, h.2.symm⟩
            | cons _ _ => simp at h

/-- The effect of the insertion walk on candidate lists: at the end of one path the list
becomes the old list restricted to the ids the store still holds, followed by the new id,
and every id of the old list has been looked up; every other list is unchanged. -/
theorem addSeqLoop_lists (d : Drain) (isNumber : Char → Bool) (n id : Nat) :
    ∀ (tokens : List String) (depth : Nat) (cur : Node) (cache : LogClusterCache)
      (node : Node) (cache2 : LogClusterCache),
    depth + tokens.length = n + 1 → tokens ≠ [] →
    d.addSeqLoop isNumber n id tokens depth cur cache = .ok (node, cache2) →
    ∃ path,
      node.idsAt path =
        (cur.idsAt path).filter (fun i => (cache.cache.Peek i).isSome) ++ [id] ∧
      cache2 = touchAll cache (cur.idsAt path) ∧
      (∀ p, p ≠ path → node.idsAt p = cur.idsAt p) ∧
      (∃ leaf, node.descend path = some leaf) := by
  intro tokens
  induction tokens with
  | nil => intro depth cur cache node cache2 _ hne; exact absurd rfl hne
  | cons token rest ih =>
    intro depth cur cache node cache2 hrel _ h
    simp only [List.length_cons] at hrel
    by_cases hterm : (depth : Int) ≥ d.config.maxNodeDepth ∨ depth ≥ n
    · rw [addSeqLoop_terminal d isNumber n id token rest depth cur cache hterm] at h
      simp only [Except.ok.injEq, Prod.mk.injEq] at h
      refine ⟨[], ?_, ?_, ?_, ?_⟩
      · rw [← h.1, idsAt_nil, idsAt_nil, pruneStale_eq]
        rfl
      · rw [← h.2, idsAt_nil, pruneStale_eq]
      · intro p hp
        cases p with
        | nil => exact absurd rfl hp
        | cons k ks => rw [← h.1, idsAt_rebuild]
      · exact ⟨node, rfl⟩
    · have hlt : depth < n := by
        by_contra hc
        exact hterm (Or.inr (by omega))
      have hrest : rest ≠ [] := by
        intro hnil
        rw [hnil] at hrel
        simp at hrel
        omega
      rcases addSeqLoop_descend d isNumber n id token rest depth cur cache node cache2 hterm h
        with ⟨key, child, child2, hk, hrec, hnode⟩ | ⟨hnil, _, _⟩
      · obtain ⟨path, h1, h2, h3, leaf, h4⟩ :=
          ih (depth + 1) child cache child2 cache2 (by omega) hrest hrec
        have hcur := idsAt_child cur child key
        refine ⟨key :: path, ?_, ?_, ?_, ?_⟩
        · rw [hnode, idsAt_mapSet, if_pos rfl, hcur path hk]
          exact h1
        · rw [hcur path hk]
          exact h2
        · intro p hp
          rw [hnode]
          cases p with
          | nil => rfl
          | cons k ks =>
            rw [idsAt_mapSet]
            by_cases hkk : key = k
            · rw [if_pos hkk, ← hkk, hcur ks hk]
              apply h3
              intro hks
              apply hp
              rw [← hkk, hks]
            · rw [if_neg hkk, idsAt_rebuild]
        · refine ⟨leaf, ?_⟩
          rw [hnode, descend_mapSet, if_pos rfl]
          exact h4
      · exact absurd hnil hrest

/-- The effect of `addSeqToPrefixTree` on candidate lists: at the end of one path below
the branch of the token count the list becomes a part of the old list followed by the new
id (for a non-empty template: the old list restricted to the ids the store still holds);
every other list is unchanged. -/
theorem addSeqToPrefixTree_lists (d : Drain) (isNumber : Char → Bool) (root : Node)
    (cluster : LogCluster) (root2 : Node) (cache2 : LogClusterCache)
    (h : d.addSeqToPrefixTree isNumber root cluster = .ok (root2, cache2)) :
    ∃ path,
      root2.idsAt (Itoa cluster.Tokens.length :: path) =
        (if cluster.Tokens = [] then root.idsAt (Itoa cluster.Tokens.length :: path)
         else (root.idsAt (Itoa cluster.Tokens.length :: path)).filter
           (fun i => (d.idToCluster.cache.Peek i).isSome)) ++ [cluster.id] ∧
      (∀ p, p ≠ Itoa cluster.Tokens.length :: path → root2.idsAt p = root.idsAt p) ∧
      (∃ leaf, root2.descend (Itoa cluster.Tokens.length :: path) = some leaf) := by
  obtain ⟨first, hf⟩ := firstLayer_cases root (Itoa cluster.Tokens.length)
  rw [(addSeqToPrefixTree_eq d isNumber root cluster first hf).1] at h
  have hcur := idsAt_child root first (Itoa cluster.Tokens.length)
  by_cases hz : cluster.Tokens.length = 0
  · rw [if_pos hz] at h
    simp only [Except.ok.injEq, Prod.mk.injEq] at h
    have hnil : cluster.Tokens = [] := List.length_eq_zero.mp hz
    refine ⟨[], ?_, ?_, ?_⟩
    · rw [← h.1, idsAt_mapSet, if_pos rfl, if_pos hnil, hcur [] hf]
      rfl
    · intro p hp
      rw [← h.1]
      cases p with
      | nil => rfl
      | cons k ks =>
        rw [idsAt_mapSet]
        by_cases hkk : Itoa cluster.Tokens.length = k
        · rw [if_pos hkk]
          cases ks with
          | nil => rw [hkk] at hp; exact absurd rfl hp
          | cons k2 ks2 =>
            rw [idsAt_rebuild, ← hkk, hcur (k2 :: ks2) hf]
        · rw [if_neg hkk, idsAt_rebuild]
    · refine ⟨.mk first.keyToChildNode (first.clusterIDs ++ [cluster.id]), ?_⟩
      rw [← h.1, descend_mapSet, if_pos rfl]
      rfl
  · rw [if_neg hz] at h
    have hne : cluster.Tokens ≠ [] := fun e => hz (by rw [e]; rfl)
    obtain ⟨child2, hrec, hnode⟩ := attach_ok _ _ _ _ _ h
    obtain ⟨path, h1, _, h3, leaf, h4⟩ := addSeqLoop_lists d isNumber _ _ _ _ _ _ _ _
      (by omega) hne hrec
    refine ⟨path, ?_, ?_, ?_⟩
    · rw [hnode, idsAt_mapSet, if_pos rfl, if_neg hne, hcur path hf]
      exact h1
    · intro p hp
      rw [hnode]
      cases p with
      | nil => rfl
      | cons k ks =>
        rw [idsAt_mapSet]
        by_cases hkk : Itoa cluster.Tokens.length = k
        · rw [if_pos hkk, ← hkk, hcur ks hf]
          apply h3
          intro hks
          apply hp
          rw [← hkk, hks]
        · rw [if_neg hkk, idsAt_rebuild]
    · refine ⟨leaf, ?_⟩
      rw [hnode, descend_mapSet, if_pos rfl]
      exact h4

/-! ## The search follows the insertion -/

theorem searchLoop_congr (d d1 : Drain) (h : d1.config = d.config) (n : Nat) :
    ∀ (tokens : List String) (depth : Nat) (cur : Node),
    d1.searchLoop n tokens depth cur = d.searchLoop n tokens depth cur := by
  intro tokens
  induction tokens with
  | nil => intro depth cur; rfl
  | cons token rest ih =>
    intro depth cur
    simp only [Drain.searchLoop, h]
    split
    · rfl
    · split
      · rfl
      · cases mapGet cur.keyToChildNode token with
        | some child => exact ih _ _
        | none =>
          simp only
          cases mapGet cur.keyToChildNode d.config.ParamString with
          | some child => exact ih _ _
          | none => rfl

theorem searchLoop_terminal (d : Drain) (n : Nat) (token : String) (rest : List String)
    (depth : Nat) (cur : Node) (hle : depth ≤ n)
    (h : (depth : Int) ≥ d.config.maxNodeDepth ∨ depth ≥ n) :
    d.searchLoop n (token :: rest) depth cur = some cur := by
  simp only [Drain.searchLoop]
  by_cases h1 : (depth : Int) ≥ d.config.maxNodeDepth
  · rw [if_pos h1]
  · rw [if_neg h1]
    have h2 : depth = n := by
      rcases h with h | h
      · exact absurd h h1
      · omega
    rw [if_pos h2]

theorem searchLoop_token (d : Drain) (n : Nat) (token : String) (rest : List String)
    (depth : Nat) (cur child : Node)
    (h : ¬ ((depth : Int) ≥ d.config.maxNodeDepth ∨ depth ≥ n))
    (hc : mapGet cur.keyToChildNode token = some child) :
    d.searchLoop n (token :: rest) depth cur = d.searchLoop n rest (depth + 1) child := by
  simp only [Drain.searchLoop]
  rw [if_neg (fun h1 => h (Or.inl h1)), if_neg (fun h2 => h (Or.inr (by omega)))]
  simp only [hc]

theorem searchLoop_wild (d : Drain) (n : Nat) (token : String) (rest : List String)
    (depth : Nat) (cur child : Node)
    (h : ¬ ((depth : Int) ≥ d.config.maxNodeDepth ∨ depth ≥ n))
    (ht : mapGet cur.keyToChildNode token = none)
    (hc : mapGet cur.keyToChildNode d.config.ParamString = some child) :
    d.searchLoop n (token :: rest) depth cur = d.searchLoop n rest (depth + 1) child := by
  simp only [Drain.searchLoop]
  rw [if_neg (fun h1 => h (Or.inl h1)), if_neg (fun h2 => h (Or.inr (by omega)))]
  simp only [ht, hc]

/-- The search step that mirrors an insertion step: it reaches the child under `key`. -/
theorem searchLoop_key (d : Drain) (n : Nat) (token : String) (rest : List String)
    (depth : Nat) (cur child : Node) (key : String)
    (h : ¬ ((depth : Int) ≥ d.config.maxNodeDepth ∨ depth ≥ n))
    (hkey : key = token ∨ (key = d.config.ParamString ∧ mapGet cur.keyToChildNode token = none))
    (hc : mapGet cur.keyToChildNode key = some child) :
    d.searchLoop n (token :: rest) depth cur = d.searchLoop n rest (depth + 1) child := by
  rcases hkey with hk | ⟨hk, ht⟩
  · rw [hk] at hc
    exact searchLoop_token d n token rest depth cur child h hc
  · rw [hk] at hc
    exact searchLoop_wild d n token rest depth cur child h ht hc

theorem keyToChildNode_mk (m : List (String × Node)) (ids : List Nat) :
    (Node.mk m ids).keyToChildNode = m := rfl

/-- On a subtree that meets the branching bound, the insertion walk returns; the search
for the same tokens in the new subtree ends at the node the walk ended at, whose list is
the old list there restricted to the ids the store still holds, followed by the new id;
and that old list is empty or is the list the search ended at before. -/
theorem addSeqLoop_search (d : Drain) (isNumber : Char → Bool) (n id : Nat)
    (hmc : 1 ≤ d.config.MaxChildren) :
    ∀ (tokens : List String) (depth : Nat) (cur : Node) (cache : LogClusterCache),
    depth + tokens.length = n + 1 → tokens ≠ [] →
    SubtreeOk d.config.MaxChildren d.config.ParamString cur →
    ∃ node cache2 path leaf,
      d.addSeqLoop isNumber n id tokens depth cur cache = .ok (node, cache2) ∧
      d.searchLoop n tokens depth node = some leaf ∧
      node.descend path = some leaf ∧
      leaf.clusterIDs =
        (cur.idsAt path).filter (fun i => (cache.cache.Peek i).isSome) ++ [id] ∧
      cache2 = touchAll cache (cur.idsAt path) ∧
      (cur.idsAt path = [] ∨
        ∃ old, d.searchLoop n tokens depth cur = some old ∧ old.clusterIDs = cur.idsAt path) := by
  intro tokens
  induction tokens with
  | nil => intro depth cur cache _ hne; exact absurd rfl hne
  | cons token rest ih =>
    intro depth cur cache hrel _ hs
    simp only [List.length_cons] at hrel
    by_cases hterm : (depth : Int) ≥ d.config.maxNodeDepth ∨ depth ≥ n
    · refine ⟨_, _, [], _, addSeqLoop_terminal d isNumber n id token rest depth cur cache hterm,
        searchLoop_terminal d n token rest depth _ (by omega) hterm, rfl, ?_, ?_, Or.inr ⟨cur,
          searchLoop_terminal d n token rest depth cur (by omega) hterm, rfl⟩⟩
      · rw [idsAt_nil, pruneStale_eq]
        rfl
      · rw [idsAt_nil, pruneStale_eq]
    · have hlt : depth < n := by
        by_contra hc
        exact hterm (Or.inr (by omega))
      have hrest : rest ≠ [] := by
        intro hnil
        rw [hnil] at hrel
        simp at hrel
        omega
      obtain ⟨key, child, hstep, _, hkey, hk⟩ :=
        addSeqLoop_step d isNumber n id token rest depth cur hterm (hs [] cur rfl)
      have hk2 : mapGet cur.keyToChildNode key = some child ∨
          (mapGet cur.keyToChildNode key = none ∧ child = createNode) := by
        rcases hk with hk | ⟨hk, hc, _⟩
        · exact Or.inl hk
        · exact Or.inr ⟨hk, hc⟩
      have hchild : SubtreeOk d.config.MaxChildren d.config.ParamString child := by
        rcases hk2 with hk | ⟨_, hk⟩
        · exact SubtreeOk_child _ _ cur child key hs hk
        · rw [hk]; exact SubtreeOk_createNode _ _ hmc
      obtain ⟨child2, cache2, path, leaf, hrec, hsearch, hdesc, hids, hcache, hold⟩ :=
        ih (depth + 1) child cache (by omega) hrest hchild
      have hcur := idsAt_child cur child key path hk2
      refine ⟨.mk (mapSet cur.keyToChildNode key child2) cur.clusterIDs, cache2, key :: path,
        leaf, ?_, ?_, ?_, ?_, ?_, ?_⟩
      · rw [hstep cache, hrec]; rfl
      · rw [searchLoop_key d n token rest depth _ child2 key hterm ?_ ?_]
        · exact hsearch
        · rcases hkey with hk | ⟨hk, ht⟩
          · exact Or.inl hk
          · by_cases hkt : key = token
            · exact Or.inl hkt
            · refine Or.inr ⟨hk, ?_⟩
              rw [keyToChildNode_mk, mapGet_mapSet, if_neg hkt]
              exact ht
        · rw [keyToChildNode_mk, mapGet_mapSet, if_pos rfl]
      · rw [descend_mapSet, if_pos rfl]
        exact hdesc
      · rw [hcur]; exact hids
      · rw [hcur]; exact hcache
      · rw [hcur]
        rcases hold with hold | ⟨old, ho1, ho2⟩
        · exact Or.inl hold
        · rcases hk2 with hk3 | ⟨_, hc⟩
          · exact Or.inr ⟨old, by
              rw [searchLoop_key d n token rest depth cur child key hterm hkey hk3]
              exact ho1, ho2⟩
          · left
            rw [hc, idsAt_createNode]

theorem addSeqToPrefixTree_search (d : Drain) (isNumber : Char → Bool) (root : Node)
    (cluster : LogCluster) (hmc : 1 ≤ d.config.MaxChildren)
    (hne : cluster.Tokens ≠ [])
    (hroot : ∀ k path node, root.descend (k :: path) = some node →
      Bounded d.config.MaxChildren d.config.ParamString node) :
    ∃ root2 cache2 cur2 path leaf,
      d.addSeqToPrefixTree isNumber root cluster = .ok (root2, cache2) ∧
      mapGet root2.keyToChildNode (Itoa cluster.Tokens.length) = some cur2 ∧
      d.searchLoop cluster.Tokens.length cluster.Tokens 1 cur2 = some leaf ∧
      root2.descend (Itoa cluster.Tokens.length :: path) = some leaf ∧
      leaf.clusterIDs =
        (root.idsAt (Itoa cluster.Tokens.length :: path)).filter
          (fun i => (d.idToCluster.cache.Peek i).isSome) ++ [cluster.id] ∧
      cache2 = touchAll d.idToCluster (root.idsAt (Itoa cluster.Tokens.length :: path)) ∧
      (root.idsAt (Itoa cluster.Tokens.length :: path) = [] ∨
        ∃ cur old, mapGet root.keyToChildNode (Itoa cluster.Tokens.length) = some cur ∧
          d.searchLoop cluster.Tokens.length cluster.Tokens 1 cur = some old ∧
          old.clusterIDs = root.idsAt (Itoa cluster.Tokens.length :: path)) ∧
      (∀ key, key ≠ Itoa cluster.Tokens.length →
        mapGet root2.keyToChildNode key = mapGet root.keyToChildNode key) := by
  obtain ⟨first, hf⟩ := firstLayer_cases root (Itoa cluster.Tokens.length)
  have hfirst := firstLayer_subtree _ _ root first _ hmc hroot hf
  have hz : cluster.Tokens.length ≠ 0 := fun h => hne (List.length_eq_zero.mp h)
  obtain ⟨child2, cache2, path, leaf, hrec, hsearch, hdesc, hids, hcache, hold⟩ :=
    addSeqLoop_search d isNumber cluster.Tokens.length cluster.id hmc cluster.Tokens 1 first
      d.idToCluster (by omega) hne hfirst
  have hcur := idsAt_child root first (Itoa cluster.Tokens.length) path hf
  refine ⟨.mk (mapSet root.keyToChildNode (Itoa cluster.Tokens.length) child2) root.clusterIDs,
    cache2, child2, path, leaf, ?_, ?_, hsearch, ?_, ?_, ?_, ?_, ?_⟩
  · rw [(addSeqToPrefixTree_eq d isNumber root cluster first hf).1, if_neg hz, hrec]
    rfl
  · rw [keyToChildNode_mk, mapGet_mapSet, if_pos rfl]
  · rw [descend_mapSet, if_pos rfl]
    exact hdesc
  · rw [hcur]; exact hids
  · rw [hcur]; exact hcache
  · rw [hcur]
    rcases hold with hold | ⟨old, ho1, ho2⟩
    · exact Or.inl hold
    · rcases hf with hf1 | ⟨_, hc⟩
      · exact Or.inr ⟨first, old, hf1, ho1, ho2⟩
      · left
        rw [hc, idsAt_createNode]
  · intro key hkey
    rw [keyToChildNode_mk, mapGet_mapSet, if_neg (fun e => hkey e.symm)]

theorem addSeqToPrefixTree_branches (d : Drain) (isNumber : Char → Bool) (root : Node)
    (cluster : LogCluster) (root2 : Node) (cache2 : LogClusterCache)
    (h : d.addSeqToPrefixTree isNumber root cluster = .ok (root2, cache2)) :
    (∀ key, key ≠ Itoa cluster.Tokens.length →
      mapGet root2.keyToChildNode key = mapGet root.keyToChildNode key) ∧
    ∃ cur2, mapGet root2.keyToChildNode (Itoa cluster.Tokens.length) = some cur2 := by
  obtain ⟨first, hf⟩ := firstLayer_cases root (Itoa cluster.Tokens.length)
  rw [(addSeqToPrefixTree_eq d isNumber root cluster first hf).1] at h
  by_cases hz : cluster.Tokens.length = 0
  · rw [if_pos hz] at h
    simp only [Except.ok.injEq, Prod.mk.injEq] at h
    rw [← h.1]
    constructor
    · intro key hkey
      rw [keyToChildNode_mk, mapGet_mapSet, if_neg (fun e => hkey e.symm)]
    · exact ⟨_, by rw [keyToChildNode_mk, mapGet_mapSet, if_pos rfl]⟩
  · rw [if_neg hz] at h
    obtain ⟨child2, _, hnode⟩ := attach_ok _ _ _ _ _ h
    rw [hnode]
    constructor
    · intro key hkey
      rw [keyToChildNode_mk, mapGet_mapSet, if_neg (fun e => hkey e.symm)]
    · exact ⟨_, by rw [keyToChildNode_mk, mapGet_mapSet, if_pos rfl]⟩

theorem mem_idsAt (n : Node) (p : List String) (i : Nat) (h : i ∈ n.idsAt p) :
    ∃ x, n.descend p = some x ∧ i ∈ x.clusterIDs := by
  unfold Node.idsAt at h
  cases hd : n.descend p with
  | none => rw [hd] at h; simp at h
  | some x => rw [hd] at h; exact ⟨x, rfl, h⟩

theorem idsAt_of_descend (n x : Node) (p : List String) (h : n.descend p = some x) :
    n.idsAt p = x.clusterIDs := by
  unfold Node.idsAt
  rw [h]

/-- In every reachable state no candidate list holds an id twice. -/
theorem nodup_reachable (isNumber : Char → Bool) (d : Drain) (h : Reachable isNumber d) :
    ∀ p, (d.rootNode.idsAt p).Nodup := by
  induction h with
  | new config d h =>
    unfold New at h
    split at h
    · simp at h
    · simp only [Except.ok.injEq] at h
      rw [← h]
      intro p
      rw [idsAt_createNode]
      exact List.nodup_nil
  | step d d1 hr hstep ih =>
    cases hstep with
    | train content tokens stringer ts c h =>
      rcases train_cases d isNumber content tokens stringer ts d1 c h with
        ⟨cache, root, cache2, h1, h2, h3, h4⟩ | ⟨cache, mc, tmpl, v, h1, h2, h3, h4, h5⟩
      · obtain ⟨path, hl1, hl2, _⟩ := addSeqToPrefixTree_lists _ isNumber _ _ _ _ h3
        have hroot : d1.rootNode = root := by rw [h4]
        have hcid : c.id = d.clustersCounter + 1 := by rw [h2]
        intro p
        rw [hroot]
        by_cases hp : p = Itoa c.Tokens.length :: path
        · rw [hp, hl1]
          have hfresh : ∀ i ∈ d.rootNode.idsAt (Itoa c.Tokens.length :: path),
              i ≤ d.clustersCounter := by
            intro i hi
            obtain ⟨x, hx, hix⟩ := mem_idsAt _ _ _ hi
            exact (TreeOk_reachable isNumber d hr).fresh _ x hx i hix
          rw [List.nodup_append]
          refine ⟨?_, List.nodup_singleton _, ?_⟩
          · split
            · exact ih _
            · exact (ih _).filter _
          · intro a ha hb
            simp only [List.mem_singleton] at hb
            have hmem : a ∈ d.rootNode.idsAt (Itoa c.Tokens.length :: path) := by
              split at ha
              · exact ha
              · exact (List.mem_filter.mp ha).1
            have := hfresh a hmem
            omega
        · rw [hl2 p hp]
          exact ih p
      · rw [h5]
        exact ih
    | lookup content r h =>
      rw [(Match_touched d d1 content r h).2.2.1]
      exact ih

/-- A `train` call with a non-empty token sequence that finds no match, in a reachable
state of an engine with `MaxChildren ≥ 1`: the search for the same tokens in the new tree
ends at the node that holds the new id, after the ids its list held before that are still
live; and that earlier list is empty or is the list the search ended at before. -/
theorem train_miss_leaf (d : Drain) (isNumber : Char → Bool) (content : String)
    (tokens : List String) (stringer : Option (List String → String)) (ts : Int)
    (d1 : Drain) (c : LogCluster) (cache : LogClusterCache)
    (hr : Reachable isNumber d) (hmc : 1 ≤ d.config.MaxChildren) (hne : tokens ≠ [])
    (h : d.train isNumber content tokens stringer ts = .ok (d1, c))
    (hts : d.treeSearch d.rootNode tokens d.config.SimTh false = .ok (cache, none)) :
    ∃ cur2 leaf path,
      mapGet d1.rootNode.keyToChildNode (Itoa tokens.length) = some cur2 ∧
      d1.searchLoop tokens.length tokens 1 cur2 = some leaf ∧
      d1.rootNode.descend (Itoa tokens.length :: path) = some leaf ∧
      leaf.clusterIDs =
        (d.rootNode.idsAt (Itoa tokens.length :: path)).filter
          (fun i => (d1.live i).isSome) ++ [c.id] ∧
      (d.rootNode.idsAt (Itoa tokens.length :: path) = [] ∨
        ∃ cur old, mapGet d.rootNode.keyToChildNode (Itoa tokens.length) = some cur ∧
          d.searchLoop tokens.length tokens 1 cur = some old ∧
          old.clusterIDs = d.rootNode.idsAt (Itoa tokens.length :: path)) := by
  obtain ⟨hc, _, hcfg, _, _, _, root, cache2, hadd, hd1⟩ :=
    train_miss_result d isNumber content tokens stringer ts d1 c cache
      (size_reachable isNumber d hr) h hts
  have hctok : c.Tokens = tokens := by rw [hc]; rfl
  have hsh := ShapeOk_reachable isNumber d hr hmc
  obtain ⟨root2, cache3, cur2, path, leaf, hadd2, hcur2, hsearch, hdesc, hids, hcache, hold, _⟩ :=
    addSeqToPrefixTree_search
      ⟨d.config, d.rootNode, cache.Set (d.clustersCounter + 1) c, d.clustersCounter + 1⟩
      isNumber d.rootNode c hmc (by rw [hctok]; exact hne) hsh.bounded
  rw [hadd] at hadd2
  simp only [Except.ok.injEq, Prod.mk.injEq] at hadd2
  obtain ⟨hr2, hc2⟩ := hadd2
  subst hr2
  subst hc2
  rw [hctok] at hcur2 hsearch hdesc hids hcache hold
  have hroot : d1.rootNode = root := by rw [hd1]
  have hlive : ∀ i, d1.live i = (cache.Set (d.clustersCounter + 1) c).cache.Peek i := by
    intro i
    rw [hd1]
    show cache2.cache.Peek i = _
    rw [hcache, touchAll_peek]
  have hcongr : ∀ (cur : Node),
      Drain.searchLoop ⟨d.config, d.rootNode, cache.Set (d.clustersCounter + 1) c,
        d.clustersCounter + 1⟩ tokens.length tokens 1 cur =
      d.searchLoop tokens.length tokens 1 cur :=
    fun cur => searchLoop_congr d
      ⟨d.config, d.rootNode, cache.Set (d.clustersCounter + 1) c, d.clustersCounter + 1⟩
      rfl _ _ _ _
  rw [hcongr] at hsearch
  refine ⟨cur2, leaf, path, by rw [hroot]; exact hcur2, ?_, by rw [hroot]; exact hdesc, ?_, ?_⟩
  · rw [searchLoop_congr d d1 hcfg]
    exact hsearch
  · rw [hids]
    congr 1
    apply List.filter_congr
    intro i _
    rw [hlive]
  · rcases hold with hold | ⟨cur, old, ho1, ho2, ho3⟩
    · exact Or.inl hold
    · rw [hcongr] at ho2
      exact Or.inr ⟨cur, old, ho1, ho2, ho3⟩

theorem recencyFull_reachable : Reachable asciiDigit recencyFull :=
  have h0 : Reachable asciiDigit recencyStart := Reachable.new recencyConfig recencyStart rfl
  have h1 := Reachable.step recencyStart
    (outcome (recencyStart.Train asciiDigit "a b" 0) recencyStart exampleCluster).1 h0
    (Step.train recencyStart _ "a b" ["a", "b"] none 0
      (outcome (recencyStart.Train asciiDigit "a b" 0) recencyStart exampleCluster).2 rfl)
  have h2 := Reachable.step _ recencyBefore h1
    (Step.train _ recencyBefore "c d" ["c", "d"] none 0
      (outcome ((outcome (recencyStart.Train asciiDigit "a b" 0)
        recencyStart exampleCluster).1.Train asciiDigit "c d" 0)
        recencyStart exampleCluster).2 rfl)
  Reachable.step recencyBefore recencyFull h2
    (Step.train recencyBefore recencyFull "e f" ["e", "f"] none 0
      (outcome (recencyBefore.Train asciiDigit "e f" 0) recencyStart exampleCluster).2 rfl)

/-- On the example with room for two clusters: cluster 1 has been evicted, and the
insertion of "a x" replaces the stale id 1 at the node under "a" by the new id 4, while
the node under "c" keeps its list. -/
theorem recencyPruned_lists :
    recencyFull.idToCluster.cache.Keys = [2, 3] ∧
    recencyFull.rootNode.idsAt ["2", "a"] = [1] ∧
    Except.map (fun r => r.1.rootNode.idsAt ["2", "a"])
      (recencyFull.Train asciiDigit "a x" 0) = .ok [4] ∧
    Except.map (fun r => r.1.rootNode.idsAt ["2", "c"])
      (recencyFull.Train asciiDigit "a x" 0) = .ok [2] :=
  ⟨rfl, rfl, rfl, rfl⟩

/-! ## What a search finds after training -/

theorem treeSearch_absent (d : Drain) (root : Node) (tokens : List String) (simTh : F64)
    (inc : Bool) (h : mapGet root.keyToChildNode (Itoa tokens.length) = none) :
    d.treeSearch root tokens simTh inc = .ok (d.idToCluster, none) := by
  unfold Drain.treeSearch
  simp only [h]

/-- The outcome of `treeSearch` for a non-empty sequence: no branch or no path (nothing
found, store untouched), or the outcome of `fastMatch` at the leaf the walk reaches. -/
theorem treeSearch_inv (d : Drain) (tokens : List String) (simTh : F64) (inc : Bool)
    (cache : LogClusterCache) (r : Option LogCluster) (hne : tokens ≠ [])
    (h : d.treeSearch d.rootNode tokens simTh inc = .ok (cache, r)) :
    (r = none ∧ cache = d.idToCluster ∧
      ∀ cur, mapGet d.rootNode.keyToChildNode (Itoa tokens.length) = some cur →
        d.searchLoop tokens.length tokens 1 cur = none) ∨
    ∃ cur leaf, mapGet d.rootNode.keyToChildNode (Itoa tokens.length) = some cur ∧
      d.searchLoop tokens.length tokens 1 cur = some leaf ∧
      d.fastMatch leaf.clusterIDs tokens simTh inc = .ok (cache, r) := by
  have hn : tokens.length ≠ 0 := fun e => hne (List.length_eq_zero.mp e)
  rcases Option.eq_none_or_eq_some (mapGet d.rootNode.keyToChildNode (Itoa tokens.length))
    with hroot | ⟨cur, hroot⟩
  · rw [treeSearch_absent d d.rootNode tokens simTh inc hroot] at h
    simp only [Except.ok.injEq, Prod.mk.injEq] at h
    exact Or.inl ⟨h.2.symm, h.1.symm, fun cur hc => by rw [hroot] at hc; simp at hc⟩
  · rcases Option.eq_none_or_eq_some (d.searchLoop tokens.length tokens 1 cur)
      with hleaf | ⟨leaf, hleaf⟩
    · unfold Drain.treeSearch at h
      simp only [hroot, if_neg hn, hleaf, Except.ok.injEq, Prod.mk.injEq] at h
      refine Or.inl ⟨h.2.symm, h.1.symm, fun cur2 hc => ?_⟩
      rw [hroot] at hc
      simp only [Option.some.injEq] at hc
      rw [← hc]
      exact hleaf
    · rw [treeSearch_leaf d d.rootNode tokens simTh inc cur leaf hne hroot hleaf] at h
      exact Or.inr ⟨cur, leaf, hroot, hleaf, h⟩

theorem wildcardEq_refl (wild : String) (t : List String) : wildcardEq wild t t := by
  refine ⟨rfl, ?_⟩
  intro p hp
  right
  induction t with
  | nil => simp at hp
  | cons a t ih =>
    simp only [List.zip_cons_cons, List.mem_cons] at hp
    rcases hp with hp | hp
    · rw [hp]
    · exact ih hp

theorem wildcardEq_merged (wild : String) : ∀ (tokens template : List String),
    tokens.length = template.length →
    wildcardEq wild (List.zipWith (fun t m => if t ≠ m then wild else m) tokens template)
      tokens := by
  intro tokens
  induction tokens with
  | nil =>
    intro template h
    cases template with
    | nil => exact ⟨rfl, fun p hp => by simp at hp⟩
    | cons _ _ => simp at h
  | cons a tokens ih =>
    intro template h
    cases template with
    | nil => simp at h
    | cons b template =>
      simp only [List.length_cons, Nat.add_right_cancel_iff] at h
      obtain ⟨h1, h2⟩ := ih template h
      refine ⟨by simp only [List.zipWith_cons_cons, List.length_cons, h1], ?_⟩
      intro p hp
      simp only [List.zipWith_cons_cons, List.zip_cons_cons, List.mem_cons] at hp
      rcases hp with hp | hp
      · rw [hp]
        by_cases hab : a = b
        · right; simp [hab]
        · left; simp [hab]
      · exact h2 p hp

theorem not_pinned_wildcardEq (wild : String) (template tokens : List String)
    (hw : isMarked wild = false) (h : wildcardEq wild template tokens) :
    ¬ pinnedMismatch template tokens := by
  rintro ⟨p, hp, hm, hne⟩
  rcases h.2 p hp with h1 | h1
  · rw [h1, hw] at hm
    exact absurd hm (by simp)
  · exact hne h1

/-- A live cluster of the list that is not disqualified is among the scored candidates. -/
theorem candidate_of_live (d : Drain) (ids : List Nat) (tokens : List String) (inc : Bool)
    (id : Nat) (c : LogCluster) (hid : id ∈ ids) (hl : d.live id = some c)
    (hlen : c.Tokens.length = tokens.length) (hp : ¬ pinnedMismatch c.Tokens tokens) :
    (c, F64.div (literalMatches d.config.ParamString c.Tokens tokens +
          (if inc then paramPositions d.config.ParamString c.Tokens else 0)) c.Tokens.length,
        (paramPositions d.config.ParamString c.Tokens : Int))
      ∈ d.candidates ids tokens inc := by
  unfold Drain.candidates
  rw [List.mem_filterMap]
  refine ⟨c, List.mem_filterMap.mpr ⟨id, hid, hl⟩, ?_⟩
  unfold Drain.score
  rw [getSeqDistance_free d c.Tokens tokens inc hlen hp]
  have hnn : ¬ ((paramPositions d.config.ParamString c.Tokens : Int) < 0) := by omega
  simp only [hnn, if_false]

/-- An exact lookup among candidates finds a cluster as soon as a live candidate equals
the tokens up to wildcards. -/
theorem fastMatch_finds (d : Drain) (ids : List Nat) (tokens : List String) (id : Nat)
    (c : LogCluster) (hne : tokens ≠ [])
    (hlen : ∀ id ∈ ids, ∀ c, d.live id = some c → c.Tokens.length = tokens.length)
    (hid : id ∈ ids) (hl : d.live id = some c)
    (hw : wildcardEq d.config.ParamString c.Tokens tokens)
    (hp : ¬ pinnedMismatch c.Tokens tokens) :
    ∃ cache c2, d.fastMatch ids tokens ⟨1, 1⟩ true = .ok (cache, some c2) := by
  obtain ⟨cache, r, hfm, _, hnone⟩ := fastMatch_best d ids tokens ⟨1, 1⟩ true hlen
  cases r with
  | some c2 => exact ⟨cache, c2, hfm⟩
  | none =>
    exfalso
    have hcand := candidate_of_live d ids tokens true id c hid hl hw.1 hp
    have hge := hnone rfl _ hcand
    simp only [if_true] at hge
    have hsum := (counts_le d.config.ParamString c.Tokens tokens hw.1).2.mpr hw.2
    rw [hsum] at hge
    have hn : c.Tokens.length ≠ 0 := by
      rw [hw.1]
      exact fun e => hne (List.length_eq_zero.mp e)
    simp [F64.ge, F64.div, hn] at hge

theorem Match_of_treeSearch (d : Drain) (content : String) (cache : LogClusterCache)
    (r : Option LogCluster)
    (h : d.treeSearch d.rootNode (d.getContentAsTokens content) ⟨1, 1⟩ true = .ok (cache, r)) :
    d.Match content = .ok (⟨d.config, d.rootNode, cache, d.clustersCounter⟩, r) := by
  unfold Drain.Match
  rw [h]

theorem getContentAsTokens_congr (d d1 : Drain) (h : d1.config = d.config) (content : String) :
    d1.getContentAsTokens content = d.getContentAsTokens content := by
  unfold Drain.getContentAsTokens
  rw [h]

/-- After a `train` call with a non-empty token sequence, in a reachable state of an
engine with `MaxChildren ≥ 1`, the search for the same tokens ends at a leaf that lists
the returned cluster, which is live. -/
theorem train_then_search (d : Drain) (isNumber : Char → Bool) (content : String)
    (tokens : List String) (stringer : Option (List String → String)) (ts : Int)
    (d1 : Drain) (c : LogCluster)
    (hr : Reachable isNumber d) (hmc : 1 ≤ d.config.MaxChildren) (hne : tokens ≠ [])
    (h : d.train isNumber content tokens stringer ts = .ok (d1, c)) :
    d1.live c.id = some c ∧
    wildcardEq d.config.ParamString c.Tokens tokens ∧
    ∃ cur leaf, mapGet d1.rootNode.keyToChildNode (Itoa tokens.length) = some cur ∧
      d1.searchLoop tokens.length tokens 1 cur = some leaf ∧ c.id ∈ leaf.clusterIDs := by
  have hs := StoreOk_reachable isNumber d hr
  rcases train_cases d isNumber content tokens stringer ts d1 c h with
    ⟨cache, _, _, hts, _⟩ | ⟨cache, mc, _, _, hts, _⟩
  · obtain ⟨hc, _, _, hlc, _⟩ := train_miss_result d isNumber content tokens stringer ts d1 c
      cache (size_reachable isNumber d hr) h hts
    obtain ⟨cur2, leaf, path, h1, h2, _, h4, _⟩ := train_miss_leaf d isNumber content tokens
      stringer ts d1 c cache hr hmc hne h hts
    have hcid : c.id = d.clustersCounter + 1 := by rw [hc]; rfl
    have hctok : c.Tokens = tokens := by rw [hc]; rfl
    refine ⟨by rw [hcid]; exact hlc, by rw [hctok]; exact wildcardEq_refl _ _, cur2, leaf, h1,
      h2, ?_⟩
    rw [h4]
    simp
  · obtain ⟨⟨v, _, hc⟩, hlen, hd1, hlmc, hl1, _⟩ := train_hit_result d isNumber content tokens
      stringer ts d1 c cache mc hs h hts
    have hcid : c.id = mc.id := by rw [hc]; rfl
    have hctok : c.Tokens = List.zipWith
        (fun t m => if t ≠ m then d.config.ParamString else m) tokens mc.Tokens := by
      rw [hc]; rfl
    rcases treeSearch_inv d tokens _ _ cache (some mc) hne hts with ⟨hnone, _⟩ |
      ⟨cur, leaf, h1, h2, hfm⟩
    · simp at hnone
    · have hlenall := fastMatch_len d leaf.clusterIDs tokens _ _ cache (some mc) hfm
      obtain ⟨cache2, r2, hfm2, hsome, _⟩ := fastMatch_best d leaf.clusterIDs tokens
        d.config.SimTh false hlenall
      rw [hfm] at hfm2
      simp only [Except.ok.injEq, Prod.mk.injEq] at hfm2
      obtain ⟨⟨id, hid, hl⟩, _⟩ := hsome mc hfm2.2.symm
      have hkey := live_keyId d hs id mc hl
      have hroot : d1.rootNode = d.rootNode := by rw [hd1]
      have hcfg : d1.config = d.config := by rw [hd1]
      refine ⟨by rw [hcid]; exact hl1, by rw [hctok]; exact wildcardEq_merged _ _ _ hlen,
        cur, leaf, by rw [hroot]; exact h1, ?_, ?_⟩
      · rw [searchLoop_congr d d1 hcfg]
        exact h2
      · rw [hcid, hkey]
        exact hid

/-! ## Training the same tokens again -/

theorem getSeqDistance_congr (d d1 : Drain) (h : d1.config = d.config)
    (template tokens : List String) (inc : Bool) :
    d1.getSeqDistance template tokens inc = d.getSeqDistance template tokens inc := by
  unfold Drain.getSeqDistance
  rw [h]

theorem score_congr (d d1 : Drain) (h : d1.config = d.config) (tokens : List String)
    (inc : Bool) (c : LogCluster) : d1.score tokens inc c = d.score tokens inc c := by
  unfold Drain.score
  rw [getSeqDistance_congr d d1 h]

theorem score_of_distance (d : Drain) (tokens : List String) (inc : Bool) (c : LogCluster)
    (s : F64) (p : Int) (h : d.getSeqDistance c.Tokens tokens inc = .ok (s, p)) (hp : 0 ≤ p) :
    d.score tokens inc c = some (c, s, p) := by
  unfold Drain.score
  rw [h]
  simp only
  rw [if_neg (by omega)]

theorem equalPositions_self : ∀ (x : List String), equalPositions x x = x.length := by
  intro x
  induction x with
  | nil => rfl
  | cons a x ih =>
    unfold equalPositions at ih ⊢
    simp only [List.zip_cons_cons, List.filter_cons, decide_True, if_true, List.length_cons, ih]

theorem literalMatches_merged (wild : String) : ∀ (x template : List String),
    x.length = template.length →
    literalMatches wild (List.zipWith (fun t m => if t ≠ m then wild else m) x template) x =
      literalMatches wild template x := by
  intro x
  induction x with
  | nil =>
    intro template h
    cases template with
    | nil => rfl
    | cons _ _ => simp at h
  | cons a x ih =>
    intro template h
    cases template with
    | nil => simp at h
    | cons b template =>
      simp only [List.length_cons, Nat.add_right_cancel_iff] at h
      rw [List.zipWith_cons_cons, literalMatches_cons, literalMatches_cons, ih template h]
      congr 1
      by_cases hab : a = b
      · simp [hab]
      · have hba : ¬ b = a := fun e => hab e.symm
        simp [hab, hba]

theorem paramPositions_merged (wild : String) : ∀ (x template : List String),
    x.length = template.length →
    paramPositions wild template ≤
      paramPositions wild (List.zipWith (fun t m => if t ≠ m then wild else m) x template) := by
  intro x
  induction x with
  | nil =>
    intro template h
    cases template with
    | nil => exact le_refl _
    | cons _ _ => simp at h
  | cons a x ih =>
    intro template h
    cases template with
    | nil => simp at h
    | cons b template =>
      simp only [List.length_cons, Nat.add_right_cancel_iff] at h
      rw [List.zipWith_cons_cons, paramPositions_cons, paramPositions_cons]
      have := ih template h
      by_cases hb : b = wild
      · have : (if a ≠ b then wild else b) = wild := by
          split
          · rfl
          · exact hb
        rw [if_pos hb, if_pos this]
        omega
      · rw [if_neg hb]
        split <;> omega

theorem zipWith_fixed (wild : String) : ∀ (template x : List String),
    wildcardEq wild template x →
    List.zipWith (fun t m => if t ≠ m then wild else m) x template = template := by
  intro template
  induction template with
  | nil => intro x _; simp
  | cons b template ih =>
    intro x h
    cases x with
    | nil => exact absurd h.1 (by simp)
    | cons a x =>
      have h1 : template.length = x.length := by
        have := h.1
        simp only [List.length_cons, Nat.add_right_cancel_iff] at this
        exact this
      have h2 : ∀ p ∈ template.zip x, p.1 = wild ∨ p.1 = p.2 := fun p hp =>
        h.2 p (by simp only [List.zip_cons_cons]; exact List.mem_cons_of_mem _ hp)
      have h0 := h.2 (b, a) (by simp only [List.zip_cons_cons]; exact List.mem_cons_self _ _)
      rw [List.zipWith_cons_cons, ih x ⟨h1, h2⟩]
      congr 1
      simp only at h0
      rcases h0 with h0 | h0
      · split
        · exact h0.symm
        · rfl
      · rw [if_neg (by simp [h0])]

theorem beats_more_params (s : F64) (p p2 : Int) (y : F64 × Int) (h : beats (s, p) y)
    (hp : p ≤ p2) : beats (s, p2) y := by
  rcases h with h | ⟨h1, h2⟩
  · exact Or.inl h
  · exact Or.inr ⟨h1, by simp only at h2 ⊢; omega⟩

theorem beats_fewer_params (s : F64) (p p2 : Int) (y : F64 × Int) (h : beats y (s, p2))
    (hp : p ≤ p2) : beats y (s, p) := by
  rcases h with h | ⟨h1, h2⟩
  · exact Or.inl h
  · exact Or.inr ⟨h1, by simp only at h2 ⊢; omega⟩

theorem ge_one (n : Nat) (simTh : F64) (q : ℚ) (hn : n ≠ 0) (hq : simTh.toRat = some q)
    (hq1 : q ≤ 1) : (F64.div n n).ge simTh = true := by
  have hden : simTh.den ≠ 0 := by
    intro h0
    simp [F64.toRat, h0] at hq
  have hqv : q = (simTh.num : ℚ) / (simTh.den : ℚ) := by
    simp only [F64.toRat, hden, if_false, Option.some.injEq] at hq
    exact hq.symm
  rw [F64_ge_iff _ _ (by simpa [F64.div] using hn) hden, ← hqv]
  simp only [F64.div]
  have hnq : (n : ℚ) ≠ 0 := by exact_mod_cast hn
  have : (((n : Int) : ℚ)) / (n : ℚ) = 1 := by
    push_cast
    exact div_self hnq
  rw [this]
  exact hq1

theorem zip_self_mem : ∀ (x : List String) (p : String × String), p ∈ x.zip x → p.1 = p.2 := by
  intro x
  induction x with
  | nil => intro p hp; simp at hp
  | cons a x ih =>
    intro p hp
    simp only [List.zip_cons_cons, List.mem_cons] at hp
    rcases hp with hp | hp
    · rw [hp]
    · exact ih p hp

theorem not_pinned_self (x : List String) : ¬ pinnedMismatch x x := by
  rintro ⟨p, hp, _, hpne⟩
  exact hpne (zip_self_mem x p hp)

/-- After a `train` call that found no match and created cluster `c`, the search for the
same tokens finds `c`: every other live candidate of the leaf was a candidate before and
stayed below the threshold, while `c` scores 1. -/
theorem search_after_miss (d : Drain) (isNumber : Char → Bool) (content : String)
    (x : List String) (stringer : Option (List String → String)) (ts : Int)
    (d1 : Drain) (c : LogCluster) (cache : LogClusterCache) (q : ℚ)
    (hr : Reachable isNumber d) (hmc : 1 ≤ d.config.MaxChildren) (hne : x ≠ [])
    (hq : d.config.SimTh.toRat = some q) (hq1 : q ≤ 1)
    (hnw : ∀ t ∈ x, t ≠ d.config.ParamString)
    (h : d.train isNumber content x stringer ts = .ok (d1, c))
    (hts : d.treeSearch d.rootNode x d.config.SimTh false = .ok (cache, none)) :
    ∃ cache2, d1.treeSearch d1.rootNode x d1.config.SimTh false = .ok (cache2, some c) := by
  have hs := StoreOk_reachable isNumber d hr
  have hr1 : Reachable isNumber d1 :=
    Reachable.step d d1 hr (Step.train d d1 content x stringer ts c h)
  have hs1 := StoreOk_reachable isNumber d1 hr1
  obtain ⟨hc, _, hcfg, hlc, hold, _⟩ := train_miss_result d isNumber content x stringer ts d1 c
    cache (size_reachable isNumber d hr) h hts
  have hcid : c.id = d.clustersCounter + 1 := by rw [hc]; rfl
  have hctok : c.Tokens = x := by rw [hc]; rfl
  obtain ⟨cur2, leaf, path, hcur2, hleaf, hdesc, hids, hprev⟩ := train_miss_leaf d isNumber
    content x stringer ts d1 c cache hr hmc hne h hts
  have hlen : ∀ id ∈ leaf.clusterIDs, ∀ c0, d1.live id = some c0 →
      c0.Tokens.length = x.length := fun id hid c0 hc0 =>
    Itoa_injective _ _ ((TreeOk_reachable isNumber d1 hr1).count _ path leaf hdesc id hid c0 hc0)
  obtain ⟨cache2, r, hfm, hsome, hnone⟩ := fastMatch_best d1 leaf.clusterIDs x d1.config.SimTh
    false hlen
  have hn : x.length ≠ 0 := fun e => hne (List.length_eq_zero.mp e)
  -- the new cluster is a candidate with similarity 1
  have hcand := candidate_of_live d1 leaf.clusterIDs x false c.id c
    (by rw [hids]; simp) (by rw [hcid]; exact hlc) (by rw [hctok])
    (by rw [hctok]; exact not_pinned_self x)
  simp only [Bool.false_eq_true, if_false, Nat.add_zero] at hcand
  rw [hctok, hcfg, literalMatches_plain _ x x hnw, equalPositions_self] at hcand
  have hge : (F64.div x.length x.length).ge d1.config.SimTh = true := by
    rw [hcfg]; exact ge_one x.length _ q hn hq hq1
  refine ⟨cache2, ?_⟩
  rw [treeSearch_leaf d1 d1.rootNode x _ false cur2 leaf hne hcur2 hleaf, hfm]
  cases r with
  | none =>
    have := hnone rfl _ hcand
    simp only at this
    rw [hge] at this
    exact absurd this (by simp)
  | some c2 =>
    obtain ⟨_, i, s, p, hi, hsge, _, _⟩ := hsome c2 rfl
    have hmem := List.getElem?_mem hi
    obtain ⟨⟨id, hid, hl⟩, _, _, hp0, hdist⟩ := candidates_mem d1 leaf.clusterIDs x false _ hmem
    simp only at hl hp0 hdist
    have hkey := live_keyId d1 hs1 id c2 hl
    by_cases hidc : id = c.id
    · rw [hidc, hcid, hlc] at hl
      simp only [Option.some.injEq] at hl
      rw [hl]
    · exfalso
      -- an older candidate: it was a candidate of the earlier search, below the threshold
      rw [hids, List.mem_append, List.mem_singleton] at hid
      have hidold : id ∈ d.rootNode.idsAt (Itoa x.length :: path) := by
        rcases hid with hid | hid
        · exact (List.mem_filter.mp hid).1
        · exact absurd hid hidc
      rcases hprev with hempty | ⟨cur, old, ho1, ho2, ho3⟩
      · rw [hempty] at hidold
        simp at hidold
      · rcases treeSearch_inv d x _ _ cache none hne hts with ⟨_, _, hno⟩ |
          ⟨cur3, leaf3, h1, h2, hfm3⟩
        · rw [hno cur ho1] at ho2
          simp at ho2
        · rw [ho1] at h1
          simp only [Option.some.injEq] at h1
          rw [← h1, ho2] at h2
          simp only [Option.some.injEq] at h2
          rw [← h2] at hfm3
          have hlen3 := fastMatch_len d old.clusterIDs x _ _ cache none hfm3
          obtain ⟨cache4, r4, hfm4, _, hnone4⟩ := fastMatch_best d old.clusterIDs x
            d.config.SimTh false hlen3
          rw [hfm3] at hfm4
          simp only [Except.ok.injEq, Prod.mk.injEq] at hfm4
          have hdl : d.live id = some c2 := hold id c2 (by rw [← hcid]; exact hidc) hl
          have hin : (c2, s, p) ∈ d.candidates old.clusterIDs x false := by
            unfold Drain.candidates
            rw [List.mem_filterMap]
            refine ⟨c2, List.mem_filterMap.mpr ⟨id, by rw [ho3]; exact hidold, hdl⟩, ?_⟩
            rw [← score_congr d d1 hcfg]
            exact score_of_distance d1 x false c2 s p hdist hp0
          have := hnone4 hfm4.2.symm _ hin
          simp only at this
          rw [hcfg] at hsge
          rw [hsge] at this
          exact absurd this (by simp)

/-- The scored candidates after the record of cluster `mc` has been replaced by `c1`: the
same list, with the entry of `mc` replaced by that of `c1`. -/
theorem candidates_map (d d1 : Drain) (ids : List Nat) (x : List String) (inc : Bool)
    (mc c1 : LogCluster) (e0 e1 : LogCluster × F64 × Int)
    (hs : StoreOk d) (hcfg : d1.config = d.config)
    (hmc : d.live mc.id = some mc) (hl1 : d1.live mc.id = some c1)
    (hother : ∀ id, id ≠ mc.id → d1.live id = d.live id)
    (h0 : d.score x inc mc = some e0) (h1 : d1.score x inc c1 = some e1) :
    d1.candidates ids x inc =
      (d.candidates ids x inc).map (fun y => if y.1.id = mc.id then e1 else y) := by
  have ha : ∀ (l : List Nat),
      l.filterMap (fun id => d1.live id) =
        (l.filterMap (fun id => d.live id)).map (fun r => if r.id = mc.id then c1 else r) := by
    intro l
    induction l with
    | nil => rfl
    | cons id rest ih =>
      by_cases hid : id = mc.id
      · rw [List.filterMap_cons, List.filterMap_cons, hid, hl1, hmc]
        simp only [List.map_cons, if_true]
        rw [ih]
      · rw [List.filterMap_cons, List.filterMap_cons, hother id hid]
        cases hl : d.live id with
        | none => simp only; exact ih
        | some r =>
          simp only [List.map_cons]
          have hkey := live_keyId d hs id r hl
          rw [if_neg (by rw [hkey]; exact hid), ih]
  have hb : ∀ (l : List LogCluster), (∀ r ∈ l, r.id = mc.id → r = mc) →
      (l.map (fun r => if r.id = mc.id then c1 else r)).filterMap (d1.score x inc) =
        (l.filterMap (d.score x inc)).map (fun y => if y.1.id = mc.id then e1 else y) := by
    intro l
    induction l with
    | nil => intro _; rfl
    | cons r rest ih =>
      intro hl
      have hrest := ih (fun r2 hr2 => hl r2 (List.mem_cons_of_mem _ hr2))
      by_cases hid : r.id = mc.id
      · have hr := hl r (List.mem_cons_self _ _) hid
        rw [List.map_cons, if_pos hid, List.filterMap_cons, h1, List.filterMap_cons, hr, h0]
        simp only [List.map_cons]
        have he0 := (score_some d x inc mc e0 h0).1
        rw [if_pos (by rw [he0]), hrest]
      · rw [List.map_cons, if_neg hid, List.filterMap_cons, List.filterMap_cons,
          score_congr d d1 hcfg]
        cases hsc : d.score x inc r with
        | none => simp only; exact hrest
        | some y =>
          simp only [List.map_cons]
          have hy := (score_some d x inc r y hsc).1
          rw [if_neg (by rw [hy]; exact hid), hrest]
  unfold Drain.candidates
  rw [ha, hb]
  intro r hr hid
  obtain ⟨id, _, hl⟩ := List.mem_filterMap.mp hr
  have hkey := live_keyId d hs id r hl
  rw [← hkey, hid, hmc] at hl
  simp only [Option.some.injEq] at hl
  exact hl.symm

/-- After a `train` call that matched cluster `mc` and left `c1` under its id, the search
for the same tokens finds `c1`: its similarity is unchanged and its parameter count did
not drop, so it still beats every earlier candidate and no candidate beats it. -/
theorem search_after_hit (d : Drain) (isNumber : Char → Bool) (content : String)
    (x : List String) (stringer : Option (List String → String)) (ts : Int)
    (d1 : Drain) (c1 : LogCluster) (cache : LogClusterCache) (mc : LogCluster)
    (hr : Reachable isNumber d) (hne : x ≠ [])
    (hwild : isMarked d.config.ParamString = false)
    (h : d.train isNumber content x stringer ts = .ok (d1, c1))
    (hts : d.treeSearch d.rootNode x d.config.SimTh false = .ok (cache, some mc)) :
    ∃ cache2, d1.treeSearch d1.rootNode x d1.config.SimTh false = .ok (cache2, some c1) := by
  have hs := StoreOk_reachable isNumber d hr
  obtain ⟨⟨v, _, hc⟩, hlen, hd1, hlmc, hl1, hother, _⟩ := train_hit_result d isNumber content
    x stringer ts d1 c1 cache mc hs h hts
  have hcfg : d1.config = d.config := by rw [hd1]
  have hroot : d1.rootNode = d.rootNode := by rw [hd1]
  have hctok : c1.Tokens = List.zipWith
      (fun t m => if t ≠ m then d.config.ParamString else m) x mc.Tokens := by
    rw [hc]; rfl
  rcases treeSearch_inv d x _ _ cache (some mc) hne hts with ⟨hnone, _⟩ |
    ⟨cur, leaf, hcur, hleaf, hfm⟩
  · simp at hnone
  have hlenall := fastMatch_len d leaf.clusterIDs x _ _ cache (some mc) hfm
  obtain ⟨cache3, r3, hfm3, hsome3, _⟩ := fastMatch_best d leaf.clusterIDs x d.config.SimTh
    false hlenall
  rw [hfm] at hfm3
  simp only [Except.ok.injEq, Prod.mk.injEq] at hfm3
  obtain ⟨_, i, s, p, hi, hsge, hnb, hbe⟩ := hsome3 mc hfm3.2.symm
  obtain ⟨_, _, _, hp0, hdist⟩ := candidates_mem d leaf.clusterIDs x false _
    (List.getElem?_mem hi)
  simp only at hp0 hdist
  have hnpin : ¬ pinnedMismatch mc.Tokens x := by
    intro hpin
    rw [getSeqDistance_pinned d _ _ false hlen.symm hpin] at hdist
    simp only [Except.ok.injEq, Prod.mk.injEq] at hdist
    omega
  rw [getSeqDistance_free d _ _ false hlen.symm hnpin] at hdist
  simp only [Bool.false_eq_true, if_false, Nat.add_zero, Except.ok.injEq, Prod.mk.injEq] at hdist
  obtain ⟨hsv, hpv⟩ := hdist
  -- the score of the updated record
  have hweq : wildcardEq d.config.ParamString c1.Tokens x := by
    rw [hctok]; exact wildcardEq_merged _ _ _ hlen
  have hdist1 : d1.getSeqDistance c1.Tokens x false =
      .ok (s, (paramPositions d.config.ParamString c1.Tokens : Int)) := by
    rw [getSeqDistance_congr d d1 hcfg,
      getSeqDistance_free d _ _ false hweq.1 (not_pinned_wildcardEq _ _ _ hwild hweq)]
    simp only [Bool.false_eq_true, if_false, Nat.add_zero]
    rw [← hsv, hweq.1, hctok, literalMatches_merged _ x mc.Tokens hlen, hlen]
  have hpmono : p ≤ (paramPositions d.config.ParamString c1.Tokens : Int) := by
    rw [← hpv, hctok]
    exact_mod_cast paramPositions_merged _ x mc.Tokens hlen
  have hmap := candidates_map d d1 leaf.clusterIDs x false mc c1 (mc, s, p)
    (c1, s, (paramPositions d.config.ParamString c1.Tokens : Int)) hs hcfg hlmc hl1 hother
    (score_of_distance d x false mc s p (by
      rw [getSeqDistance_free d _ _ false hlen.symm hnpin]
      simp only [Bool.false_eq_true, if_false, Nat.add_zero]
      rw [hsv, hpv]) hp0)
    (score_of_distance d1 x false c1 s _ hdist1 (by omega))
  -- the search in the new state
  have hr1 : Reachable isNumber d1 :=
    Reachable.step d d1 hr (Step.train d d1 content x stringer ts c1 h)
  have hleaf1 : d1.searchLoop x.length x 1 cur = some leaf := by
    rw [searchLoop_congr d d1 hcfg]; exact hleaf
  have hcur1 : mapGet d1.rootNode.keyToChildNode (Itoa x.length) = some cur := by
    rw [hroot]; exact hcur
  have hlen1 : ∀ id ∈ leaf.clusterIDs, ∀ c0, d1.live id = some c0 →
      c0.Tokens.length = x.length := by
    intro id hid c0 hc0
    obtain ⟨pth, hp⟩ := searchLoop_descend d1 _ _ _ _ _ hleaf1
    have hd : d1.rootNode.descend (Itoa x.length :: pth) = some leaf := by
      rw [descend_cons d1.rootNode _ pth cur hcur1]; exact hp
    exact Itoa_injective _ _ ((TreeOk_reachable isNumber d1 hr1).count _ pth leaf hd id hid c0 hc0)
  obtain ⟨cache2, r, hfm1, hsome1, hnone1⟩ := fastMatch_best d1 leaf.clusterIDs x
    d1.config.SimTh false hlen1
  have hi1 : (d1.candidates leaf.clusterIDs x false)[i]? =
      some (c1, s, (paramPositions d.config.ParamString c1.Tokens : Int)) := by
    rw [hmap, List.getElem?_map, hi]
    simp
  refine ⟨cache2, ?_⟩
  rw [treeSearch_leaf d1 d1.rootNode x _ false cur leaf hne hcur1 hleaf1, hfm1]
  cases r with
  | none =>
    have := hnone1 rfl _ (List.getElem?_mem hi1)
    simp only at this
    rw [hcfg, hsge] at this
    exact absurd this (by simp)
  | some c2 =>
    obtain ⟨_, i2, s2, p2, hi2, _, hnb2, hbe2⟩ := hsome1 c2 rfl
    have hi2' := hi2
    rw [hmap, List.getElem?_map] at hi2'
    cases hy : (d.candidates leaf.clusterIDs x false)[i2]? with
    | none => rw [hy] at hi2'; simp at hi2'
    | some y =>
      rw [hy] at hi2'
      simp only [Option.map_some', Option.some.injEq] at hi2'
      by_cases hyid : y.1.id = mc.id
      · rw [if_pos hyid] at hi2'
        simp only [Prod.mk.injEq] at hi2'
        rw [hi2'.1]
      · exfalso
        rw [if_neg hyid] at hi2'
        have hne_i : i2 ≠ i := by
          intro e
          rw [e, hi] at hy
          simp only [Option.some.injEq] at hy
          rw [← hy] at hyid
          exact hyid rfl
        rcases Nat.lt_or_gt_of_ne hne_i with hlt | hgt
        · have hb := hbe i2 y hlt hy
          rw [hi2'] at hb
          have hb2 := beats_more_params s p _ _ hb hpmono
          exact hnb2 _ (List.getElem?_mem hi1) hb2
        · have hb := hbe2 i _ hgt hi1
          simp only at hb
          have hb2 := beats_fewer_params s p _ _ hb hpmono
          have := hnb y (List.getElem?_mem hy)
          rw [hi2'] at this
          exact this hb2

/-! ## Eviction order over a run of misses -/

theorem reverse_dropLast_tail (l : List Nat) : l.dropLast.reverse = l.reverse.tail := by
  induction l using List.reverseRecOn with
  | nil => rfl
  | append_singleton l a _ => simp

theorem Keys_length (c : LRU) : c.Keys.length = c.entries.length := by
  simp [LRU.Keys]

theorem Add_Keys_absent (c : LRU) (key : Nat) (v : LogCluster) (h : c.Peek key = none) :
    (c.Add key v).Keys =
      if c.entries.length + 1 > c.size then (c.Keys ++ [key]).tail else c.Keys ++ [key] := by
  unfold LRU.Add
  rw [h]
  simp only [List.length_cons]
  split
  · simp only [LRU.Keys]
    rw [List.map_dropLast, reverse_dropLast_tail]
    simp
  · simp [LRU.Keys]

theorem mem_Keys (c : LRU) (k : Nat) (v : LogCluster) (h : c.Peek k = some v) : k ∈ c.Keys := by
  have := Peek_mem c k v h
  simp only [LRU.Keys, List.mem_reverse, List.mem_map]
  exact ⟨(k, v), this, rfl⟩

theorem Peek_of_mem_Keys (c : LRU) (k : Nat) (h : k ∈ c.Keys) : ∃ v, c.Peek k = some v := by
  simp only [LRU.Keys, List.mem_reverse, List.mem_map] at h
  obtain ⟨e, he, hk⟩ := h
  rw [← hk]
  exact mem_lruFind c.entries e he

/-- The ids of the live clusters, oldest first, are the keys of the store. -/
theorem Clusters_ids (d : Drain) (hs : StoreOk d) :
    d.Clusters.map (fun c => c.id) = d.idToCluster.cache.Keys := by
  unfold Drain.Clusters LogClusterCache.Values
  have : ∀ (l : List Nat), (∀ k ∈ l, k ∈ d.idToCluster.cache.Keys) →
      (l.filterMap (fun key => d.idToCluster.cache.Peek key)).map (fun c => c.id) = l := by
    intro l
    induction l with
    | nil => intro _; rfl
    | cons k rest ih =>
      intro hl
      obtain ⟨v, hv⟩ := Peek_of_mem_Keys _ k (hl k (List.mem_cons_self _ _))
      have hid : v.id = k := live_keyId d hs k v hv
      rw [List.filterMap_cons, hv]
      simp only [List.map_cons]
      rw [hid, ih (fun k2 hk2 => hl k2 (List.mem_cons_of_mem _ hk2))]
  exact this _ (fun k hk => hk)

theorem addSeqToPrefixTree_fresh_branch (d : Drain) (isNumber : Char → Bool) (root : Node)
    (cluster : LogCluster) (root2 : Node) (cache2 : LogClusterCache)
    (hb : mapGet root.keyToChildNode (Itoa cluster.Tokens.length) = none)
    (h : d.addSeqToPrefixTree isNumber root cluster = .ok (root2, cache2)) :
    cache2 = d.idToCluster := by
  rw [(addSeqToPrefixTree_eq d isNumber root cluster createNode (Or.inr ⟨hb, rfl⟩)).1] at h
  by_cases hz : cluster.Tokens.length = 0
  · rw [if_pos hz] at h
    simp only [Except.ok.injEq, Prod.mk.injEq] at h
    exact h.2.symm
  · rw [if_neg hz] at h
    have hne : cluster.Tokens ≠ [] := fun e => hz (by rw [e]; rfl)
    obtain ⟨child2, hrec, _⟩ := attach_ok _ _ _ _ _ h
    obtain ⟨path, _, h2, _⟩ := addSeqLoop_lists d isNumber _ _ _ _ _ _ _ _ (by omega) hne hrec
    rw [h2, idsAt_createNode]
    rfl

/-- A `train` call for a token count that has no branch yet: a miss that stores the new
cluster without touching any other record. -/
theorem train_new_branch (d : Drain) (isNumber : Char → Bool) (a : Input)
    (hr : Reachable isNumber d) (hmc : 1 ≤ d.config.MaxChildren)
    (hb : mapGet d.rootNode.keyToChildNode (Itoa a.tokens.length) = none) :
    ∃ d1 c, d.train isNumber a.content a.tokens a.stringer a.ts = .ok (d1, c) ∧
      c = freshCluster (d.clustersCounter + 1) a.content a.tokens a.stringer a.ts ∧
      d1.clustersCounter = d.clustersCounter + 1 ∧ d1.config = d.config ∧
      d1.idToCluster = d.idToCluster.Set (d.clustersCounter + 1) c ∧
      (∀ key, key ≠ Itoa a.tokens.length →
        mapGet d1.rootNode.keyToChildNode key = mapGet d.rootNode.keyToChildNode key) ∧
      (∃ cur2, mapGet d1.rootNode.keyToChildNode (Itoa a.tokens.length) = some cur2) ∧
      d.treeSearch d.rootNode a.tokens d.config.SimTh false = .ok (d.idToCluster, none) := by
  have hts := treeSearch_absent d d.rootNode a.tokens d.config.SimTh false hb
  obtain ⟨d1, c, h⟩ := train_returns d isNumber a.content a.tokens a.stringer a.ts
    (StoreOk_reachable isNumber d hr) (TreeOk_reachable isNumber d hr)
    (ShapeOk_reachable isNumber d hr hmc) hmc
  obtain ⟨hc, hcnt, hcfg, _, _, _, root, cache2, hadd, hd1⟩ := train_miss_result d isNumber
    a.content a.tokens a.stringer a.ts d1 c d.idToCluster (size_reachable isNumber d hr) h hts
  have hctok : c.Tokens = a.tokens := by rw [hc]; rfl
  have hcache := addSeqToPrefixTree_fresh_branch _ isNumber _ _ _ _ (by rw [hctok]; exact hb) hadd
  obtain ⟨hbr1, hbr2⟩ := addSeqToPrefixTree_branches _ isNumber _ _ _ _ hadd
  rw [hctok] at hbr1 hbr2
  refine ⟨d1, c, h, hc, hcnt, hcfg, ?_, ?_, ?_, hts⟩
  · rw [hd1]
    exact hcache
  · rw [hd1]
    exact hbr1
  · rw [hd1]
    exact hbr2

theorem Keys_after_miss (c : LRU) (k N : Nat) (v : LogCluster)
    (hsize : c.size = N) (hp : c.Peek (k + 1) = none)
    (hk : c.Keys = List.range' (k + 1 - min k N) (min k N)) :
    (c.Add (k + 1) v).Keys = List.range' (k + 2 - min (k + 1) N) (min (k + 1) N) := by
  have hlen : c.entries.length = min k N := by
    rw [← Keys_length, hk, List.length_range']
  rw [Add_Keys_absent c (k + 1) v hp, hlen, hsize, hk]
  have hconcat : List.range' (k + 1 - min k N) (min k N) ++ [k + 1] =
      List.range' (k + 1 - min k N) (min k N + 1) := by
    rw [List.range'_concat]
    congr 2
    have : min k N ≤ k := min_le_left _ _
    omega
  rw [hconcat]
  by_cases hkn : k < N
  · have h1 : min k N = k := min_eq_left (by omega)
    have h2 : min (k + 1) N = k + 1 := min_eq_left (by omega)
    rw [h1, h2, if_neg (by omega)]
    congr 1
    omega
  · have h1 : min k N = N := min_eq_right (by omega)
    have h2 : min (k + 1) N = N := min_eq_right (by omega)
    rw [h1, h2, if_pos (by omega), List.range'_succ, List.tail_cons]
    congr 1
    omega

/-- A run of `train` calls whose token counts are pairwise different and have no branch
yet: every call is a miss, the ids are handed out in order, the store keeps the newest
`N` of them, and the branches that existed before are left alone. -/
theorem trainAll_distinct (isNumber : Char → Bool) (N : Nat) :
    ∀ (inputs : List Input) (d : Drain) (used : List Nat),
    Reachable isNumber d → 1 ≤ d.config.MaxChildren → d.idToCluster.cache.size = N →
    d.idToCluster.cache.Keys =
      List.range' (d.clustersCounter + 1 - min d.clustersCounter N) (min d.clustersCounter N) →
    (∀ key, mapGet d.rootNode.keyToChildNode key ≠ none → ∃ m ∈ used, key = Itoa m) →
    inputs.Pairwise (fun a b => a.tokens.length ≠ b.tokens.length) →
    (∀ a ∈ inputs, a.tokens.length ∉ used) →
    ∃ d2 cs, d.trainAll isNumber inputs = .ok (d2, cs) ∧ Reachable isNumber d2 ∧
      d2.config = d.config ∧ d2.clustersCounter = d.clustersCounter + inputs.length ∧
      d2.idToCluster.cache.Keys =
        List.range' (d2.clustersCounter + 1 - min d2.clustersCounter N)
          (min d2.clustersCounter N) ∧
      cs.map (fun c => c.id) = List.range' (d.clustersCounter + 1) inputs.length ∧
      (∀ c ∈ cs, c.Size = 1) ∧
      (∀ m ∈ used, mapGet d2.rootNode.keyToChildNode (Itoa m) =
        mapGet d.rootNode.keyToChildNode (Itoa m)) := by
  intro inputs
  induction inputs with
  | nil =>
    intro d used hr _ _ hk _ _ _
    exact ⟨d, [], rfl, hr, rfl, rfl, hk, rfl, fun c hc => by simp at hc, fun m _ => rfl⟩
  | cons a rest ih =>
    intro d used hr hmc hsize hk hroot hpw hused
    have hs := StoreOk_reachable isNumber d hr
    have hb : mapGet d.rootNode.keyToChildNode (Itoa a.tokens.length) = none := by
      by_contra hne
      obtain ⟨m, hm, he⟩ := hroot _ hne
      have := Itoa_injective _ _ he
      exact hused a (List.mem_cons_self _ _) (by rw [this]; exact hm)
    obtain ⟨d1, c, h, hc, hcnt, hcfg, hcache, hbr1, hbr2, _⟩ :=
      train_new_branch d isNumber a hr hmc hb
    have hr1 : Reachable isNumber d1 :=
      Reachable.step d d1 hr (Step.train d d1 a.content a.tokens a.stringer a.ts c h)
    have hpeek : d.idToCluster.cache.Peek (d.clustersCounter + 1) = none := by
      cases hp : d.idToCluster.cache.Peek (d.clustersCounter + 1) with
      | none => rfl
      | some v =>
        have := hs.fresh _ (Peek_mem _ _ _ hp)
        simp only at this
        omega
    have hk1 : d1.idToCluster.cache.Keys =
        List.range' (d1.clustersCounter + 1 - min d1.clustersCounter N)
          (min d1.clustersCounter N) := by
      rw [hcache, hcnt]
      exact Keys_after_miss d.idToCluster.cache d.clustersCounter N c hsize hpeek hk
    have hsize1 : d1.idToCluster.cache.size = N := by
      rw [train_size d isNumber _ _ _ _ d1 c h]; exact hsize
    have hroot1 : ∀ key, mapGet d1.rootNode.keyToChildNode key ≠ none →
        ∃ m ∈ a.tokens.length :: used, key = Itoa m := by
      intro key hkey
      by_cases hka : key = Itoa a.tokens.length
      · exact ⟨a.tokens.length, List.mem_cons_self _ _, hka⟩
      · rw [hbr1 key hka] at hkey
        obtain ⟨m, hm, he⟩ := hroot key hkey
        exact ⟨m, List.mem_cons_of_mem _ hm, he⟩
    obtain ⟨d2, cs, hrun, hr2, hcfg2, hcnt2, hk2, hids, hsz, hkeep⟩ :=
      ih d1 (a.tokens.length :: used) hr1 (by rw [hcfg]; exact hmc) hsize1 hk1 hroot1
        (List.Pairwise.of_cons hpw)
        (by
          intro b hb2 hmem
          rcases List.mem_cons.mp hmem with he | he
          · exact (List.rel_of_pairwise_cons hpw hb2) he.symm
          · exact hused b (List.mem_cons_of_mem _ hb2) he)
    refine ⟨d2, c :: cs, ?_, hr2, by rw [hcfg2, hcfg], ?_, hk2, ?_, ?_, ?_⟩
    · simp only [Drain.trainAll, h, hrun]
    · rw [hcnt2, hcnt, List.length_cons]
      omega
    · rw [List.map_cons, hids, hcnt, List.length_cons, List.range'_succ]
      congr 1
      rw [hc]
      rfl
    · intro c2 hc2
      rcases List.mem_cons.mp hc2 with he | he
      · rw [he, hc]; rfl
      · exact hsz c2 he
    · intro m hm
      rw [hkeep m (List.mem_cons_of_mem _ hm)]
      apply hbr1
      intro he
      have := Itoa_injective _ _ he
      exact hused a (List.mem_cons_self _ _) (by rw [← this]; exact hm)

/-- The first `train` on a fresh engine: the state it leaves has the branch of the token
count only, and in any later state that still has this branch as it is and in which
cluster 1 is no longer live, the search for the same tokens finds nothing. -/
theorem first_train_branch (isNumber : Char → Bool) (config : Config) (size : Nat)
    (content : String) (a : List String) (stringer : Option (List String → String)) (ts : Int)
    (hsize : 1 ≤ size) (hmc : 1 ≤ config.MaxChildren) :
    ∃ root,
      Drain.train ⟨config, createNode, emptyStore size, 0⟩ isNumber content a stringer ts
        = .ok (⟨config, root, storeOf size (freshCluster (0 + 1) content a stringer ts), 0 + 1⟩,
               freshCluster (0 + 1) content a stringer ts) ∧
      (∀ key, mapGet root.keyToChildNode key ≠ none → key = Itoa a.length) ∧
      (∀ (d2 : Drain) (simTh : F64) (inc : Bool), d2.config = config →
        mapGet d2.rootNode.keyToChildNode (Itoa a.length) =
          mapGet root.keyToChildNode (Itoa a.length) →
        d2.live 1 = none →
        ∃ cache, d2.treeSearch d2.rootNode a simTh inc = .ok (cache, none)) := by
  have hkeys : ∀ (n : Nat) (chain : Node) (key : String),
      mapGet (branchOf n chain).keyToChildNode key ≠ none → key = Itoa n := by
    intro n chain key hkey
    by_contra hne
    apply hkey
    simp only [branchOf, keyToChildNode_mk, mapGet]
    rw [if_neg (fun e => hne e.symm)]
  by_cases hne : a = []
  · subst hne
    refine ⟨branchOf 0 (.mk [] [0 + 1]), first_train_empty isNumber config size 0 content
      stringer ts hsize, hkeys 0 _, ?_⟩
    intro d2 simTh inc _ hbranch hdead
    have hb : mapGet d2.rootNode.keyToChildNode (Itoa 0) = some (.mk [] [0 + 1]) := by
      have h2 : mapGet (branchOf 0 (Node.mk [] [0 + 1])).keyToChildNode (Itoa 0) =
          some (.mk [] [0 + 1]) := by
        simp [branchOf, keyToChildNode_mk, mapGet]
      rw [← h2]
      exact hbranch
    refine ⟨(d2.idToCluster.Get 1).1, ?_⟩
    unfold Drain.treeSearch
    simp only [List.length_nil, hb, if_true, Node.clusterIDs]
    have : (d2.idToCluster.Get 1).2 = none := by rw [cGet_snd]; exact hdead
    rw [← this]
  · obtain ⟨chain, h1, hsearch⟩ := first_train isNumber config size 0 content a stringer ts hsize
      hmc hne
    refine ⟨branchOf a.length chain, h1, hkeys _ _, ?_⟩
    intro d2 simTh inc hcfg hbranch hdead
    have hb : mapGet d2.rootNode.keyToChildNode (Itoa a.length) = some chain := by
      rw [hbranch]
      simp [branchOf, keyToChildNode_mk, mapGet]
    obtain ⟨leaf, hleaf, hids⟩ := hsearch d2 a hcfg rfl (fun i _ _ => rfl)
    have hlen : ∀ id ∈ leaf.clusterIDs, ∀ c, d2.live id = some c →
        c.Tokens.length = a.length := by
      intro id hid c hc
      rw [hids] at hid
      simp only [List.mem_singleton] at hid
      rw [hid] at hc
      rw [show (0 : Nat) + 1 = 1 from rfl, hdead] at hc
      simp at hc
    obtain ⟨cache, r, hfm, hsome, _⟩ := fastMatch_best d2 leaf.clusterIDs a simTh inc hlen
    refine ⟨cache, ?_⟩
    rw [treeSearch_leaf d2 d2.rootNode a simTh inc chain leaf hne hb hleaf, hfm]
    cases r with
    | none => rfl
    | some c =>
      exfalso
      obtain ⟨⟨id, hid, hl⟩, _⟩ := hsome c rfl
      rw [hids] at hid
      simp only [List.mem_singleton] at hid
      rw [hid, show (0 : Nat) + 1 = 1 from rfl, hdead] at hl
      simp at hl

/-- A run of `train` calls from a reachable state ends in a reachable state. -/
theorem trainAll_reachable (isNumber : Char → Bool) : ∀ (inputs : List Input) (d d2 : Drain)
    (cs : List LogCluster), Reachable isNumber d → d.trainAll isNumber inputs = .ok (d2, cs) →
    Reachable isNumber d2 := by
  intro inputs
  induction inputs with
  | nil =>
    intro d d2 cs hr h
    simp only [Drain.trainAll, Except.ok.injEq, Prod.mk.injEq] at h
    rw [← h.1]
    exact hr
  | cons a rest ih =>
    intro d d2 cs hr h
    rcases htr : d.train isNumber a.content a.tokens a.stringer a.ts with e | ⟨d1, c⟩
    · simp [Drain.trainAll, htr] at h
    · rcases hrest : d1.trainAll isNumber rest with e | ⟨d3, cs3⟩
      · simp [Drain.trainAll, htr, hrest] at h
      · simp only [Drain.trainAll, htr, hrest, Except.ok.injEq, Prod.mk.injEq] at h
        rw [← h.1]
        exact ih d1 d3 cs3 (Reachable.step d d1 hr
          (Step.train d d1 a.content a.tokens a.stringer a.ts c htr)) hrest

/-! ## Runs whose searches meet no live cluster -/

theorem touchAll_dead : ∀ (ids : List Nat) (cache : LogClusterCache),
    (∀ id ∈ ids, cache.cache.Peek id = none) → touchAll cache ids = cache := by
  intro ids
  induction ids with
  | nil => intro cache _; rfl
  | cons id ids ih =>
    intro cache h
    have hg : (cache.Get id).1 = cache := by
      unfold LogClusterCache.Get LRU.Get
      rw [h id (List.mem_cons_self _ _)]
    simp only [touchAll]
    rw [hg]
    exact ih cache (fun k hk => h k (List.mem_cons_of_mem _ hk))

theorem cold_dead (d : Drain) (tokens : List String) (h : d.cold tokens = true) :
    ∀ id ∈ d.searchIds tokens, d.live id = none := by
  intro id hid
  unfold Drain.cold at h
  have := List.all_eq_true.mp h id hid
  simpa using this

/-- For a non-empty sequence `treeSearch` is `fastMatch` on the ids of `searchIds`. -/
theorem treeSearch_searchIds (d : Drain) (tokens : List String) (simTh : F64) (inc : Bool)
    (hne : tokens ≠ []) :
    d.treeSearch d.rootNode tokens simTh inc = d.fastMatch (d.searchIds tokens) tokens simTh inc := by
  have hn : tokens.length ≠ 0 := fun e => hne (List.length_eq_zero.mp e)
  have hnil : d.fastMatch [] tokens simTh inc = .ok (d.idToCluster, none) := by
    rw [fastMatch_eq]
    simp only [List.filterMap_nil, Drain.selectLoop, touchAll]
    split <;> rfl
  unfold Drain.treeSearch Drain.searchIds
  rcases Option.eq_none_or_eq_some (mapGet d.rootNode.keyToChildNode (Itoa tokens.length))
    with hroot | ⟨cur, hroot⟩
  · simp only [hroot]
    exact hnil.symm
  · simp only [hroot, if_neg hn]
    rcases Option.eq_none_or_eq_some (d.searchLoop tokens.length tokens 1 cur)
      with hleaf | ⟨leaf, hleaf⟩
    · simp only [hleaf]
      exact hnil.symm
    · simp only [hleaf]

/-- A search that looks up no live cluster finds nothing and leaves the store as it is. -/
theorem treeSearch_cold (d : Drain) (tokens : List String) (simTh : F64) (inc : Bool)
    (hz : ∀ n, mapGet d.rootNode.keyToChildNode (Itoa 0) = some n → n.clusterIDs ≠ [])
    (hcold : d.cold tokens = true) :
    d.treeSearch d.rootNode tokens simTh inc = .ok (d.idToCluster, none) := by
  have hdead := cold_dead d tokens hcold
  by_cases hne : tokens = []
  · subst hne
    rcases Option.eq_none_or_eq_some (mapGet d.rootNode.keyToChildNode (Itoa 0))
      with hroot | ⟨cur, hroot⟩
    · exact treeSearch_absent d d.rootNode [] simTh inc hroot
    · have hids := hz cur hroot
      obtain ⟨id, rest, hcur⟩ := List.exists_cons_of_ne_nil hids
      have hs : d.searchIds [] = [id] := by
        unfold Drain.searchIds
        simp only [List.length_nil, hroot, if_true, hcur, List.take_succ_cons, List.take_zero]
      have hl : d.live id = none := hdead id (by rw [hs]; exact List.mem_singleton.mpr rfl)
      unfold Drain.treeSearch
      simp only [List.length_nil, hroot, if_true, hcur]
      unfold LogClusterCache.Get LRU.Get
      unfold Drain.live at hl
      rw [hl]
  · rw [treeSearch_searchIds d tokens simTh inc hne, fastMatch_eq]
    have hnone : (d.searchIds tokens).filterMap (fun id => d.live id) = [] := by
      apply List.filterMap_eq_nil_iff.mpr
      intro id hid
      exact hdead id hid
    rw [hnone]
    simp only [Drain.selectLoop]
    rw [touchAll_dead _ _ hdead]
    split <;> rfl

/-- A `train` call whose search looks up no live cluster: a miss that stores the new
cluster and touches no other record. -/
theorem train_cold (d : Drain) (isNumber : Char → Bool) (a : Input)
    (hr : Reachable isNumber d) (hmc : 1 ≤ d.config.MaxChildren)
    (hcold : d.cold a.tokens = true) :
    ∃ d1 c, d.train isNumber a.content a.tokens a.stringer a.ts = .ok (d1, c) ∧
      c = freshCluster (d.clustersCounter + 1) a.content a.tokens a.stringer a.ts ∧
      d1.clustersCounter = d.clustersCounter + 1 ∧ d1.config = d.config ∧
      d1.idToCluster = d.idToCluster.Set (d.clustersCounter + 1) c ∧
      d1.live (d.clustersCounter + 1) = some c := by
  have hsh := ShapeOk_reachable isNumber d hr hmc
  have ht := TreeOk_reachable isNumber d hr
  have hts := treeSearch_cold d a.tokens d.config.SimTh false hsh.zero hcold
  have hdead := cold_dead d a.tokens hcold
  obtain ⟨d1, c, h⟩ := train_returns d isNumber a.content a.tokens a.stringer a.ts
    (StoreOk_reachable isNumber d hr) ht hsh hmc
  obtain ⟨hc, hcnt, hcfg, hlive, hkeep, _, root, cache2, hadd, hd1⟩ := train_miss_result d
    isNumber a.content a.tokens a.stringer a.ts d1 c d.idToCluster
    (size_reachable isNumber d hr) h hts
  have hctok : c.Tokens = a.tokens := by rw [hc]; rfl
  refine ⟨d1, c, h, hc, hcnt, hcfg, ?_, hlive⟩
  rw [hd1]
  show cache2 = d.idToCluster.Set (d.clustersCounter + 1) c
  by_cases hne : c.Tokens = []
  · obtain ⟨first, hf⟩ := firstLayer_cases d.rootNode (Itoa c.Tokens.length)
    rw [(addSeqToPrefixTree_eq _ isNumber d.rootNode c first hf).1,
      if_pos (by rw [hne]; rfl)] at hadd
    simp only [Except.ok.injEq, Prod.mk.injEq] at hadd
    exact hadd.2.symm
  · obtain ⟨root2, cache3, cur2, path, leaf, hadd2, _, _, _, _, hcache, hold, _⟩ :=
      addSeqToPrefixTree_search
        ⟨d.config, d.rootNode, d.idToCluster.Set (d.clustersCounter + 1) c,
          d.clustersCounter + 1⟩ isNumber d.rootNode c hmc hne hsh.bounded
    rw [hadd2] at hadd
    simp only [Except.ok.injEq, Prod.mk.injEq] at hadd
    rw [← hadd.2, hcache]
    apply touchAll_dead
    intro id hid
    have hpk : (d.idToCluster.Set (d.clustersCounter + 1) c).cache.Peek id = d1.live id := by
      rw [hd1]
      show _ = cache2.cache.Peek id
      rw [← hadd.2, hcache, touchAll_peek]
    have hid2 : id ∈ d.searchIds a.tokens := by
      rcases hold with hnil | ⟨cur, old, hcur, hsl, hids⟩
      · rw [hnil] at hid
        simp at hid
      · rw [searchLoop_congr d ⟨d.config, d.rootNode,
          d.idToCluster.Set (d.clustersCounter + 1) c, d.clustersCounter + 1⟩ rfl] at hsl
        rw [hctok] at hcur hsl hids hid
        unfold Drain.searchIds
        have hn : a.tokens.length ≠ 0 := by
          intro e
          apply hne
          rw [hctok]
          exact List.length_eq_zero.mp e
        simp only [hcur, if_neg hn, hsl]
        rw [hids]
        exact hid
    have hle : id ≤ d.clustersCounter := by
      obtain ⟨x, hx, hm⟩ := mem_idsAt _ _ _ hid
      exact ht.fresh _ x hx id hm
    rw [hpk]
    rcases Option.eq_none_or_eq_some (d1.live id) with hn | ⟨c2, hc2⟩
    · exact hn
    · have := hkeep id c2 (by omega) hc2
      rw [hdead id hid2] at this
      simp at this

/-- A run of `train` calls each of whose searches looks up no live cluster: every call is
a miss, the ids are handed out in order, and the store keeps the newest `N` of them,
oldest first. -/
theorem trainAll_cold (isNumber : Char → Bool) (N : Nat) (more : List Input) :
    ∀ (inputs : List Input) (d : Drain),
    Reachable isNumber d → 1 ≤ d.config.MaxChildren → d.idToCluster.cache.size = N →
    d.idToCluster.cache.Keys =
      List.range' (d.clustersCounter + 1 - min d.clustersCounter N) (min d.clustersCounter N) →
    d.coldRun isNumber (inputs ++ more) = true →
    ∃ d2 cs, d.trainAll isNumber inputs = .ok (d2, cs) ∧ Reachable isNumber d2 ∧
      d2.config = d.config ∧ d2.clustersCounter = d.clustersCounter + inputs.length ∧
      d2.idToCluster.cache.Keys =
        List.range' (d2.clustersCounter + 1 - min d2.clustersCounter N)
          (min d2.clustersCounter N) ∧
      cs.map (fun c => c.id) = List.range' (d.clustersCounter + 1) inputs.length ∧
      (∀ c ∈ cs, c.Size = 1) ∧ d2.coldRun isNumber more = true := by
  intro inputs
  induction inputs with
  | nil =>
    intro d hr _ _ hk hrun
    exact ⟨d, [], rfl, hr, rfl, rfl, hk, rfl, fun c hc => by simp at hc, hrun⟩
  | cons a rest ih =>
    intro d hr hmc hsize hk hrun
    have hs := StoreOk_reachable isNumber d hr
    have hc0 : d.cold a.tokens = true := by
      simp only [List.cons_append, Drain.coldRun, Bool.and_eq_true] at hrun
      exact hrun.1
    obtain ⟨d1, c, h, hc, hcnt, hcfg, hcache, _⟩ := train_cold d isNumber a hr hmc hc0
    have hrun1 : d1.coldRun isNumber (rest ++ more) = true := by
      simp only [List.cons_append, Drain.coldRun, h, Bool.and_eq_true] at hrun
      exact hrun.2
    have hr1 : Reachable isNumber d1 :=
      Reachable.step d d1 hr (Step.train d d1 a.content a.tokens a.stringer a.ts c h)
    have hpeek : d.idToCluster.cache.Peek (d.clustersCounter + 1) = none := by
      rcases Option.eq_none_or_eq_some (d.idToCluster.cache.Peek (d.clustersCounter + 1))
        with hp | ⟨v, hp⟩
      · exact hp
      · have := hs.fresh _ (Peek_mem _ _ _ hp)
        simp only at this
        omega
    have hk1 : d1.idToCluster.cache.Keys =
        List.range' (d1.clustersCounter + 1 - min d1.clustersCounter N)
          (min d1.clustersCounter N) := by
      rw [hcache, hcnt]
      exact Keys_after_miss d.idToCluster.cache d.clustersCounter N c hsize hpeek hk
    have hsize1 : d1.idToCluster.cache.size = N := by
      rw [train_size d isNumber _ _ _ _ d1 c h]; exact hsize
    obtain ⟨d2, cs, hrest, hr2, hcfg2, hcnt2, hk2, hids, hsz, hrun2⟩ :=
      ih d1 hr1 (by rw [hcfg]; exact hmc) hsize1 hk1 hrun1
    refine ⟨d2, c :: cs, ?_, hr2, by rw [hcfg2, hcfg], ?_, hk2, ?_, ?_, hrun2⟩
    · simp only [Drain.trainAll, h, hrest]
    · rw [hcnt2, hcnt, List.length_cons]
      omega
    · rw [List.map_cons, hids, hcnt, List.length_cons, List.range'_succ]
      congr 1
      rw [hc]
      rfl
    · intro c2 hc2
      rcases List.mem_cons.mp hc2 with he | he
      · rw [he, hc]; rfl
      · exact hsz c2 he

/-- On a fresh engine with `MaxClusters = N ≥ 1` (and `MaxChildren ≥ 1`), training
`N + 1` token sequences of pairwise different token counts returns the new clusters
1, …, N + 1 in order and leaves exactly `N` live clusters, the ids 2, …, N + 1, oldest
first; cluster 1 has been evicted. Training the first sequence again then returns a new
cluster with id `N + 2`. -/
theorem eviction_distinct_counts (isNumber : Char → Bool) (cfg : Config) (N : Nat) (first : Input)
    (others : List Input) (again : Input)
    (hN : 1 ≤ N) (hcap : cfg.MaxClusters = N) (hdepth : 3 ≤ cfg.LogClusterDepth)
    (hmc : 1 ≤ cfg.MaxChildren) (hlen : others.length = N)
    (hdistinct : (first :: others).Pairwise (fun a b => a.tokens.length ≠ b.tokens.length))
    (hagain : again.tokens = first.tokens) :
    ∃ d0 d1 cs d2 c, New cfg = .ok d0 ∧
      d0.trainAll isNumber (first :: others) = .ok (d1, cs) ∧
      cs.map (fun c => c.id) = List.range' 1 (N + 1) ∧ (∀ c ∈ cs, c.Size = 1) ∧
      d1.idToCluster.cache.Keys = List.range' 2 N ∧
      d1.Clusters.map (fun c => c.id) = List.range' 2 N ∧ d1.Clusters.length = N ∧
      d1.live 1 = none ∧
      d1.train isNumber again.content again.tokens again.stringer again.ts = .ok (d2, c) ∧
      c.id = N + 2 ∧ c.Size = 1 ∧ d2.live (N + 2) = some c := by
  have hsz : (if cfg.MaxClusters = 0 then maxInt else cfg.MaxClusters) = N := by
    rw [if_neg (by omega), hcap]
  have hnew : New cfg = .ok ⟨{ cfg with maxNodeDepth := cfg.LogClusterDepth - 2 },
      createNode, emptyStore N, 0⟩ := by
    unfold New
    rw [if_neg (by omega)]
    simp only [createLogClusterCache, hsz, emptyStore]
  have hr0 : Reachable isNumber _ := Reachable.new cfg _ hnew
  obtain ⟨root, h1, hkeys, hlater⟩ := first_train_branch isNumber
    { cfg with maxNodeDepth := cfg.LogClusterDepth - 2 } N first.content first.tokens
    first.stringer first.ts hN hmc
  have hr1 := Reachable.step _ _ hr0 (Step.train _ _ first.content first.tokens first.stringer
    first.ts _ h1)
  obtain ⟨d1, cs, hrun, hrd1, hcfg1, hcnt1, hk1, hids, hsizes, hkeep⟩ :=
    trainAll_distinct isNumber N others _ [first.tokens.length] hr1 hmc rfl
      (by
        show [0 + 1] = List.range' (0 + 1 + 1 - min (0 + 1) N) (min (0 + 1) N)
        have : min (0 + 1) N = 1 := min_eq_left (by omega)
        rw [this]
        rfl)
      (by
        intro key hkey
        exact ⟨first.tokens.length, List.mem_singleton.mpr rfl, hkeys key hkey⟩)
      (List.Pairwise.of_cons hdistinct)
      (by
        intro b hb hmem
        simp only [List.mem_singleton] at hmem
        exact (List.rel_of_pairwise_cons hdistinct hb) hmem.symm)
  have hcnt : d1.clustersCounter = N + 1 := by
    rw [hcnt1, hlen]
    show 0 + 1 + N = N + 1
    omega
  have hkeys1 : d1.idToCluster.cache.Keys = List.range' 2 N := by
    rw [hk1, hcnt]
    have : min (N + 1) N = N := min_eq_right (by omega)
    rw [this]
    congr 1
    omega
  have hs1 := StoreOk_reachable isNumber d1 hrd1
  have hdead : d1.live 1 = none := by
    cases hl : d1.live 1 with
    | none => rfl
    | some v =>
      have := mem_Keys _ 1 v hl
      rw [hkeys1, List.mem_range'_1] at this
      omega
  have hmc1 : 1 ≤ d1.config.MaxChildren := by rw [hcfg1]; exact hmc
  obtain ⟨cache, hts⟩ := hlater d1 d1.config.SimTh false hcfg1
    (hkeep _ (List.mem_singleton.mpr rfl)) hdead
  rw [← hagain] at hts
  obtain ⟨d2, c, h2⟩ := train_returns d1 isNumber again.content again.tokens again.stringer
    again.ts hs1 (TreeOk_reachable isNumber d1 hrd1) (ShapeOk_reachable isNumber d1 hrd1 hmc1)
    hmc1
  obtain ⟨hc, _, _, hlc, _⟩ := train_miss_result d1 isNumber again.content again.tokens
    again.stringer again.ts d2 c cache (size_reachable isNumber d1 hrd1) h2 hts
  rw [hcnt] at hc hlc
  have hcl := Clusters_ids d1 hs1
  refine ⟨_, d1, freshCluster (0 + 1) first.content first.tokens first.stringer first.ts :: cs,
    d2, c, hnew, ?_, ?_, ?_, hkeys1, by rw [hcl, hkeys1], ?_, hdead, h2,
    by rw [hc]; rfl, by rw [hc]; rfl, hlc⟩
  · simp only [Drain.trainAll, h1, hrun]
  · rw [List.map_cons, hids, hlen, List.range'_succ]
    rfl
  · intro c2 hc2
    rcases List.mem_cons.mp hc2 with he | he
    · rw [he]; rfl
    · exact hsizes c2 he
  · have := congrArg List.length hcl
    rw [List.length_map, hkeys1, List.length_range'] at this
    exact this

/-! # The claims -/

/-- C4 fails on the code: on the strictly ordered series with buckets at 20 s (count 1)
and 40 s (count 2), `Add` at 5 s takes the `first > t` branch, commented `Prepend`, and
returns the two buckets 0 s and 20 s. The new bucket is not put in front of all existing
buckets: the bucket at 40 s is gone and with it two occurrences, so the count of a bucket
other than `t` changes and `Matches` falls from 3 to 2 instead of growing by one. -/
theorem Volume_Add_prepend_drops_last :
    exampleVolume.Values ≠ [] ∧ exampleVolume.Ordered ∧
    truncateTimestamp 5000 = 0 ∧ truncateTimestamp 5000 < exampleVolume.tsAt 0 ∧
    ∃ y, exampleVolume.Add 5000 = .ok y ∧
      y.Values = [{ Timestamp := 0, Value := 1 }, { Timestamp := 20000, Value := 1 }] ∧
      y.Values ≠ { Timestamp := truncateTimestamp 5000, Value := 1 } :: exampleVolume.Values ∧
      exampleVolume.countAt 40000 = 2 ∧ y.countAt 40000 = 0 ∧
      exampleVolume.Matches = 3 ∧ y.Matches = 2 := by
  refine ⟨by decide, by unfold Volume.Ordered; decide, by decide, by decide, _, rfl, rfl,
    by decide, by decide, by decide, by decide, by decide⟩

/-- C5 fails on the code: on the ordered series with buckets at 0 s, 10 s and 20 s,
`ForRange(0, 20000)` returns all three buckets, the one at `end` included, because the
upper bound is only searched when `end < last`. -/
theorem ForRange_includes_end :
    exampleSeries.Ordered ∧
    exampleSeries.ForRange 0 20000 = .ok exampleSeries ∧
    (20000 : Int) ∈ exampleSeries.timestamps := by
  refine ⟨by unfold Volume.Ordered; decide, rfl, by decide⟩

/-- C6: `initVolume` yields a non-empty series; `Add` on a non-empty strictly ordered
series returns a non-empty strictly ordered series that has the bucket
`truncateTimestamp ts`; and in every reachable state every live cluster's series is
non-empty and strictly ordered, so `Add` on it never indexes out of bounds. -/
theorem volume_ordering_invariant (isNumber : Char → Bool) (x : Volume) (ts : Int)
    (d : Drain) (id : Nat) (c : LogCluster) (hne : x.Values ≠ []) (ho : x.Ordered)
    (hr : Reachable isNumber d) (hl : d.live id = some c) :
    (∀ t, (initVolume t).Values ≠ []) ∧
    (∃ y, x.Add ts = .ok y ∧ y.Values ≠ [] ∧ y.Ordered ∧
      truncateTimestamp ts ∈ y.timestamps) ∧
    (c.Volume.Values ≠ [] ∧ c.Volume.Ordered ∧
      ∃ y, c.Volume.Add ts = .ok y ∧ y.Values ≠ [] ∧ y.Ordered) := by
  have hs := StoreOk_reachable isNumber d hr
  have hv := hs.volume (id, c) (Peek_mem _ _ _ hl)
  obtain ⟨y, hy, h1, h2, _⟩ := Add_ordered c.Volume ts hv.1 hv.2
  exact ⟨fun t => (initVolume_ok t).1, Add_ordered x ts hne ho, hv.1, hv.2, y, hy, h1, h2⟩

/-- C6, on the example engine after one training call, with a timestamp before the first
bucket of both series. -/
theorem volume_ordering_invariant_witness :
    exampleVolume.Values ≠ [] ∧ exampleVolume.Ordered ∧
    Reachable asciiDigit exampleTrained ∧ exampleTrained.live 1 = some exampleCluster ∧
    ((∀ t, (initVolume t).Values ≠ []) ∧
    (∃ y, exampleVolume.Add 5000 = .ok y ∧ y.Values ≠ [] ∧ y.Ordered ∧
      truncateTimestamp 5000 ∈ y.timestamps) ∧
    (exampleCluster.Volume.Values ≠ [] ∧ exampleCluster.Volume.Ordered ∧
      ∃ y, exampleCluster.Volume.Add 5000 = .ok y ∧ y.Values ≠ [] ∧ y.Ordered)) :=
  have hr : Reachable asciiDigit exampleTrained :=
    Reachable.step exampleStart exampleTrained (Reachable.new exampleConfig exampleStart rfl)
      (Step.train exampleStart exampleTrained "user 1 logged in"
        ["user", "1", "logged", "in"] none 5000000000 exampleCluster rfl)
  ⟨by decide, by unfold Volume.Ordered; decide, hr, rfl,
    volume_ordering_invariant asciiDigit exampleVolume 5000 exampleTrained 1 exampleCluster
      (by decide) (by unfold Volume.Ordered; decide) hr rfl⟩

/-- C7 fails on the code: `Train` at 5 s creates a cluster whose single bucket has the
raw timestamp 5000 ms, not `truncateTimestamp 5000 = 0` and not a multiple of the bucket
width; a second `Train` at the same instant does not count into that bucket: its `Add`
truncates to 0, which is before 5000, and leaves the single bucket 0 with count 1. -/
theorem new_cluster_volume_not_truncated :
    exampleStart.Train asciiDigit "user 1 logged in" 5000000000
      = .ok (exampleTrained, exampleCluster) ∧
    exampleCluster.Volume.Values = [{ Timestamp := 5000, Value := 1 }] ∧
    truncateTimestamp (TimeFromUnixNano 5000000000) = 0 ∧
    ¬ (timeResolution ∣ 5000) ∧
    exampleTrained.Train asciiDigit "user 2 logged in" 5000000000
      = .ok (exampleTrainedTwice, exampleMerged) ∧
    exampleMerged.Volume.Values = [{ Timestamp := 0, Value := 1 }] := by
  refine ⟨rfl, rfl, by decide, by decide, rfl, by decide⟩

/-- C8: for token sequences of equal length `createTemplate` returns a template of that
length holding the wildcard marker where the tokens differ from the old template and the
old template token elsewhere, so it keeps every wildcard; and along any sequence of calls
from a reachable state, a cluster that is live before and after keeps the length of its
template and every wildcard position. -/
theorem template_generalisation (isNumber : Char → Bool) (d d1 : Drain)
    (tokens template : List String) (id : Nat) (c0 c1 : LogCluster)
    (hlen : tokens.length = template.length) (hr : Reachable isNumber d)
    (hsteps : Steps isNumber d d1) (h0 : d.live id = some c0) (h1 : d1.live id = some c1) :
    (∃ r, d.createTemplate tokens template = .ok r ∧ r.length = template.length ∧
      (∀ (i : Nat) (a b : String), tokens[i]? = some a → template[i]? = some b →
        r[i]? = some (if a ≠ b then d.config.ParamString else b)) ∧
      (∀ i : Nat, template[i]? = some d.config.ParamString →
        r[i]? = some d.config.ParamString)) ∧
    (c1.Tokens.length = c0.Tokens.length ∧
      ∀ i : Nat, c0.Tokens[i]? = some d.config.ParamString →
        c1.Tokens[i]? = some d.config.ParamString) := by
  constructor
  · obtain ⟨z1, z2⟩ := zipWith_template d.config.ParamString tokens template hlen
    have hg := createTemplate_generalises d tokens template _
      (createTemplate_ok d tokens template hlen)
    exact ⟨_, createTemplate_ok d tokens template hlen, z1, z2, hg.2⟩
  · have hs := StoreOk_reachable isNumber d hr
    obtain ⟨_, _, _, h4⟩ := steps_templates isNumber d d1 hs hsteps
    have hid : id ≤ d.clustersCounter := hs.fresh (id, c0) (Peek_mem _ _ _ h0)
    obtain ⟨c, hc, hg⟩ := h4 id c1 hid h1
    rw [h0] at hc
    simp only [Option.some.injEq] at hc
    rw [← hc] at hg
    exact hg

/-- C8, on the example: the second training call generalises cluster 1. -/
theorem template_generalisation_witness :
    ["user", "2", "logged", "in"].length = ["user", "1", "logged", "in"].length ∧
    Reachable asciiDigit exampleTrained ∧
    Steps asciiDigit exampleTrained exampleTrainedTwice ∧
    exampleTrained.live 1 = some exampleCluster ∧
    exampleTrainedTwice.live 1 = some exampleMerged ∧
    ((∃ r, exampleTrained.createTemplate ["user", "2", "logged", "in"]
        ["user", "1", "logged", "in"] = .ok r ∧
      r.length = ["user", "1", "logged", "in"].length ∧
      (∀ (i : Nat) (a b : String), ["user", "2", "logged", "in"][i]? = some a →
        ["user", "1", "logged", "in"][i]? = some b →
        r[i]? = some (if a ≠ b then exampleTrained.config.ParamString else b)) ∧
      (∀ i : Nat, ["user", "1", "logged", "in"][i]? = some exampleTrained.config.ParamString →
        r[i]? = some exampleTrained.config.ParamString)) ∧
    (exampleMerged.Tokens.length = exampleCluster.Tokens.length ∧
      ∀ i : Nat, exampleCluster.Tokens[i]? = some exampleTrained.config.ParamString →
        exampleMerged.Tokens[i]? = some exampleTrained.config.ParamString)) :=
  have hr : Reachable asciiDigit exampleTrained :=
    Reachable.step exampleStart exampleTrained (Reachable.new exampleConfig exampleStart rfl)
      (Step.train exampleStart exampleTrained "user 1 logged in"
        ["user", "1", "logged", "in"] none 5000000000 exampleCluster rfl)
  have hsteps : Steps asciiDigit exampleTrained exampleTrainedTwice :=
    Steps.tail exampleTrained exampleTrained exampleTrainedTwice (Steps.refl exampleTrained)
      (Step.train exampleTrained exampleTrainedTwice "user 2 logged in"
        ["user", "2", "logged", "in"] none 5000000000 exampleMerged rfl)
  ⟨rfl, hr, hsteps, rfl, rfl,
    template_generalisation asciiDigit exampleTrained exampleTrainedTwice
      ["user", "2", "logged", "in"] ["user", "1", "logged", "in"] 1 exampleCluster
      exampleMerged rfl hr hsteps rfl rfl⟩

/-- C9: `fastMatch` considers the live, not disqualified candidates of the list, and
returns the first of them in list order that no other candidate beats (strictly higher
similarity, ties broken by the higher parameter count), provided its similarity is at
least `simTh`; it returns none when no candidate reaches `simTh`. The hypothesis is the
precondition under which `getSeqDistance` does not abort: every live candidate has as many
tokens as the input. -/
theorem fastMatch_selects_best (d : Drain) (clusterIDs : List Nat) (tokens : List String)
    (simTh : F64) (includeParams : Bool)
    (hlen : ∀ id ∈ clusterIDs, ∀ c, d.live id = some c → c.Tokens.length = tokens.length) :
    ∃ cache r, d.fastMatch clusterIDs tokens simTh includeParams = .ok (cache, r) ∧
      (∀ c, r = some c →
        (∃ id ∈ clusterIDs, d.live id = some c) ∧
        ∃ (i : Nat) (s : F64) (p : Int),
          (d.candidates clusterIDs tokens includeParams)[i]? = some (c, s, p) ∧
          s.ge simTh = true ∧
          (∀ x ∈ d.candidates clusterIDs tokens includeParams, ¬ beats (x.2.1, x.2.2) (s, p)) ∧
          (∀ (j : Nat) (x : LogCluster × F64 × Int), j < i →
            (d.candidates clusterIDs tokens includeParams)[j]? = some x →
            beats (s, p) (x.2.1, x.2.2))) ∧
      (r = none →
        ∀ x ∈ d.candidates clusterIDs tokens includeParams, x.2.1.ge simTh = false) :=
  fastMatch_best d clusterIDs tokens simTh includeParams hlen

/-- C9, on an engine in which six clusters share a leaf: against ["a", "b", "x"] the
shortlist of that leaf holds an evicted id (6) and a candidate disqualified by a pinned
token (2); of the scored candidates 1, 3, 4 and 5, cluster 3 wins over 1 on the parameter
count at equal similarity, over 4 on similarity although 4 has more parameters, and over
5, which ties with it, by coming first. With threshold 3/4 nothing is returned. -/
theorem fastMatch_selects_best_witness :
    (∀ id ∈ [1, 2, 3, 4, 5, 6], ∀ c, selectState.live id = some c →
      c.Tokens.length = ["a", "b", "x"].length) ∧
    (Reachable asciiDigit selectState ∧
      selectStart.trainAll asciiDigit selectInputs = .ok (selectState, selectClusters) ∧
      selectState.rootNode.idsAt ["3", "a"] = [1, 2, 3, 4, 5, 6] ∧
      selectState.live 6 = none ∧
      (selectState.live 2).map (fun c => c.Tokens) = some ["a", "\x00p", "x"] ∧
      (selectState.candidates [1, 2, 3, 4, 5, 6] ["a", "b", "x"] false).map
          (fun x => (x.1.id, x.1.Tokens, x.2.1, x.2.2)) =
        [(1, ["a", "b", "c"], ⟨2, 3⟩, 0), (3, ["a", "<*>", "x"], ⟨2, 3⟩, 1),
         (4, ["a", "<*>", "<*>"], ⟨1, 3⟩, 2), (5, ["a", "b", "<*>"], ⟨2, 3⟩, 1)] ∧
      Except.map (fun r => r.2.map (fun c => c.id))
          (selectState.fastMatch [1, 2, 3, 4, 5, 6] ["a", "b", "x"] ⟨1, 2⟩ false)
        = .ok (some 3) ∧
      Except.map (fun r => r.2.map (fun c => c.id))
          (selectState.fastMatch [1, 2, 3, 4, 5, 6] ["a", "b", "x"] ⟨3, 4⟩ false)
        = .ok none) ∧
    ∃ cache r, selectState.fastMatch [1, 2, 3, 4, 5, 6] ["a", "b", "x"] ⟨1, 2⟩ false
        = .ok (cache, r) ∧
      (∀ c, r = some c →
        (∃ id ∈ [1, 2, 3, 4, 5, 6], selectState.live id = some c) ∧
        ∃ (i : Nat) (s : F64) (p : Int),
          (selectState.candidates [1, 2, 3, 4, 5, 6] ["a", "b", "x"] false)[i]?
            = some (c, s, p) ∧
          s.ge ⟨1, 2⟩ = true ∧
          (∀ x ∈ selectState.candidates [1, 2, 3, 4, 5, 6] ["a", "b", "x"] false,
            ¬ beats (x.2.1, x.2.2) (s, p)) ∧
          (∀ (j : Nat) (x : LogCluster × F64 × Int), j < i →
            (selectState.candidates [1, 2, 3, 4, 5, 6] ["a", "b", "x"] false)[j]? = some x →
            beats (s, p) (x.2.1, x.2.2))) ∧
      (r = none →
        ∀ x ∈ selectState.candidates [1, 2, 3, 4, 5, 6] ["a", "b", "x"] false,
          x.2.1.ge ⟨1, 2⟩ = false) :=
  have hall : ∀ id ∈ [1, 2, 3, 4, 5, 6],
      ((selectState.live id).map (fun c => c.Tokens.length)).getD 3 = 3 := by decide
  have hlen : ∀ id ∈ [1, 2, 3, 4, 5, 6], ∀ c, selectState.live id = some c →
      c.Tokens.length = ["a", "b", "x"].length := by
    intro id hid c hc
    have := hall id hid
    rw [hc] at this
    exact this
  ⟨hlen,
    ⟨trainAll_reachable asciiDigit selectInputs selectStart selectState selectClusters
        (Reachable.new selectConfig selectStart rfl) rfl,
      rfl, rfl, rfl, rfl, rfl, rfl, rfl⟩,
    fastMatch_selects_best selectState [1, 2, 3, 4, 5, 6] ["a", "b", "x"] ⟨1, 2⟩ false hlen⟩

/-- C10 as stated fails on the code: with a wildcard marker that starts with a NUL byte,
the template consisting of that marker is a wildcard at its only position, yet against
the token "x" the pinned test fires first and the similarity is 0, not 1. -/
theorem getSeqDistance_pinned_wildcard :
    ["\x00*"].length = ["x"].length ∧
    pinnedWildcard.getSeqDistance ["\x00*"] ["x"] true = .ok (⟨0, 1⟩, -1) ∧
    (∀ p ∈ ["\x00*"].zip ["x"], p.1 = pinnedWildcard.config.ParamString ∨ p.1 = p.2) ∧
    (⟨0, 1⟩ : F64).toRat = some 0 := by
  refine ⟨rfl, rfl, ?_, ?_⟩
  · intro p hp
    simp only [List.zip_cons_cons, List.zip_nil_right, List.mem_singleton] at hp
    rw [hp]
    exact Or.inl rfl
  · simp [F64.toRat]

/-- C10, amended: for equal-length non-empty sequences, a pinned mismatch gives `(0, -1)`;
otherwise the result is `(s / n, p)` with `p` the number of wildcard positions and `s` the
number of non-wildcard literal matches, plus `p` when `includeParams` is set; the
similarity lies in `[0, 1]`, and with `includeParams` it equals 1 exactly when there is no
pinned mismatch and every position is a wildcard or a literal match. -/
theorem getSeqDistance_spec (d : Drain) (template tokens : List String) (includeParams : Bool)
    (hlen : template.length = tokens.length) (hne : template ≠ []) :
    (pinnedMismatch template tokens →
      d.getSeqDistance template tokens includeParams = .ok (⟨0, 1⟩, -1)) ∧
    (¬ pinnedMismatch template tokens →
      d.getSeqDistance template tokens includeParams =
        .ok (F64.div (literalMatches d.config.ParamString template tokens +
              (if includeParams then paramPositions d.config.ParamString template else 0))
              template.length,
            (paramPositions d.config.ParamString template : Int))) ∧
    (∃ sim pc q, d.getSeqDistance template tokens includeParams = .ok (sim, pc) ∧
      sim.toRat = some q ∧ 0 ≤ q ∧ q ≤ 1) ∧
    (∀ sim pc, d.getSeqDistance template tokens true = .ok (sim, pc) →
      (sim.toRat = some 1 ↔
        (¬ pinnedMismatch template tokens ∧
          ∀ p ∈ template.zip tokens, p.1 = d.config.ParamString ∨ p.1 = p.2))) := by
  have hn : template.length ≠ 0 := fun h => hne (List.length_eq_zero.mp h)
  have hnq : (template.length : ℚ) ≠ 0 := by exact_mod_cast hn
  have hnpos : (0 : ℚ) < (template.length : ℚ) := by
    exact_mod_cast Nat.pos_of_ne_zero hn
  obtain ⟨hle, hiff⟩ := counts_le d.config.ParamString template tokens hlen
  refine ⟨getSeqDistance_pinned d template tokens includeParams hlen,
    getSeqDistance_free d template tokens includeParams hlen, ?_, ?_⟩
  · by_cases hp : pinnedMismatch template tokens
    · refine ⟨_, _, 0, getSeqDistance_pinned d template tokens includeParams hlen hp, ?_,
        le_refl _, zero_le_one⟩
      simp [F64.toRat]
    · refine ⟨_, _, _, getSeqDistance_free d template tokens includeParams hlen hp,
        toRat_div _ _ hn, ?_, ?_⟩
      · positivity
      · rw [div_le_one hnpos]
        have : literalMatches d.config.ParamString template tokens +
            (if includeParams = true then paramPositions d.config.ParamString template else 0)
            ≤ template.length := by
          split <;> omega
        exact_mod_cast this
  · intro sim pc h
    by_cases hp : pinnedMismatch template tokens
    · rw [getSeqDistance_pinned d template tokens true hlen hp] at h
      simp only [Except.ok.injEq, Prod.mk.injEq] at h
      rw [← h.1]
      constructor
      · intro h1
        simp [F64.toRat] at h1
      · intro h1
        exact absurd hp h1.1
    · rw [getSeqDistance_free d template tokens true hlen hp] at h
      simp only [if_true, Except.ok.injEq, Prod.mk.injEq] at h
      rw [← h.1, toRat_div _ _ hn, ← hiff]
      simp only [Option.some.injEq, hp, not_false_eq_true, true_and]
      rw [div_eq_one_iff_eq hnq]
      constructor
      · intro h1; exact_mod_cast h1
      · intro h1; exact_mod_cast h1

/-- C10, amended, on an example: the merged template against "user 3 logged in". -/
theorem getSeqDistance_spec_witness :
    ["user", "<*>", "logged", "in"].length = ["user", "3", "logged", "in"].length ∧
    ["user", "<*>", "logged", "in"] ≠ [] ∧
    ((pinnedMismatch ["user", "<*>", "logged", "in"] ["user", "3", "logged", "in"] →
      exampleTrained.getSeqDistance ["user", "<*>", "logged", "in"]
        ["user", "3", "logged", "in"] true = .ok (⟨0, 1⟩, -1)) ∧
    (¬ pinnedMismatch ["user", "<*>", "logged", "in"] ["user", "3", "logged", "in"] →
      exampleTrained.getSeqDistance ["user", "<*>", "logged", "in"]
        ["user", "3", "logged", "in"] true =
        .ok (F64.div (literalMatches exampleTrained.config.ParamString
                ["user", "<*>", "logged", "in"] ["user", "3", "logged", "in"] +
              (if true then paramPositions exampleTrained.config.ParamString
                ["user", "<*>", "logged", "in"] else 0))
              ["user", "<*>", "logged", "in"].length,
            (paramPositions exampleTrained.config.ParamString
              ["user", "<*>", "logged", "in"] : Int))) ∧
    (∃ sim pc q, exampleTrained.getSeqDistance ["user", "<*>", "logged", "in"]
        ["user", "3", "logged", "in"] true = .ok (sim, pc) ∧
      sim.toRat = some q ∧ 0 ≤ q ∧ q ≤ 1) ∧
    (∀ sim pc, exampleTrained.getSeqDistance ["user", "<*>", "logged", "in"]
        ["user", "3", "logged", "in"] true = .ok (sim, pc) →
      (sim.toRat = some 1 ↔
        (¬ pinnedMismatch ["user", "<*>", "logged", "in"] ["user", "3", "logged", "in"] ∧
          ∀ p ∈ ["user", "<*>", "logged", "in"].zip ["user", "3", "logged", "in"],
            p.1 = exampleTrained.config.ParamString ∨ p.1 = p.2)))) :=
  ⟨rfl, by decide,
    getSeqDistance_spec exampleTrained ["user", "<*>", "logged", "in"]
      ["user", "3", "logged", "in"] true rfl (by decide)⟩

/-- C2 fails on the code: `Match` calls `Get` on every candidate, which moves it to the
front of the eviction list. With room for two clusters and clusters 1 and 2 live (1 the
older), `Match("a b")` makes cluster 2 the oldest, and the next `Train` that creates a
cluster evicts cluster 2 instead of cluster 1. -/
theorem Match_touches_recency :
    Reachable asciiDigit recencyBefore ∧
    recencyBefore.idToCluster.cache.Keys = [1, 2] ∧
    Except.map (fun r => r.1.idToCluster.cache.Keys) (recencyBefore.Match "a b")
      = .ok [2, 1] ∧
    Except.map (fun r => r.1.idToCluster.cache.Keys)
      (recencyBefore.Train asciiDigit "e f" 0) = .ok [2, 3] ∧
    Except.map (fun r => r.1.idToCluster.cache.Keys)
      (recencyAfterMatch.Train asciiDigit "e f" 0) = .ok [1, 3] := by
  refine ⟨?_, rfl, rfl, rfl, rfl⟩
  have h0 : Reachable asciiDigit recencyStart := Reachable.new recencyConfig recencyStart rfl
  have h1 := Reachable.step recencyStart
    (outcome (recencyStart.Train asciiDigit "a b" 0) recencyStart exampleCluster).1 h0
    (Step.train recencyStart _ "a b" ["a", "b"] none 0
      (outcome (recencyStart.Train asciiDigit "a b" 0) recencyStart exampleCluster).2 rfl)
  exact Reachable.step _ recencyBefore h1
    (Step.train _ recencyBefore "c d" ["c", "d"] none 0
      (outcome ((outcome (recencyStart.Train asciiDigit "a b" 0)
        recencyStart exampleCluster).1.Train asciiDigit "c d" 0)
        recencyStart exampleCluster).2 rfl)

theorem zipWith_swap (wild : String) : ∀ (a b : List String),
    List.zipWith (fun t m => if t ≠ m then wild else m) b a =
      List.zipWith (fun x y => if x = y then x else wild) a b := by
  intro a
  induction a with
  | nil => intro b; simp
  | cons x a ih =>
    intro b
    cases b with
    | nil => simp
    | cons y b =>
      simp only [List.zipWith_cons_cons, ih b, List.cons.injEq, and_true]
      by_cases h : x = y
      · simp [h]
      · have h2 : ¬ y = x := fun e => h e.symm
        simp [h, h2]

/-- C1: on a fresh engine (depth at least 3, at least one child per node), for token
sequences `a` and `b` of the same non-zero length that agree on their first
`min(maxNodeDepth, n) - 1` tokens, where `a` holds no wildcard marker and no token that
starts with a NUL byte and the number of equal positions is at least `SimTh * n`: training
`a` and then `b` returns cluster 1 both times; afterwards its occurrence count is 2, its
template is `a` with exactly the positions where `a` and `b` differ replaced by the
wildcard marker, and it is the only live cluster. -/
theorem train_converges (isNumber : Char → Bool) (cfg : Config) (a b : List String)
    (content1 content2 : String) (st1 st2 : Option (List String → String)) (ts1 ts2 : Int)
    (q : ℚ) (hdepth : 3 ≤ cfg.LogClusterDepth) (hmc : 1 ≤ cfg.MaxChildren)
    (hlen : a.length = b.length) (hpos : 1 ≤ a.length)
    (hagree : ∀ i : Nat, (i : Int) + 1 < min (cfg.LogClusterDepth - 2) (a.length : Int) →
      a[i]? = b[i]?)
    (hnw : ∀ t ∈ a, t ≠ cfg.ParamString) (hnul : ∀ t ∈ a, isMarked t = false)
    (hq : cfg.SimTh.toRat = some q) (hsim : q * a.length ≤ equalPositions a b) :
    ∃ d0 d1 c1 d2 c2, New cfg = .ok d0 ∧
      d0.train isNumber content1 a st1 ts1 = .ok (d1, c1) ∧
      d1.train isNumber content2 b st2 ts2 = .ok (d2, c2) ∧
      c1.id = 1 ∧ c2.id = 1 ∧ c1.Size = 1 ∧ c2.Size = 2 ∧
      c2.Tokens = List.zipWith (fun x y => if x = y then x else cfg.ParamString) a b ∧
      d2.live 1 = some c2 ∧ d2.Clusters = [c2] := by
  have ha : a ≠ [] := by
    intro h
    rw [h] at hpos
    simp at hpos
  have hsz : 1 ≤ (if cfg.MaxClusters = 0 then maxInt else cfg.MaxClusters) := by
    split
    · decide
    · omega
  generalize hszdef : (if cfg.MaxClusters = 0 then maxInt else cfg.MaxClusters) = size at hsz
  have hnew : New cfg = .ok ⟨{ cfg with maxNodeDepth := cfg.LogClusterDepth - 2 }, createNode,
      emptyStore size, 0⟩ := by
    unfold New
    rw [if_neg (by omega)]
    simp only [createLogClusterCache, hszdef, emptyStore]
  obtain ⟨chain, h1, hs⟩ := first_train isNumber
    { cfg with maxNodeDepth := cfg.LogClusterDepth - 2 } size 0 content1 a st1 ts1 hsz hmc ha
  obtain ⟨leaf, hleaf1, hleaf2⟩ := hs
    ⟨{ cfg with maxNodeDepth := cfg.LogClusterDepth - 2 }, branchOf a.length chain,
      storeOf size (freshCluster (0 + 1) content1 a st1 ts1), 0 + 1⟩ b rfl hlen.symm (by
      intro i hi1 hi2
      apply hagree i
      apply lt_min
      · have : ((1 + i : Nat) : Int) = (i : Int) + 1 := by push_cast; ring
        rw [← this]; exact hi1
      · exact_mod_cast (by omega : i + 1 < a.length))
  obtain ⟨v, _, h2⟩ := second_train isNumber
    { cfg with maxNodeDepth := cfg.LogClusterDepth - 2 } size (0 + 1) chain leaf
    (freshCluster (0 + 1) content1 a st1 ts1) content2 a b st2 ts2 q ha hlen rfl
    (initVolume_ok _) hleaf1 hleaf2 hnw hnul hq hsim
  refine ⟨_, _, _, _, _, hnew, h1, h2, rfl, rfl, rfl, rfl, ?_, ?_, ?_⟩
  · exact zipWith_swap cfg.ParamString a b
  · simp [Drain.live, storeOf, LRU.Peek, lruFind, mergedCluster, freshCluster]
  · simp [Drain.Clusters, LogClusterCache.Values, LRU.Keys, storeOf, LRU.Peek, lruFind,
      mergedCluster, freshCluster]

/-- C1 on the spec's example: depth 4, threshold 0.5, 100 children, "user 1 logged in"
then "user 2 logged in". -/
theorem train_converges_witness :
    (3 : Int) ≤ exampleConfig.LogClusterDepth ∧ 1 ≤ exampleConfig.MaxChildren ∧
    ["user", "1", "logged", "in"].length = ["user", "2", "logged", "in"].length ∧
    1 ≤ ["user", "1", "logged", "in"].length ∧
    (∀ i : Nat, (i : Int) + 1 < min (exampleConfig.LogClusterDepth - 2)
        (["user", "1", "logged", "in"].length : Int) →
      ["user", "1", "logged", "in"][i]? = ["user", "2", "logged", "in"][i]?) ∧
    (∀ t ∈ ["user", "1", "logged", "in"], t ≠ exampleConfig.ParamString) ∧
    (∀ t ∈ ["user", "1", "logged", "in"], isMarked t = false) ∧
    exampleConfig.SimTh.toRat = some (1 / 2) ∧
    ((1 / 2 : ℚ) * ["user", "1", "logged", "in"].length
      ≤ equalPositions ["user", "1", "logged", "in"] ["user", "2", "logged", "in"]) ∧
    exampleStart.getContentAsTokens "user 1 logged in" = ["user", "1", "logged", "in"] ∧
    exampleStart.getContentAsTokens "user 2 logged in" = ["user", "2", "logged", "in"] ∧
    ∃ d0 d1 c1 d2 c2, New exampleConfig = .ok d0 ∧
      d0.train asciiDigit "user 1 logged in" ["user", "1", "logged", "in"] none 5000000000
        = .ok (d1, c1) ∧
      d1.train asciiDigit "user 2 logged in" ["user", "2", "logged", "in"] none 5000000000
        = .ok (d2, c2) ∧
      c1.id = 1 ∧ c2.id = 1 ∧ c1.Size = 1 ∧ c2.Size = 2 ∧
      c2.Tokens = List.zipWith (fun x y => if x = y then x else exampleConfig.ParamString)
        ["user", "1", "logged", "in"] ["user", "2", "logged", "in"] ∧
      d2.live 1 = some c2 ∧ d2.Clusters = [c2] :=
  have hagree : ∀ i : Nat, (i : Int) + 1 < min (exampleConfig.LogClusterDepth - 2)
        (["user", "1", "logged", "in"].length : Int) →
      ["user", "1", "logged", "in"][i]? = ["user", "2", "logged", "in"][i]? := by
    intro i hi
    have h2 : (i : Int) + 1 < 2 := lt_of_lt_of_le hi (min_le_left _ _)
    have h3 : i = 0 := by omega
    subst h3
    rfl
  have hq : exampleConfig.SimTh.toRat = some (1 / 2) := by
    simp [F64.toRat, exampleConfig]
  have hsim : (1 / 2 : ℚ) * ["user", "1", "logged", "in"].length
      ≤ equalPositions ["user", "1", "logged", "in"] ["user", "2", "logged", "in"] := by
    have : equalPositions ["user", "1", "logged", "in"] ["user", "2", "logged", "in"] = 3 := by
      decide
    rw [this]
    norm_num
  ⟨by decide, by decide, rfl, by decide, hagree, by decide, by decide, hq, hsim, by decide,
    by decide,
    train_converges asciiDigit exampleConfig ["user", "1", "logged", "in"]
      ["user", "2", "logged", "in"] "user 1 logged in" "user 2 logged in" none none
      5000000000 5000000000 (1 / 2) (by decide) (by decide) rfl (by decide) hagree (by decide)
      (by decide) hq hsim⟩

/-- C3: in every reachable state `Match` returns (it does not abort), and a cluster it
returns is live in the store before and after the call, has a template of the length of
the tokenised content, and at every position its template token is the wildcard marker or
the content token; so when no live cluster equals the content up to wildcards, `Match`
returns none. -/
theorem Match_sound (isNumber : Char → Bool) (d : Drain) (content : String)
    (hr : Reachable isNumber d) :
    ∃ d1 r, d.Match content = .ok (d1, r) ∧
      (∀ c, r = some c →
        d.live c.id = some c ∧ d1.live c.id = some c ∧
        c.Tokens.length = (d.getContentAsTokens content).length ∧
        ∀ p ∈ c.Tokens.zip (d.getContentAsTokens content),
          p.1 = d.config.ParamString ∨ p.1 = p.2) ∧
      ((∀ id c, d.live id = some c →
          ¬ wildcardEq d.config.ParamString c.Tokens (d.getContentAsTokens content)) →
        r = none) := by
  have hs := StoreOk_reachable isNumber d hr
  obtain ⟨d1, r, h⟩ := Match_returns d content (TreeOk_reachable isNumber d hr)
  have hsound : ∀ c, r = some c →
      d.live c.id = some c ∧ d1.live c.id = some c ∧
      wildcardEq d.config.ParamString c.Tokens (d.getContentAsTokens content) := by
    intro c hc
    rw [hc] at h
    obtain ⟨⟨id, hl⟩, hw⟩ := Match_result d d1 content c h
    have hid := live_keyId d hs id c hl
    rw [← hid] at hl
    obtain ⟨ht, _⟩ := Match_touched d d1 content (some c) h
    refine ⟨hl, ?_, hw⟩
    unfold Drain.live at hl ⊢
    rw [ht.peek c.id]
    exact hl
  refine ⟨d1, r, h, ?_, ?_⟩
  · intro c hc
    obtain ⟨h1, h2, h3, h4⟩ := hsound c hc
    exact ⟨h1, h2, h3, h4⟩
  · intro hnone
    cases hrc : r with
    | none => rfl
    | some c =>
      obtain ⟨h1, _, h3⟩ := hsound c hrc
      exact absurd h3 (hnone c.id c h1)

/-- C3, on the example engine after two training calls and the content
"user 3 logged in". -/
theorem Match_sound_witness :
    Reachable asciiDigit exampleTrainedTwice ∧
    ∃ d1 r, exampleTrainedTwice.Match "user 3 logged in" = .ok (d1, r) ∧
      (∀ c, r = some c →
        exampleTrainedTwice.live c.id = some c ∧ d1.live c.id = some c ∧
        c.Tokens.length = (exampleTrainedTwice.getContentAsTokens "user 3 logged in").length ∧
        ∀ p ∈ c.Tokens.zip (exampleTrainedTwice.getContentAsTokens "user 3 logged in"),
          p.1 = exampleTrainedTwice.config.ParamString ∨ p.1 = p.2) ∧
      ((∀ id c, exampleTrainedTwice.live id = some c →
          ¬ wildcardEq exampleTrainedTwice.config.ParamString c.Tokens
            (exampleTrainedTwice.getContentAsTokens "user 3 logged in")) →
        r = none) :=
  have hr : Reachable asciiDigit exampleTrainedTwice :=
    Reachable.step exampleTrained exampleTrainedTwice
      (Reachable.step exampleStart exampleTrained (Reachable.new exampleConfig exampleStart rfl)
        (Step.train exampleStart exampleTrained "user 1 logged in"
          ["user", "1", "logged", "in"] none 5000000000 exampleCluster rfl))
      (Step.train exampleTrained exampleTrainedTwice "user 2 logged in"
        ["user", "2", "logged", "in"] none 5000000000 exampleMerged rfl)
  ⟨hr, Match_sound asciiDigit exampleTrainedTwice "user 3 logged in" hr⟩

/-- C14: `New` fails exactly when `LogClusterDepth < 3`; otherwise it returns an engine
whose matching depth is `LogClusterDepth - 2` (at least 1), whose other settings are the
given ones, whose tree is an empty root, in which no cluster is live, and whose cluster
counter is 0. -/
theorem New_validation (config : Config) :
    ((∃ e, New config = .error e) ↔ config.LogClusterDepth < 3) ∧
    ((∃ d, New config = .ok d) ↔ 3 ≤ config.LogClusterDepth) ∧
    ∀ d, New config = .ok d →
      d.config.maxNodeDepth = config.LogClusterDepth - 2 ∧ 1 ≤ d.config.maxNodeDepth ∧
      d.config = { config with maxNodeDepth := config.LogClusterDepth - 2 } ∧
      d.rootNode = createNode ∧ d.rootNode.keyToChildNode = [] ∧ d.rootNode.clusterIDs = [] ∧
      d.Clusters = [] ∧ (∀ id, d.live id = none) ∧ d.clustersCounter = 0 := by
  unfold New
  by_cases h : config.LogClusterDepth < 3
  · rw [if_pos h]
    refine ⟨⟨fun _ => h, fun _ => ⟨_, rfl⟩⟩, ⟨fun ⟨d, hd⟩ => by simp at hd, fun h3 => by omega⟩,
      fun d hd => by simp at hd⟩
  · rw [if_neg h]
    refine ⟨⟨fun ⟨e, he⟩ => by simp at he, fun h3 => absurd h3 h⟩,
      ⟨fun _ => by omega, fun _ => ⟨_, rfl⟩⟩, ?_⟩
    intro d hd
    simp only [Except.ok.injEq] at hd
    rw [← hd]
    refine ⟨rfl, ?_, rfl, rfl, rfl, rfl, rfl, fun id => rfl, rfl⟩
    show 1 ≤ config.LogClusterDepth - 2
    omega

/-- C11 as stated fails on the code: the root's child map is keyed by token count and is
not limited. With `MaxChildren = 1`, after `Train("a")` and `Train("a b")` the root has
two children. -/
theorem root_branching_unbounded :
    New narrowConfig = .ok narrowStart ∧
    Reachable asciiDigit narrowTrained ∧
    narrowTrained.config.MaxChildren = 1 ∧
    narrowTrained.rootNode.keyToChildNode.length = 2 ∧
    narrowTrained.rootNode.keyToChildNode.map (fun e => e.1) = ["1", "2"] :=
  ⟨rfl, narrowTrained_reachable, rfl, rfl, rfl⟩

/-- C11, amended: in every reachable state of an engine with `MaxChildren ≥ 1`, every
node at or below a token-count branch (every node other than the root) has at most
`MaxChildren` children. -/
theorem branching_bounded (isNumber : Char → Bool) (d : Drain) (k : String)
    (path : List String) (node : Node) (hr : Reachable isNumber d)
    (hmc : 1 ≤ d.config.MaxChildren) (hdesc : d.rootNode.descend (k :: path) = some node) :
    (node.keyToChildNode.length : Int) ≤ d.config.MaxChildren :=
  ((ShapeOk_reachable isNumber d hr hmc).bounded k path node hdesc).1

/-- C11, amended, on the engine with one child per node: the branch for two tokens. -/
theorem branching_bounded_witness :
    Reachable asciiDigit narrowTrained ∧ 1 ≤ narrowTrained.config.MaxChildren ∧
    narrowTrained.rootNode.descend ["2"] = some (.mk [("<*>", .mk [] [2])] []) ∧
    ((Node.mk [("<*>", .mk [] [2])] []).keyToChildNode.length : Int)
      ≤ narrowTrained.config.MaxChildren :=
  ⟨narrowTrained_reachable, by decide, narrowTrained_branch,
    branching_bounded asciiDigit narrowTrained "2" [] (.mk [("<*>", .mk [] [2])] [])
      narrowTrained_reachable (by decide) narrowTrained_branch⟩

/-- C17: in every reachable state of an engine with `MaxChildren ≥ 1`, every node at or
below a token-count branch has at most `MaxChildren` children and strictly fewer while it
has no wildcard child; hence no insertion into the tree reaches the final `else` of the
child-limit bookkeeping, every insertion returns, and so does every `train` call. -/
theorem failsafe_unreachable (isNumber : Char → Bool) (d : Drain) (k : String)
    (path : List String) (node : Node) (hr : Reachable isNumber d)
    (hmc : 1 ≤ d.config.MaxChildren) (hdesc : d.rootNode.descend (k :: path) = some node) :
    (node.keyToChildNode.length : Int) ≤ d.config.MaxChildren ∧
    (mapGet node.keyToChildNode d.config.ParamString = none →
      (node.keyToChildNode.length : Int) < d.config.MaxChildren) ∧
    (∀ (d2 : Drain) (cluster : LogCluster), d2.config = d.config →
      d2.insertReachesFailSafe isNumber d.rootNode cluster.Tokens = false ∧
      ∃ root2 cache2, d2.addSeqToPrefixTree isNumber d.rootNode cluster = .ok (root2, cache2)) ∧
    (∀ content tokens stringer ts,
      ∃ d1 c, d.train isNumber content tokens stringer ts = .ok (d1, c)) := by
  have hsh := ShapeOk_reachable isNumber d hr hmc
  refine ⟨(hsh.bounded k path node hdesc).1, (hsh.bounded k path node hdesc).2, ?_, ?_⟩
  · intro d2 cluster hc
    obtain ⟨root2, cache2, hok, _, hfs⟩ := addSeqToPrefixTree_ok d2 isNumber d.rootNode cluster
      (by rw [hc]; exact hmc) (by rw [hc]; exact hsh.bounded)
    exact ⟨hfs, root2, cache2, hok⟩
  · intro content tokens stringer ts
    exact train_returns d isNumber content tokens stringer ts (StoreOk_reachable isNumber d hr)
      (TreeOk_reachable isNumber d hr) hsh hmc

/-- C17 on the engine with one child per node: the branch for two tokens holds the
wildcard child only. -/
theorem failsafe_unreachable_witness :
    Reachable asciiDigit narrowTrained ∧ 1 ≤ narrowTrained.config.MaxChildren ∧
    narrowTrained.rootNode.descend ["2"] = some (.mk [("<*>", .mk [] [2])] []) ∧
    (((Node.mk [("<*>", .mk [] [2])] []).keyToChildNode.length : Int)
      ≤ narrowTrained.config.MaxChildren ∧
    (mapGet (Node.mk [("<*>", .mk [] [2])] []).keyToChildNode narrowTrained.config.ParamString
        = none →
      ((Node.mk [("<*>", .mk [] [2])] []).keyToChildNode.length : Int)
        < narrowTrained.config.MaxChildren) ∧
    (∀ (d2 : Drain) (cluster : LogCluster), d2.config = narrowTrained.config →
      d2.insertReachesFailSafe asciiDigit narrowTrained.rootNode cluster.Tokens = false ∧
      ∃ root2 cache2,
        d2.addSeqToPrefixTree asciiDigit narrowTrained.rootNode cluster = .ok (root2, cache2)) ∧
    (∀ content tokens stringer ts,
      ∃ d1 c, narrowTrained.train asciiDigit content tokens stringer ts = .ok (d1, c))) :=
  ⟨narrowTrained_reachable, by decide, narrowTrained_branch,
    failsafe_unreachable asciiDigit narrowTrained "2" [] (.mk [("<*>", .mk [] [2])] [])
      narrowTrained_reachable (by decide) narrowTrained_branch⟩

/-- C15: in every state reachable by `Train`, `TrainTokens` (with any token lists) and
`Match`, a live cluster whose id is in a candidate list below the branch of token count
`n` has a template of `n` tokens. Hence every `getSeqDistance` call that a search makes
(on a live candidate of the leaf the search reaches) has sequences of equal length and
returns, `treeSearch` returns and `createTemplate` on a cluster it returned also returns,
`Match` returns, and a panic of `train` is never the length-mismatch panic. -/
theorem length_mismatch_unreachable (isNumber : Char → Bool) (d : Drain) (n : Nat)
    (path : List String) (node : Node) (id : Nat) (c : LogCluster)
    (hr : Reachable isNumber d)
    (hdesc : d.rootNode.descend (Itoa n :: path) = some node) (hid : id ∈ node.clusterIDs)
    (hl : d.live id = some c) :
    c.Tokens.length = n ∧
    (∀ (tokens : List String) (cur leaf : Node) (id2 : Nat) (c2 : LogCluster) (inc : Bool),
      mapGet d.rootNode.keyToChildNode (Itoa tokens.length) = some cur →
      d.searchLoop tokens.length tokens 1 cur = some leaf → id2 ∈ leaf.clusterIDs →
      d.live id2 = some c2 →
      c2.Tokens.length = tokens.length ∧
        ∃ r, d.getSeqDistance c2.Tokens tokens inc = .ok r) ∧
    (∀ (tokens : List String) (simTh : F64) (inc : Bool),
      ∃ cache r, d.treeSearch d.rootNode tokens simTh inc = .ok (cache, r) ∧
        ∀ mc, r = some mc → mc.Tokens.length = tokens.length ∧
          ∃ t, d.createTemplate tokens mc.Tokens = .ok t) ∧
    (∀ content, ∃ d1 r, d.Match content = .ok (d1, r)) ∧
    (∀ content tokens stringer ts e,
      d.train isNumber content tokens stringer ts = .error e →
      e ≠ "seq1 seq2 be of same length") := by
  have ht := TreeOk_reachable isNumber d hr
  refine ⟨Itoa_injective _ _ (ht.count _ path node hdesc id hid c hl), ?_, ?_, ?_, ?_⟩
  · intro tokens cur leaf id2 c2 inc hcur hleaf hid2 hl2
    obtain ⟨p, hp⟩ := searchLoop_descend d _ _ _ _ _ hleaf
    have hd2 : d.rootNode.descend (Itoa tokens.length :: p) = some leaf := by
      rw [descend_cons d.rootNode _ p cur hcur]; exact hp
    have hlen := Itoa_injective _ _ (ht.count _ p leaf hd2 id2 hid2 c2 hl2)
    exact ⟨hlen, getSeqDistance_returns d c2.Tokens tokens inc hlen⟩
  · intro tokens simTh inc
    obtain ⟨cache, r, hts, hsome⟩ := treeSearch_returns d tokens simTh inc ht
      (zero_reachable isNumber d hr)
    refine ⟨cache, r, hts, fun mc hmc => ?_⟩
    obtain ⟨hlen, _⟩ := hsome mc hmc
    exact ⟨hlen, _, createTemplate_ok d tokens mc.Tokens hlen.symm⟩
  · intro content
    exact Match_returns d content ht
  · intro content tokens stringer ts e he
    rw [train_error d isNumber content tokens stringer ts e hr he]
    decide

/-- C15 on the example engine after two training calls: cluster 1 below the branch for
four tokens. -/
theorem length_mismatch_unreachable_witness :
    Reachable asciiDigit exampleTrainedTwice ∧
    exampleTrainedTwice.rootNode.descend (Itoa 4 :: ["user"]) = some (.mk [] [1]) ∧
    1 ∈ (Node.mk [] [1]).clusterIDs ∧
    exampleTrainedTwice.live 1 = some exampleMerged ∧
    (exampleMerged.Tokens.length = 4 ∧
    (∀ (tokens : List String) (cur leaf : Node) (id2 : Nat) (c2 : LogCluster) (inc : Bool),
      mapGet exampleTrainedTwice.rootNode.keyToChildNode (Itoa tokens.length) = some cur →
      exampleTrainedTwice.searchLoop tokens.length tokens 1 cur = some leaf →
      id2 ∈ leaf.clusterIDs → exampleTrainedTwice.live id2 = some c2 →
      c2.Tokens.length = tokens.length ∧
        ∃ r, exampleTrainedTwice.getSeqDistance c2.Tokens tokens inc = .ok r) ∧
    (∀ (tokens : List String) (simTh : F64) (inc : Bool),
      ∃ cache r, exampleTrainedTwice.treeSearch exampleTrainedTwice.rootNode tokens simTh inc
          = .ok (cache, r) ∧
        ∀ mc, r = some mc → mc.Tokens.length = tokens.length ∧
          ∃ t, exampleTrainedTwice.createTemplate tokens mc.Tokens = .ok t) ∧
    (∀ content, ∃ d1 r, exampleTrainedTwice.Match content = .ok (d1, r)) ∧
    (∀ content tokens stringer ts e,
      exampleTrainedTwice.train asciiDigit content tokens stringer ts = .error e →
      e ≠ "seq1 seq2 be of same length")) :=
  ⟨exampleTrainedTwice_reachable, exampleTrainedTwice_leaf, List.mem_singleton.mpr rfl, rfl,
    length_mismatch_unreachable asciiDigit exampleTrainedTwice 4 ["user"] (.mk [] [1]) 1
      exampleMerged exampleTrainedTwice_reachable exampleTrainedTwice_leaf
      (List.mem_singleton.mpr rfl) rfl⟩

/-- C13: in the state after a sequence of `train` calls on a fresh engine of which `k`
found no match, the counter is `k` and every live id is at most `k`. A further call that
finds no match returns the new cluster `k + 1` (not live before), with `Size` 1, the input
tokens as template and the content as its only sample; a call that finds a match returns
the matched id, at most `k`, and leaves the counter at `k`. The first call on a fresh
engine (with `MaxChildren ≥ 1`) returns and leaves exactly one live cluster: id 1, `Size`
1, one sample. -/
theorem sequential_ids (isNumber : Char → Bool) (d : Drain) (k : Nat) (content : String)
    (tokens : List String) (stringer : Option (List String → String)) (ts : Int)
    (d1 : Drain) (c : LogCluster) (cfg : Config) (content0 : String)
    (tokens0 : List String) (stringer0 : Option (List String → String)) (ts0 : Int)
    (ht : Trained isNumber d k)
    (h : d.train isNumber content tokens stringer ts = .ok (d1, c))
    (hdepth : 3 ≤ cfg.LogClusterDepth) (hmc : 1 ≤ cfg.MaxChildren) :
    (d.clustersCounter = k ∧ ∀ id c0, d.live id = some c0 → c0.id = id ∧ id ≤ k) ∧
    ((∃ cache, d.treeSearch d.rootNode tokens d.config.SimTh false = .ok (cache, none)) ∨
      ∃ cache mc, d.treeSearch d.rootNode tokens d.config.SimTh false = .ok (cache, some mc)) ∧
    (∀ cache, d.treeSearch d.rootNode tokens d.config.SimTh false = .ok (cache, none) →
      c.id = k + 1 ∧ c.Size = 1 ∧ c.Tokens = tokens ∧ c.Samples = [content] ∧
      d.live (k + 1) = none ∧ d1.live (k + 1) = some c ∧ d1.clustersCounter = k + 1 ∧
      Trained isNumber d1 (k + 1)) ∧
    (∀ cache mc,
      d.treeSearch d.rootNode tokens d.config.SimTh false = .ok (cache, some mc) →
      c.id = mc.id ∧ mc.id ≤ k ∧ d.live mc.id = some mc ∧ d1.live mc.id = some c ∧
      d1.clustersCounter = k ∧ Trained isNumber d1 k) ∧
    (∃ d0 d2 c2, New cfg = .ok d0 ∧
      d0.train isNumber content0 tokens0 stringer0 ts0 = .ok (d2, c2) ∧
      d2.Clusters = [c2] ∧ c2.id = 1 ∧ c2.Size = 1 ∧ c2.Samples = [content0] ∧
      c2.Tokens = tokens0) := by
  have hr := Trained_reachable isNumber d k ht
  have hs := StoreOk_reachable isNumber d hr
  have hcnt := Trained_counter isNumber d k ht
  have hfresh : ∀ id c0, d.live id = some c0 → c0.id = id ∧ id ≤ k := by
    intro id c0 hl
    refine ⟨live_keyId d hs id c0 hl, ?_⟩
    rw [← hcnt]
    exact hs.fresh (id, c0) (Peek_mem _ _ _ hl)
  refine ⟨⟨hcnt, hfresh⟩, ?_, ?_, ?_, ?_⟩
  · rcases train_cases d isNumber content tokens stringer ts d1 c h with
      ⟨cache, _, _, hts, _⟩ | ⟨cache, mc, _, _, hts, _⟩
    · exact Or.inl ⟨cache, hts⟩
    · exact Or.inr ⟨cache, mc, hts⟩
  · intro cache hts
    obtain ⟨hc, hc1, _, hl1, _⟩ := train_miss_result d isNumber content tokens stringer ts
      d1 c cache (size_reachable isNumber d hr) h hts
    rw [hcnt] at hc hc1 hl1
    refine ⟨by rw [hc]; rfl, by rw [hc]; rfl, by rw [hc]; rfl, by rw [hc]; rfl, ?_, hl1, hc1,
      Trained.miss d d1 k content tokens stringer ts c cache ht hts h⟩
    cases hl : d.live (k + 1) with
    | none => rfl
    | some c0 =>
      have := (hfresh (k + 1) c0 hl).2
      omega
  · intro cache mc hts
    obtain ⟨⟨v, _, hc⟩, _, hd1, hl, hl1, _⟩ := train_hit_result d isNumber content tokens
      stringer ts d1 c cache mc hs h hts
    refine ⟨by rw [hc]; rfl, ?_, hl, hl1, by rw [hd1]; exact hcnt,
      Trained.hit d d1 k content tokens stringer ts c cache mc ht hts h⟩
    exact (hfresh mc.id mc hl).2
  · have hsz : 1 ≤ (if cfg.MaxClusters = 0 then maxInt else cfg.MaxClusters) := by
      split
      · decide
      · omega
    generalize hszdef : (if cfg.MaxClusters = 0 then maxInt else cfg.MaxClusters) = size at hsz
    have hnew : New cfg = .ok ⟨{ cfg with maxNodeDepth := cfg.LogClusterDepth - 2 },
        createNode, emptyStore size, 0⟩ := by
      unfold New
      rw [if_neg (by omega)]
      simp only [createLogClusterCache, hszdef, emptyStore]
    have hclusters : ∀ (root : Node) (config : Config) (c2 : LogCluster),
        Drain.Clusters ⟨config, root, storeOf size c2, 0 + 1⟩ = [c2] := by
      intro root config c2
      simp [Drain.Clusters, LogClusterCache.Values, LRU.Keys, storeOf, LRU.Peek, lruFind]
    by_cases hne : tokens0 = []
    · rw [hne]
      exact ⟨_, _, _, hnew, first_train_empty isNumber _ size 0 content0 stringer0 ts0 hsz,
        hclusters _ _ _, rfl, rfl, rfl, rfl⟩
    · obtain ⟨chain, h1, _⟩ := first_train isNumber
        { cfg with maxNodeDepth := cfg.LogClusterDepth - 2 } size 0 content0 tokens0
        stringer0 ts0 hsz hmc hne
      exact ⟨_, _, _, hnew, h1, hclusters _ _ _, rfl, rfl, rfl, rfl⟩

/-- C13 on the example: the second training call of the example hits cluster 1; the
first call on the fresh example engine creates it. -/
theorem sequential_ids_witness :
    Trained asciiDigit exampleTrained 1 ∧
    exampleTrained.train asciiDigit "user 2 logged in" ["user", "2", "logged", "in"] none
      5000000000 = .ok (exampleTrainedTwice, exampleMerged) ∧
    (3 : Int) ≤ exampleConfig.LogClusterDepth ∧ 1 ≤ exampleConfig.MaxChildren ∧
    ((exampleTrained.clustersCounter = 1 ∧
      ∀ id c0, exampleTrained.live id = some c0 → c0.id = id ∧ id ≤ 1) ∧
    ((∃ cache, exampleTrained.treeSearch exampleTrained.rootNode
        ["user", "2", "logged", "in"] exampleTrained.config.SimTh false = .ok (cache, none)) ∨
      ∃ cache mc, exampleTrained.treeSearch exampleTrained.rootNode
        ["user", "2", "logged", "in"] exampleTrained.config.SimTh false
          = .ok (cache, some mc)) ∧
    (∀ cache, exampleTrained.treeSearch exampleTrained.rootNode
        ["user", "2", "logged", "in"] exampleTrained.config.SimTh false = .ok (cache, none) →
      exampleMerged.id = 1 + 1 ∧ exampleMerged.Size = 1 ∧
      exampleMerged.Tokens = ["user", "2", "logged", "in"] ∧
      exampleMerged.Samples = ["user 2 logged in"] ∧
      exampleTrained.live (1 + 1) = none ∧ exampleTrainedTwice.live (1 + 1) = some exampleMerged ∧
      exampleTrainedTwice.clustersCounter = 1 + 1 ∧
      Trained asciiDigit exampleTrainedTwice (1 + 1)) ∧
    (∀ cache mc, exampleTrained.treeSearch exampleTrained.rootNode
        ["user", "2", "logged", "in"] exampleTrained.config.SimTh false
          = .ok (cache, some mc) →
      exampleMerged.id = mc.id ∧ mc.id ≤ 1 ∧ exampleTrained.live mc.id = some mc ∧
      exampleTrainedTwice.live mc.id = some exampleMerged ∧
      exampleTrainedTwice.clustersCounter = 1 ∧ Trained asciiDigit exampleTrainedTwice 1) ∧
    (∃ d0 d2 c2, New exampleConfig = .ok d0 ∧
      d0.train asciiDigit "user 1 logged in" ["user", "1", "logged", "in"] none 5000000000
        = .ok (d2, c2) ∧
      d2.Clusters = [c2] ∧ c2.id = 1 ∧ c2.Size = 1 ∧ c2.Samples = ["user 1 logged in"] ∧
      c2.Tokens = ["user", "1", "logged", "in"])) :=
  ⟨exampleTrained_trained, rfl, by decide, by decide,
    sequential_ids asciiDigit exampleTrained 1 "user 2 logged in"
      ["user", "2", "logged", "in"] none 5000000000 exampleTrainedTwice exampleMerged
      exampleConfig "user 1 logged in" ["user", "1", "logged", "in"] none 5000000000
      exampleTrained_trained rfl (by decide) (by decide)⟩

/-- C16: in every reachable state the sample buffer of a live cluster holds
`min(Size, 10)` entries, so between 1 and 10; a `train` call that hits the cluster `mc`
leaves under its id the buffer of `mc` with the content appended when it held fewer than
10 entries and unchanged when it held 10; and across any further sequence of calls the
buffer of a cluster that is still live has the earlier buffer as a prefix. -/
theorem sample_buffer_bounded (isNumber : Char → Bool) (d : Drain) (id : Nat)
    (c0 : LogCluster) (hr : Reachable isNumber d) (hl : d.live id = some c0) :
    (1 ≤ c0.Samples.length ∧ c0.Samples.length ≤ 10 ∧ c0.Samples.length = min c0.Size 10) ∧
    (∀ content tokens stringer ts d1 c cache mc,
      d.train isNumber content tokens stringer ts = .ok (d1, c) →
      d.treeSearch d.rootNode tokens d.config.SimTh false = .ok (cache, some mc) →
      d.live mc.id = some mc ∧ d1.live mc.id = some c ∧ c.Size = mc.Size + 1 ∧
      c.Samples = (if mc.Samples.length < 10 then mc.Samples ++ [content] else mc.Samples)) ∧
    (∀ d1 c1, Steps isNumber d d1 → d1.live id = some c1 → c0.Samples <+: c1.Samples) := by
  have hs := StoreOk_reachable isNumber d hr
  have hsam := samples_reachable isNumber d hr (id, c0) (Peek_mem _ _ _ hl)
  unfold maxSamples at hsam
  simp only at hsam
  refine ⟨⟨by omega, by omega, hsam.1⟩, ?_, ?_⟩
  · intro content tokens stringer ts d1 c cache mc h hts
    obtain ⟨⟨v, _, hc⟩, _, _, hlmc, hl1, _⟩ := train_hit_result d isNumber content tokens
      stringer ts d1 c cache mc hs h hts
    refine ⟨hlmc, hl1, by rw [hc]; rfl, by rw [hc]; rfl⟩
  · intro d1 c1 hsteps hl1
    obtain ⟨_, _, hp⟩ := steps_samples isNumber d d1 hr hsteps
    obtain ⟨c, hc, hpre⟩ := hp id c1 (hs.fresh (id, c0) (Peek_mem _ _ _ hl)) hl1
    rw [hl] at hc
    simp only [Option.some.injEq] at hc
    rw [hc]
    exact hpre

/-- C16 on the example engine after one training call. -/
theorem sample_buffer_bounded_witness :
    Reachable asciiDigit exampleTrained ∧ exampleTrained.live 1 = some exampleCluster ∧
    ((1 ≤ exampleCluster.Samples.length ∧ exampleCluster.Samples.length ≤ 10 ∧
      exampleCluster.Samples.length = min exampleCluster.Size 10) ∧
    (∀ content tokens stringer ts d1 c cache mc,
      exampleTrained.train asciiDigit content tokens stringer ts = .ok (d1, c) →
      exampleTrained.treeSearch exampleTrained.rootNode tokens exampleTrained.config.SimTh
        false = .ok (cache, some mc) →
      exampleTrained.live mc.id = some mc ∧ d1.live mc.id = some c ∧ c.Size = mc.Size + 1 ∧
      c.Samples = (if mc.Samples.length < 10 then mc.Samples ++ [content] else mc.Samples)) ∧
    (∀ d1 c1, Steps asciiDigit exampleTrained d1 → d1.live 1 = some c1 →
      exampleCluster.Samples <+: c1.Samples)) :=
  ⟨exampleTrained_reachable, rfl,
    sample_buffer_bounded asciiDigit exampleTrained 1 exampleCluster exampleTrained_reachable
      rfl⟩

/-- The second training call of the example appends its content to the buffer. -/
theorem sample_buffer_example :
    exampleMerged.Samples = ["user 1 logged in", "user 2 logged in"] ∧ exampleMerged.Size = 2 :=
  ⟨rfl, rfl⟩

/-- C18: a `train` call with a non-empty token sequence that finds no match, in a
reachable state. If it returns (it does when `MaxChildren ≥ 1`), then at the end of one
path below the branch of the token count there is a node whose candidate list is the list
that was there before (empty if the node is new) restricted to the ids the store holds, in
the same order, followed by the new cluster's id; that list holds live ids only and no id
twice; and the candidate list at every other place is unchanged. -/
theorem insertion_prunes_stale (isNumber : Char → Bool) (d : Drain) (content : String)
    (tokens : List String) (stringer : Option (List String → String)) (ts : Int)
    (cache : LogClusterCache) (hr : Reachable isNumber d) (hne : tokens ≠ [])
    (hts : d.treeSearch d.rootNode tokens d.config.SimTh false = .ok (cache, none)) :
    (1 ≤ d.config.MaxChildren →
      ∃ d1 c, d.train isNumber content tokens stringer ts = .ok (d1, c)) ∧
    ∀ d1 c, d.train isNumber content tokens stringer ts = .ok (d1, c) →
      ∃ path leaf, d1.rootNode.descend (Itoa tokens.length :: path) = some leaf ∧
        leaf.clusterIDs =
          (d.rootNode.idsAt (Itoa tokens.length :: path)).filter
            (fun i => (d1.live i).isSome) ++ [c.id] ∧
        (∀ i ∈ leaf.clusterIDs, (d1.live i).isSome = true) ∧
        leaf.clusterIDs.Nodup ∧
        (∀ p, p ≠ Itoa tokens.length :: path → d1.rootNode.idsAt p = d.rootNode.idsAt p) := by
  constructor
  · intro hmc
    exact train_returns d isNumber content tokens stringer ts (StoreOk_reachable isNumber d hr)
      (TreeOk_reachable isNumber d hr) (ShapeOk_reachable isNumber d hr hmc) hmc
  · intro d1 c h
    obtain ⟨hc, _, _, hlc, _, _, root, cache2, hadd, hd1⟩ :=
      train_miss_result d isNumber content tokens stringer ts d1 c cache
        (size_reachable isNumber d hr) h hts
    have hctok : c.Tokens = tokens := by rw [hc]; rfl
    have hcid : c.id = d.clustersCounter + 1 := by rw [hc]; rfl
    obtain ⟨path, hl1, hl2, leaf, hdesc⟩ := addSeqToPrefixTree_lists _ isNumber _ _ _ _ hadd
    have ht2 := addSeqToPrefixTree_touched _ isNumber _ _ _ _ hadd
    rw [hctok, if_neg hne] at hl1
    rw [hctok] at hl2 hdesc
    have hroot : d1.rootNode = root := by rw [hd1]
    have hlive : ∀ i, d1.live i = (cache.Set (d.clustersCounter + 1) c).cache.Peek i := by
      intro i
      rw [hd1]
      exact ht2.peek i
    have hids : leaf.clusterIDs =
        (d.rootNode.idsAt (Itoa tokens.length :: path)).filter
          (fun i => (d1.live i).isSome) ++ [c.id] := by
      rw [← idsAt_of_descend root leaf _ hdesc, hl1]
      congr 1
      apply List.filter_congr
      intro i _
      rw [hlive]
    refine ⟨path, leaf, by rw [hroot]; exact hdesc, hids, ?_, ?_, ?_⟩
    · intro i hi
      rw [hids, List.mem_append] at hi
      rcases hi with hi | hi
      · exact (List.mem_filter.mp hi).2
      · simp only [List.mem_singleton] at hi
        rw [hi, hcid, hlc]
        rfl
    · have hr1 : Reachable isNumber d1 :=
        Reachable.step d d1 hr (Step.train d d1 content tokens stringer ts c h)
      have := nodup_reachable isNumber d1 hr1 (Itoa tokens.length :: path)
      rw [hroot, idsAt_of_descend root leaf _ hdesc] at this
      exact this
    · intro p hp
      rw [hroot]
      exact hl2 p hp

/-- C18 on the example with room for two clusters, after cluster 1 has been evicted:
`Train("a x")` finds no match. -/
theorem insertion_prunes_stale_witness :
    Reachable asciiDigit recencyFull ∧ ["a", "x"] ≠ [] ∧
    recencyFull.treeSearch recencyFull.rootNode ["a", "x"] recencyFull.config.SimTh false
      = .ok (recencyFull.idToCluster, none) ∧
    ((1 ≤ recencyFull.config.MaxChildren →
      ∃ d1 c, recencyFull.train asciiDigit "a x" ["a", "x"] none 0 = .ok (d1, c)) ∧
    ∀ d1 c, recencyFull.train asciiDigit "a x" ["a", "x"] none 0 = .ok (d1, c) →
      ∃ path leaf, d1.rootNode.descend (Itoa ["a", "x"].length :: path) = some leaf ∧
        leaf.clusterIDs =
          (recencyFull.rootNode.idsAt (Itoa ["a", "x"].length :: path)).filter
            (fun i => (d1.live i).isSome) ++ [c.id] ∧
        (∀ i ∈ leaf.clusterIDs, (d1.live i).isSome = true) ∧
        leaf.clusterIDs.Nodup ∧
        (∀ p, p ≠ Itoa ["a", "x"].length :: path →
          d1.rootNode.idsAt p = recencyFull.rootNode.idsAt p)) :=
  ⟨recencyFull_reachable, by decide, rfl,
    insertion_prunes_stale asciiDigit recencyFull "a x" ["a", "x"] none 0
      recencyFull.idToCluster recencyFull_reachable (by decide) rfl⟩

/-- C20: in a reachable state of an engine with `MaxChildren ≥ 1` whose wildcard marker
does not start with a NUL byte, `Train(content, ts)` returns a cluster, and `Match(content)`
called right after it returns a cluster, not none: the search for the tokens ends at a
leaf that lists the trained cluster, the trained cluster is live, and its template equals
the tokens up to wildcards. The cluster `Match` returns is live and equals the tokens up
to wildcards as well. -/
theorem match_after_train (isNumber : Char → Bool) (d : Drain) (content : String) (ts : Int)
    (hr : Reachable isNumber d) (hmc : 1 ≤ d.config.MaxChildren)
    (hwild : isMarked d.config.ParamString = false) :
    ∃ d1 c d2 c2, d.Train isNumber content ts = .ok (d1, c) ∧
      d1.Match content = .ok (d2, some c2) ∧
      d1.live c.id = some c ∧
      wildcardEq d.config.ParamString c.Tokens (d.getContentAsTokens content) ∧
      (∃ cur leaf,
        mapGet d1.rootNode.keyToChildNode (Itoa (d.getContentAsTokens content).length)
          = some cur ∧
        d1.searchLoop (d.getContentAsTokens content).length (d.getContentAsTokens content) 1 cur
          = some leaf ∧
        c.id ∈ leaf.clusterIDs) ∧
      d1.live c2.id = some c2 ∧
      wildcardEq d.config.ParamString c2.Tokens (d.getContentAsTokens content) := by
  have hne := getContentAsTokens_ne_nil d content
  obtain ⟨d1, c, h⟩ := train_returns d isNumber content (d.getContentAsTokens content) none ts
    (StoreOk_reachable isNumber d hr) (TreeOk_reachable isNumber d hr)
    (ShapeOk_reachable isNumber d hr hmc) hmc
  obtain ⟨hlive, hweq, cur, leaf, hcur, hleaf, hmem⟩ := train_then_search d isNumber content
    (d.getContentAsTokens content) none ts d1 c hr hmc hne h
  have hcfg := train_config d isNumber content _ none ts d1 c h
  have hr1 : Reachable isNumber d1 :=
    Reachable.step d d1 hr (Step.train d d1 content _ none ts c h)
  have htok := getContentAsTokens_congr d d1 hcfg content
  have hlen : ∀ id ∈ leaf.clusterIDs, ∀ c0, d1.live id = some c0 →
      c0.Tokens.length = (d.getContentAsTokens content).length := by
    intro id hid c0 hc0
    obtain ⟨p, hp⟩ := searchLoop_descend d1 _ _ _ _ _ hleaf
    have hd : d1.rootNode.descend (Itoa (d.getContentAsTokens content).length :: p)
        = some leaf := by
      rw [descend_cons d1.rootNode _ p cur hcur]; exact hp
    exact Itoa_injective _ _ ((TreeOk_reachable isNumber d1 hr1).count _ p leaf hd id hid c0 hc0)
  obtain ⟨cache, c2, hfm⟩ := fastMatch_finds d1 leaf.clusterIDs (d.getContentAsTokens content)
    c.id c hne hlen hmem hlive (by rw [hcfg]; exact hweq)
    (not_pinned_wildcardEq _ _ _ hwild hweq)
  have hts : d1.treeSearch d1.rootNode (d1.getContentAsTokens content) ⟨1, 1⟩ true
      = .ok (cache, some c2) := by
    rw [htok, treeSearch_leaf d1 d1.rootNode _ ⟨1, 1⟩ true cur leaf hne hcur hleaf]
    exact hfm
  have hmatch := Match_of_treeSearch d1 content cache (some c2) hts
  obtain ⟨⟨id, hid⟩, hw2⟩ := Match_result d1 _ content c2 hmatch
  have hkey := live_keyId d1 (StoreOk_reachable isNumber d1 hr1) id c2 hid
  rw [← hkey] at hid
  rw [hcfg, htok] at hw2
  exact ⟨d1, c, _, c2, h, hmatch, hlive, hweq, ⟨cur, leaf, hcur, hleaf, hmem⟩, hid, hw2⟩

/-- C20 on the example engine after one training call, with "user 2 logged in". -/
theorem match_after_train_witness :
    Reachable asciiDigit exampleTrained ∧ 1 ≤ exampleTrained.config.MaxChildren ∧
    isMarked exampleTrained.config.ParamString = false ∧
    ∃ d1 c d2 c2, exampleTrained.Train asciiDigit "user 2 logged in" 5000000000 = .ok (d1, c) ∧
      d1.Match "user 2 logged in" = .ok (d2, some c2) ∧
      d1.live c.id = some c ∧
      wildcardEq exampleTrained.config.ParamString c.Tokens
        (exampleTrained.getContentAsTokens "user 2 logged in") ∧
      (∃ cur leaf,
        mapGet d1.rootNode.keyToChildNode
          (Itoa (exampleTrained.getContentAsTokens "user 2 logged in").length) = some cur ∧
        d1.searchLoop (exampleTrained.getContentAsTokens "user 2 logged in").length
          (exampleTrained.getContentAsTokens "user 2 logged in") 1 cur = some leaf ∧
        c.id ∈ leaf.clusterIDs) ∧
      d1.live c2.id = some c2 ∧
      wildcardEq exampleTrained.config.ParamString c2.Tokens
        (exampleTrained.getContentAsTokens "user 2 logged in") :=
  ⟨exampleTrained_reachable, by decide, rfl,
    match_after_train asciiDigit exampleTrained "user 2 logged in" 5000000000
      exampleTrained_reachable (by decide) rfl⟩

/-- C19: in a reachable state of an engine with `MaxChildren ≥ 1`, a threshold that is a
number at most 1 and a wildcard marker that does not start with a NUL byte, two
consecutive `train` calls with the same non-empty token sequence `x` holding no wildcard
marker both return, and return the same cluster id; the second call finds the cluster the
first one returned, creates no cluster, leaves the template unchanged and increases
`Size` by exactly 1. -/
theorem train_twice_stable (isNumber : Char → Bool) (d : Drain) (content1 content2 : String)
    (x : List String) (stringer1 stringer2 : Option (List String → String)) (ts1 ts2 : Int)
    (q : ℚ) (hr : Reachable isNumber d) (hmc : 1 ≤ d.config.MaxChildren)
    (hq : d.config.SimTh.toRat = some q) (hq1 : q ≤ 1)
    (hwild : isMarked d.config.ParamString = false) (hne : x ≠ [])
    (hnw : ∀ t ∈ x, t ≠ d.config.ParamString) :
    ∃ d1 c1 d2 c2 cache,
      d.train isNumber content1 x stringer1 ts1 = .ok (d1, c1) ∧
      d1.train isNumber content2 x stringer2 ts2 = .ok (d2, c2) ∧
      d1.treeSearch d1.rootNode x d1.config.SimTh false = .ok (cache, some c1) ∧
      c2.id = c1.id ∧ c2.Tokens = c1.Tokens ∧ c2.Size = c1.Size + 1 ∧
      d2.clustersCounter = d1.clustersCounter ∧ d2.rootNode = d1.rootNode ∧
      d2.live c1.id = some c2 := by
  have hs := StoreOk_reachable isNumber d hr
  obtain ⟨d1, c1, h⟩ := train_returns d isNumber content1 x stringer1 ts1 hs
    (TreeOk_reachable isNumber d hr) (ShapeOk_reachable isNumber d hr hmc) hmc
  have hr1 : Reachable isNumber d1 :=
    Reachable.step d d1 hr (Step.train d d1 content1 x stringer1 ts1 c1 h)
  have hs1 := StoreOk_reachable isNumber d1 hr1
  have hcfg := train_config d isNumber content1 x stringer1 ts1 d1 c1 h
  obtain ⟨hlive, hweq, _⟩ := train_then_search d isNumber content1 x stringer1 ts1 d1 c1 hr hmc
    hne h
  have hsearch : ∃ cache, d1.treeSearch d1.rootNode x d1.config.SimTh false
      = .ok (cache, some c1) := by
    rcases train_cases d isNumber content1 x stringer1 ts1 d1 c1 h with
      ⟨cache, _, _, hts, _⟩ | ⟨cache, mc, _, _, hts, _⟩
    · exact search_after_miss d isNumber content1 x stringer1 ts1 d1 c1 cache q hr hmc hne hq
        hq1 hnw h hts
    · exact search_after_hit d isNumber content1 x stringer1 ts1 d1 c1 cache mc hr hne hwild h
        hts
  obtain ⟨cache, hts1⟩ := hsearch
  have hv := hs1.volume (c1.id, c1) (Peek_mem _ _ _ hlive)
  obtain ⟨v, hadd, _⟩ := Add_ordered c1.Volume (TimeFromUnixNano ts2) hv.1 hv.2
  have h2 := train_hit d1 isNumber content2 x stringer2 ts2 cache c1 v hts1 hweq.1.symm hadd
  obtain ⟨_, _, _, _, hl2, _⟩ := train_hit_result d1 isNumber content2 x stringer2 ts2 _ _ cache
    c1 hs1 h2 hts1
  refine ⟨d1, c1, _, _, cache, h, h2, hts1, rfl, ?_, rfl, rfl, rfl, hl2⟩
  show List.zipWith (fun t m => if t ≠ m then d1.config.ParamString else m) x c1.Tokens
    = c1.Tokens
  rw [hcfg]
  exact zipWith_fixed _ _ _ hweq

/-- C19 on the example engine after one training call, with the tokens of
"user 2 logged in". -/
theorem train_twice_stable_witness :
    Reachable asciiDigit exampleTrained ∧ 1 ≤ exampleTrained.config.MaxChildren ∧
    exampleTrained.config.SimTh.toRat = some (1 / 2) ∧ (1 / 2 : ℚ) ≤ 1 ∧
    isMarked exampleTrained.config.ParamString = false ∧
    ["user", "2", "logged", "in"] ≠ [] ∧
    (∀ t ∈ ["user", "2", "logged", "in"], t ≠ exampleTrained.config.ParamString) ∧
    ∃ d1 c1 d2 c2 cache,
      exampleTrained.train asciiDigit "user 2 logged in" ["user", "2", "logged", "in"] none
        5000000000 = .ok (d1, c1) ∧
      d1.train asciiDigit "user 2 logged in" ["user", "2", "logged", "in"] none 6000000000
        = .ok (d2, c2) ∧
      d1.treeSearch d1.rootNode ["user", "2", "logged", "in"] d1.config.SimTh false
        = .ok (cache, some c1) ∧
      c2.id = c1.id ∧ c2.Tokens = c1.Tokens ∧ c2.Size = c1.Size + 1 ∧
      d2.clustersCounter = d1.clustersCounter ∧ d2.rootNode = d1.rootNode ∧
      d2.live c1.id = some c2 :=
  have hq : exampleTrained.config.SimTh.toRat = some (1 / 2) := by
    have : exampleTrained.config.SimTh = ⟨1, 2⟩ := rfl
    rw [this]
    simp [F64.toRat]
  ⟨exampleTrained_reachable, by decide, hq, by norm_num, rfl, by decide, by decide,
    train_twice_stable asciiDigit exampleTrained "user 2 logged in" "user 2 logged in"
      ["user", "2", "logged", "in"] none none 5000000000 6000000000 (1 / 2)
      exampleTrained_reachable (by decide) hq (by norm_num) rfl (by decide) (by decide)⟩

/-- C12 as stated fails on the code: with room for two clusters the three sequences
"a b c", "x y z" and "a q r" are pairwise different, each call is a miss and they become
the clusters 1, 2 and 3; but the search of the third call looks up cluster 1 in the leaf
the two sequences share and so makes it the most recently used, and the third insertion
evicts cluster 2, not cluster 1. Training "a b c" again then returns cluster 1 with size
2, not a new cluster 4. -/
theorem eviction_not_oldest :
    New recencyConfig = .ok recencyStart ∧ recencyConfig.MaxClusters = 2 ∧
    sharedLeafInputs.map (fun a => a.tokens) =
      [["a", "b", "c"], ["x", "y", "z"], ["a", "q", "r"]] ∧
    recencyStart.trainAll asciiDigit sharedLeafInputs
      = .ok (sharedLeafState, sharedLeafClusters) ∧
    sharedLeafClusters.map (fun c => (c.id, c.Size, c.Tokens)) =
      [(1, 1, ["a", "b", "c"]), (2, 1, ["x", "y", "z"]), (3, 1, ["a", "q", "r"])] ∧
    sharedLeafState.idToCluster.cache.Keys = [3, 1] ∧
    sharedLeafState.Clusters.map (fun c => c.id) = [3, 1] ∧
    sharedLeafState.live 2 = none ∧
    Except.map (fun r => (r.2.id, r.2.Size, r.1.clustersCounter))
      (sharedLeafState.train asciiDigit "a b c" ["a", "b", "c"] none 0) = .ok (1, 2, 3) :=
  ⟨rfl, rfl, rfl, rfl, rfl, rfl, rfl, rfl, rfl⟩

/-- C12, amended: on a fresh engine with `MaxClusters = N ≥ 1` (and `MaxChildren ≥ 1`),
training `N + 1` token sequences such that the search of every call, the final one
included, looks up no live cluster (it ends at no leaf, or at a leaf whose candidates have
all been evicted) returns the new clusters 1, …, N + 1 in order and leaves exactly `N`
live clusters, the ids 2, …, N + 1, oldest first; cluster 1 has been evicted. Training the
first sequence again then returns a new cluster with id `N + 2`. -/
theorem eviction_fresh_ids (isNumber : Char → Bool) (cfg : Config) (N : Nat) (first : Input)
    (others : List Input) (content : String) (stringer : Option (List String → String))
    (ts : Int)
    (hN : 1 ≤ N) (hcap : cfg.MaxClusters = N) (hdepth : 3 ≤ cfg.LogClusterDepth)
    (hmc : 1 ≤ cfg.MaxChildren) (hlen : others.length = N)
    (hcold : coldFrom cfg isNumber
      (first :: others ++ [⟨content, first.tokens, stringer, ts⟩]) = true) :
    ∃ d0 d1 cs d2 c, New cfg = .ok d0 ∧
      d0.trainAll isNumber (first :: others) = .ok (d1, cs) ∧
      cs.map (fun c => c.id) = List.range' 1 (N + 1) ∧ (∀ c ∈ cs, c.Size = 1) ∧
      d1.idToCluster.cache.Keys = List.range' 2 N ∧
      d1.Clusters.map (fun c => c.id) = List.range' 2 N ∧ d1.Clusters.length = N ∧
      d1.live 1 = none ∧
      d1.train isNumber content first.tokens stringer ts = .ok (d2, c) ∧
      c.id = N + 2 ∧ c.Size = 1 ∧ d2.live (N + 2) = some c := by
  have hsz : (if cfg.MaxClusters = 0 then maxInt else cfg.MaxClusters) = N := by
    rw [if_neg (by omega), hcap]
  have hnew : New cfg = .ok ⟨{ cfg with maxNodeDepth := cfg.LogClusterDepth - 2 },
      createNode, emptyStore N, 0⟩ := by
    unfold New
    rw [if_neg (by omega)]
    simp only [createLogClusterCache, hsz, emptyStore]
  have hr0 : Reachable isNumber _ := Reachable.new cfg _ hnew
  unfold coldFrom at hcold
  rw [hnew] at hcold
  simp only at hcold
  obtain ⟨d1, cs, hrun, hrd1, hcfg1, hcnt1, hk1, hids, hsizes, hlast⟩ :=
    trainAll_cold isNumber N [⟨content, first.tokens, stringer, ts⟩] (first :: others) _ hr0
      hmc rfl
      (by
        show [] = List.range' (0 + 1 - min 0 N) (min 0 N)
        rw [Nat.zero_min]
        rfl)
      hcold
  have hcnt : d1.clustersCounter = N + 1 := by
    rw [hcnt1, List.length_cons, hlen]
    show 0 + (N + 1) = N + 1
    omega
  have hkeys1 : d1.idToCluster.cache.Keys = List.range' 2 N := by
    rw [hk1, hcnt]
    have : min (N + 1) N = N := min_eq_right (by omega)
    rw [this]
    congr 1
    omega
  have hs1 := StoreOk_reachable isNumber d1 hrd1
  have hdead : d1.live 1 = none := by
    rcases Option.eq_none_or_eq_some (d1.live 1) with hl | ⟨v, hl⟩
    · exact hl
    · have := mem_Keys _ 1 v hl
      rw [hkeys1, List.mem_range'_1] at this
      omega
  have hmc1 : 1 ≤ d1.config.MaxChildren := by rw [hcfg1]; exact hmc
  have hc1 : d1.cold first.tokens = true := by
    simp only [Drain.coldRun, Bool.and_eq_true] at hlast
    exact hlast.1
  obtain ⟨d2, c, h2, hc, _, _, _, hlc⟩ :=
    train_cold d1 isNumber ⟨content, first.tokens, stringer, ts⟩ hrd1 hmc1 hc1
  rw [hcnt] at hc hlc
  have hcl := Clusters_ids d1 hs1
  refine ⟨_, d1, cs, d2, c, hnew, hrun, ?_, hsizes, hkeys1, by rw [hcl, hkeys1], ?_, hdead, h2,
    by rw [hc]; rfl, by rw [hc]; rfl, hlc⟩
  · rw [hids, List.length_cons, hlen]
  · have := congrArg List.length hcl
    rw [List.length_map, hkeys1, List.length_range'] at this
    exact this

/-- C12, amended, with room for two clusters and three sequences of the same token
count: "a b", "c d", "e f", then "a b" again. -/
theorem eviction_fresh_ids_witness :
    1 ≤ 2 ∧ recencyConfig.MaxClusters = 2 ∧ (3 : Int) ≤ recencyConfig.LogClusterDepth ∧
    1 ≤ recencyConfig.MaxChildren ∧ sameCountInputs.length = 2 ∧
    coldFrom recencyConfig asciiDigit
      (Input.mk "a b" ["a", "b"] none 0 :: sameCountInputs ++
        [⟨"a b", (Input.mk "a b" ["a", "b"] none 0).tokens, none, 0⟩]) = true ∧
    ∃ d0 d1 cs d2 c, New recencyConfig = .ok d0 ∧
      d0.trainAll asciiDigit (Input.mk "a b" ["a", "b"] none 0 :: sameCountInputs)
        = .ok (d1, cs) ∧
      cs.map (fun c => c.id) = List.range' 1 (2 + 1) ∧ (∀ c ∈ cs, c.Size = 1) ∧
      d1.idToCluster.cache.Keys = List.range' 2 2 ∧
      d1.Clusters.map (fun c => c.id) = List.range' 2 2 ∧ d1.Clusters.length = 2 ∧
      d1.live 1 = none ∧
      d1.train asciiDigit "a b" (Input.mk "a b" ["a", "b"] none 0).tokens none 0
        = .ok (d2, c) ∧
      c.id = 2 + 2 ∧ c.Size = 1 ∧ d2.live (2 + 2) = some c :=
  ⟨by decide, rfl, by decide, by decide, rfl, rfl,
    eviction_fresh_ids asciiDigit recencyConfig 2 (Input.mk "a b" ["a", "b"] none 0)
      sameCountInputs "a b" none 0 (by decide) rfl (by decide) (by decide) rfl rfl⟩

/-- The run on the example with room for two clusters, evaluated: ids 1, 2, 3 are
handed out, ids 2 and 3 stay live, and "a b" trained again becomes cluster 4. -/
theorem eviction_example :
    recencyFull.idToCluster.cache.Keys = [2, 3] ∧ recencyFull.live 1 = none ∧
    Except.map (fun r => r.2.id) (recencyFull.Train asciiDigit "a b" 0) = .ok 4 :=
  ⟨rfl, rfl, rfl⟩

end drain
